import Mathlib

/-!
# Verification of the StdSTL red-black tree (`my_rb_tree.h`)

Shallow embedding of the `mystl::rb_tree` template from
`src/StdSTL/my_rb_tree/my_rb_tree.h`, instantiated at the map shape
`T = pair<size_t, size_t>` with `Compare = less` on the key (first
component), as selected by `rb_tree_value_traits` (`is_map = true`,
`get_key = value.first`).

The C++ node graph (raw pointers, one sentinel `header_` node) is
embedded as an arena: nodes live in an association list indexed by
natural-number ids, a pointer is `Option Nat` (`none` = `nullptr`),
and every pointer read/write of the source becomes a lookup/update on
the arena.  Reading through an invalid pointer (undefined behaviour in
C++) yields a default node; writing through one is a no-op.  `while`
loops and recursion take explicit fuel and return `none` when the
fuel is exhausted, so `some` results correspond exactly to calls that
returned.
-/

set_option maxHeartbeats 1000000

namespace mystl

/-- Payload type: the map-variant instantiation `pair<size_t,size_t>`. -/
abbrev Val := Nat × Nat

/-- `rb_tree_value_traits<pair>::get_key`: the first component. -/
def get_key (v : Val) : Nat := v.1

/-- The comparator `Compare`: `std::less` on keys. -/
def key_comp (a b : Nat) : Bool := decide (a < b)

/-- `rb_tree_red = false`. -/
def rb_tree_red : Bool := false

/-- `rb_tree_black = true`. -/
def rb_tree_black : Bool := true

/-- One `rb_tree_node<T>`: parent/left/right links, color, payload.
The header (a `rb_tree_node_base`) is stored with a dummy payload that
is never read, matching the C++ rule that the header payload must not
be dereferenced. -/
structure Node where
  parent : Option Nat
  left : Option Nat
  right : Option Nat
  color : Bool
  value : Val
deriving Repr, DecidableEq

/-- Junk node returned when reading through an invalid pointer
(undefined behaviour in the C++ source).  Its color is black so that
junk reads behave like absent nodes in the color tests. -/
instance : Inhabited Node := ⟨⟨none, none, none, rb_tree_black, (0, 0)⟩⟩

/-- The arena of allocated nodes, keyed by id. -/
abbrev Heap := List (Nat × Node)

/-- Arena lookup. -/
def hfind : Heap → Nat → Option Node
  | [], _ => none
  | (j, n) :: t, i => if j = i then some n else hfind t i

/-- Arena update: replaces the node at an id, no-op when absent. -/
def hset : Heap → Nat → Node → Heap
  | [], _, _ => []
  | (j, n) :: t, i, m => if j = i then (j, m) :: t else (j, n) :: hset t i m

/-- Arena deallocation: removes the (first) entry at an id. -/
def hremove : Heap → Nat → Heap
  | [], _ => []
  | (j, n) :: t, i => if j = i then t else (j, n) :: hremove t i

/-- The whole container state: arena, allocation counter, the id of
the `header_` sentinel, and `node_count_`. -/
structure RBTree where
  heap : Heap
  nextId : Nat
  header : Nat
  node_count : Nat
deriving Repr, DecidableEq

/-- Read through a pointer (`*p`); junk on `nullptr`/dangling. -/
def getN (s : RBTree) : Option Nat → Node
  | none => default
  | some i => (hfind s.heap i).getD default

/-- Write through a pointer; no-op on `nullptr`/dangling. -/
def updN (s : RBTree) : Option Nat → (Node → Node) → RBTree
  | none, _ => s
  | some i, f =>
    match hfind s.heap i with
    | none => s
    | some n => { s with heap := hset s.heap i (f n) }

/-- `root()`, i.e. `header_->parent`. -/
def rootP (s : RBTree) : Option Nat := (getN s (some s.header)).parent

/-- `leftmost()`, i.e. `header_->left`. -/
def leftmostP (s : RBTree) : Option Nat := (getN s (some s.header)).left

/-- `rightmost()`, i.e. `header_->right`. -/
def rightmostP (s : RBTree) : Option Nat := (getN s (some s.header)).right

/-- `rb_tree_is_lchild(node)`: `node == node->parent->left`. -/
def rb_tree_is_lchild (s : RBTree) (p : Option Nat) : Bool :=
  (getN s (getN s p).parent).left == p

/-- `rb_tree_is_red(node)`: `node != nullptr && node->color == rb_tree_red`. -/
def rb_tree_is_red (s : RBTree) (p : Option Nat) : Bool :=
  match p with
  | none => false
  | some _ => (getN s p).color == rb_tree_red

/-- `rb_tree_set_black(node)`: guarded color write. -/
def rb_tree_set_black (s : RBTree) (p : Option Nat) : RBTree :=
  updN s p (fun n => { n with color := rb_tree_black })

/-- `rb_tree_set_red(node)`: guarded color write. -/
def rb_tree_set_red (s : RBTree) (p : Option Nat) : RBTree :=
  updN s p (fun n => { n with color := rb_tree_red })

/-- `rb_tree_min(x)`: follow `left` links to exhaustion. -/
def rb_tree_min (s : RBTree) : Nat → Option Nat → Option (Option Nat)
  | 0, _ => none
  | fuel + 1, x =>
    match (getN s x).left with
    | none => some x
    | some l => rb_tree_min s fuel (some l)

/-- `rb_tree_max(x)`: follow `right` links to exhaustion. -/
def rb_tree_max (s : RBTree) : Nat → Option Nat → Option (Option Nat)
  | 0, _ => none
  | fuel + 1, x =>
    match (getN s x).right with
    | none => some x
    | some r => rb_tree_max s fuel (some r)

/-- Climb phase of `rb_tree_next`: `while (!is_lchild(node)) node = node->parent;
return node->parent`. -/
def rb_tree_next_climb (s : RBTree) : Nat → Option Nat → Option (Option Nat)
  | 0, _ => none
  | fuel + 1, x =>
    if rb_tree_is_lchild s x then some (getN s x).parent
    else rb_tree_next_climb s fuel (getN s x).parent

/-- `rb_tree_next(node)`: in-order successor used by `rb_tree_erase_rebalance`. -/
def rb_tree_next (s : RBTree) (fuel : Nat) (x : Option Nat) : Option (Option Nat) :=
  match (getN s x).right with
  | some r => rb_tree_min s fuel (some r)
  | none => rb_tree_next_climb s fuel x

/-- `rb_tree_rotate_left(x, root)`.  The C++ `root` reference (an alias
of `header_->parent`) is threaded as a value and written back by the
caller; nothing in the rotation or the rebalancing loops reads
`header_->parent` other than through this reference. -/
def rb_tree_rotate_left (s0 : RBTree) (x : Option Nat) (root : Option Nat) :
    RBTree × Option Nat :=
  -- auto y = x->right;
  let y := (getN s0 x).right
  -- x->right = y->left;
  let s1 := updN s0 x (fun n => { n with right := (getN s0 y).left })
  -- if (y->left != nullptr) y->left->parent = x;  (a write through a
  -- null pointer is a no-op in this embedding, so the guard is updN's)
  let s2 := updN s1 (getN s1 y).left (fun n => { n with parent := x })
  -- y->parent = x->parent;
  let s3 := updN s2 y (fun n => { n with parent := (getN s2 x).parent })
  -- if (x == root) root = y; else if (is_lchild(x)) x->parent->left = y;
  -- else x->parent->right = y;
  let res :=
    if x == root then (s3, y)
    else if rb_tree_is_lchild s3 x then
      (updN s3 (getN s3 x).parent (fun n => { n with left := y }), root)
    else
      (updN s3 (getN s3 x).parent (fun n => { n with right := y }), root)
  let s4 := res.1
  -- y->left = x; x->parent = y;
  let s5 := updN s4 y (fun n => { n with left := x })
  let s6 := updN s5 x (fun n => { n with parent := y })
  (s6, res.2)

/-- `rb_tree_rotate_right(x, root)`: mirror image of the left rotation. -/
def rb_tree_rotate_right (s0 : RBTree) (x : Option Nat) (root : Option Nat) :
    RBTree × Option Nat :=
  -- auto y = x->left;
  let y := (getN s0 x).left
  -- x->left = y->right;
  let s1 := updN s0 x (fun n => { n with left := (getN s0 y).right })
  -- if (y->right != nullptr) y->right->parent = x;  (a write through a
  -- null pointer is a no-op in this embedding, so the guard is updN's)
  let s2 := updN s1 (getN s1 y).right (fun n => { n with parent := x })
  -- y->parent = x->parent;
  let s3 := updN s2 y (fun n => { n with parent := (getN s2 x).parent })
  let res :=
    if x == root then (s3, y)
    else if rb_tree_is_lchild s3 x then
      (updN s3 (getN s3 x).parent (fun n => { n with left := y }), root)
    else
      (updN s3 (getN s3 x).parent (fun n => { n with right := y }), root)
  let s4 := res.1
  -- y->right = x; x->parent = y;
  let s5 := updN s4 y (fun n => { n with right := x })
  let s6 := updN s5 x (fun n => { n with parent := y })
  (s6, res.2)

/-- One iteration scheme of the `while` loop of `rb_tree_insert_rebalance`:
loops while `x != root && is_red(x->parent)`, returning the state, `x`
and `root` when the condition fails or the branch executed `break`. -/
def insert_rebalance_loop (s : RBTree) (x root : Option Nat) :
    Nat → Option (RBTree × Option Nat × Option Nat)
  | 0 => none
  | fuel + 1 =>
    if x != root && rb_tree_is_red s (getN s x).parent then
      let p := (getN s x).parent
      let g := (getN s p).parent
      if rb_tree_is_lchild s p then
        -- auto uncle = x->parent->parent->right;
        let uncle := (getN s g).right
        if uncle != none && rb_tree_is_red s uncle then
          -- case 3: recolor parent, uncle, grandparent; continue from grandparent
          let s := rb_tree_set_black s p
          let s := rb_tree_set_black s uncle
          let s := rb_tree_set_red s g
          insert_rebalance_loop s g root fuel
        else
          -- case 4: x is a right child: x = x->parent; rotate_left(x, root);
          let step :=
            if !rb_tree_is_lchild s x then
              let x1 := (getN s x).parent
              let r1 := rb_tree_rotate_left s x1 root
              (r1.1, x1, r1.2)
            else (s, x, root)
          let s := step.1
          let x := step.2.1
          let root := step.2.2
          -- case 5: set_black(x->parent); set_red(x->parent->parent);
          -- rotate_right(x->parent->parent, root); break;
          let p2 := (getN s x).parent
          let g2 := (getN s p2).parent
          let s := rb_tree_set_black s p2
          let s := rb_tree_set_red s g2
          let r2 := rb_tree_rotate_right s g2 root
          some (r2.1, x, r2.2)
      else
        -- mirror image: parent is a right child
        let uncle := (getN s g).left
        if uncle != none && rb_tree_is_red s uncle then
          let s := rb_tree_set_black s p
          let s := rb_tree_set_black s uncle
          let s := rb_tree_set_red s g
          insert_rebalance_loop s g root fuel
        else
          let step :=
            if rb_tree_is_lchild s x then
              let x1 := (getN s x).parent
              let r1 := rb_tree_rotate_right s x1 root
              (r1.1, x1, r1.2)
            else (s, x, root)
          let s := step.1
          let x := step.2.1
          let root := step.2.2
          let p2 := (getN s x).parent
          let g2 := (getN s p2).parent
          let s := rb_tree_set_black s p2
          let s := rb_tree_set_red s g2
          let r2 := rb_tree_rotate_left s g2 root
          some (r2.1, x, r2.2)
    else some (s, x, root)

/-- `rb_tree_insert_rebalance(x, root)`: color the new node red, run the
fixup loop, force the root black.  Returns the state and final root. -/
def rb_tree_insert_rebalance (s : RBTree) (x root : Option Nat) (fuel : Nat) :
    Option (RBTree × Option Nat) :=
  let s := rb_tree_set_red s x
  match insert_rebalance_loop s x root fuel with
  | none => none
  | some (s, _, root) => some (rb_tree_set_black s root, root)

/-- Intermediate state of `rb_tree_erase_rebalance` after the unlink
phase: the heap, the three by-reference pointers, the fixup inputs
`x`/`xp`, and `y` (the node to be returned, always the argument `z`). -/
structure EraseCtx where
  s : RBTree
  root : Option Nat
  lm : Option Nat
  rm : Option Nat
  x : Option Nat
  xp : Option Nat
  y : Option Nat

/-- Unlink phase of `rb_tree_erase_rebalance` (lines 698-762): choose
the physically removed node `y` (`z` itself, or its in-order successor
when `z` has two children), splice it out, and in the two-children
case move `y` into the slot of `z` with `std::swap(y->color, z->color)`. -/
def erase_unlink (s : RBTree) (fuel : Nat) (z root lm rm : Option Nat) :
    Option EraseCtx :=
  -- auto y = (z->left == nullptr || z->right == nullptr) ? z : rb_tree_next(z);
  let yres :=
    if (getN s z).left == none || (getN s z).right == none then some z
    else rb_tree_next s fuel z
  match yres with
  | none => none
  | some y =>
    -- auto x = y->left != nullptr ? y->left : y->right;
    let x := if (getN s y).left != none then (getN s y).left else (getN s y).right
    if y != z then
      -- z has two non-null children: move y into the position of z
      -- z->left->parent = y;  y->left = z->left;
      let s := updN s (getN s z).left (fun n => { n with parent := y })
      let s := updN s y (fun n => { n with left := (getN s z).left })
      let step :=
        if y != (getN s z).right then
          -- xp = y->parent;
          let xp := (getN s y).parent
          -- if (x != nullptr) x->parent = y->parent;
          let s := if x != none then updN s x (fun n => { n with parent := (getN s y).parent }) else s
          -- y->parent->left = x;  y->right = z->right;  z->right->parent = y;
          let s := updN s (getN s y).parent (fun n => { n with left := x })
          let s := updN s y (fun n => { n with right := (getN s z).right })
          let s := updN s (getN s z).right (fun n => { n with parent := y })
          (s, xp)
        else
          -- xp = y;
          (s, y)
      let s := step.1
      let xp := step.2
      -- if (root == z) root = y; else if (is_lchild(z)) z->parent->left = y;
      -- else z->parent->right = y;
      let rstep :=
        if root == z then (s, y)
        else if rb_tree_is_lchild s z then
          (updN s (getN s z).parent (fun n => { n with left := y }), root)
        else
          (updN s (getN s z).parent (fun n => { n with right := y }), root)
      let s := rstep.1
      let root := rstep.2
      -- y->parent = z->parent;
      let s := updN s y (fun n => { n with parent := (getN s z).parent })
      -- std::swap(y->color, z->color);
      let cy := (getN s y).color
      let cz := (getN s z).color
      let s := updN s y (fun n => { n with color := cz })
      let s := updN s z (fun n => { n with color := cy })
      -- y = z;
      some ⟨s, root, lm, rm, x, xp, z⟩
    else
      -- z has at most one non-null child
      -- xp = y->parent;
      let xp := (getN s y).parent
      -- if (x != nullptr) x->parent = y->parent;
      let s := if x != none then updN s x (fun n => { n with parent := (getN s y).parent }) else s
      -- if (root == z) root = x; else if (is_lchild(z)) z->parent->left = x;
      -- else z->parent->right = x;
      let rstep :=
        if root == z then (s, x)
        else if rb_tree_is_lchild s z then
          (updN s (getN s z).parent (fun n => { n with left := x }), root)
        else
          (updN s (getN s z).parent (fun n => { n with right := x }), root)
      let s := rstep.1
      let root := rstep.2
      -- if (leftmost == z) leftmost = x == nullptr ? xp : rb_tree_min(x);
      let lmres :=
        if lm == z then (if x == none then some xp else rb_tree_min s fuel x)
        else some lm
      match lmres with
      | none => none
      | some lm =>
        -- if (rightmost == z) rightmost = x == nullptr ? xp : rb_tree_max(x);
        let rmres :=
          if rm == z then (if x == none then some xp else rb_tree_max s fuel x)
          else some rm
        match rmres with
        | none => none
        | some rm => some ⟨s, root, lm, rm, x, xp, y⟩

/-- The fixup `while` loop of `rb_tree_erase_rebalance` (lines 767-845):
runs while `x != root && (x == nullptr || !is_red(x))`; returns the
state, `x` and `root` on normal exit or `break`. -/
def erase_fix_loop (s : RBTree) (x xp root : Option Nat) :
    Nat → Option (RBTree × Option Nat × Option Nat)
  | 0 => none
  | fuel + 1 =>
    if x != root && (x == none || !(rb_tree_is_red s x)) then
      if x == (getN s xp).left then
        -- auto brother = xp->right;
        let brother := (getN s xp).right
        let step1 :=
          if rb_tree_is_red s brother then
            -- case 1: recolor and rotate xp left, recompute brother
            let s := rb_tree_set_black s brother
            let s := rb_tree_set_red s xp
            let r := rb_tree_rotate_left s xp root
            (r.1, (getN r.1 xp).right, r.2)
          else (s, brother, root)
        let s := step1.1
        let brother := step1.2.1
        let root := step1.2.2
        if ((getN s brother).left == none || !(rb_tree_is_red s (getN s brother).left)) &&
           ((getN s brother).right == none || !(rb_tree_is_red s (getN s brother).right)) then
          -- case 2: recolor brother red, move up: x = xp; xp = xp->parent;
          let s := rb_tree_set_red s brother
          erase_fix_loop s xp (getN s xp).parent root fuel
        else
          let step2 :=
            if (getN s brother).right == none || !(rb_tree_is_red s (getN s brother).right) then
              -- case 3
              let s :=
                if (getN s brother).left != none then rb_tree_set_black s (getN s brother).left
                else s
              let s := rb_tree_set_red s brother
              let r := rb_tree_rotate_right s brother root
              (r.1, (getN r.1 xp).right, r.2)
            else (s, brother, root)
          let s := step2.1
          let brother := step2.2.1
          let root := step2.2.2
          -- case 4: brother->color = xp->color; set_black(xp);
          -- if (brother->right) set_black(brother->right); rotate_left(xp); break;
          let s := updN s brother (fun n => { n with color := (getN s xp).color })
          let s := rb_tree_set_black s xp
          let s :=
            if (getN s brother).right != none then rb_tree_set_black s (getN s brother).right
            else s
          let r := rb_tree_rotate_left s xp root
          some (r.1, x, r.2)
      else
        -- mirror image: x is the right child of xp
        let brother := (getN s xp).left
        let step1 :=
          if rb_tree_is_red s brother then
            let s := rb_tree_set_black s brother
            let s := rb_tree_set_red s xp
            let r := rb_tree_rotate_right s xp root
            (r.1, (getN r.1 xp).left, r.2)
          else (s, brother, root)
        let s := step1.1
        let brother := step1.2.1
        let root := step1.2.2
        if ((getN s brother).left == none || !(rb_tree_is_red s (getN s brother).left)) &&
           ((getN s brother).right == none || !(rb_tree_is_red s (getN s brother).right)) then
          let s := rb_tree_set_red s brother
          erase_fix_loop s xp (getN s xp).parent root fuel
        else
          let step2 :=
            if (getN s brother).left == none || !(rb_tree_is_red s (getN s brother).left) then
              let s :=
                if (getN s brother).right != none then rb_tree_set_black s (getN s brother).right
                else s
              let s := rb_tree_set_red s brother
              let r := rb_tree_rotate_left s brother root
              (r.1, (getN r.1 xp).left, r.2)
            else (s, brother, root)
          let s := step2.1
          let brother := step2.2.1
          let root := step2.2.2
          let s := updN s brother (fun n => { n with color := (getN s xp).color })
          let s := rb_tree_set_black s xp
          let s :=
            if (getN s brother).left != none then rb_tree_set_black s (getN s brother).left
            else s
          let r := rb_tree_rotate_right s xp root
          some (r.1, x, r.2)
    else some (s, x, root)

/-- `rb_tree_erase_rebalance(z, root, leftmost, rightmost)`: unlink,
then (when the physically removed color was black) the fixup loop
followed by `if (x != nullptr) set_black(x)`.  Returns the state, the
final values of the three by-reference pointers, and `y`. -/
def rb_tree_erase_rebalance (s : RBTree) (fuel : Nat) (z root lm rm : Option Nat) :
    Option (RBTree × Option Nat × Option Nat × Option Nat × Option Nat) :=
  match erase_unlink s fuel z root lm rm with
  | none => none
  | some ctx =>
    if !(rb_tree_is_red ctx.s ctx.y) then
      match erase_fix_loop ctx.s ctx.x ctx.xp ctx.root fuel with
      | none => none
      | some (s, x, root) =>
        let s := if x != none then rb_tree_set_black s x else s
        some (s, root, ctx.lm, ctx.rm, ctx.y)
    else some (ctx.s, ctx.root, ctx.lm, ctx.rm, ctx.y)

/-- Climb phase of `rb_tree_iterator_base::inc` (lines 264-273):
`y = node->parent; while (node == y->right) { node = y; y = y->parent; }
if (node->right != y) node = y;`. -/
def iter_inc_climb (s : RBTree) : Nat → Option Nat → Option Nat → Option (Option Nat)
  | 0, _, _ => none
  | fuel + 1, node, y =>
    if node == (getN s y).right then iter_inc_climb s fuel y (getN s y).parent
    else if (getN s node).right != y then some y
    else some node

/-- `rb_tree_iterator_base::inc`: move to the in-order successor. -/
def iter_inc (s : RBTree) (fuel : Nat) (node : Option Nat) : Option (Option Nat) :=
  if (getN s node).right != none then rb_tree_min s fuel (getN s node).right
  else iter_inc_climb s fuel node (getN s node).parent

/-- Climb phase of `rb_tree_iterator_base::dec` (lines 292-298). -/
def iter_dec_climb (s : RBTree) : Nat → Option Nat → Option Nat → Option (Option Nat)
  | 0, _, _ => none
  | fuel + 1, node, y =>
    if node == (getN s y).left then iter_dec_climb s fuel y (getN s y).parent
    else some y

/-- `rb_tree_iterator_base::dec`: move to the in-order predecessor;
on the header (detected by `node->parent->parent == node && color == red`)
jump to the rightmost node. -/
def iter_dec (s : RBTree) (fuel : Nat) (node : Option Nat) : Option (Option Nat) :=
  if (getN s (getN s node).parent).parent == node && (getN s node).color == rb_tree_red then
    some (getN s node).right
  else if (getN s node).left != none then rb_tree_max s fuel (getN s node).left
  else iter_dec_climb s fuel node (getN s node).parent

/-- The shared descent of `find` and `lower_bound` (lines 1823-1834 and
1867-1878, textually the same loop): `y` tracks the last node whose key
is not less than `key`; go left exactly when `!(x->key < key)`. -/
def lower_bound_loop (s : RBTree) (key : Nat) : Nat → Option Nat → Option Nat → Option (Option Nat)
  | 0, _, _ => none
  | fuel + 1, x, y =>
    match x with
    | none => some y
    | some _ =>
      if !(key_comp (get_key (getN s x).value) key) then
        lower_bound_loop s key fuel (getN s x).left x
      else
        lower_bound_loop s key fuel (getN s x).right y

/-- `rb_tree::lower_bound(key)`. -/
def rb_lower_bound (s : RBTree) (key : Nat) (fuel : Nat) : Option (Option Nat) :=
  lower_bound_loop s key fuel (rootP s) (some s.header)

/-- The descent of `upper_bound` (lines 1909-1920): `y` tracks the last
node whose key is strictly greater than `key`. -/
def upper_bound_loop (s : RBTree) (key : Nat) : Nat → Option Nat → Option Nat → Option (Option Nat)
  | 0, _, _ => none
  | fuel + 1, x, y =>
    match x with
    | none => some y
    | some _ =>
      if key_comp key (get_key (getN s x).value) then
        upper_bound_loop s key fuel (getN s x).left x
      else
        upper_bound_loop s key fuel (getN s x).right y

/-- `rb_tree::upper_bound(key)`. -/
def rb_upper_bound (s : RBTree) (key : Nat) (fuel : Nat) : Option (Option Nat) :=
  upper_bound_loop s key fuel (rootP s) (some s.header)

/-- `rb_tree::find(key)` (lines 1820-1837): the `lower_bound` descent
followed by the final equality check
`(j == end() || key_comp_(key, get_key(*j))) ? end() : j`. -/
def rb_find (s : RBTree) (key : Nat) (fuel : Nat) : Option (Option Nat) :=
  (lower_bound_loop s key fuel (rootP s) (some s.header)).map
    (fun j => if j == some s.header || key_comp key (get_key (getN s j).value) then some s.header
              else j)

/-- The descent of `get_insert_multi_pos` / `get_insert_unique_pos`
(lines 2036-2040 and 2055-2059, the same loop): find the link parent
`y` and the side `add_to_left = key_comp_(key, x->key)`. -/
def insert_pos_loop (s : RBTree) (key : Nat) :
    Nat → Option Nat → Option Nat → Bool → Option (Option Nat × Bool)
  | 0, _, _, _ => none
  | fuel + 1, x, y, addLeft =>
    match x with
    | none => some (y, addLeft)
    | some _ =>
      let al := key_comp key (get_key (getN s x).value)
      insert_pos_loop s key fuel (if al then (getN s x).left else (getN s x).right) x al

/-- `rb_tree::get_insert_multi_pos(key)`: equal keys descend to the
right, so a duplicate lands after the last existing equal key. -/
def get_insert_multi_pos (s : RBTree) (key : Nat) (fuel : Nat) :
    Option (Option Nat × Bool) :=
  insert_pos_loop s key fuel (rootP s) (some s.header) true

/-- `rb_tree::get_insert_unique_pos(key)` (lines 2047-2076): the same
descent, then a duplicate check against the in-order predecessor of the
insertion point (`--j`) or against `y` itself. -/
def get_insert_unique_pos (s : RBTree) (key : Nat) (fuel : Nat) :
    Option ((Option Nat × Bool) × Bool) :=
  match insert_pos_loop s key fuel (rootP s) (some s.header) true with
  | none => none
  | some (y, addLeft) =>
    -- iterator j = iterator(y);
    if addLeft then
      if y == some s.header || y == leftmostP s then
        -- empty tree, or inserting before begin(): no duplicate possible
        some ((y, true), true)
      else
        -- --j; then the shared `key_comp_(get_key(*j), key)` check
        match iter_dec s fuel y with
        | none => none
        | some j =>
          if key_comp (get_key (getN s j).value) key then some ((y, addLeft), true)
          else some ((y, addLeft), false)
    else
      -- j = y; the shared `key_comp_(get_key(*j), key)` check
      if key_comp (get_key (getN s y).value) key then some ((y, addLeft), true)
      else some ((y, addLeft), false)

/-- `rb_tree::create_node(args)` on the success path: allocate a fresh
id and construct the payload; `left`/`right`/`parent` are set to null.
The color is uninitialized in the source (first written by
`rb_tree_insert_rebalance`); it is modelled as red here. -/
def create_node (s : RBTree) (v : Val) : RBTree × Nat :=
  let i := s.nextId
  ({ s with heap := (i, ⟨none, none, none, rb_tree_red, v⟩) :: s.heap, nextId := i + 1 }, i)

/-- `rb_tree::destroy_node(p)`: destroy the payload and deallocate. -/
def destroy_node (s : RBTree) (i : Nat) : RBTree :=
  { s with heap := hremove s.heap i }

/-- `rb_tree::insert_node_at(x, node, add_to_left)` (lines 2116-2139):
link the node under `x` (or as the root when `x == header_`), update the
`leftmost`/`rightmost` caches, rebalance, and bump `node_count_`. -/
def insert_node_at (s : RBTree) (x : Option Nat) (nd : Nat) (addLeft : Bool)
    (fuel : Nat) : Option (RBTree × Option Nat) :=
  -- node->parent = x;
  let s := updN s (some nd) (fun n => { n with parent := x })
  let base := some nd
  let s :=
    if x == some s.header then
      -- empty tree: root() = leftmost() = rightmost() = node
      updN s (some s.header) (fun n => { n with parent := base, left := base, right := base })
    else if addLeft then
      let s := updN s x (fun n => { n with left := base })
      if leftmostP s == x then updN s (some s.header) (fun n => { n with left := base })
      else s
    else
      let s := updN s x (fun n => { n with right := base })
      if rightmostP s == x then updN s (some s.header) (fun n => { n with right := base })
      else s
  match rb_tree_insert_rebalance s base (rootP s) fuel with
  | none => none
  | some (s, root) =>
    -- the final root is written back through the header_->parent reference
    let s := updN s (some s.header) (fun n => { n with parent := root })
    some ({ s with node_count := s.node_count + 1 }, base)

/-- `rb_tree::insert_value_at(x, value, add_to_left)`: create the node,
then `insert_node_at`. -/
def insert_value_at (s : RBTree) (x : Option Nat) (v : Val) (addLeft : Bool)
    (fuel : Nat) : Option (RBTree × Option Nat) :=
  let c := create_node s v
  insert_node_at c.1 x c.2 addLeft fuel

/-- `max_size()`: `static_cast<size_type>(-1)` for a 64-bit `size_t`. -/
def rb_max_size : Nat := 2 ^ 64 - 1

/-- Outcome of a public call: normal return, a thrown `length_error` /
construction exception (carrying the state left behind), or exhausted
fuel (the call did not return). -/
inductive Res (α : Type) where
  | ok (a : α)
  | thrown (s : RBTree)
  | nofuel
deriving DecidableEq

/-- `rb_tree::insert_multi(value)` (lines 1720-1728). -/
def insert_multi (s : RBTree) (v : Val) (fuel : Nat) : Res (RBTree × Option Nat) :=
  if s.node_count > rb_max_size - 1 then .thrown s
  else
    match get_insert_multi_pos s (get_key v) fuel with
    | none => .nofuel
    | some (y, addLeft) =>
      match insert_value_at s y v addLeft fuel with
      | none => .nofuel
      | some (s, it) => .ok (s, it)

/-- `rb_tree::insert_unique(value)` (lines 1733-1745): the returned
`Bool` is the `inserted?` flag. -/
def insert_unique (s : RBTree) (v : Val) (fuel : Nat) :
    Res (RBTree × Option Nat × Bool) :=
  if s.node_count > rb_max_size - 1 then .thrown s
  else
    match get_insert_unique_pos s (get_key v) fuel with
    | none => .nofuel
    | some ((y, addLeft), success) =>
      if success then
        match insert_value_at s y v addLeft fuel with
        | none => .nofuel
        | some (s, it) => .ok (s, it, true)
      else .ok (s, y, false)

/-- `rb_tree::create_node(args)` including the failure path (lines
1962-1977): allocate raw storage, then construct the payload in place;
`vc = none` models a payload constructor that throws, in which case the
storage is deallocated and the exception is rethrown (`Except.error`
carries the state left behind). -/
def create_node_try (s : RBTree) (vc : Option Val) : Except RBTree (RBTree × Nat) :=
  -- auto tmp = node_allocator().allocate(1);
  let i := s.nextId
  let s1 : RBTree := { s with heap := (i, (default : Node)) :: s.heap, nextId := i + 1 }
  match vc with
  | none =>
    -- catch (...) { node_allocator().deallocate(tmp, 1); throw; }
    .error { s1 with heap := hremove s1.heap i }
  | some v =>
    -- new (&tmp->value) value_type(args); tmp->left = tmp->right = tmp->parent = nullptr;
    .ok ({ s1 with heap := hset s1.heap i ⟨none, none, none, rb_tree_red, v⟩ }, i)

/-- `rb_tree::emplace_multi(args)` (lines 1603-1613): capacity check,
node construction (which may throw), descent, link. -/
def emplace_multi (s : RBTree) (vc : Option Val) (fuel : Nat) :
    Res (RBTree × Option Nat) :=
  if s.node_count > rb_max_size - 1 then .thrown s
  else
    match create_node_try s vc with
    | .error s1 => .thrown s1
    | .ok (s1, np) =>
      match get_insert_multi_pos s1 (get_key (getN s1 (some np)).value) fuel with
      | none => .nofuel
      | some (y, addLeft) =>
        match insert_node_at s1 y np addLeft fuel with
        | none => .nofuel
        | some (s2, it) => .ok (s2, it)

/-- `rb_tree::emplace_unique(args)` (lines 1618-1633): like
`emplace_multi`, but a duplicate destroys the candidate node and
returns the existing position with `inserted = false`. -/
def emplace_unique (s : RBTree) (vc : Option Val) (fuel : Nat) :
    Res (RBTree × Option Nat × Bool) :=
  if s.node_count > rb_max_size - 1 then .thrown s
  else
    match create_node_try s vc with
    | .error s1 => .thrown s1
    | .ok (s1, np) =>
      match get_insert_unique_pos s1 (get_key (getN s1 (some np)).value) fuel with
      | none => .nofuel
      | some ((y, addLeft), success) =>
        if success then
          match insert_node_at s1 y np addLeft fuel with
          | none => .nofuel
          | some (s2, it) => .ok (s2, it, true)
        else .ok (destroy_node s1 np, y, false)

/-- `rb_tree::insert_multi_use_hint(hint, key, node)` (lines 2144-2163):
try to link in O(1) between `--hint` and `hint`; otherwise fall back to
the full `get_insert_multi_pos` descent. -/
def insert_multi_use_hint (s : RBTree) (hint : Option Nat) (key : Nat) (nd : Nat)
    (fuel : Nat) : Option (RBTree × Option Nat) :=
  -- auto before = hint; --before;
  match iter_dec s fuel hint with
  | none => none
  | some bnp =>
    if !(key_comp key (get_key (getN s bnp).value)) &&
       !(key_comp (get_key (getN s hint).value) key) then
      -- before <= node <= hint
      if (getN s bnp).right == none then insert_node_at s bnp nd false fuel
      else if (getN s hint).left == none then insert_node_at s hint nd true fuel
      else
        match get_insert_multi_pos s key fuel with
        | none => none
        | some (y, al) => insert_node_at s y nd al fuel
    else
      match get_insert_multi_pos s key fuel with
      | none => none
      | some (y, al) => insert_node_at s y nd al fuel

/-- `rb_tree::insert_unique_use_hint(hint, key, node)` (lines 2168-2191). -/
def insert_unique_use_hint (s : RBTree) (hint : Option Nat) (key : Nat) (nd : Nat)
    (fuel : Nat) : Option (RBTree × Option Nat) :=
  match iter_dec s fuel hint with
  | none => none
  | some bnp =>
    if key_comp (get_key (getN s bnp).value) key &&
       key_comp key (get_key (getN s hint).value) then
      -- before < node < hint
      if (getN s bnp).right == none then insert_node_at s bnp nd false fuel
      else if (getN s hint).left == none then insert_node_at s hint nd true fuel
      else
        match get_insert_unique_pos s key fuel with
        | none => none
        | some ((y, al), success) =>
          if !success then some (destroy_node s nd, y)
          else insert_node_at s y nd al fuel
    else
      match get_insert_unique_pos s key fuel with
      | none => none
      | some ((y, al), success) =>
        if !success then some (destroy_node s nd, y)
        else insert_node_at s y nd al fuel

/-- `rb_tree::emplace_multi_use_hint(hint, args)` (lines 1638-1670). -/
def emplace_multi_use_hint (s : RBTree) (hint : Option Nat) (vc : Option Val)
    (fuel : Nat) : Res (RBTree × Option Nat) :=
  if s.node_count > rb_max_size - 1 then .thrown s
  else
    match create_node_try s vc with
    | .error s1 => .thrown s1
    | .ok (s1, np) =>
      if s1.node_count == 0 then
        match insert_node_at s1 (some s1.header) np true fuel with
        | none => .nofuel
        | some (s2, it) => .ok (s2, it)
      else
        let key := get_key (getN s1 (some np)).value
        if hint == leftmostP s1 then
          -- hint == begin()
          if key_comp key (get_key (getN s1 hint).value) then
            match insert_node_at s1 hint np true fuel with
            | none => .nofuel
            | some (s2, it) => .ok (s2, it)
          else
            match get_insert_multi_pos s1 key fuel with
            | none => .nofuel
            | some (y, al) =>
              match insert_node_at s1 y np al fuel with
              | none => .nofuel
              | some (s2, it) => .ok (s2, it)
        else if hint == some s1.header then
          -- hint == end()
          if !(key_comp key (get_key (getN s1 (rightmostP s1)).value)) then
            match insert_node_at s1 (rightmostP s1) np false fuel with
            | none => .nofuel
            | some (s2, it) => .ok (s2, it)
          else
            match get_insert_multi_pos s1 key fuel with
            | none => .nofuel
            | some (y, al) =>
              match insert_node_at s1 y np al fuel with
              | none => .nofuel
              | some (s2, it) => .ok (s2, it)
        else
          match insert_multi_use_hint s1 hint key np fuel with
          | none => .nofuel
          | some (s2, it) => .ok (s2, it)

/-- `rb_tree::emplace_unique_use_hint(hint, args)` (lines 1675-1715);
returns only an iterator, like the source. -/
def emplace_unique_use_hint (s : RBTree) (hint : Option Nat) (vc : Option Val)
    (fuel : Nat) : Res (RBTree × Option Nat) :=
  if s.node_count > rb_max_size - 1 then .thrown s
  else
    match create_node_try s vc with
    | .error s1 => .thrown s1
    | .ok (s1, np) =>
      if s1.node_count == 0 then
        match insert_node_at s1 (some s1.header) np true fuel with
        | none => .nofuel
        | some (s2, it) => .ok (s2, it)
      else
        let key := get_key (getN s1 (some np)).value
        if hint == leftmostP s1 then
          if key_comp key (get_key (getN s1 hint).value) then
            match insert_node_at s1 hint np true fuel with
            | none => .nofuel
            | some (s2, it) => .ok (s2, it)
          else
            match get_insert_unique_pos s1 key fuel with
            | none => .nofuel
            | some ((y, al), success) =>
              if !success then .ok (destroy_node s1 np, y)
              else
                match insert_node_at s1 y np al fuel with
                | none => .nofuel
                | some (s2, it) => .ok (s2, it)
        else if hint == some s1.header then
          -- hint == end(): here the test is `rightmost.key < key`
          if key_comp (get_key (getN s1 (rightmostP s1)).value) key then
            match insert_node_at s1 (rightmostP s1) np false fuel with
            | none => .nofuel
            | some (s2, it) => .ok (s2, it)
          else
            match get_insert_unique_pos s1 key fuel with
            | none => .nofuel
            | some ((y, al), success) =>
              if !success then .ok (destroy_node s1 np, y)
              else
                match insert_node_at s1 y np al fuel with
                | none => .nofuel
                | some (s2, it) => .ok (s2, it)
        else
          match insert_unique_use_hint s1 hint key np fuel with
          | none => .nofuel
          | some r => .ok r

/-- `rb_tree::erase(hint)` (lines 1750-1761): compute the successor
first, rebalance-unlink, destroy the node, decrement the count; the
returned pointer is the next position. -/
def erase_at (s : RBTree) (fuel : Nat) (h : Option Nat) : Option (RBTree × Option Nat) :=
  -- iterator next(node); ++next;
  match iter_inc s fuel h with
  | none => none
  | some next =>
    match rb_tree_erase_rebalance s fuel h (rootP s) (leftmostP s) (rightmostP s) with
    | none => none
    | some (s1, root, lm, rm, _) =>
      -- final values of the root/leftmost/rightmost references
      let s2 := updN s1 (some s1.header)
        (fun n => { n with parent := root, left := lm, right := rm })
      -- destroy_node(node); --node_count_;
      let s3 :=
        match h with
        | none => s2
        | some i => destroy_node s2 i
      some ({ s3 with node_count := s3.node_count - 1 }, next)

/-- `rb_tree::erase_since(x)` (lines 2228-2235): recursively destroy the
right subtree, then walk down the left spine. -/
def erase_since : Nat → RBTree → Option Nat → Option RBTree
  | 0, _, _ => none
  | fuel + 1, s, x =>
    match x with
    | none => some s
    | some i =>
      match erase_since fuel s (getN s x).right with
      | none => none
      | some s1 =>
        -- auto y = x->left; destroy_node(x); x = y;
        let y := (getN s1 (some i)).left
        erase_since fuel (destroy_node s1 i) y

/-- `rb_tree::clear()` (lines 1807-1815). -/
def rb_clear (s : RBTree) (fuel : Nat) : Option RBTree :=
  if s.node_count != 0 then
    match erase_since fuel s (rootP s) with
    | none => none
    | some s1 =>
      let s2 := updN s1 (some s1.header)
        (fun n => { n with parent := none, left := some s1.header, right := some s1.header })
      some { s2 with node_count := 0 }
  else some s

/-- One-by-one phase of `rb_tree::erase(first, last)`:
`while (first != last) erase(first++);`. -/
def erase_range_loop : Nat → RBTree → Option Nat → Option Nat → Option RBTree
  | 0, _, _, _ => none
  | fuel + 1, s, first, last =>
    if first == last then some s
    else
      -- first++ computes the successor before the erase
      match iter_inc s (fuel + 1) first with
      | none => none
      | some nxt =>
        match erase_at s (fuel + 1) first with
        | none => none
        | some (s1, _) => erase_range_loop fuel s1 nxt last

/-- `rb_tree::erase(first, last)` (lines 1792-1801): full range clears,
otherwise erase one by one. -/
def erase_iter_range (s : RBTree) (fuel : Nat) (first last : Option Nat) :
    Option RBTree :=
  if first == leftmostP s && last == some s.header then rb_clear s fuel
  else erase_range_loop fuel s first last

/-- `std::distance` over the bidirectional tree iterators. -/
def iter_distance (s : RBTree) : Nat → Option Nat → Option Nat → Option Nat
  | 0, _, _ => none
  | fuel + 1, f, l =>
    if f == l then some 0
    else
      match iter_inc s (fuel + 1) f with
      | none => none
      | some n =>
        match iter_distance s fuel n l with
        | none => none
        | some d => some (d + 1)

/-- `rb_tree::erase_multi(key)` (lines 1766-1773):
`equal_range_multi`, count by `std::distance`, erase the range. -/
def erase_multi (s : RBTree) (key : Nat) (fuel : Nat) : Option (RBTree × Nat) :=
  match rb_lower_bound s key fuel, rb_upper_bound s key fuel with
  | some lo, some hi =>
    match iter_distance s fuel lo hi with
    | none => none
    | some n =>
      match erase_iter_range s fuel lo hi with
      | none => none
      | some s1 => some (s1, n)
  | _, _ => none

/-- `rb_tree::erase_unique(key)` (lines 1778-1787). -/
def erase_unique (s : RBTree) (key : Nat) (fuel : Nat) : Option (RBTree × Nat) :=
  match rb_find s key fuel with
  | none => none
  | some it =>
    if it != some s.header then
      match erase_at s fuel it with
      | none => none
      | some (s1, _) => some (s1, 1)
    else some (s, 0)

/-- `rb_tree::rb_tree_init()` (lines 2004-2012): allocate the header,
color it red (to distinguish it from the root), make the tree empty.
The header gets id 0. -/
def rb_tree_init : RBTree :=
  { heap := [(0, ⟨none, some 0, some 0, rb_tree_red, (0, 0)⟩)],
    nextId := 1, header := 0, node_count := 0 }

/-- The `std::equal(lhs.begin(), lhs.end(), rhs.begin())` walk used by
`operator==`: compare payloads position by position along the iterator
protocol of both trees. -/
def std_equal (s1 s2 : RBTree) : Nat → Option Nat → Option Nat → Option Nat → Option Bool
  | 0, _, _, _ => none
  | fuel + 1, f1, l1, f2 =>
    if f1 == l1 then some true
    else if (getN s1 f1).value == (getN s2 f2).value then
      match iter_inc s1 (fuel + 1) f1, iter_inc s2 (fuel + 1) f2 with
      | some n1, some n2 => std_equal s1 s2 fuel n1 l1 n2
      | _, _ => none
    else some false

/-- `operator==(lhs, rhs)` (lines 2242-2246):
`lhs.size() == rhs.size() && std::equal(lhs.begin(), lhs.end(), rhs.begin())`. -/
def rb_tree_beq (s1 s2 : RBTree) (fuel : Nat) : Option Bool :=
  if s1.node_count == s2.node_count then
    std_equal s1 s2 fuel (leftmostP s1) (some s1.header) (leftmostP s2)
  else some false

/-- Inductive view: id, color, payload, children. -/
inductive BT where
  | leaf
  | node (i : Nat) (c : Bool) (v : Val) (l : BT) (r : BT)
deriving Repr, DecidableEq

namespace BT

/-- Pointer of the root of the view (`none` for an empty view). -/
def ptr : BT → Option Nat
  | leaf => none
  | node i _ _ _ _ => some i

/-- In-order list of (id, payload) entries. -/
def entries : BT → List (Nat × Val)
  | leaf => []
  | node i _ v l r => l.entries ++ (i, v) :: r.entries

/-- In-order ids. -/
def ids (t : BT) : List Nat := t.entries.map Prod.fst

/-- In-order payloads: the observable element sequence. -/
def inorder (t : BT) : List Val := t.entries.map Prod.snd

/-- In-order keys. -/
def keys (t : BT) : List Nat := t.inorder.map get_key

/-- Number of stored elements. -/
def size (t : BT) : Nat := t.entries.length

/-- Subtree at a path (`true` = go left). -/
def sub : BT → List Bool → Option BT
  | t, [] => some t
  | leaf, _ :: _ => none
  | node _ _ _ l r, b :: q => (if b then l else r).sub q

/-- Replace the subtree at a path. -/
def repl : BT → List Bool → BT → BT
  | _, [], u => u
  | leaf, _ :: _, _ => leaf
  | node i c v l r, b :: q, u =>
    if b then node i c v (l.repl q u) r else node i c v l (r.repl q u)

theorem ids_leaf : (leaf).ids = [] := rfl

theorem ids_node (i c v l r) :
    (node i c v l r).ids = l.ids ++ i :: r.ids := by
  simp [ids, entries]

theorem inorder_leaf : (leaf).inorder = [] := rfl

theorem inorder_node (i c v l r) :
    (node i c v l r).inorder = l.inorder ++ v :: r.inorder := by
  simp [inorder, entries]

theorem entries_leaf : (leaf).entries = [] := rfl

theorem entries_node (i c v l r) :
    (node i c v l r).entries = l.entries ++ (i, v) :: r.entries := rfl

theorem sub_nil (t : BT) : t.sub [] = some t := by cases t <;> rfl

theorem repl_nil (t u : BT) : t.repl [] u = u := by cases t <;> rfl

theorem ptr_mem_ids {t : BT} {i : Nat} (h : t.ptr = some i) : i ∈ t.ids := by
  cases t with
  | leaf => simp [ptr] at h
  | node j c v l r =>
    simp only [ptr, Option.some.injEq] at h
    subst h
    simp [ids_node]

/-- Replacement decomposes the entry list: the entries of the subtree at
the path are a contiguous segment, and replacing swaps that segment. -/
theorem entries_repl_decomp {t u : BT} {q : List Bool} (h : t.sub q = some u) :
    ∃ A B, t.entries = A ++ u.entries ++ B ∧
      ∀ u2 : BT, (t.repl q u2).entries = A ++ u2.entries ++ B := by
  induction q generalizing t with
  | nil =>
    rw [sub_nil] at h
    cases h
    exact ⟨[], [], by simp, fun u2 => by rw [repl_nil]; simp⟩
  | cons b q ih =>
    cases t with
    | leaf => simp [sub] at h
    | node i c v l r =>
      simp only [sub] at h
      cases b with
      | true =>
        simp only [if_true] at h
        obtain ⟨A, B, h1, h2⟩ := ih h
        refine ⟨A, B ++ (i, v) :: r.entries, ?_, ?_⟩
        · simp only [entries_node]
          rw [h1]
          simp
        · intro u2
          simp only [repl, if_true, entries_node]
          rw [h2 u2]
          simp
      | false =>
        simp only [Bool.false_eq_true, if_false] at h
        obtain ⟨A, B, h1, h2⟩ := ih h
        refine ⟨l.entries ++ (i, v) :: A, B, ?_, ?_⟩
        · simp only [entries_node]
          rw [h1]
          simp
        · intro u2
          simp only [repl, Bool.false_eq_true, if_false, entries_node]
          rw [h2 u2]
          simp

end BT

/-- `Realize h pp p t`: the arena `h` realizes the inductive view `t`
at pointer `p`; the root node of `t` has parent field `pp`, and every
inner node's parent field points to its tree parent. -/
inductive Realize (h : Heap) : Option Nat → Option Nat → BT → Prop
  | leaf (pp : Option Nat) : Realize h pp none .leaf
  | node {pp : Option Nat} {i : Nat} {n : Node} {l r : BT}
      (hl : hfind h i = some n) (hp : n.parent = pp)
      (hlt : Realize h (some i) n.left l) (hrt : Realize h (some i) n.right r) :
      Realize h pp (some i) (.node i n.color n.value l r)

theorem Realize.ptr_eq {h : Heap} {pp p : Option Nat} {t : BT}
    (hr : Realize h pp p t) : p = t.ptr := by
  cases hr with
  | leaf => rfl
  | node hl hp hlt hrt => rfl

/-- The node record of the root of a realized nonempty view is fully
determined: parent, children pointers, color, payload. -/
theorem Realize.node_lookup {h : Heap} {pp : Option Nat} {i : Nat} {c : Bool}
    {v : Val} {l r : BT} (hr : Realize h pp (some i) (.node i c v l r)) :
    hfind h i = some ⟨pp, l.ptr, r.ptr, c, v⟩ ∧
      Realize h (some i) l.ptr l ∧ Realize h (some i) r.ptr r := by
  cases hr with
  | node hl hp hlt hrt =>
    have h1 := hlt.ptr_eq
    have h2 := hrt.ptr_eq
    refine ⟨?_, h1 ▸ hlt, h2 ▸ hrt⟩
    rw [hl]
    rw [← h1, ← h2, ← hp]

/-- Frame rule: realization only depends on the arena entries of the
ids in the view. -/
theorem Realize.frame {h h2 : Heap} {pp p : Option Nat} {t : BT}
    (hr : Realize h pp p t)
    (hagree : ∀ i ∈ t.ids, hfind h2 i = hfind h i) :
    Realize h2 pp p t := by
  induction hr with
  | leaf pp => exact .leaf pp
  | node hl hp hlt hrt ihl ihr =>
    rename_i pp i n l r
    refine .node ?_ hp (ihl ?_) (ihr ?_)
    · rw [hagree _ (by simp [BT.ids_node]), hl]
    · intro j hj
      exact hagree _ (by simp [BT.ids_node, hj])
    · intro j hj
      exact hagree _ (by simp [BT.ids_node, hj])

/-! ## Arena access lemmas -/

theorem hfind_hset_self {h : Heap} {i : Nat} {m : Node}
    (hp : (hfind h i).isSome) : hfind (hset h i m) i = some m := by
  induction h with
  | nil => simp [hfind] at hp
  | cons e t ih =>
    obtain ⟨j, n⟩ := e
    by_cases hj : j = i
    · subst hj
      simp [hset, hfind]
    · simp only [hfind, hset, if_neg hj] at hp ⊢
      exact ih hp

theorem hfind_hset_ne {h : Heap} {i j : Nat} {m : Node} (hne : j ≠ i) :
    hfind (hset h i m) j = hfind h j := by
  induction h with
  | nil => simp [hset]
  | cons e t ih =>
    obtain ⟨a, n⟩ := e
    by_cases ha : a = i
    · subst ha
      have haj : ¬ (a = j) := fun hc => hne hc.symm
      simp [hset, hfind, haj]
    · simp only [hset, if_neg ha, hfind]
      by_cases haj : a = j <;> simp [haj, ih]

theorem hset_absent {h : Heap} {i : Nat} {m : Node} (hp : hfind h i = none) :
    hset h i m = h := by
  induction h with
  | nil => rfl
  | cons e t ih =>
    obtain ⟨a, n⟩ := e
    by_cases ha : a = i
    · subst ha
      simp [hfind] at hp
    · simp only [hfind, if_neg ha] at hp
      simp [hset, if_neg ha, ih hp]

theorem getN_some {s : RBTree} {i : Nat} {n : Node}
    (h : hfind s.heap i = some n) : getN s (some i) = n := by
  simp [getN, h]

theorem updN_some {s : RBTree} {i : Nat} {n : Node} {f : Node → Node}
    (h : hfind s.heap i = some n) :
    updN s (some i) f = { s with heap := hset s.heap i (f n) } := by
  simp [updN, h]

theorem updN_absent {s : RBTree} {i : Nat} {f : Node → Node}
    (h : hfind s.heap i = none) : updN s (some i) f = s := by
  simp [updN, h]

theorem updN_header_id (s : RBTree) (p : Option Nat) (f : Node → Node) :
    (updN s p f).header = s.header := by
  cases p with
  | none => rfl
  | some i =>
    simp only [updN]
    cases hfind s.heap i <;> rfl

theorem updN_nextId (s : RBTree) (p : Option Nat) (f : Node → Node) :
    (updN s p f).nextId = s.nextId := by
  cases p with
  | none => rfl
  | some i =>
    simp only [updN]
    cases hfind s.heap i <;> rfl

theorem updN_node_count (s : RBTree) (p : Option Nat) (f : Node → Node) :
    (updN s p f).node_count = s.node_count := by
  cases p with
  | none => rfl
  | some i =>
    simp only [updN]
    cases hfind s.heap i <;> rfl

theorem hfind_updN_ne {s : RBTree} {p : Option Nat} {f : Node → Node} {j : Nat}
    (hne : p ≠ some j) : hfind (updN s p f).heap j = hfind s.heap j := by
  cases p with
  | none => rfl
  | some i =>
    cases hn : hfind s.heap i with
    | none => rw [updN_absent hn]
    | some n =>
      rw [updN_some hn]
      exact hfind_hset_ne (fun hc => hne (by rw [hc]))

theorem hfind_updN_self {s : RBTree} {i : Nat} {n : Node} {f : Node → Node}
    (h : hfind s.heap i = some n) :
    hfind (updN s (some i) f).heap i = some (f n) := by
  rw [updN_some h]
  exact hfind_hset_self (by simp [h])

theorem hset_keys (h : Heap) (i : Nat) (m : Node) :
    (hset h i m).map Prod.fst = h.map Prod.fst := by
  induction h with
  | nil => rfl
  | cons e t ih =>
    obtain ⟨a, n⟩ := e
    by_cases ha : a = i <;> simp [hset, ha, ih]

theorem updN_keys (s : RBTree) (p : Option Nat) (f : Node → Node) :
    (updN s p f).heap.map Prod.fst = s.heap.map Prod.fst := by
  cases p with
  | none => rfl
  | some i =>
    cases hn : hfind s.heap i with
    | none => rw [updN_absent hn]
    | some n => rw [updN_some hn]; exact hset_keys _ _ _

theorem hfind_isSome_of_mem_keys {h : Heap} {i : Nat}
    (hm : i ∈ h.map Prod.fst) : (hfind h i).isSome := by
  induction h with
  | nil => simp at hm
  | cons e t ih =>
    obtain ⟨a, n⟩ := e
    simp only [List.map_cons, List.mem_cons] at hm
    by_cases ha : a = i
    · simp [hfind, ha]
    · simp only [hfind, if_neg ha]
      exact ih (hm.resolve_left (fun hc => ha hc.symm))

theorem mem_keys_of_hfind_isSome {h : Heap} {i : Nat}
    (hm : (hfind h i).isSome) : i ∈ h.map Prod.fst := by
  induction h with
  | nil => simp [hfind] at hm
  | cons e t ih =>
    obtain ⟨a, n⟩ := e
    by_cases ha : a = i
    · simp [ha]
    · simp only [hfind, if_neg ha] at hm
      simp [ih hm]

/-! ## The well-formedness invariant -/

/-- The `leftmost` cache value dictated by the view: the id of the first
in-order entry, or the header when the tree is empty. -/
def lmPtr (t : BT) (hdr : Nat) : Option Nat :=
  match t.entries with
  | [] => some hdr
  | e :: _ => some e.1

/-- The `rightmost` cache value dictated by the view. -/
def rmPtr (t : BT) (hdr : Nat) : Option Nat :=
  match t.entries.getLast? with
  | none => some hdr
  | some e => some e.1

/-- Blackness of the root of a view (trivial for the empty view). -/
def BT.rootIsBlack : BT → Prop
  | .leaf => True
  | .node _ c _ _ _ => c = rb_tree_black

/-- Well-formedness of a container state against an inductive view `t`:
the header exists and is red, `header_->parent` realizes `t` with
coherent parent pointers, ids are distinct and do not contain the
header, the `leftmost`/`rightmost` caches and `node_count_` are
correct, the in-order key sequence is sorted, the root is black, and
all allocated ids are below `nextId` and distinct. -/
structure WF (s : RBTree) (t : BT) : Prop where
  hdr_mem : (hfind s.heap s.header).isSome
  hdr_red : (getN s (some s.header)).color = rb_tree_red
  root_eq : rootP s = t.ptr
  real : Realize s.heap (some s.header) t.ptr t
  nodup : t.ids.Nodup
  hdr_notin : s.header ∉ t.ids
  lm_eq : leftmostP s = lmPtr t s.header
  rm_eq : rightmostP s = rmPtr t s.header
  count : s.node_count = t.size
  sorted : List.Sorted (· ≤ ·) t.keys
  root_black : t.rootIsBlack
  fresh : ∀ i ∈ s.heap.map Prod.fst, i < s.nextId
  heap_nodup : (s.heap.map Prod.fst).Nodup

/-- The freshly constructed tree realizes the empty view. -/
theorem wf_init : WF rb_tree_init .leaf := by
  refine ⟨?_, ?_, ?_, ?_, ?_, ?_, ?_, ?_, ?_, ?_, ?_, ?_, ?_⟩
  · simp [rb_tree_init, hfind]
  · simp [rb_tree_init, getN, hfind, rb_tree_red]
  · simp [rb_tree_init, rootP, getN, hfind, BT.ptr]
  · exact .leaf _
  · simp [BT.ids, BT.entries]
  · simp [BT.ids, BT.entries]
  · simp [rb_tree_init, leftmostP, getN, hfind, lmPtr, BT.entries]
  · simp [rb_tree_init, rightmostP, getN, hfind, rmPtr, BT.entries]
  · simp [rb_tree_init, BT.size, BT.entries]
  · simp [BT.keys, BT.inorder, BT.entries, List.Sorted]
  · trivial
  · intro i hi
    simp [rb_tree_init] at hi
    simp [hi, rb_tree_init]
  · simp [rb_tree_init]

/-! ## Correctness of the search descents -/

theorem BT.keys_node (i c v l r) :
    (BT.node i c v l r).keys = l.keys ++ get_key v :: r.keys := by
  simp [BT.keys, BT.inorder_node]

theorem option_some_or {α : Type} (a : α) (x : Option α) : (some a).or x = some a := rfl

theorem BT.keys_eq_map (t : BT) : t.keys = t.entries.map (fun e => get_key e.2) := by
  simp [BT.keys, BT.inorder, List.map_map]

/-- First in-order entry whose key is not less than `key`: the position
`lower_bound` must report. -/
def firstGE (key : Nat) (es : List (Nat × Val)) : Option (Nat × Val) :=
  es.find? (fun e => ! key_comp (get_key e.2) key)

/-- First in-order entry whose key is greater than `key`: the position
`upper_bound` must report. -/
def firstGT (key : Nat) (es : List (Nat × Val)) : Option (Nat × Val) :=
  es.find? (fun e => key_comp key (get_key e.2))

theorem sorted_keys_node {i c v l r}
    (h : List.Sorted (· ≤ ·) (BT.node i c v l r).keys) :
    List.Sorted (· ≤ ·) l.keys ∧ List.Sorted (· ≤ ·) r.keys ∧
      (∀ k ∈ l.keys, k ≤ get_key v) ∧ (∀ k ∈ r.keys, get_key v ≤ k) := by
  rw [BT.keys_node] at h
  rw [List.Sorted, List.pairwise_append] at h
  obtain ⟨h1, h2, h3⟩ := h
  rw [List.pairwise_cons] at h2
  exact ⟨h1, h2.2, fun k hk => h3 k hk _ (by simp), h2.1⟩

theorem lower_bound_loop_spec {s : RBTree} {key : Nat} :
    ∀ (t : BT) (pp : Option Nat), Realize s.heap pp t.ptr t →
      List.Sorted (· ≤ ·) t.keys →
      ∀ fuel y res, lower_bound_loop s key fuel t.ptr y = some res →
        res = (firstGE key t.entries).elim y (fun e => some e.1) := by
  intro t
  induction t with
  | leaf =>
    intro pp hr hs fuel y res hloop
    cases fuel with
    | zero => simp [lower_bound_loop] at hloop
    | succ n =>
      simp only [BT.ptr, lower_bound_loop] at hloop
      cases hloop
      simp [firstGE, BT.entries]
  | node i c v l r ihl ihr =>
    intro pp hr hs fuel y res hloop
    obtain ⟨hlk, hrl, hrr⟩ := hr.node_lookup
    obtain ⟨hsl, hsr, hbl, hbr⟩ := sorted_keys_node hs
    cases fuel with
    | zero => simp [lower_bound_loop] at hloop
    | succ n =>
      simp only [BT.ptr, lower_bound_loop, getN_some hlk] at hloop
      by_cases hc : key_comp (get_key v) key
      · -- node key < target: descend right, keeping y
        rw [if_neg (by simp [hc])] at hloop
        have ih := ihr (some i) hrr hsr n y res hloop
        have hnone : List.find? (fun e => ! key_comp (get_key e.2) key) l.entries = none := by
          rw [List.find?_eq_none]
          intro e he
          have hek : get_key e.2 ∈ l.keys := by
            rw [BT.keys_eq_map]
            exact List.mem_map.mpr ⟨e, he, rfl⟩
          have h1 : get_key e.2 ≤ get_key v := hbl _ hek
          have h2 : get_key v < key := by
            simpa [key_comp] using hc
          simp [key_comp, lt_of_le_of_lt h1 h2]
        have hiv : (fun e : Nat × Val => ! key_comp (get_key e.2) key) (i, v) = false := by
          simp [hc]
        simp only [firstGE, BT.entries_node, List.find?_append, hnone, Option.none_or,
          List.find?_cons, hiv] at ih ⊢
        exact ih
      · -- target ≤ node key: descend left, y := this node
        rw [if_pos (by simp [hc])] at hloop
        have ih := ihl (some i) hrl hsl n (some i) res hloop
        have hiv : (fun e : Nat × Val => ! key_comp (get_key e.2) key) (i, v) = true := by
          simp [hc]
        simp only [firstGE, BT.entries_node, List.find?_append, List.find?_cons, hiv] at ih ⊢
        cases hfl : List.find? (fun e => ! key_comp (get_key e.2) key) l.entries with
        | none => simp only [firstGE, hfl, Option.none_or] at ih ⊢; exact ih
        | some e => simp only [firstGE, hfl, option_some_or] at ih ⊢; exact ih

theorem upper_bound_loop_spec {s : RBTree} {key : Nat} :
    ∀ (t : BT) (pp : Option Nat), Realize s.heap pp t.ptr t →
      List.Sorted (· ≤ ·) t.keys →
      ∀ fuel y res, upper_bound_loop s key fuel t.ptr y = some res →
        res = (firstGT key t.entries).elim y (fun e => some e.1) := by
  intro t
  induction t with
  | leaf =>
    intro pp hr hs fuel y res hloop
    cases fuel with
    | zero => simp [upper_bound_loop] at hloop
    | succ n =>
      simp only [BT.ptr, upper_bound_loop] at hloop
      cases hloop
      simp [firstGT, BT.entries]
  | node i c v l r ihl ihr =>
    intro pp hr hs fuel y res hloop
    obtain ⟨hlk, hrl, hrr⟩ := hr.node_lookup
    obtain ⟨hsl, hsr, hbl, hbr⟩ := sorted_keys_node hs
    cases fuel with
    | zero => simp [upper_bound_loop] at hloop
    | succ n =>
      simp only [BT.ptr, upper_bound_loop, getN_some hlk] at hloop
      by_cases hc : key_comp key (get_key v)
      · -- target < node key: descend left, y := this node
        rw [if_pos hc] at hloop
        have ih := ihl (some i) hrl hsl n (some i) res hloop
        have hiv : (fun e : Nat × Val => key_comp key (get_key e.2)) (i, v) = true := hc
        simp only [firstGT, BT.entries_node, List.find?_append, List.find?_cons, hiv] at ih ⊢
        cases hfl : List.find? (fun e => key_comp key (get_key e.2)) l.entries with
        | none => simp only [firstGT, hfl, Option.none_or] at ih ⊢; exact ih
        | some e => simp only [firstGT, hfl, option_some_or] at ih ⊢; exact ih
      · -- node key ≤ target: descend right, keeping y
        rw [if_neg hc] at hloop
        have ih := ihr (some i) hrr hsr n y res hloop
        have hnone : List.find? (fun e => key_comp key (get_key e.2)) l.entries = none := by
          rw [List.find?_eq_none]
          intro e he
          have hek : get_key e.2 ∈ l.keys := by
            rw [BT.keys_eq_map]
            exact List.mem_map.mpr ⟨e, he, rfl⟩
          have h1 : get_key e.2 ≤ get_key v := hbl _ hek
          have h2 : get_key v ≤ key := by
            simpa [key_comp] using hc
          simp [key_comp]
          omega
        have hiv : (fun e : Nat × Val => key_comp key (get_key e.2)) (i, v) = false := by
          simpa using hc
        simp only [firstGT, BT.entries_node, List.find?_append, hnone, Option.none_or,
          List.find?_cons, hiv] at ih ⊢
        exact ih

/-- `lower_bound` returns the id of the first in-order element whose
key is not less than `key`, or `end()` (the header) when there is none. -/
theorem rb_lower_bound_spec {s : RBTree} {t : BT} {key fuel : Nat} {res : Option Nat}
    (hwf : WF s t) (h : rb_lower_bound s key fuel = some res) :
    res = (firstGE key t.entries).elim (some s.header) (fun e => some e.1) := by
  unfold rb_lower_bound at h
  rw [hwf.root_eq] at h
  exact lower_bound_loop_spec t _ hwf.real hwf.sorted fuel _ res h

/-- `upper_bound` returns the id of the first in-order element whose
key is greater than `key`, or `end()` (the header) when there is none. -/
theorem rb_upper_bound_spec {s : RBTree} {t : BT} {key fuel : Nat} {res : Option Nat}
    (hwf : WF s t) (h : rb_upper_bound s key fuel = some res) :
    res = (firstGT key t.entries).elim (some s.header) (fun e => some e.1) := by
  unfold rb_upper_bound at h
  rw [hwf.root_eq] at h
  exact upper_bound_loop_spec t _ hwf.real hwf.sorted fuel _ res h

/-- In a key-sorted entry list containing `k`, the first entry with key
not less than `k` exists and has key exactly `k`. -/
theorem firstGE_key_eq {k : Nat} :
    ∀ es : List (Nat × Val), List.Sorted (· ≤ ·) (es.map (fun e => get_key e.2)) →
      k ∈ es.map (fun e => get_key e.2) →
      ∃ e, firstGE k es = some e ∧ get_key e.2 = k := by
  intro es
  induction es with
  | nil => simp
  | cons a es ih =>
    intro hs hk
    simp only [List.map_cons, List.Sorted, List.pairwise_cons] at hs
    by_cases hp : key_comp (get_key a.2) k
    · -- a.key < k, so the head is skipped and k is in the tail
      have hak : get_key a.2 < k := by simpa [key_comp] using hp
      have hk2 : k ∈ es.map (fun e => get_key e.2) := by
        rcases List.mem_cons.mp hk with h | h
        · have hka : k = get_key a.2 := h
          omega
        · exact h
      obtain ⟨e, he1, he2⟩ := ih hs.2 hk2
      exact ⟨e, by simp [firstGE, List.find?_cons, hp] at he1 ⊢; exact he1, he2⟩
    · -- k ≤ a.key: the head is the first hit; sortedness forces a.key = k
      have hak : k ≤ get_key a.2 := by simpa [key_comp] using hp
      have hka : get_key a.2 ≤ k := by
        rcases List.mem_cons.mp hk with h | h
        · have hka : k = get_key a.2 := h
          omega
        · exact hs.1 _ h
      refine ⟨a, ?_, by omega⟩
      simp [firstGE, List.find?_cons, hp]

theorem mem_keys_of_firstGE {k : Nat} {es : List (Nat × Val)} {e : Nat × Val}
    (h : firstGE k es = some e) : get_key e.2 ∈ es.map (fun x => get_key x.2) := by
  exact List.mem_map.mpr ⟨e, List.mem_of_find?_eq_some h, rfl⟩

/-- Every in-order entry of a realized view is present in the arena
with its payload. -/
theorem realize_entry_lookup {h : Heap} {pp p : Option Nat} {t : BT}
    (hr : Realize h pp p t) :
    ∀ e ∈ t.entries, ∃ n, hfind h e.1 = some n ∧ n.value = e.2 := by
  induction hr with
  | leaf => intro e he; simp [BT.entries] at he
  | node hl hp hlt hrt ihl ihr =>
    rename_i pp i n l r
    intro e he
    rcases (by simpa [BT.entries_node] using he :
        e ∈ l.entries ∨ e = (i, n.value) ∨ e ∈ r.entries) with hm | hm | hm
    · exact ihl e hm
    · subst hm; exact ⟨n, hl, rfl⟩
    · exact ihr e hm

/-- `find(key)`, present case: returns a real position holding an
element whose key equals `key`. -/
theorem rb_find_present {s : RBTree} {t : BT} {k fuel : Nat} {res : Option Nat}
    (hwf : WF s t) (hk : k ∈ t.keys) (h : rb_find s k fuel = some res) :
    ∃ i v, res = some i ∧ (i, v) ∈ t.entries ∧ get_key v = k ∧ i ≠ s.header := by
  unfold rb_find at h
  rw [hwf.root_eq] at h
  cases hj : lower_bound_loop s k fuel t.ptr (some s.header) with
  | none => rw [hj] at h; exact absurd h (by simp)
  | some j =>
    rw [hj] at h
    have hspec := lower_bound_loop_spec t _ hwf.real hwf.sorted fuel _ j hj
    rw [BT.keys_eq_map] at hk
    obtain ⟨e, he1, he2⟩ := firstGE_key_eq t.entries (BT.keys_eq_map t ▸ hwf.sorted) hk
    have hspec2 : j = some e.1 := by rw [hspec, he1]; rfl
    subst hspec2
    have hmem : e ∈ t.entries := List.mem_of_find?_eq_some he1
    have hid : e.1 ∈ t.ids := List.mem_map.mpr ⟨e, hmem, rfl⟩
    have hne : e.1 ≠ s.header := fun hc => hwf.hdr_notin (hc ▸ hid)
    obtain ⟨n, hn1, hn2⟩ := realize_entry_lookup hwf.real e hmem
    have hget : getN s (some e.1) = n := getN_some hn1
    have hcheck : (some e.1 == some s.header || key_comp k (get_key (getN s (some e.1)).value)) = false := by
      simp only [hget, hn2, he2]
      simp [hne, key_comp]
    simp only [Option.map_some', hcheck, Bool.false_eq_true, if_false,
      Option.some.injEq] at h
    exact ⟨e.1, e.2, h.symm, hmem, he2, hne⟩

/-- `find(key)`, absent case: returns `end()` (the header). -/
theorem rb_find_absent {s : RBTree} {t : BT} {k fuel : Nat} {res : Option Nat}
    (hwf : WF s t) (hk : k ∉ t.keys) (h : rb_find s k fuel = some res) :
    res = some s.header := by
  unfold rb_find at h
  rw [hwf.root_eq] at h
  cases hj : lower_bound_loop s k fuel t.ptr (some s.header) with
  | none => rw [hj] at h; exact absurd h (by simp)
  | some j =>
    rw [hj] at h
    have hspec := lower_bound_loop_spec t _ hwf.real hwf.sorted fuel _ j hj
    cases he : firstGE k t.entries with
    | none =>
      have hspec2 : j = some s.header := by rw [hspec, he]; rfl
      subst hspec2
      simp only [Option.map_some', beq_self_eq_true, Bool.true_or, if_pos,
        Option.some.injEq] at h
      exact h.symm
    | some e =>
      have hspec2 : j = some e.1 := by rw [hspec, he]; rfl
      subst hspec2
      -- the found entry has key ≥ k but cannot have key = k
      have hge : ¬ key_comp (get_key e.2) k := by
        have := List.find?_some he
        simpa [firstGE] using this
      have hne : get_key e.2 ≠ k := by
        intro hc
        exact hk (by rw [BT.keys_eq_map]; exact hc ▸ mem_keys_of_firstGE he)
      have hmem : e ∈ t.entries := List.mem_of_find?_eq_some he
      obtain ⟨n, hn1, hn2⟩ := realize_entry_lookup hwf.real e hmem
      have hget : getN s (some e.1) = n := getN_some hn1
      have hcheck : key_comp k (get_key (getN s (some e.1)).value) = true := by
        simp only [hget, hn2]
        simp only [key_comp] at hge ⊢
        simp at hge
        simp
        omega
      simp only [Option.map_some', hcheck, Bool.or_true, if_true,
        Option.some.injEq] at h
      exact h.symm

/-! ## Executable checkers (used to validate concrete witness states) -/

/-- Boolean version of `Realize`. -/
def realizeB (h : Heap) : Option Nat → Option Nat → BT → Bool
  | _, p, .leaf => p == none
  | pp, p, .node i c v l r =>
    p == some i &&
    match hfind h i with
    | none => false
    | some n =>
      n.parent == pp && n.color == c && n.value == v &&
      realizeB h (some i) n.left l && realizeB h (some i) n.right r

theorem realizeB_sound {h : Heap} :
    ∀ {t : BT} {pp p : Option Nat}, realizeB h pp p t = true → Realize h pp p t := by
  intro t
  induction t with
  | leaf =>
    intro pp p hb
    simp only [realizeB, beq_iff_eq] at hb
    subst hb
    exact .leaf pp
  | node i c v l r ihl ihr =>
    intro pp p hb
    simp only [realizeB, Bool.and_eq_true, beq_iff_eq] at hb
    obtain ⟨hp, hrest⟩ := hb
    subst hp
    cases hn : hfind h i with
    | none => rw [hn] at hrest; simp at hrest
    | some n =>
      rw [hn] at hrest
      simp only [Bool.and_eq_true, beq_iff_eq] at hrest
      obtain ⟨⟨⟨⟨hpp, hc⟩, hv⟩, hl⟩, hr⟩ := hrest
      have := Realize.node (l := l) (r := r) hn hpp (ihl hl) (ihr hr)
      rw [hc, hv] at this
      exact this

/-- Boolean version of `WF`. -/
def wfB (s : RBTree) (t : BT) : Bool :=
  (hfind s.heap s.header).isSome &&
  (getN s (some s.header)).color == rb_tree_red &&
  rootP s == t.ptr &&
  realizeB s.heap (some s.header) t.ptr t &&
  t.ids.Nodup &&
  decide (s.header ∉ t.ids) &&
  leftmostP s == lmPtr t s.header &&
  rightmostP s == rmPtr t s.header &&
  s.node_count == t.size &&
  decide (List.Sorted (· ≤ ·) t.keys) &&
  (match t with | .leaf => true | .node _ c _ _ _ => c == rb_tree_black) &&
  s.heap.all (fun e => decide (e.1 < s.nextId)) &&
  (s.heap.map Prod.fst).Nodup

theorem WF_of_wfB {s : RBTree} {t : BT} (h : wfB s t = true) : WF s t := by
  simp only [wfB, Bool.and_eq_true, beq_iff_eq, decide_eq_true_eq, List.all_eq_true,
    List.nodup_iff_sublist] at h
  obtain ⟨⟨⟨⟨⟨⟨⟨⟨⟨⟨⟨⟨h1, h2⟩, h3⟩, h4⟩, h5⟩, h6⟩, h7⟩, h8⟩, h9⟩, h10⟩, h11⟩, h12⟩, h13⟩ := h
  refine ⟨h1, h2, h3, realizeB_sound h4, List.nodup_iff_sublist.mpr h5, h6, h7, h8, h9, h10,
    ?_, fun i hi => ?_, List.nodup_iff_sublist.mpr h13⟩
  · cases t with
    | leaf => trivial
    | node i c v l r => simpa [BT.rootIsBlack] using h11
  · obtain ⟨e, he, hei⟩ := List.mem_map.mp hi
    exact hei ▸ h12 e he

/-- Read the inductive view out of a concrete arena (fuel-bounded). -/
def readTree (s : RBTree) : Nat → Option Nat → Option BT
  | 0, _ => none
  | _ + 1, none => some .leaf
  | fuel + 1, some i =>
    match hfind s.heap i with
    | none => none
    | some n =>
      match readTree s fuel n.left, readTree s fuel n.right with
      | some l, some r => some (.node i n.color n.value l r)
      | _, _ => none

/-! ## Operation sequences and reachability -/

/-- A public mutating call: non-hinted insert (multi or unique flavor)
and erase by key (multi or unique flavor). -/
inductive Op where
  | insM (v : Val)
  | insU (v : Val)
  | eraU (k : Nat)
  | eraM (k : Nat)
deriving Repr, DecidableEq

/-- Run one call; `none` when the call did not return normally. -/
def run_op (s : RBTree) (fuel : Nat) : Op → Option RBTree
  | .insM v =>
    match insert_multi s v fuel with
    | .ok (s1, _) => some s1
    | _ => none
  | .insU v =>
    match insert_unique s v fuel with
    | .ok (s1, _, _) => some s1
    | _ => none
  | .eraU k => (erase_unique s k fuel).map Prod.fst
  | .eraM k => (erase_multi s k fuel).map Prod.fst

/-- Run a sequence of calls, all of which must return. -/
def run_ops (fuel : Nat) : RBTree → List Op → Option RBTree
  | s, [] => some s
  | s, op :: ops =>
    match run_op s fuel op with
    | none => none
    | some s1 => run_ops fuel s1 ops

/-- Build a tree from a list of keys via `insert_unique` (payload 0). -/
def build_unique (ks : List Nat) (fuel : Nat) : Option RBTree :=
  ks.foldlM (fun s k =>
    match insert_unique s (k, 0) fuel with
    | .ok (s1, _, _) => some s1
    | _ => none) rb_tree_init

/-- The concrete tree `{1,3,5,7,9}` of the spec's boundary scenario 5. -/
def sample_tree : RBTree := (build_unique [1, 3, 5, 7, 9] 100).getD rb_tree_init

/-- Its inductive view, read back from the arena. -/
def sample_view : BT := (readTree sample_tree 100 (rootP sample_tree)).getD .leaf

/-! ## Claim theorems: searches -/

/-- C4: for every well-formed tree state, if some element with key `k`
is present then `find(k)` returns a real position holding an element
whose key equals `k`; if no such element is present, `find(k)` returns
`end()` (the header). -/
theorem claim_C4 (s : RBTree) (t : BT) (k fuel : Nat) (res : Option Nat)
    (hwf : WF s t) (h : rb_find s k fuel = some res) :
    (k ∈ t.keys →
      ∃ i v, res = some i ∧ (i, v) ∈ t.entries ∧ get_key v = k ∧ i ≠ s.header) ∧
    (k ∉ t.keys → res = some s.header) :=
  ⟨fun hk => rb_find_present hwf hk h, fun hk => rb_find_absent hwf hk h⟩

theorem claim_C4_witness :
    ∃ i v, (some 4 : Option Nat) = some i ∧ (i, v) ∈ sample_view.entries ∧
      get_key v = 7 ∧ i ≠ sample_tree.header :=
  (claim_C4 sample_tree sample_view 7 100 (some 4)
    (WF_of_wfB (by decide)) (by decide)).1 (by decide)

/-- C7: for every well-formed tree state, `lower_bound(key)` returns
the position of the first in-order element not less than `key` (the
header, i.e. `end()`, when there is none) and `upper_bound(key)` the
position of the first in-order element greater than `key`; concretely,
on `{1,3,5,7,9}` `lower_bound(7)`/`upper_bound(7)` return the positions
of `7`/`9`, and on `{1,3,5,9}` both return the position of `9`. -/
theorem claim_C7 :
    (∀ (s : RBTree) (t : BT) (key fuel : Nat) (res : Option Nat), WF s t →
      (rb_lower_bound s key fuel = some res →
        res = (firstGE key t.entries).elim (some s.header) (fun e => some e.1)) ∧
      (rb_upper_bound s key fuel = some res →
        res = (firstGT key t.entries).elim (some s.header) (fun e => some e.1))) ∧
    ((build_unique [1, 3, 5, 7, 9] 100).bind (fun s =>
      (rb_lower_bound s 7 100).map (fun p => get_key (getN s p).value)) = some 7) ∧
    ((build_unique [1, 3, 5, 7, 9] 100).bind (fun s =>
      (rb_upper_bound s 7 100).map (fun p => get_key (getN s p).value)) = some 9) ∧
    ((build_unique [1, 3, 5, 9] 100).bind (fun s =>
      (rb_lower_bound s 7 100).map (fun p => get_key (getN s p).value)) = some 9) ∧
    ((build_unique [1, 3, 5, 9] 100).bind (fun s =>
      (rb_upper_bound s 7 100).map (fun p => get_key (getN s p).value)) = some 9) := by
  refine ⟨?_, by decide, by decide, by decide, by decide⟩
  intro s t key fuel res hwf
  exact ⟨fun h => rb_lower_bound_spec hwf h, fun h => rb_upper_bound_spec hwf h⟩

theorem BT.sub_entries_decomp {t u : BT} {q : List Bool} (h : t.sub q = some u) :
    ∃ A B, t.entries = A ++ u.entries ++ B := by
  obtain ⟨A, B, h1, _⟩ := BT.entries_repl_decomp h
  exact ⟨A, B, h1⟩

theorem BT.sub_ids_subset {t u : BT} {q : List Bool} (h : t.sub q = some u) :
    ∀ j ∈ u.ids, j ∈ t.ids := by
  obtain ⟨A, B, h1⟩ := BT.sub_entries_decomp h
  intro j hj
  obtain ⟨e, he, hej⟩ := List.mem_map.mp hj
  exact List.mem_map.mpr ⟨e, by simp [h1, he], hej⟩

/-- A nonempty subtree on a nonempty path has an id different from the
root id (by id distinctness). -/
theorem BT.sub_ptr_ne_root {t u : BT} {q : List Bool} {b : Bool} {i j : Nat}
    (h : t.sub (b :: q) = some u) (ht : t.ptr = some i) (hu : u.ptr = some j)
    (hnd : t.ids.Nodup) : j ≠ i := by
  cases t with
  | leaf => simp [BT.ptr] at ht
  | node i2 c v l r =>
    simp only [BT.ptr, Option.some.injEq] at ht
    subst ht
    simp only [BT.sub] at h
    rw [BT.ids_node] at hnd
    obtain ⟨h1, h2, h3⟩ := List.nodup_append.mp hnd
    have hj : j ∈ (if b then l else r).ids := BT.sub_ids_subset h _ (BT.ptr_mem_ids hu)
    intro hc
    subst hc
    cases b with
    | true => exact h3 (by simpa using hj) (by simp)
    | false => exact (List.nodup_cons.mp h2).1 (by simpa using hj)

/-- Splitting the last step off a path: the subtree at `q ++ [b]` is a
child of the inner node at `q`. -/
theorem BT.sub_snoc (t : BT) (q : List Bool) (b : Bool) :
    t.sub (q ++ [b]) =
      (t.sub q).bind (fun u =>
        match u with
        | .leaf => none
        | .node _ _ _ l r => some (if b then l else r)) := by
  induction q generalizing t with
  | nil =>
    rw [List.nil_append, sub_nil, Option.some_bind]
    cases t with
    | leaf => rfl
    | node i c v l r => simp [BT.sub, BT.sub_nil]
  | cons b0 q ih =>
    cases t with
    | leaf => rfl
    | node i c v l r =>
      simp only [List.cons_append, BT.sub]
      exact ih _

/-- Every id in a view is the id of an inner node at some path. -/
theorem BT.mem_ids_sub {t : BT} {j : Nat} (h : j ∈ t.ids) :
    ∃ q c v l r, t.sub q = some (.node j c v l r) := by
  induction t with
  | leaf => simp [BT.ids, BT.entries] at h
  | node i c v l r ihl ihr =>
    rw [BT.ids_node] at h
    rcases List.mem_append.mp h with hm | hm
    · obtain ⟨q, c2, v2, l2, r2, hq⟩ := ihl hm
      exact ⟨true :: q, c2, v2, l2, r2, by simpa [BT.sub] using hq⟩
    · rcases List.mem_cons.mp hm with hm1 | hm2
      · exact ⟨[], c, v, l, r, by simp [hm1, BT.sub_nil]⟩
      · obtain ⟨q, c2, v2, l2, r2, hq⟩ := ihr hm2
        exact ⟨false :: q, c2, v2, l2, r2, by simpa [BT.sub] using hq⟩

/-- The subtree at a path is realized, with its parent pointer being
the header (empty path) or the id of the inner node one step up. -/
theorem realize_sub_parent {h : Heap} {pp root : Option Nat} {T : BT}
    (hr : Realize h pp root T) :
    ∀ q u, T.sub q = some u →
      (q = [] ∧ Realize h pp u.ptr u) ∨
      (∃ q2 b j c v l r, q = q2 ++ [b] ∧ T.sub q2 = some (.node j c v l r) ∧
        u = (if b then l else r) ∧ Realize h (some j) u.ptr u) := by
  induction T generalizing pp root with
  | leaf =>
    intro q u hq
    cases q with
    | nil =>
      rw [BT.sub_nil] at hq
      cases hq
      refine Or.inl ⟨rfl, ?_⟩
      rw [← hr.ptr_eq]
      exact hr
    | cons b q2 => simp [BT.sub] at hq
  | node i c v l r ihl ihr =>
    intro q u hq
    cases q with
    | nil =>
      rw [BT.sub_nil] at hq
      cases hq
      refine Or.inl ⟨rfl, ?_⟩
      rw [← hr.ptr_eq]
      exact hr
    | cons b q2 =>
      have he : root = some i := hr.ptr_eq
      subst he
      obtain ⟨hlk, hrl, hrr⟩ := hr.node_lookup
      simp only [BT.sub] at hq
      cases b with
      | true =>
        simp only [if_true] at hq
        rcases ihl hrl q2 u hq with ⟨hq2, hru⟩ | ⟨q3, b2, j, c2, v2, l2, r2, hq3, hsub, hown, hru⟩
        · subst hq2
          rw [BT.sub_nil] at hq
          cases hq
          exact Or.inr ⟨[], true, i, c, v, l, r, rfl, BT.sub_nil _, by simp, hru⟩
        · subst hq3
          refine Or.inr ⟨true :: q3, b2, j, c2, v2, l2, r2, rfl, ?_, hown, hru⟩
          simpa [BT.sub] using hsub
      | false =>
        simp only [Bool.false_eq_true, if_false] at hq
        rcases ihr hrr q2 u hq with ⟨hq2, hru⟩ | ⟨q3, b2, j, c2, v2, l2, r2, hq3, hsub, hown, hru⟩
        · subst hq2
          rw [BT.sub_nil] at hq
          cases hq
          exact Or.inr ⟨[], false, i, c, v, l, r, rfl, BT.sub_nil _, by simp, hru⟩
        · subst hq3
          refine Or.inr ⟨false :: q3, b2, j, c2, v2, l2, r2, rfl, ?_, hown, hru⟩
          simpa [BT.sub] using hsub

/-! ## Graft lemmas: rebuilding realization after a local surgery -/

theorem BT.repl_ptr {t u2 : BT} {q : List Bool} (hq : q ≠ []) :
    (t.repl q u2).ptr = t.ptr := by
  cases q with
  | nil => exact absurd rfl hq
  | cons b q =>
    cases t with
    | leaf => rfl
    | node i c v l r =>
      simp only [BT.repl]
      cases b <;> simp [BT.ptr]

theorem nodup_node_parts {i : Nat} {c : Bool} {v : Val} {l r : BT}
    (h : (BT.node i c v l r).ids.Nodup) :
    l.ids.Nodup ∧ r.ids.Nodup ∧ i ∉ l.ids ∧ i ∉ r.ids ∧
      ∀ j ∈ l.ids, j ∉ r.ids := by
  rw [BT.ids_node] at h
  obtain ⟨h1, h2, h3⟩ := List.nodup_append.mp h
  obtain ⟨h4, h5⟩ := List.nodup_cons.mp h2
  refine ⟨h1, h5, fun hc => h3 hc (by simp), h4, fun j hj hc => h3 hj (by simp [hc])⟩

/-- Graft with an unchanged subtree root pointer: if the arena changed
only at ids inside the subtree at the path, and the new subtree is
realized wherever the old one was, the replaced view is realized. -/
theorem realize_graft_same {h h2 : Heap} :
    ∀ {q : List Bool} {T u u2 : BT} {pp root : Option Nat},
      Realize h pp root T → T.sub q = some u → T.ids.Nodup →
      u2.ptr = u.ptr →
      (∀ j ∈ T.ids, j ∉ u.ids → hfind h2 j = hfind h j) →
      (∀ pp2, Realize h pp2 u.ptr u → Realize h2 pp2 u2.ptr u2) →
      Realize h2 pp root (T.repl q u2) := by
  intro q
  induction q with
  | nil =>
    intro T u u2 pp root hr hsub hnd hptr hagree hnew
    rw [BT.sub_nil, Option.some.injEq] at hsub
    rw [BT.repl_nil]
    rw [hsub] at hr
    have hx : Realize h pp u.ptr u := by rw [← hr.ptr_eq]; exact hr
    have hy := hnew pp hx
    have hroot : root = u2.ptr := by rw [hr.ptr_eq, hptr]
    rw [hroot]
    exact hy
  | cons b q ih =>
    intro T u u2 pp root hr hsub hnd hptr hagree hnew
    cases T with
    | leaf => simp [BT.sub] at hsub
    | node i c v l r =>
      have hroot : root = some i := hr.ptr_eq
      subst hroot
      obtain ⟨hlk, hrl, hrr⟩ := hr.node_lookup
      obtain ⟨hndl, hndr, hil, hir, hdisj⟩ := nodup_node_parts hnd
      simp only [BT.sub] at hsub
      have huT : ∀ j ∈ u.ids, j ∈ (BT.node i c v l r).ids := by
        intro j hj
        refine BT.sub_ids_subset (q := b :: q) ?_ j hj
        simp [BT.sub, hsub]
      have hiu : i ∉ u.ids := by
        intro hc
        have := BT.sub_ids_subset hsub i hc
        cases b with
        | true => exact hil (by simpa using this)
        | false => exact hir (by simpa using this)
      have hirec : hfind h2 i = some ⟨pp, l.ptr, r.ptr, c, v⟩ := by
        rw [hagree i (by simp [BT.ids_node]) hiu, hlk]
      cases b with
      | true =>
        simp only [if_true] at hsub
        have husubl : ∀ j ∈ u.ids, j ∈ l.ids := BT.sub_ids_subset hsub
        have hlrec : Realize h2 (some i) l.ptr (l.repl q u2) :=
          ih hrl hsub hndl hptr
            (fun j hj hju => hagree j (by simp [BT.ids_node, hj]) hju) hnew
        have hrrec : Realize h2 (some i) r.ptr r := by
          refine hrr.frame (fun j hj => ?_)
          exact hagree j (by simp [BT.ids_node, hj])
            (fun hju => hdisj j (husubl j hju) hj)
        have hres := Realize.node (l := l.repl q u2) (r := r) hirec rfl hlrec hrrec
        simpa [BT.repl] using hres
      | false =>
        simp only [Bool.false_eq_true, if_false] at hsub
        have husubr : ∀ j ∈ u.ids, j ∈ r.ids := BT.sub_ids_subset hsub
        have hrrec : Realize h2 (some i) r.ptr (r.repl q u2) :=
          ih hrr hsub hndr hptr
            (fun j hj hju => hagree j (by simp [BT.ids_node, hj]) hju) hnew
        have hlrec : Realize h2 (some i) l.ptr l := by
          refine hrl.frame (fun j hj => ?_)
          exact hagree j (by simp [BT.ids_node, hj])
            (fun hju => hdisj j hj (husubr j hju))
        have hres := Realize.node (l := l) (r := r.repl q u2) hirec rfl hlrec hrrec
        simpa [BT.repl] using hres

/-- Graft with a changed subtree root pointer: the inner node at the
path gets its `b`-side child pointer rewritten to the new subtree root;
everything else outside the replaced child is untouched. -/
theorem realize_graft_child {h h2 : Heap} :
    ∀ {q : List Bool} {T : BT} {b : Bool} {pid : Nat} {pc : Bool} {pv : Val}
      {pl pr : BT} {u2 : BT} {pp root : Option Nat},
      Realize h pp root T → T.sub q = some (.node pid pc pv pl pr) → T.ids.Nodup →
      (∀ j ∈ T.ids, j ∉ (if b then pl else pr).ids → j ≠ pid → hfind h2 j = hfind h j) →
      (∃ pn, hfind h pid = some pn ∧
        hfind h2 pid = some (if b then { pn with left := u2.ptr }
                             else { pn with right := u2.ptr })) →
      Realize h2 (some pid) u2.ptr u2 →
      Realize h2 pp root (T.repl (q ++ [b]) u2) := by
  intro q
  induction q with
  | nil =>
    intro T b pid pc pv pl pr u2 pp root hr hsub hnd hagree hpar hnew
    rw [BT.sub_nil] at hsub
    cases hsub
    have hroot : root = some pid := hr.ptr_eq
    subst hroot
    obtain ⟨hlk, hrl, hrr⟩ := hr.node_lookup
    obtain ⟨hndl, hndr, hil, hir, hdisj⟩ := nodup_node_parts hnd
    obtain ⟨pn, hpn1, hpn2⟩ := hpar
    rw [hlk] at hpn1
    cases hpn1
    cases b with
    | true =>
      have hrrec : Realize h2 (some pid) pr.ptr pr := by
        refine hrr.frame (fun j hj => ?_)
        refine hagree j (by simp [BT.ids_node, hj])
          (by simp only [if_true]; exact fun hju => hdisj j hju hj)
          (fun hc => hir (hc ▸ hj))
      have hres := Realize.node (l := u2) (r := pr)
        (n := ⟨pp, u2.ptr, pr.ptr, pc, pv⟩) (by simpa using hpn2) rfl hnew hrrec
      simpa [BT.repl, BT.repl_nil] using hres
    | false =>
      have hlrec : Realize h2 (some pid) pl.ptr pl := by
        refine hrl.frame (fun j hj => ?_)
        refine hagree j (by simp [BT.ids_node, hj])
          (by simp only [Bool.false_eq_true, if_false]; exact fun hju => hdisj j hj hju)
          (fun hc => hil (hc ▸ hj))
      have hres := Realize.node (l := pl) (r := u2)
        (n := ⟨pp, pl.ptr, u2.ptr, pc, pv⟩) (by simpa using hpn2) rfl hlrec hnew
      simpa [BT.repl, BT.repl_nil] using hres
  | cons b0 q ih =>
    intro T b pid pc pv pl pr u2 pp root hr hsub hnd hagree hpar hnew
    cases T with
    | leaf => simp [BT.sub] at hsub
    | node i c v l r =>
      have hroot : root = some i := hr.ptr_eq
      subst hroot
      obtain ⟨hlk, hrl, hrr⟩ := hr.node_lookup
      obtain ⟨hndl, hndr, hil, hir, hdisj⟩ := nodup_node_parts hnd
      simp only [BT.sub] at hsub
      have hmemUp : ∀ j ∈ (if b then pl else pr).ids, j ∈ (BT.node pid pc pv pl pr).ids := by
        intro j hj
        rw [BT.ids_node]
        cases b with
        | true => exact List.mem_append.mpr (Or.inl (by simpa using hj))
        | false =>
          exact List.mem_append.mpr (Or.inr (List.mem_cons.mpr (Or.inr (by simpa using hj))))
      cases b0 with
      | true =>
        simp only [if_true] at hsub
        have husub : ∀ j ∈ (if b then pl else pr).ids, j ∈ l.ids := fun j hj =>
          BT.sub_ids_subset hsub j (hmemUp j hj)
        have hpidl : pid ∈ l.ids :=
          BT.sub_ids_subset hsub pid (by simp [BT.ids_node])
        have hipid : i ≠ pid := fun hc => hil (hc ▸ hpidl)
        have hiu : i ∉ (if b then pl else pr).ids := fun hc => hil (husub i hc)
        have hirec : hfind h2 i = some ⟨pp, l.ptr, r.ptr, c, v⟩ := by
          rw [hagree i (by simp [BT.ids_node]) hiu hipid, hlk]
        have hlrec : Realize h2 (some i) l.ptr (l.repl (q ++ [b]) u2) :=
          ih hrl hsub hndl
            (fun j hj hju hjp => hagree j (by simp [BT.ids_node, hj]) hju hjp) hpar hnew
        have hrrec : Realize h2 (some i) r.ptr r := by
          refine hrr.frame (fun j hj => ?_)
          refine hagree j (by simp [BT.ids_node, hj])
            (fun hju => hdisj j (husub j hju) hj)
            (fun hc => hdisj pid hpidl (hc ▸ hj))
        have hres := Realize.node (l := l.repl (q ++ [b]) u2) (r := r)
          (n := ⟨pp, l.ptr, r.ptr, c, v⟩) hirec rfl hlrec hrrec
        simpa [BT.repl] using hres
      | false =>
        simp only [Bool.false_eq_true, if_false] at hsub
        have husub : ∀ j ∈ (if b then pl else pr).ids, j ∈ r.ids := fun j hj =>
          BT.sub_ids_subset hsub j (hmemUp j hj)
        have hpidr : pid ∈ r.ids :=
          BT.sub_ids_subset hsub pid (by simp [BT.ids_node])
        have hipid : i ≠ pid := fun hc => hir (hc ▸ hpidr)
        have hiu : i ∉ (if b then pl else pr).ids := fun hc => hir (husub i hc)
        have hirec : hfind h2 i = some ⟨pp, l.ptr, r.ptr, c, v⟩ := by
          rw [hagree i (by simp [BT.ids_node]) hiu hipid, hlk]
        have hrrec : Realize h2 (some i) r.ptr (r.repl (q ++ [b]) u2) :=
          ih hrr hsub hndr
            (fun j hj hju hjp => hagree j (by simp [BT.ids_node, hj]) hju hjp) hpar hnew
        have hlrec : Realize h2 (some i) l.ptr l := by
          refine hrl.frame (fun j hj => ?_)
          refine hagree j (by simp [BT.ids_node, hj])
            (fun hju => hdisj j hj (husub j hju))
            (fun hc => hdisj pid (hc ▸ hj) hpidr)
        have hres := Realize.node (l := l) (r := r.repl (q ++ [b]) u2)
          (n := ⟨pp, l.ptr, r.ptr, c, v⟩) hirec rfl hlrec hrrec
        simpa [BT.repl] using hres

theorem BT.sub_nodup {t u : BT} {q : List Bool} (h : t.sub q = some u)
    (hnd : t.ids.Nodup) : u.ids.Nodup := by
  obtain ⟨A, B, hAB⟩ := BT.sub_entries_decomp h
  have : t.ids = A.map Prod.fst ++ u.ids ++ B.map Prod.fst := by
    simp [BT.ids, hAB]
  rw [this] at hnd
  exact (List.nodup_append.mp (List.nodup_append.mp hnd).1).2.1

/-- The id of an inner node on a nonempty path differs from the root id. -/
theorem BT.sub_ne_root {t u : BT} {q : List Bool} {i j : Nat}
    (h : t.sub q = some u) (hq : q ≠ []) (ht : t.ptr = some i) (hu : u.ptr = some j)
    (hnd : t.ids.Nodup) : j ≠ i := by
  cases q with
  | nil => exact absurd rfl hq
  | cons b q2 => exact BT.sub_ptr_ne_root h ht hu hnd

/-- The guarded parent rewrite `if (w != nullptr) w->parent = p2` (as
in the rotations): the subtree hanging at `w` is realized with the new
parent pointer, and nothing else changes. -/
theorem parent_write_spec {s s2 : RBTree} {pp w : Option Nat} {W : BT}
    (hr : Realize s.heap pp w W) (hnd : W.ids.Nodup) (p2 : Option Nat)
    (hs2 : s2 = updN s w (fun n => { n with parent := p2 })) :
    Realize s2.heap p2 w W ∧
      (∀ j : Nat, w ≠ some j → hfind s2.heap j = hfind s.heap j) ∧
      s2.header = s.header ∧ s2.nextId = s.nextId ∧
      s2.node_count = s.node_count ∧ s2.heap.map Prod.fst = s.heap.map Prod.fst := by
  cases hr with
  | leaf pp =>
    subst hs2
    exact ⟨.leaf p2, fun j _ => rfl, rfl, rfl, rfl, rfl⟩
  | node hl hp hlt hrt =>
    rename_i i n l r
    subst hs2
    obtain ⟨hndl, hndr, hil, hir, hdisj⟩ := nodup_node_parts hnd
    have hupd : hfind (updN s (some i) (fun n => { n with parent := p2 })).heap i =
        some { n with parent := p2 } := hfind_updN_self hl
    have hne : ∀ j : Nat, j ≠ i →
        hfind (updN s (some i) (fun n => { n with parent := p2 })).heap j = hfind s.heap j :=
      fun j hj => hfind_updN_ne (fun hc => hj (by injection hc with h2; exact h2.symm))
    refine ⟨?_, fun j hj => hne j (fun hc => hj (by rw [hc])), updN_header_id .., updN_nextId ..,
      updN_node_count .., updN_keys ..⟩
    refine Realize.node (n := { n with parent := p2 }) hupd rfl ?_ ?_
    · exact hlt.frame (fun j hj => hne j (fun hc => hil (hc ▸ hj)))
    · exact hrt.frame (fun j hj => hne j (fun hc => hir (hc ▸ hj)))

theorem rotate_left_spec (s : RBTree) (root : Option Nat) (T : BT) (q : List Bool)
    (x y : Nat) (cx cy : Bool) (vx vy : Val) (A B C : BT)
    (hr : Realize s.heap (some s.header) root T)
    (hroot : root = T.ptr)
    (hnd : T.ids.Nodup)
    (hsub : T.sub q = some (.node x cx vx A (.node y cy vy B C))) :
    Realize (rb_tree_rotate_left s (some x) root).1.heap (some s.header)
        (rb_tree_rotate_left s (some x) root).2
        (T.repl q (.node y cy vy (.node x cx vx A B) C)) ∧
      (rb_tree_rotate_left s (some x) root).2 =
        (T.repl q (.node y cy vy (.node x cx vx A B) C)).ptr ∧
      (∀ j, j ∉ T.ids → hfind (rb_tree_rotate_left s (some x) root).1.heap j = hfind s.heap j) ∧
      (rb_tree_rotate_left s (some x) root).1.header = s.header ∧
      (rb_tree_rotate_left s (some x) root).1.nextId = s.nextId ∧
      (rb_tree_rotate_left s (some x) root).1.node_count = s.node_count ∧
      (rb_tree_rotate_left s (some x) root).1.heap.map Prod.fst = s.heap.map Prod.fst := by
  -- nodup facts
  have hndu := BT.sub_nodup hsub hnd
  obtain ⟨hndA, hndY, hxA, hxY, hdAY⟩ := nodup_node_parts hndu
  obtain ⟨hndB, hndC, hyB, hyC, hdBC⟩ := nodup_node_parts hndY
  have hxy : x ≠ y := fun hc => hxY (by simp [BT.ids_node, hc])
  have hxB : x ∉ B.ids := fun hc => hxY (by simp [BT.ids_node, hc])
  have hxC : x ∉ C.ids := fun hc => hxY (by simp [BT.ids_node, hc])
  have hBx : B.ptr ≠ some x := fun hc => hxB (BT.ptr_mem_ids hc)
  have hBy : B.ptr ≠ some y := fun hc => hyB (BT.ptr_mem_ids hc)
  have hmemT : ∀ j ∈ (BT.node x cx vx A (BT.node y cy vy B C)).ids, j ∈ T.ids :=
    BT.sub_ids_subset hsub
  rcases realize_sub_parent hr _ _ hsub with ⟨hqnil, hru⟩ |
    ⟨q2, b, pid, pc, pv, pl, pr, hq, hsubp, hchild, hru⟩
  · -- the rotated node is the root
    subst hqnil
    rw [BT.sub_nil, Option.some.injEq] at hsub
    subst hsub
    have hroot2 : root = some x := hroot
    have hru2 : Realize s.heap (some s.header) (some x)
        (BT.node x cx vx A (BT.node y cy vy B C)) := hru
    obtain ⟨hxr, hrA, hrY⟩ := hru2.node_lookup
    obtain ⟨hyr, hrB, hrC⟩ := hrY.node_lookup
    rw [show (BT.node y cy vy B C).ptr = some y from rfl] at hxr
    subst hroot2
    -- unfold the rotation and resolve the reads
    simp only [rb_tree_rotate_left, getN_some hxr, getN_some hyr]
    set s1 : RBTree := updN s (some x) (fun n => { n with right := B.ptr }) with hs1
    have hf1x : hfind s1.heap x = some ⟨some s.header, A.ptr, B.ptr, cx, vx⟩ :=
      hfind_updN_self hxr
    have hf1 : ∀ j : Nat, j ≠ x → hfind s1.heap j = hfind s.heap j := fun j hj =>
      hfind_updN_ne (by simpa using fun hc => hj hc.symm)
    have hgy1 : getN s1 (some y) = ⟨some x, B.ptr, C.ptr, cy, vy⟩ := by
      simp [getN, hf1 y (Ne.symm hxy), hyr]
    simp only [hgy1]
    set s2 : RBTree := updN s1 B.ptr (fun n => { n with parent := some x }) with hs2
    have hrB1 : Realize s1.heap (some y) B.ptr B :=
      hrB.frame (fun j hj => hf1 j (fun hc => hxB (hc ▸ hj)))
    obtain ⟨hrB2, hfr2, hh2, hn2, hc2, hk2⟩ := parent_write_spec hrB1 hndB (some x) hs2
    have hf2x : hfind s2.heap x = some ⟨some s.header, A.ptr, B.ptr, cx, vx⟩ := by
      rw [hfr2 x hBx, hf1x]
    have hg2x : getN s2 (some x) = ⟨some s.header, A.ptr, B.ptr, cx, vx⟩ := by
      simp [getN, hf2x]
    simp only [hg2x]
    set s3 : RBTree := updN s2 (some y)
      (fun n => { n with parent := some s.header }) with hs3
    have hf2y : hfind s2.heap y = some ⟨some x, B.ptr, C.ptr, cy, vy⟩ := by
      rw [hfr2 y hBy, hf1 y (Ne.symm hxy), hyr]
    have hf3y : hfind s3.heap y = some ⟨some s.header, B.ptr, C.ptr, cy, vy⟩ := by
      rw [hs3]
      exact hfind_updN_self hf2y
    have hf3 : ∀ j : Nat, j ≠ y → hfind s3.heap j = hfind s2.heap j := fun j hj => by
      rw [hs3]
      exact hfind_updN_ne (by simpa using fun hc => hj hc.symm)
    -- the branch: x is the root
    rw [if_pos (by simp)]
    set s5 : RBTree := updN s3 (some y) (fun n => { n with left := some x }) with hs5
    have hf5y : hfind s5.heap y = some ⟨some s.header, some x, C.ptr, cy, vy⟩ := by
      rw [hs5]
      exact hfind_updN_self hf3y
    have hf5 : ∀ j : Nat, j ≠ y → hfind s5.heap j = hfind s3.heap j := fun j hj => by
      rw [hs5]
      exact hfind_updN_ne (by simpa using fun hc => hj hc.symm)
    set s6 : RBTree := updN s5 (some x) (fun n => { n with parent := some y }) with hs6
    have hf5x : hfind s5.heap x = some ⟨some s.header, A.ptr, B.ptr, cx, vx⟩ := by
      rw [hf5 x hxy, hf3 x hxy, hf2x]
    have hf6x : hfind s6.heap x = some ⟨some y, A.ptr, B.ptr, cx, vx⟩ := by
      rw [hs6]
      exact hfind_updN_self hf5x
    have hf6 : ∀ j : Nat, j ≠ x → hfind s6.heap j = hfind s5.heap j := fun j hj => by
      rw [hs6]
      exact hfind_updN_ne (by simpa using fun hc => hj hc.symm)
    have hf6y : hfind s6.heap y = some ⟨some s.header, some x, C.ptr, cy, vy⟩ := by
      rw [hf6 y (Ne.symm hxy), hf5y]
    have hframe : ∀ j : Nat, j ≠ x → j ≠ y → B.ptr ≠ some j →
        hfind s6.heap j = hfind s.heap j := fun j h1 h2 h3 => by
      rw [hf6 j h1, hf5 j h2, hf3 j h2, hfr2 j h3, hf1 j h1]
    -- realization of the rotated subtree
    have hrA6 : Realize s6.heap (some x) A.ptr A :=
      hrA.frame (fun j hj => hframe j (fun hc => hxA (hc ▸ hj))
        (fun hc => hdAY j hj (by simp [BT.ids_node, hc]))
        (fun hc => hdAY j hj (by simp [BT.ids_node, BT.ptr_mem_ids hc])))
    have hrB6 : Realize s6.heap (some x) B.ptr B := by
      refine hrB2.frame (fun j hj => ?_)
      rw [hf6 j (fun hc => hxB (hc ▸ hj)), hf5 j (fun hc => hyB (hc ▸ hj)),
        hf3 j (fun hc => hyB (hc ▸ hj))]
    have hrC6 : Realize s6.heap (some y) C.ptr C :=
      hrC.frame (fun j hj => hframe j (fun hc => hxC (hc ▸ hj))
        (fun hc => hyC (hc ▸ hj))
        (fun hc => hdBC j (BT.ptr_mem_ids hc) hj))
    have hrX6 : Realize s6.heap (some y) (some x) (BT.node x cx vx A B) :=
      Realize.node (n := ⟨some y, A.ptr, B.ptr, cx, vx⟩) hf6x rfl hrA6 hrB6
    have hrU2 : Realize s6.heap (some s.header) (some y)
        (BT.node y cy vy (BT.node x cx vx A B) C) :=
      Realize.node (n := ⟨some s.header, some x, C.ptr, cy, vy⟩) hf6y rfl hrX6 hrC6
    have hsc6 : s6.header = s.header ∧ s6.nextId = s.nextId ∧
        s6.node_count = s.node_count ∧ s6.heap.map Prod.fst = s.heap.map Prod.fst := by
      refine ⟨?_, ?_, ?_, ?_⟩
      · rw [hs6, updN_header_id, hs5, updN_header_id, hs3, updN_header_id, hh2, hs1,
          updN_header_id]
      · rw [hs6, updN_nextId, hs5, updN_nextId, hs3, updN_nextId, hn2, hs1, updN_nextId]
      · rw [hs6, updN_node_count, hs5, updN_node_count, hs3, updN_node_count, hc2, hs1,
          updN_node_count]
      · rw [hs6, updN_keys, hs5, updN_keys, hs3, updN_keys, hk2, hs1, updN_keys]
    refine ⟨?_, rfl, ?_, hsc6.1, hsc6.2.1, hsc6.2.2.1, hsc6.2.2.2⟩
    · rw [BT.repl_nil]
      exact hrU2
    · intro j hj
      rw [BT.ids_node] at hj
      refine hframe j (fun hc => hj (by simp [hc])) (fun hc => hj (by simp [BT.ids_node, hc]))
        (fun hc => hj (by simp [BT.ids_node, BT.ptr_mem_ids hc]))
  · -- the rotated node has a real parent `pid`; `b` is its side
    obtain ⟨PPp, hrp⟩ : ∃ pp2, Realize s.heap pp2 (some pid)
        (BT.node pid pc pv pl pr) := by
      rcases realize_sub_parent hr _ _ hsubp with ⟨_, hrp⟩ | ⟨_, _, _, _, _, _, _, _, _, _, hrp⟩
      · exact ⟨_, hrp⟩
      · exact ⟨_, hrp⟩
    obtain ⟨hpidr, hrpl, hrpr⟩ := hrp.node_lookup
    obtain ⟨hndpl, hndpr, hpidpl, hpidpr, hdplpr⟩ :=
      nodup_node_parts (BT.sub_nodup hsubp hnd)
    have hpidu : pid ∉ (BT.node x cx vx A (BT.node y cy vy B C)).ids := by
      intro hc
      cases b with
      | true =>
        have hpl : BT.node x cx vx A (BT.node y cy vy B C) = pl := by simpa using hchild
        exact hpidpl (hpl ▸ hc)
      | false =>
        have hpr : BT.node x cx vx A (BT.node y cy vy B C) = pr := by simpa using hchild
        exact hpidpr (hpr ▸ hc)
    have hpidx : pid ≠ x := fun hc => hpidu (by simp [BT.ids_node, hc])
    have hpidy : pid ≠ y := fun hc => hpidu (by simp [BT.ids_node, hc])
    have hBpid : B.ptr ≠ some pid := fun hc => hpidu
      (by simp [BT.ids_node, BT.ptr_mem_ids hc])
    -- x is not the root
    obtain ⟨tid, ct, vt, tl, tr, hTeq⟩ :
        ∃ tid ct vt tl tr, T = BT.node tid ct vt tl tr := by
      cases T with
      | leaf => rw [hq] at hsub; cases q2 <;> simp [BT.sub] at hsub
      | node tid ct vt tl tr => exact ⟨tid, ct, vt, tl, tr, rfl⟩
    have hxroot : (some x == root) = false := by
      have hq3 : T.sub (q2 ++ [b]) = some (BT.node x cx vx A (BT.node y cy vy B C)) :=
        hq ▸ hsub
      have hne : x ≠ tid :=
        BT.sub_ne_root hq3 (by simp) (by rw [hTeq]; rfl) rfl hnd
      rw [hroot, hTeq]
      simpa [BT.ptr] using hne
    have hru2 : Realize s.heap (some pid) (some x)
        (BT.node x cx vx A (BT.node y cy vy B C)) := hru
    obtain ⟨hxr, hrA, hrY⟩ := hru2.node_lookup
    obtain ⟨hyr, hrB, hrC⟩ := hrY.node_lookup
    rw [show (BT.node y cy vy B C).ptr = some y from rfl] at hxr
    -- unfold the rotation and resolve the reads
    simp only [rb_tree_rotate_left, getN_some hxr, getN_some hyr]
    set s1 : RBTree := updN s (some x) (fun n => { n with right := B.ptr }) with hs1
    have hf1x : hfind s1.heap x = some ⟨some pid, A.ptr, B.ptr, cx, vx⟩ :=
      hfind_updN_self hxr
    have hf1 : ∀ j : Nat, j ≠ x → hfind s1.heap j = hfind s.heap j := fun j hj =>
      hfind_updN_ne (by simpa using fun hc => hj hc.symm)
    have hgy1 : getN s1 (some y) = ⟨some x, B.ptr, C.ptr, cy, vy⟩ := by
      simp [getN, hf1 y (Ne.symm hxy), hyr]
    simp only [hgy1]
    set s2 : RBTree := updN s1 B.ptr (fun n => { n with parent := some x }) with hs2
    have hrB1 : Realize s1.heap (some y) B.ptr B :=
      hrB.frame (fun j hj => hf1 j (fun hc => hxB (hc ▸ hj)))
    obtain ⟨hrB2, hfr2, hh2, hn2, hc2, hk2⟩ := parent_write_spec hrB1 hndB (some x) hs2
    have hf2x : hfind s2.heap x = some ⟨some pid, A.ptr, B.ptr, cx, vx⟩ := by
      rw [hfr2 x hBx, hf1x]
    have hg2x : getN s2 (some x) = ⟨some pid, A.ptr, B.ptr, cx, vx⟩ := by
      simp [getN, hf2x]
    simp only [hg2x]
    set s3 : RBTree := updN s2 (some y)
      (fun n => { n with parent := some pid }) with hs3
    have hf2y : hfind s2.heap y = some ⟨some x, B.ptr, C.ptr, cy, vy⟩ := by
      rw [hfr2 y hBy, hf1 y (Ne.symm hxy), hyr]
    have hf3y : hfind s3.heap y = some ⟨some pid, B.ptr, C.ptr, cy, vy⟩ := by
      rw [hs3]
      exact hfind_updN_self hf2y
    have hf3 : ∀ j : Nat, j ≠ y → hfind s3.heap j = hfind s2.heap j := fun j hj => by
      rw [hs3]
      exact hfind_updN_ne (by simpa using fun hc => hj hc.symm)
    have hf3x : hfind s3.heap x = some ⟨some pid, A.ptr, B.ptr, cx, vx⟩ := by
      rw [hf3 x hxy, hf2x]
    have hf3pid : hfind s3.heap pid = some ⟨PPp, pl.ptr, pr.ptr, pc, pv⟩ := by
      rw [hf3 pid hpidy, hfr2 pid hBpid, hf1 pid hpidx, hpidr]
    -- resolve the branch: x is not the root, and its side under pid is b
    rw [hxroot]
    have hlch : rb_tree_is_lchild s3 (some x) = b := by
      unfold rb_tree_is_lchild
      simp only [show getN s3 (some x) = ⟨some pid, A.ptr, B.ptr, cx, vx⟩ from by
        simp [getN, hf3x],
        show getN s3 (some pid) = ⟨PPp, pl.ptr, pr.ptr, pc, pv⟩ from by simp [getN, hf3pid]]
      cases b with
      | true =>
        have hpl : BT.node x cx vx A (BT.node y cy vy B C) = pl := by simpa using hchild
        rw [← hpl]
        simp [BT.ptr]
      | false =>
        have hpr : BT.node x cx vx A (BT.node y cy vy B C) = pr := by simpa using hchild
        have hplx : pl.ptr ≠ some x := by
          intro hc
          have hx2 : x ∈ pl.ids := BT.ptr_mem_ids hc
          have hx3 : x ∈ pr.ids := by
            rw [← hpr]
            simp [BT.ids_node]
          exact hdplpr x hx2 hx3
        simpa using hplx
    rw [hlch]
    -- the parent-side write, uniform over b
    set s4 : RBTree := if b then updN s3 (some pid) (fun n => { n with left := some y })
      else updN s3 (some pid) (fun n => { n with right := some y }) with hs4
    have hbranch : (if b = true then
          (updN s3 (getN s3 (some x)).parent (fun n : Node => { n with left := some y }), root)
        else (updN s3 (getN s3 (some x)).parent
          (fun n : Node => { n with right := some y }), root)) = (s4, root) := by
      simp only [show getN s3 (some x) = ⟨some pid, A.ptr, B.ptr, cx, vx⟩ from by
        simp [getN, hf3x]]
      rw [hs4]
      cases b <;> simp
    rw [hbranch]
    have hf4pid : hfind s4.heap pid =
        some (if b then ⟨PPp, some y, pr.ptr, pc, pv⟩ else ⟨PPp, pl.ptr, some y, pc, pv⟩) := by
      rw [hs4]
      cases b with
      | true => simpa using hfind_updN_self hf3pid
      | false => simpa using hfind_updN_self hf3pid
    have hf4 : ∀ j : Nat, j ≠ pid → hfind s4.heap j = hfind s3.heap j := fun j hj => by
      rw [hs4]
      cases b with
      | true => exact hfind_updN_ne (fun hc => hj (Option.some.inj hc).symm)
      | false => exact hfind_updN_ne (fun hc => hj (Option.some.inj hc).symm)
    set s5 : RBTree := updN s4 (some y) (fun n => { n with left := some x }) with hs5
    have hf5y : hfind s5.heap y = some ⟨some pid, some x, C.ptr, cy, vy⟩ := by
      rw [hs5]
      exact hfind_updN_self (by rw [hf4 y (Ne.symm hpidy), hf3y])
    have hf5 : ∀ j : Nat, j ≠ y → hfind s5.heap j = hfind s4.heap j := fun j hj => by
      rw [hs5]
      exact hfind_updN_ne (by simpa using fun hc => hj hc.symm)
    set s6 : RBTree := updN s5 (some x) (fun n => { n with parent := some y }) with hs6
    have hf5x : hfind s5.heap x = some ⟨some pid, A.ptr, B.ptr, cx, vx⟩ := by
      rw [hf5 x hxy, hf4 x (Ne.symm hpidx), hf3x]
    have hf6x : hfind s6.heap x = some ⟨some y, A.ptr, B.ptr, cx, vx⟩ := by
      rw [hs6]
      exact hfind_updN_self hf5x
    have hf6 : ∀ j : Nat, j ≠ x → hfind s6.heap j = hfind s5.heap j := fun j hj => by
      rw [hs6]
      exact hfind_updN_ne (by simpa using fun hc => hj hc.symm)
    have hf6y : hfind s6.heap y = some ⟨some pid, some x, C.ptr, cy, vy⟩ := by
      rw [hf6 y (Ne.symm hxy), hf5y]
    have hf6pid : hfind s6.heap pid =
        some (if b then ⟨PPp, some y, pr.ptr, pc, pv⟩ else ⟨PPp, pl.ptr, some y, pc, pv⟩) := by
      rw [hf6 pid hpidx, hf5 pid hpidy, hf4pid]
    have hframe : ∀ j : Nat, j ≠ x → j ≠ y → B.ptr ≠ some j → j ≠ pid →
        hfind s6.heap j = hfind s.heap j := fun j h1 h2 h3 h4 => by
      rw [hf6 j h1, hf5 j h2, hf4 j h4, hf3 j h2, hfr2 j h3, hf1 j h1]
    -- realization of the rotated subtree under pid
    have hrA6 : Realize s6.heap (some x) A.ptr A :=
      hrA.frame (fun j hj => hframe j (fun hc => hxA (hc ▸ hj))
        (fun hc => hdAY j hj (by simp [BT.ids_node, hc]))
        (fun hc => hdAY j hj (by simp [BT.ids_node, BT.ptr_mem_ids hc]))
        (fun hc => hpidu (by simp [BT.ids_node, hc ▸ hj])))
    have hrB6 : Realize s6.heap (some x) B.ptr B := by
      refine hrB2.frame (fun j hj => ?_)
      rw [hf6 j (fun hc => hxB (hc ▸ hj)), hf5 j (fun hc => hyB (hc ▸ hj)),
        hf4 j (fun hc => hpidu (by simp [BT.ids_node, hc ▸ hj])),
        hf3 j (fun hc => hyB (hc ▸ hj))]
    have hrC6 : Realize s6.heap (some y) C.ptr C :=
      hrC.frame (fun j hj => hframe j (fun hc => hxC (hc ▸ hj))
        (fun hc => hyC (hc ▸ hj))
        (fun hc => hdBC j (BT.ptr_mem_ids hc) hj)
        (fun hc => hpidu (by simp [BT.ids_node, hc ▸ hj])))
    have hrX6 : Realize s6.heap (some y) (some x) (BT.node x cx vx A B) :=
      Realize.node (n := ⟨some y, A.ptr, B.ptr, cx, vx⟩) hf6x rfl hrA6 hrB6
    have hrU2 : Realize s6.heap (some pid) (some y)
        (BT.node y cy vy (BT.node x cx vx A B) C) :=
      Realize.node (n := ⟨some pid, some x, C.ptr, cy, vy⟩) hf6y rfl hrX6 hrC6
    -- graft back into the whole view
    have hgr : Realize s6.heap (some s.header) root
        (T.repl (q2 ++ [b]) (BT.node y cy vy (BT.node x cx vx A B) C)) := by
      refine realize_graft_child hr hsubp hnd ?_ ⟨⟨PPp, pl.ptr, pr.ptr, pc, pv⟩, hpidr, ?_⟩ hrU2
      · intro j hj hju hjp
        have hju2 : j ∉ (BT.node x cx vx A (BT.node y cy vy B C)).ids := by
          rw [hchild]
          exact hju
        refine hframe j (fun hc => hju2 (by simp [BT.ids_node, hc]))
          (fun hc => hju2 (by simp [BT.ids_node, hc]))
          (fun hc => hju2 (by simp [BT.ids_node, BT.ptr_mem_ids hc])) hjp
      · cases b with
        | true => simpa using hf6pid
        | false => simpa using hf6pid
    have hsc6 : s6.header = s.header ∧ s6.nextId = s.nextId ∧
        s6.node_count = s.node_count ∧ s6.heap.map Prod.fst = s.heap.map Prod.fst := by
      have h4h : s4.header = s3.header := by
        rw [hs4]; cases b <;> simp [updN_header_id]
      have h4n : s4.nextId = s3.nextId := by
        rw [hs4]; cases b <;> simp [updN_nextId]
      have h4c : s4.node_count = s3.node_count := by
        rw [hs4]; cases b <;> simp [updN_node_count]
      have h4k : s4.heap.map Prod.fst = s3.heap.map Prod.fst := by
        rw [hs4]; cases b <;> simp [updN_keys]
      refine ⟨?_, ?_, ?_, ?_⟩
      · rw [hs6, updN_header_id, hs5, updN_header_id, h4h, hs3, updN_header_id, hh2, hs1,
          updN_header_id]
      · rw [hs6, updN_nextId, hs5, updN_nextId, h4n, hs3, updN_nextId, hn2, hs1, updN_nextId]
      · rw [hs6, updN_node_count, hs5, updN_node_count, h4c, hs3, updN_node_count, hc2, hs1,
          updN_node_count]
      · rw [hs6, updN_keys, hs5, updN_keys, h4k, hs3, updN_keys, hk2, hs1, updN_keys]
    have hq2ne : (q2 ++ [b]) ≠ ([] : List Bool) := by simp
    refine ⟨by rw [hq]; exact hgr, ?_, ?_, hsc6.1, hsc6.2.1, hsc6.2.2.1, hsc6.2.2.2⟩
    · rw [hq, BT.repl_ptr hq2ne, ← hroot]
      simp
    · intro j hj
      have hju : j ∉ (BT.node x cx vx A (BT.node y cy vy B C)).ids :=
        fun hc => hj (hmemT j hc)
      refine hframe j (fun hc => hju (by simp [BT.ids_node, hc]))
        (fun hc => hju (by simp [BT.ids_node, hc]))
        (fun hc => hju (by simp [BT.ids_node, BT.ptr_mem_ids hc]))
        (fun hc => hj (hc ▸ BT.sub_ids_subset hsubp pid (by simp [BT.ids_node])))

theorem rotate_right_spec (s : RBTree) (root : Option Nat) (T : BT) (q : List Bool)
    (x y : Nat) (cx cy : Bool) (vx vy : Val) (A B C : BT)
    (hr : Realize s.heap (some s.header) root T)
    (hroot : root = T.ptr)
    (hnd : T.ids.Nodup)
    (hsub : T.sub q = some (.node x cx vx (.node y cy vy A B) C)) :
    Realize (rb_tree_rotate_right s (some x) root).1.heap (some s.header)
        (rb_tree_rotate_right s (some x) root).2
        (T.repl q (.node y cy vy A (.node x cx vx B C))) ∧
      (rb_tree_rotate_right s (some x) root).2 =
        (T.repl q (.node y cy vy A (.node x cx vx B C))).ptr ∧
      (∀ j, j ∉ T.ids → hfind (rb_tree_rotate_right s (some x) root).1.heap j = hfind s.heap j) ∧
      (rb_tree_rotate_right s (some x) root).1.header = s.header ∧
      (rb_tree_rotate_right s (some x) root).1.nextId = s.nextId ∧
      (rb_tree_rotate_right s (some x) root).1.node_count = s.node_count ∧
      (rb_tree_rotate_right s (some x) root).1.heap.map Prod.fst = s.heap.map Prod.fst := by
  -- nodup facts
  have hndu := BT.sub_nodup hsub hnd
  obtain ⟨hndY, hndC, hxY, hxC, hdYC⟩ := nodup_node_parts hndu
  obtain ⟨hndA, hndB, hyA, hyB, hdAB⟩ := nodup_node_parts hndY
  have hxy : x ≠ y := fun hc => hxY (by simp [BT.ids_node, hc])
  have hxA : x ∉ A.ids := fun hc => hxY (by simp [BT.ids_node, hc])
  have hxB : x ∉ B.ids := fun hc => hxY (by simp [BT.ids_node, hc])
  have hBx : B.ptr ≠ some x := fun hc => hxB (BT.ptr_mem_ids hc)
  have hBy : B.ptr ≠ some y := fun hc => hyB (BT.ptr_mem_ids hc)
  have hmemT : ∀ j ∈ (BT.node x cx vx (BT.node y cy vy A B) C).ids, j ∈ T.ids :=
    BT.sub_ids_subset hsub
  rcases realize_sub_parent hr _ _ hsub with ⟨hqnil, hru⟩ |
    ⟨q2, b, pid, pc, pv, pl, pr, hq, hsubp, hchild, hru⟩
  · -- the rotated node is the root
    subst hqnil
    rw [BT.sub_nil, Option.some.injEq] at hsub
    subst hsub
    have hroot2 : root = some x := hroot
    have hru2 : Realize s.heap (some s.header) (some x)
        (BT.node x cx vx (BT.node y cy vy A B) C) := hru
    obtain ⟨hxr, hrY, hrC⟩ := hru2.node_lookup
    obtain ⟨hyr, hrA, hrB⟩ := hrY.node_lookup
    rw [show (BT.node y cy vy A B).ptr = some y from rfl] at hxr
    subst hroot2
    -- unfold the rotation and resolve the reads
    simp only [rb_tree_rotate_right, getN_some hxr, getN_some hyr]
    set s1 : RBTree := updN s (some x) (fun n => { n with left := B.ptr }) with hs1
    have hf1x : hfind s1.heap x = some ⟨some s.header, B.ptr, C.ptr, cx, vx⟩ :=
      hfind_updN_self hxr
    have hf1 : ∀ j : Nat, j ≠ x → hfind s1.heap j = hfind s.heap j := fun j hj =>
      hfind_updN_ne (by simpa using fun hc => hj hc.symm)
    have hgy1 : getN s1 (some y) = ⟨some x, A.ptr, B.ptr, cy, vy⟩ := by
      simp [getN, hf1 y (Ne.symm hxy), hyr]
    simp only [hgy1]
    set s2 : RBTree := updN s1 B.ptr (fun n => { n with parent := some x }) with hs2
    have hrB1 : Realize s1.heap (some y) B.ptr B :=
      hrB.frame (fun j hj => hf1 j (fun hc => hxB (hc ▸ hj)))
    obtain ⟨hrB2, hfr2, hh2, hn2, hc2, hk2⟩ := parent_write_spec hrB1 hndB (some x) hs2
    have hf2x : hfind s2.heap x = some ⟨some s.header, B.ptr, C.ptr, cx, vx⟩ := by
      rw [hfr2 x hBx, hf1x]
    have hg2x : getN s2 (some x) = ⟨some s.header, B.ptr, C.ptr, cx, vx⟩ := by
      simp [getN, hf2x]
    simp only [hg2x]
    set s3 : RBTree := updN s2 (some y)
      (fun n => { n with parent := some s.header }) with hs3
    have hf2y : hfind s2.heap y = some ⟨some x, A.ptr, B.ptr, cy, vy⟩ := by
      rw [hfr2 y hBy, hf1 y (Ne.symm hxy), hyr]
    have hf3y : hfind s3.heap y = some ⟨some s.header, A.ptr, B.ptr, cy, vy⟩ := by
      rw [hs3]
      exact hfind_updN_self hf2y
    have hf3 : ∀ j : Nat, j ≠ y → hfind s3.heap j = hfind s2.heap j := fun j hj => by
      rw [hs3]
      exact hfind_updN_ne (by simpa using fun hc => hj hc.symm)
    -- the branch: x is the root
    rw [if_pos (by simp)]
    set s5 : RBTree := updN s3 (some y) (fun n => { n with right := some x }) with hs5
    have hf5y : hfind s5.heap y = some ⟨some s.header, A.ptr, some x, cy, vy⟩ := by
      rw [hs5]
      exact hfind_updN_self hf3y
    have hf5 : ∀ j : Nat, j ≠ y → hfind s5.heap j = hfind s3.heap j := fun j hj => by
      rw [hs5]
      exact hfind_updN_ne (by simpa using fun hc => hj hc.symm)
    set s6 : RBTree := updN s5 (some x) (fun n => { n with parent := some y }) with hs6
    have hf5x : hfind s5.heap x = some ⟨some s.header, B.ptr, C.ptr, cx, vx⟩ := by
      rw [hf5 x hxy, hf3 x hxy, hf2x]
    have hf6x : hfind s6.heap x = some ⟨some y, B.ptr, C.ptr, cx, vx⟩ := by
      rw [hs6]
      exact hfind_updN_self hf5x
    have hf6 : ∀ j : Nat, j ≠ x → hfind s6.heap j = hfind s5.heap j := fun j hj => by
      rw [hs6]
      exact hfind_updN_ne (by simpa using fun hc => hj hc.symm)
    have hf6y : hfind s6.heap y = some ⟨some s.header, A.ptr, some x, cy, vy⟩ := by
      rw [hf6 y (Ne.symm hxy), hf5y]
    have hframe : ∀ j : Nat, j ≠ x → j ≠ y → B.ptr ≠ some j →
        hfind s6.heap j = hfind s.heap j := fun j h1 h2 h3 => by
      rw [hf6 j h1, hf5 j h2, hf3 j h2, hfr2 j h3, hf1 j h1]
    -- realization of the rotated subtree
    have hrA6 : Realize s6.heap (some y) A.ptr A :=
      hrA.frame (fun j hj => hframe j (fun hc => hxA (hc ▸ hj))
        (fun hc => hyA (hc ▸ hj))
        (fun hc => hdAB j hj (BT.ptr_mem_ids hc)))
    have hrB6 : Realize s6.heap (some x) B.ptr B := by
      refine hrB2.frame (fun j hj => ?_)
      rw [hf6 j (fun hc => hxB (hc ▸ hj)), hf5 j (fun hc => hyB (hc ▸ hj)),
        hf3 j (fun hc => hyB (hc ▸ hj))]
    have hrC6 : Realize s6.heap (some x) C.ptr C :=
      hrC.frame (fun j hj => hframe j (fun hc => hxC (hc ▸ hj))
        (fun hc => hdYC j (by simp [BT.ids_node, hc]) hj)
        (fun hc => hdYC j (by simp [BT.ids_node, BT.ptr_mem_ids hc]) hj))
    have hrX6 : Realize s6.heap (some y) (some x) (BT.node x cx vx B C) :=
      Realize.node (n := ⟨some y, B.ptr, C.ptr, cx, vx⟩) hf6x rfl hrB6 hrC6
    have hrU2 : Realize s6.heap (some s.header) (some y)
        (BT.node y cy vy A (BT.node x cx vx B C)) :=
      Realize.node (n := ⟨some s.header, A.ptr, some x, cy, vy⟩) hf6y rfl hrA6 hrX6
    have hsc6 : s6.header = s.header ∧ s6.nextId = s.nextId ∧
        s6.node_count = s.node_count ∧ s6.heap.map Prod.fst = s.heap.map Prod.fst := by
      refine ⟨?_, ?_, ?_, ?_⟩
      · rw [hs6, updN_header_id, hs5, updN_header_id, hs3, updN_header_id, hh2, hs1,
          updN_header_id]
      · rw [hs6, updN_nextId, hs5, updN_nextId, hs3, updN_nextId, hn2, hs1, updN_nextId]
      · rw [hs6, updN_node_count, hs5, updN_node_count, hs3, updN_node_count, hc2, hs1,
          updN_node_count]
      · rw [hs6, updN_keys, hs5, updN_keys, hs3, updN_keys, hk2, hs1, updN_keys]
    refine ⟨?_, rfl, ?_, hsc6.1, hsc6.2.1, hsc6.2.2.1, hsc6.2.2.2⟩
    · rw [BT.repl_nil]
      exact hrU2
    · intro j hj
      rw [BT.ids_node] at hj
      refine hframe j (fun hc => hj (by simp [hc])) (fun hc => hj (by simp [BT.ids_node, hc]))
        (fun hc => hj (by simp [BT.ids_node, BT.ptr_mem_ids hc]))
  · -- the rotated node has a real parent `pid`; `b` is its side
    obtain ⟨PPp, hrp⟩ : ∃ pp2, Realize s.heap pp2 (some pid)
        (BT.node pid pc pv pl pr) := by
      rcases realize_sub_parent hr _ _ hsubp with ⟨_, hrp⟩ | ⟨_, _, _, _, _, _, _, _, _, _, hrp⟩
      · exact ⟨_, hrp⟩
      · exact ⟨_, hrp⟩
    obtain ⟨hpidr, hrpl, hrpr⟩ := hrp.node_lookup
    obtain ⟨hndpl, hndpr, hpidpl, hpidpr, hdplpr⟩ :=
      nodup_node_parts (BT.sub_nodup hsubp hnd)
    have hpidu : pid ∉ (BT.node x cx vx (BT.node y cy vy A B) C).ids := by
      intro hc
      cases b with
      | true =>
        have hpl : BT.node x cx vx (BT.node y cy vy A B) C = pl := by simpa using hchild
        exact hpidpl (hpl ▸ hc)
      | false =>
        have hpr : BT.node x cx vx (BT.node y cy vy A B) C = pr := by simpa using hchild
        exact hpidpr (hpr ▸ hc)
    have hpidx : pid ≠ x := fun hc => hpidu (by simp [BT.ids_node, hc])
    have hpidy : pid ≠ y := fun hc => hpidu (by simp [BT.ids_node, hc])
    have hBpid : B.ptr ≠ some pid := fun hc => hpidu
      (by simp [BT.ids_node, BT.ptr_mem_ids hc])
    -- x is not the root
    obtain ⟨tid, ct, vt, tl, tr, hTeq⟩ :
        ∃ tid ct vt tl tr, T = BT.node tid ct vt tl tr := by
      cases T with
      | leaf => rw [hq] at hsub; cases q2 <;> simp [BT.sub] at hsub
      | node tid ct vt tl tr => exact ⟨tid, ct, vt, tl, tr, rfl⟩
    have hxroot : (some x == root) = false := by
      have hq3 : T.sub (q2 ++ [b]) = some (BT.node x cx vx (BT.node y cy vy A B) C) :=
        hq ▸ hsub
      have hne : x ≠ tid :=
        BT.sub_ne_root hq3 (by simp) (by rw [hTeq]; rfl) rfl hnd
      rw [hroot, hTeq]
      simpa [BT.ptr] using hne
    have hru2 : Realize s.heap (some pid) (some x)
        (BT.node x cx vx (BT.node y cy vy A B) C) := hru
    obtain ⟨hxr, hrY, hrC⟩ := hru2.node_lookup
    obtain ⟨hyr, hrA, hrB⟩ := hrY.node_lookup
    rw [show (BT.node y cy vy A B).ptr = some y from rfl] at hxr
    -- unfold the rotation and resolve the reads
    simp only [rb_tree_rotate_right, getN_some hxr, getN_some hyr]
    set s1 : RBTree := updN s (some x) (fun n => { n with left := B.ptr }) with hs1
    have hf1x : hfind s1.heap x = some ⟨some pid, B.ptr, C.ptr, cx, vx⟩ :=
      hfind_updN_self hxr
    have hf1 : ∀ j : Nat, j ≠ x → hfind s1.heap j = hfind s.heap j := fun j hj =>
      hfind_updN_ne (by simpa using fun hc => hj hc.symm)
    have hgy1 : getN s1 (some y) = ⟨some x, A.ptr, B.ptr, cy, vy⟩ := by
      simp [getN, hf1 y (Ne.symm hxy), hyr]
    simp only [hgy1]
    set s2 : RBTree := updN s1 B.ptr (fun n => { n with parent := some x }) with hs2
    have hrB1 : Realize s1.heap (some y) B.ptr B :=
      hrB.frame (fun j hj => hf1 j (fun hc => hxB (hc ▸ hj)))
    obtain ⟨hrB2, hfr2, hh2, hn2, hc2, hk2⟩ := parent_write_spec hrB1 hndB (some x) hs2
    have hf2x : hfind s2.heap x = some ⟨some pid, B.ptr, C.ptr, cx, vx⟩ := by
      rw [hfr2 x hBx, hf1x]
    have hg2x : getN s2 (some x) = ⟨some pid, B.ptr, C.ptr, cx, vx⟩ := by
      simp [getN, hf2x]
    simp only [hg2x]
    set s3 : RBTree := updN s2 (some y)
      (fun n => { n with parent := some pid }) with hs3
    have hf2y : hfind s2.heap y = some ⟨some x, A.ptr, B.ptr, cy, vy⟩ := by
      rw [hfr2 y hBy, hf1 y (Ne.symm hxy), hyr]
    have hf3y : hfind s3.heap y = some ⟨some pid, A.ptr, B.ptr, cy, vy⟩ := by
      rw [hs3]
      exact hfind_updN_self hf2y
    have hf3 : ∀ j : Nat, j ≠ y → hfind s3.heap j = hfind s2.heap j := fun j hj => by
      rw [hs3]
      exact hfind_updN_ne (by simpa using fun hc => hj hc.symm)
    have hf3x : hfind s3.heap x = some ⟨some pid, B.ptr, C.ptr, cx, vx⟩ := by
      rw [hf3 x hxy, hf2x]
    have hf3pid : hfind s3.heap pid = some ⟨PPp, pl.ptr, pr.ptr, pc, pv⟩ := by
      rw [hf3 pid hpidy, hfr2 pid hBpid, hf1 pid hpidx, hpidr]
    -- resolve the branch: x is not the root, and its side under pid is b
    rw [hxroot]
    have hlch : rb_tree_is_lchild s3 (some x) = b := by
      unfold rb_tree_is_lchild
      simp only [show getN s3 (some x) = ⟨some pid, B.ptr, C.ptr, cx, vx⟩ from by
        simp [getN, hf3x],
        show getN s3 (some pid) = ⟨PPp, pl.ptr, pr.ptr, pc, pv⟩ from by simp [getN, hf3pid]]
      cases b with
      | true =>
        have hpl : BT.node x cx vx (BT.node y cy vy A B) C = pl := by simpa using hchild
        rw [← hpl]
        simp [BT.ptr]
      | false =>
        have hpr : BT.node x cx vx (BT.node y cy vy A B) C = pr := by simpa using hchild
        have hplx : pl.ptr ≠ some x := by
          intro hc
          have hx2 : x ∈ pl.ids := BT.ptr_mem_ids hc
          have hx3 : x ∈ pr.ids := by
            rw [← hpr]
            simp [BT.ids_node]
          exact hdplpr x hx2 hx3
        simpa using hplx
    rw [hlch]
    -- the parent-side write, uniform over b
    set s4 : RBTree := if b then updN s3 (some pid) (fun n => { n with left := some y })
      else updN s3 (some pid) (fun n => { n with right := some y }) with hs4
    have hbranch : (if b = true then
          (updN s3 (getN s3 (some x)).parent (fun n : Node => { n with left := some y }), root)
        else (updN s3 (getN s3 (some x)).parent
          (fun n : Node => { n with right := some y }), root)) = (s4, root) := by
      simp only [show getN s3 (some x) = ⟨some pid, B.ptr, C.ptr, cx, vx⟩ from by
        simp [getN, hf3x]]
      rw [hs4]
      cases b <;> simp
    rw [hbranch]
    have hf4pid : hfind s4.heap pid =
        some (if b then ⟨PPp, some y, pr.ptr, pc, pv⟩ else ⟨PPp, pl.ptr, some y, pc, pv⟩) := by
      rw [hs4]
      cases b with
      | true => simpa using hfind_updN_self hf3pid
      | false => simpa using hfind_updN_self hf3pid
    have hf4 : ∀ j : Nat, j ≠ pid → hfind s4.heap j = hfind s3.heap j := fun j hj => by
      rw [hs4]
      cases b with
      | true => exact hfind_updN_ne (fun hc => hj (Option.some.inj hc).symm)
      | false => exact hfind_updN_ne (fun hc => hj (Option.some.inj hc).symm)
    set s5 : RBTree := updN s4 (some y) (fun n => { n with right := some x }) with hs5
    have hf5y : hfind s5.heap y = some ⟨some pid, A.ptr, some x, cy, vy⟩ := by
      rw [hs5]
      exact hfind_updN_self (by rw [hf4 y (Ne.symm hpidy), hf3y])
    have hf5 : ∀ j : Nat, j ≠ y → hfind s5.heap j = hfind s4.heap j := fun j hj => by
      rw [hs5]
      exact hfind_updN_ne (by simpa using fun hc => hj hc.symm)
    set s6 : RBTree := updN s5 (some x) (fun n => { n with parent := some y }) with hs6
    have hf5x : hfind s5.heap x = some ⟨some pid, B.ptr, C.ptr, cx, vx⟩ := by
      rw [hf5 x hxy, hf4 x (Ne.symm hpidx), hf3x]
    have hf6x : hfind s6.heap x = some ⟨some y, B.ptr, C.ptr, cx, vx⟩ := by
      rw [hs6]
      exact hfind_updN_self hf5x
    have hf6 : ∀ j : Nat, j ≠ x → hfind s6.heap j = hfind s5.heap j := fun j hj => by
      rw [hs6]
      exact hfind_updN_ne (by simpa using fun hc => hj hc.symm)
    have hf6y : hfind s6.heap y = some ⟨some pid, A.ptr, some x, cy, vy⟩ := by
      rw [hf6 y (Ne.symm hxy), hf5y]
    have hf6pid : hfind s6.heap pid =
        some (if b then ⟨PPp, some y, pr.ptr, pc, pv⟩ else ⟨PPp, pl.ptr, some y, pc, pv⟩) := by
      rw [hf6 pid hpidx, hf5 pid hpidy, hf4pid]
    have hframe : ∀ j : Nat, j ≠ x → j ≠ y → B.ptr ≠ some j → j ≠ pid →
        hfind s6.heap j = hfind s.heap j := fun j h1 h2 h3 h4 => by
      rw [hf6 j h1, hf5 j h2, hf4 j h4, hf3 j h2, hfr2 j h3, hf1 j h1]
    -- realization of the rotated subtree under pid
    have hrA6 : Realize s6.heap (some y) A.ptr A :=
      hrA.frame (fun j hj => hframe j (fun hc => hxA (hc ▸ hj))
        (fun hc => hyA (hc ▸ hj))
        (fun hc => hdAB j hj (BT.ptr_mem_ids hc))
        (fun hc => hpidu (by simp [BT.ids_node, hc ▸ hj])))
    have hrB6 : Realize s6.heap (some x) B.ptr B := by
      refine hrB2.frame (fun j hj => ?_)
      rw [hf6 j (fun hc => hxB (hc ▸ hj)), hf5 j (fun hc => hyB (hc ▸ hj)),
        hf4 j (fun hc => hpidu (by simp [BT.ids_node, hc ▸ hj])),
        hf3 j (fun hc => hyB (hc ▸ hj))]
    have hrC6 : Realize s6.heap (some x) C.ptr C :=
      hrC.frame (fun j hj => hframe j (fun hc => hxC (hc ▸ hj))
        (fun hc => hdYC j (by simp [BT.ids_node, hc]) hj)
        (fun hc => hdYC j (by simp [BT.ids_node, BT.ptr_mem_ids hc]) hj)
        (fun hc => hpidu (by simp [BT.ids_node, hc ▸ hj])))
    have hrX6 : Realize s6.heap (some y) (some x) (BT.node x cx vx B C) :=
      Realize.node (n := ⟨some y, B.ptr, C.ptr, cx, vx⟩) hf6x rfl hrB6 hrC6
    have hrU2 : Realize s6.heap (some pid) (some y)
        (BT.node y cy vy A (BT.node x cx vx B C)) :=
      Realize.node (n := ⟨some pid, A.ptr, some x, cy, vy⟩) hf6y rfl hrA6 hrX6
    -- graft back into the whole view
    have hgr : Realize s6.heap (some s.header) root
        (T.repl (q2 ++ [b]) (BT.node y cy vy A (BT.node x cx vx B C))) := by
      refine realize_graft_child hr hsubp hnd ?_ ⟨⟨PPp, pl.ptr, pr.ptr, pc, pv⟩, hpidr, ?_⟩ hrU2
      · intro j hj hju hjp
        have hju2 : j ∉ (BT.node x cx vx (BT.node y cy vy A B) C).ids := by
          rw [hchild]
          exact hju
        refine hframe j (fun hc => hju2 (by simp [BT.ids_node, hc]))
          (fun hc => hju2 (by simp [BT.ids_node, hc]))
          (fun hc => hju2 (by simp [BT.ids_node, BT.ptr_mem_ids hc])) hjp
      · cases b with
        | true => simpa using hf6pid
        | false => simpa using hf6pid
    have hsc6 : s6.header = s.header ∧ s6.nextId = s.nextId ∧
        s6.node_count = s.node_count ∧ s6.heap.map Prod.fst = s.heap.map Prod.fst := by
      have h4h : s4.header = s3.header := by
        rw [hs4]; cases b <;> simp [updN_header_id]
      have h4n : s4.nextId = s3.nextId := by
        rw [hs4]; cases b <;> simp [updN_nextId]
      have h4c : s4.node_count = s3.node_count := by
        rw [hs4]; cases b <;> simp [updN_node_count]
      have h4k : s4.heap.map Prod.fst = s3.heap.map Prod.fst := by
        rw [hs4]; cases b <;> simp [updN_keys]
      refine ⟨?_, ?_, ?_, ?_⟩
      · rw [hs6, updN_header_id, hs5, updN_header_id, h4h, hs3, updN_header_id, hh2, hs1,
          updN_header_id]
      · rw [hs6, updN_nextId, hs5, updN_nextId, h4n, hs3, updN_nextId, hn2, hs1, updN_nextId]
      · rw [hs6, updN_node_count, hs5, updN_node_count, h4c, hs3, updN_node_count, hc2, hs1,
          updN_node_count]
      · rw [hs6, updN_keys, hs5, updN_keys, h4k, hs3, updN_keys, hk2, hs1, updN_keys]
    have hq2ne : (q2 ++ [b]) ≠ ([] : List Bool) := by simp
    refine ⟨by rw [hq]; exact hgr, ?_, ?_, hsc6.1, hsc6.2.1, hsc6.2.2.1, hsc6.2.2.2⟩
    · rw [hq, BT.repl_ptr hq2ne, ← hroot]
      simp
    · intro j hj
      have hju : j ∉ (BT.node x cx vx (BT.node y cy vy A B) C).ids :=
        fun hc => hj (hmemT j hc)
      refine hframe j (fun hc => hju (by simp [BT.ids_node, hc]))
        (fun hc => hju (by simp [BT.ids_node, hc]))
        (fun hc => hju (by simp [BT.ids_node, BT.ptr_mem_ids hc]))
        (fun hc => hj (hc ▸ BT.sub_ids_subset hsubp pid (by simp [BT.ids_node])))


/-- Change the color of the node with id `j` (wherever it occurs). -/
def BT.recolor (j : Nat) (c : Bool) : BT → BT
  | .leaf => .leaf
  | .node i ci v l r => .node i (if i = j then c else ci) v (l.recolor j c) (r.recolor j c)

theorem BT.recolor_entries (j : Nat) (c : Bool) :
    ∀ t : BT, (t.recolor j c).entries = t.entries := by
  intro t
  induction t with
  | leaf => rfl
  | node i ci v l r ihl ihr =>
    simp [BT.recolor, BT.entries_node, ihl, ihr]

theorem BT.recolor_ids (j : Nat) (c : Bool) (t : BT) :
    (t.recolor j c).ids = t.ids := by
  simp [BT.ids, BT.recolor_entries]

theorem BT.recolor_ptr (j : Nat) (c : Bool) (t : BT) :
    (t.recolor j c).ptr = t.ptr := by
  cases t <;> rfl

theorem BT.recolor_not_mem {j : Nat} {t : BT} (h : j ∉ t.ids) (c : Bool) :
    t.recolor j c = t := by
  induction t with
  | leaf => rfl
  | node i ci v l r ihl ihr =>
    rw [BT.ids_node] at h
    have hij : i ≠ j := fun hc => h (by simp [hc])
    simp only [BT.recolor, if_neg hij]
    rw [ihl (fun hc => h (by simp [hc])), ihr (fun hc => h (by simp [hc]))]

theorem BT.sub_recolor {t u : BT} {q : List Bool} (h : t.sub q = some u)
    (j : Nat) (c : Bool) : (t.recolor j c).sub q = some (u.recolor j c) := by
  induction q generalizing t with
  | nil =>
    rw [BT.sub_nil] at h
    cases h
    rw [BT.sub_nil]
  | cons b q ih =>
    cases t with
    | leaf => simp [BT.sub] at h
    | node i ci v l r =>
      simp only [BT.sub] at h
      simp only [BT.recolor, BT.sub]
      cases b with
      | true => exact ih (by simpa using h)
      | false => exact ih (by simpa using h)

/-- A color write through a valid pointer realizes the recolored view. -/
theorem realize_recolor {s : RBTree} {pp p : Option Nat} {T : BT}
    (hr : Realize s.heap pp p T) (j : Nat) (c : Bool) :
    Realize (updN s (some j) (fun n => { n with color := c })).heap pp p
      (T.recolor j c) := by
  induction hr with
  | leaf pp => exact .leaf pp
  | node hl hp hlt hrt ihl ihr =>
    rename_i pp i n l r
    by_cases hij : i = j
    · subst hij
      have hf : hfind (updN s (some i) (fun n => { n with color := c })).heap i =
          some { n with color := c } := hfind_updN_self hl
      have hres := Realize.node (n := { n with color := c }) hf hp ihl ihr
      simpa [BT.recolor] using hres
    · have hf : hfind (updN s (some j) (fun n => { n with color := c })).heap i =
          some n := by
        rw [hfind_updN_ne (fun hc => hij (Option.some.inj hc).symm), hl]
      have hres := Realize.node (n := n) hf hp ihl ihr
      simpa [BT.recolor, hij] using hres

/-- `sub` at a prefix of the replacement path: the inner node at the
prefix gets the replacement pushed down the rest of the path. -/
theorem BT.sub_repl_append {t u : BT} {q : List Bool} (h : t.sub q = some u)
    (q' : List Bool) (u2 : BT) :
    (t.repl (q ++ q') u2).sub q = some (u.repl q' u2) := by
  induction q generalizing t with
  | nil =>
    rw [BT.sub_nil] at h
    cases h
    rw [List.nil_append, BT.sub_nil]
  | cons b q ih =>
    cases t with
    | leaf => simp [BT.sub] at h
    | node i ci v l r =>
      simp only [BT.sub] at h
      simp only [List.cons_append, BT.repl]
      cases b with
      | true =>
        simp only [if_true]
        simpa [BT.sub] using ih (by simpa using h)
      | false =>
        simp only [if_neg (by simp : ¬ (false = true))]
        simpa [BT.sub] using ih (by simpa using h)

/-- Replacing a subtree by one with the same entry list preserves the
whole entry list. -/
theorem entries_repl_eq {t u u2 : BT} {q : List Bool} (h : t.sub q = some u)
    (he : u2.entries = u.entries) : (t.repl q u2).entries = t.entries := by
  obtain ⟨A, B, h1, h2⟩ := BT.entries_repl_decomp h
  rw [h2, he, h1]

/-- Case 4/5 of the insert fixup, parent on the left: blacken the inner
child `yi`, redden the grandparent `gid`, rotate right at `gid`.  The
entry list, header, counters and arena domain are preserved and the
result is realized. -/
theorem rebalance_break_left (s : RBTree) (root : Option Nat) (T : BT) (qg : List Bool)
    (gid yi : Nat) (gc cy : Bool) (gv vy : Val) (YL YR GR : BT)
    (hr : Realize s.heap (some s.header) root T)
    (hroot : root = T.ptr)
    (hnd : T.ids.Nodup)
    (hsub : T.sub qg = some (.node gid gc gv (.node yi cy vy YL YR) GR)) :
    Realize (rb_tree_rotate_right (rb_tree_set_red (rb_tree_set_black s (some yi))
          (some gid)) (some gid) root).1.heap (some s.header)
        (rb_tree_rotate_right (rb_tree_set_red (rb_tree_set_black s (some yi))
          (some gid)) (some gid) root).2
        (((T.recolor yi rb_tree_black).recolor gid rb_tree_red).repl qg
          (.node yi rb_tree_black vy YL (.node gid rb_tree_red gv YR GR))) ∧
      (rb_tree_rotate_right (rb_tree_set_red (rb_tree_set_black s (some yi))
          (some gid)) (some gid) root).2 =
        (((T.recolor yi rb_tree_black).recolor gid rb_tree_red).repl qg
          (.node yi rb_tree_black vy YL (.node gid rb_tree_red gv YR GR))).ptr ∧
      (((T.recolor yi rb_tree_black).recolor gid rb_tree_red).repl qg
          (.node yi rb_tree_black vy YL (.node gid rb_tree_red gv YR GR))).entries =
        T.entries ∧
      (∀ j, j ∉ T.ids → hfind (rb_tree_rotate_right (rb_tree_set_red
          (rb_tree_set_black s (some yi)) (some gid)) (some gid) root).1.heap j =
        hfind s.heap j) ∧
      (rb_tree_rotate_right (rb_tree_set_red (rb_tree_set_black s (some yi))
          (some gid)) (some gid) root).1.header = s.header ∧
      (rb_tree_rotate_right (rb_tree_set_red (rb_tree_set_black s (some yi))
          (some gid)) (some gid) root).1.nextId = s.nextId ∧
      (rb_tree_rotate_right (rb_tree_set_red (rb_tree_set_black s (some yi))
          (some gid)) (some gid) root).1.node_count = s.node_count ∧
      (rb_tree_rotate_right (rb_tree_set_red (rb_tree_set_black s (some yi))
          (some gid)) (some gid) root).1.heap.map Prod.fst = s.heap.map Prod.fst := by
  obtain ⟨hndY, hndGR, hgY, hgGR, hdYGR⟩ := nodup_node_parts (BT.sub_nodup hsub hnd)
  obtain ⟨hndYL, hndYR, hyYL, hyYR, hdYLYR⟩ := nodup_node_parts hndY
  have hgyi : gid ≠ yi := fun hc => hgY (by simp [BT.ids_node, hc])
  have hyGR : yi ∉ GR.ids := hdYGR yi (by simp [BT.ids_node])
  have hgYL : gid ∉ YL.ids := fun hc => hgY (by simp [BT.ids_node, hc])
  have hgYR : gid ∉ YR.ids := fun hc => hgY (by simp [BT.ids_node, hc])
  have hgmem : gid ∈ T.ids := BT.sub_ids_subset hsub gid (by simp [BT.ids_node])
  have hymem : yi ∈ T.ids := BT.sub_ids_subset hsub yi (by simp [BT.ids_node])
  set sA : RBTree := rb_tree_set_black s (some yi) with hsA
  set sB : RBTree := rb_tree_set_red sA (some gid) with hsB
  have hA : Realize sA.heap (some s.header) root (T.recolor yi rb_tree_black) :=
    realize_recolor hr yi rb_tree_black
  have hB : Realize sB.heap (some s.header) root
      ((T.recolor yi rb_tree_black).recolor gid rb_tree_red) :=
    realize_recolor hA gid rb_tree_red
  have h1 : (BT.node gid gc gv (BT.node yi cy vy YL YR) GR).recolor yi rb_tree_black =
      BT.node gid gc gv (BT.node yi rb_tree_black vy YL YR) GR := by
    simp only [BT.recolor, if_neg hgyi, if_pos rfl, if_true]
    rw [BT.recolor_not_mem hyYL, BT.recolor_not_mem hyYR, BT.recolor_not_mem hyGR]
  have h2 : (BT.node gid gc gv (BT.node yi rb_tree_black vy YL YR) GR).recolor
        gid rb_tree_red =
      BT.node gid rb_tree_red gv (BT.node yi rb_tree_black vy YL YR) GR := by
    simp only [BT.recolor, if_pos rfl, if_neg (Ne.symm hgyi), if_true]
    rw [BT.recolor_not_mem hgYL, BT.recolor_not_mem hgYR, BT.recolor_not_mem hgGR]
  have hs1 := BT.sub_recolor hsub yi rb_tree_black
  rw [h1] at hs1
  have hs2 := BT.sub_recolor hs1 gid rb_tree_red
  rw [h2] at hs2
  have hnd2 : ((T.recolor yi rb_tree_black).recolor gid rb_tree_red).ids.Nodup := by
    rw [BT.recolor_ids, BT.recolor_ids]
    exact hnd
  have hroot2 : root = ((T.recolor yi rb_tree_black).recolor gid rb_tree_red).ptr := by
    rw [BT.recolor_ptr, BT.recolor_ptr]
    exact hroot
  have hhB : sB.header = s.header := by
    rw [hsB, rb_tree_set_red, updN_header_id, hsA, rb_tree_set_black, updN_header_id]
  rw [← hhB] at hB
  obtain ⟨hrT2, hptr2, hfr2, hh2, hn2, hc2, hk2⟩ :=
    rotate_right_spec sB root ((T.recolor yi rb_tree_black).recolor gid rb_tree_red) qg
      gid yi rb_tree_red rb_tree_black gv vy YL YR GR hB hroot2 hnd2 hs2
  have hfrAB : ∀ j, j ∉ T.ids → hfind sB.heap j = hfind s.heap j := fun j hj => by
    rw [hsB, rb_tree_set_red, hfind_updN_ne
        (fun hc => hj (by rw [← Option.some.inj hc]; exact hgmem)),
      hsA, rb_tree_set_black, hfind_updN_ne
        (fun hc => hj (by rw [← Option.some.inj hc]; exact hymem))]
  have hent : (((T.recolor yi rb_tree_black).recolor gid rb_tree_red).repl qg
      (.node yi rb_tree_black vy YL (.node gid rb_tree_red gv YR GR))).entries =
      T.entries := by
    rw [entries_repl_eq hs2 (by simp [BT.entries_node]), BT.recolor_entries,
      BT.recolor_entries]
  rw [hhB] at hrT2
  refine ⟨hrT2, hptr2, hent, ?_, ?_, ?_, ?_, ?_⟩
  · intro j hj
    rw [hfr2 j (by rw [BT.recolor_ids, BT.recolor_ids]; exact hj)]
    exact hfrAB j hj
  · rw [hh2, hhB]
  · rw [hn2, hsB, rb_tree_set_red, updN_nextId, hsA, rb_tree_set_black, updN_nextId]
  · rw [hc2, hsB, rb_tree_set_red, updN_node_count, hsA, rb_tree_set_black,
      updN_node_count]
  · rw [hk2, hsB, rb_tree_set_red, updN_keys, hsA, rb_tree_set_black, updN_keys]

/-- Case 4/5 of the insert fixup, parent on the right: blacken the inner
child `yi`, redden the grandparent `gid`, rotate left at `gid`. -/
theorem rebalance_break_right (s : RBTree) (root : Option Nat) (T : BT) (qg : List Bool)
    (gid yi : Nat) (gc cy : Bool) (gv vy : Val) (GA YL YR : BT)
    (hr : Realize s.heap (some s.header) root T)
    (hroot : root = T.ptr)
    (hnd : T.ids.Nodup)
    (hsub : T.sub qg = some (.node gid gc gv GA (.node yi cy vy YL YR))) :
    Realize (rb_tree_rotate_left (rb_tree_set_red (rb_tree_set_black s (some yi))
          (some gid)) (some gid) root).1.heap (some s.header)
        (rb_tree_rotate_left (rb_tree_set_red (rb_tree_set_black s (some yi))
          (some gid)) (some gid) root).2
        (((T.recolor yi rb_tree_black).recolor gid rb_tree_red).repl qg
          (.node yi rb_tree_black vy (.node gid rb_tree_red gv GA YL) YR)) ∧
      (rb_tree_rotate_left (rb_tree_set_red (rb_tree_set_black s (some yi))
          (some gid)) (some gid) root).2 =
        (((T.recolor yi rb_tree_black).recolor gid rb_tree_red).repl qg
          (.node yi rb_tree_black vy (.node gid rb_tree_red gv GA YL) YR)).ptr ∧
      (((T.recolor yi rb_tree_black).recolor gid rb_tree_red).repl qg
          (.node yi rb_tree_black vy (.node gid rb_tree_red gv GA YL) YR)).entries =
        T.entries ∧
      (∀ j, j ∉ T.ids → hfind (rb_tree_rotate_left (rb_tree_set_red
          (rb_tree_set_black s (some yi)) (some gid)) (some gid) root).1.heap j =
        hfind s.heap j) ∧
      (rb_tree_rotate_left (rb_tree_set_red (rb_tree_set_black s (some yi))
          (some gid)) (some gid) root).1.header = s.header ∧
      (rb_tree_rotate_left (rb_tree_set_red (rb_tree_set_black s (some yi))
          (some gid)) (some gid) root).1.nextId = s.nextId ∧
      (rb_tree_rotate_left (rb_tree_set_red (rb_tree_set_black s (some yi))
          (some gid)) (some gid) root).1.node_count = s.node_count ∧
      (rb_tree_rotate_left (rb_tree_set_red (rb_tree_set_black s (some yi))
          (some gid)) (some gid) root).1.heap.map Prod.fst = s.heap.map Prod.fst := by
  obtain ⟨hndGA, hndY, hgGA, hgY, hdGAY⟩ := nodup_node_parts (BT.sub_nodup hsub hnd)
  obtain ⟨hndYL, hndYR, hyYL, hyYR, hdYLYR⟩ := nodup_node_parts hndY
  have hgyi : gid ≠ yi := fun hc => hgY (by simp [BT.ids_node, hc])
  have hyGA : yi ∉ GA.ids := fun hc => hdGAY yi hc (by simp [BT.ids_node])
  have hgYL : gid ∉ YL.ids := fun hc => hgY (by simp [BT.ids_node, hc])
  have hgYR : gid ∉ YR.ids := fun hc => hgY (by simp [BT.ids_node, hc])
  have hgmem : gid ∈ T.ids := BT.sub_ids_subset hsub gid (by simp [BT.ids_node])
  have hymem : yi ∈ T.ids := BT.sub_ids_subset hsub yi (by simp [BT.ids_node])
  set sA : RBTree := rb_tree_set_black s (some yi) with hsA
  set sB : RBTree := rb_tree_set_red sA (some gid) with hsB
  have hA : Realize sA.heap (some s.header) root (T.recolor yi rb_tree_black) :=
    realize_recolor hr yi rb_tree_black
  have hB : Realize sB.heap (some s.header) root
      ((T.recolor yi rb_tree_black).recolor gid rb_tree_red) :=
    realize_recolor hA gid rb_tree_red
  have h1 : (BT.node gid gc gv GA (BT.node yi cy vy YL YR)).recolor yi rb_tree_black =
      BT.node gid gc gv GA (BT.node yi rb_tree_black vy YL YR) := by
    simp only [BT.recolor, if_neg hgyi, if_pos rfl, if_true]
    rw [BT.recolor_not_mem hyYL, BT.recolor_not_mem hyYR, BT.recolor_not_mem hyGA]
  have h2 : (BT.node gid gc gv GA (BT.node yi rb_tree_black vy YL YR)).recolor
        gid rb_tree_red =
      BT.node gid rb_tree_red gv GA (BT.node yi rb_tree_black vy YL YR) := by
    simp only [BT.recolor, if_pos rfl, if_neg (Ne.symm hgyi), if_true]
    rw [BT.recolor_not_mem hgYL, BT.recolor_not_mem hgYR, BT.recolor_not_mem hgGA]
  have hs1 := BT.sub_recolor hsub yi rb_tree_black
  rw [h1] at hs1
  have hs2 := BT.sub_recolor hs1 gid rb_tree_red
  rw [h2] at hs2
  have hnd2 : ((T.recolor yi rb_tree_black).recolor gid rb_tree_red).ids.Nodup := by
    rw [BT.recolor_ids, BT.recolor_ids]
    exact hnd
  have hroot2 : root = ((T.recolor yi rb_tree_black).recolor gid rb_tree_red).ptr := by
    rw [BT.recolor_ptr, BT.recolor_ptr]
    exact hroot
  have hhB : sB.header = s.header := by
    rw [hsB, rb_tree_set_red, updN_header_id, hsA, rb_tree_set_black, updN_header_id]
  rw [← hhB] at hB
  obtain ⟨hrT2, hptr2, hfr2, hh2, hn2, hc2, hk2⟩ :=
    rotate_left_spec sB root ((T.recolor yi rb_tree_black).recolor gid rb_tree_red) qg
      gid yi rb_tree_red rb_tree_black gv vy GA YL YR hB hroot2 hnd2 hs2
  have hfrAB : ∀ j, j ∉ T.ids → hfind sB.heap j = hfind s.heap j := fun j hj => by
    rw [hsB, rb_tree_set_red, hfind_updN_ne
        (fun hc => hj (by rw [← Option.some.inj hc]; exact hgmem)),
      hsA, rb_tree_set_black, hfind_updN_ne
        (fun hc => hj (by rw [← Option.some.inj hc]; exact hymem))]
  have hent : (((T.recolor yi rb_tree_black).recolor gid rb_tree_red).repl qg
      (.node yi rb_tree_black vy (.node gid rb_tree_red gv GA YL) YR)).entries =
      T.entries := by
    rw [entries_repl_eq hs2 (by simp [BT.entries_node]), BT.recolor_entries,
      BT.recolor_entries]
  rw [hhB] at hrT2
  refine ⟨hrT2, hptr2, hent, ?_, ?_, ?_, ?_, ?_⟩
  · intro j hj
    rw [hfr2 j (by rw [BT.recolor_ids, BT.recolor_ids]; exact hj)]
    exact hfrAB j hj
  · rw [hh2, hhB]
  · rw [hn2, hsB, rb_tree_set_red, updN_nextId, hsA, rb_tree_set_black, updN_nextId]
  · rw [hc2, hsB, rb_tree_set_red, updN_node_count, hsA, rb_tree_set_black,
      updN_node_count]
  · rw [hk2, hsB, rb_tree_set_red, updN_keys, hsA, rb_tree_set_black, updN_keys]

theorem BT.rootIsBlack_recolor_of_ne {t : BT} {j : Nat} (h : t.ptr ≠ some j) (c : Bool) :
    (t.recolor j c).rootIsBlack ↔ t.rootIsBlack := by
  cases t with
  | leaf => exact Iff.rfl
  | node i ci v l r =>
    have hij : i ≠ j := fun hc => h (by simp [BT.ptr, hc])
    simp [BT.recolor, BT.rootIsBlack, hij]

theorem BT.rootIsBlack_recolor_self {t : BT} {j : Nat} (h : t.ptr = some j) :
    (t.recolor j rb_tree_black).rootIsBlack := by
  cases t with
  | leaf => trivial
  | node i ci v l r =>
    simp only [BT.ptr, Option.some.injEq] at h
    simp [BT.recolor, BT.rootIsBlack, h]

/-- The `while` loop of `rb_tree_insert_rebalance` preserves realization,
the entry list, the header, the counters and the arena domain, and leaves
ids outside the view untouched. -/
theorem insert_rebalance_loop_spec (fuel : Nat) :
    ∀ (s : RBTree) (root : Option Nat) (T : BT) (xi : Nat)
      (res : RBTree × Option Nat × Option Nat),
      Realize s.heap (some s.header) root T →
      root = T.ptr →
      T.ids.Nodup →
      xi ∈ T.ids →
      (T.rootIsBlack ∨ some xi = root) →
      insert_rebalance_loop s (some xi) root fuel = some res →
      ∃ T2 : BT,
        Realize res.1.heap (some s.header) res.2.2 T2 ∧
        res.2.2 = T2.ptr ∧
        T2.entries = T.entries ∧
        (∀ j, j ∉ T.ids → hfind res.1.heap j = hfind s.heap j) ∧
        res.1.header = s.header ∧ res.1.nextId = s.nextId ∧
        res.1.node_count = s.node_count ∧
        res.1.heap.map Prod.fst = s.heap.map Prod.fst := by
  induction fuel with
  | zero =>
    intro s root T xi res hr hroot hnd hxi hinv hres
    simp [insert_rebalance_loop] at hres
  | succ fuel ih =>
    intro s root T xi res hr hroot hnd hxi hinv hres
    rw [insert_rebalance_loop] at hres
    by_cases hcond :
        (some xi != root && rb_tree_is_red s (getN s (some xi)).parent) = true
    case neg =>
      rw [if_neg hcond] at hres
      have hres2 := Option.some.inj hres
      subst hres2
      exact ⟨T, hr, hroot, rfl, fun j hj => rfl, rfl, rfl, rfl, rfl⟩
    case pos =>
      rw [if_pos hcond] at hres
      rw [Bool.and_eq_true, bne_iff_ne] at hcond
      obtain ⟨hner, hred⟩ := hcond
      -- root is black (the invariant's second disjunct is impossible)
      have hrb : T.rootIsBlack := hinv.resolve_right (fun hc => hner hc)
      -- locate the current node `xi` and its parent
      obtain ⟨q, cx, vx, XL, XR, hsubx⟩ := BT.mem_ids_sub hxi
      rcases realize_sub_parent hr q _ hsubx with ⟨hq0, hrx⟩ |
        ⟨qp, b, pid, pc, pv, pl, pr, hq, hsubp, hchild, hrx⟩
      · subst hq0
        rw [BT.sub_nil, Option.some.injEq] at hsubx
        exact absurd (by rw [hroot, hsubx]; rfl) hner
      have hrx2 : Realize s.heap (some pid) (some xi) (BT.node xi cx vx XL XR) := hrx
      obtain ⟨hfx, hrXL, hrXR⟩ := hrx2.node_lookup
      simp only [getN_some hfx] at hres hred
      -- the parent is red, hence not the (black) root: it has a parent too
      rcases realize_sub_parent hr qp _ hsubp with ⟨hqp0, hrp⟩ |
        ⟨qg, b2, gid, gc, gv, gl, gr, hqp, hsubg, hchild2, hrp⟩
      · exfalso
        subst hqp0
        rw [BT.sub_nil, Option.some.injEq] at hsubp
        rw [hsubp] at hrb
        have hrp2 : Realize s.heap (some s.header) (some pid) (BT.node pid pc pv pl pr) := hrp
        obtain ⟨hfp, _, _⟩ := hrp2.node_lookup
        rw [rb_tree_is_red, getN_some hfp] at hred
        have hpc : pc = rb_tree_red := by simpa using hred
        have : pc = rb_tree_black := hrb
        rw [this] at hpc
        exact absurd hpc (by decide)
      have hrp2 : Realize s.heap (some gid) (some pid) (BT.node pid pc pv pl pr) := hrp
      obtain ⟨hfp, hrpl, hrpr⟩ := hrp2.node_lookup
      simp only [getN_some hfp] at hres
      -- the grandparent's record and children
      obtain ⟨ppg, hrg⟩ : ∃ pp2, Realize s.heap pp2 (some gid)
          (BT.node gid gc gv gl gr) := by
        rcases realize_sub_parent hr qg _ hsubg with ⟨_, hrg⟩ |
          ⟨_, _, _, _, _, _, _, _, _, _, hrg⟩
        · exact ⟨_, hrg⟩
        · exact ⟨_, hrg⟩
      obtain ⟨hfg, hrgl, hrgr⟩ := hrg.node_lookup
      simp only [getN_some hfg] at hres
      obtain ⟨hndgl, hndgr, hggl, hggr, hdglgr⟩ :=
        nodup_node_parts (BT.sub_nodup hsubg hnd)
      obtain ⟨hndpl, hndpr, hppl, hppr, hdplpr⟩ :=
        nodup_node_parts (BT.sub_nodup hsubp hnd)
      have hpmem : pid ∈ T.ids := BT.sub_ids_subset hsubp pid (by simp [BT.ids_node])
      have hgmem : gid ∈ T.ids := BT.sub_ids_subset hsubg gid (by simp [BT.ids_node])
      -- evaluate `is_lchild(parent)` to the recorded side bit `b2`
      have hlchp : rb_tree_is_lchild s (some pid) = b2 := by
        rw [rb_tree_is_lchild, getN_some hfp]
        rw [show (Node.mk (some gid) pl.ptr pr.ptr pc pv).parent = some gid from rfl,
          getN_some hfg]
        cases b2 with
        | true =>
          have hgl : BT.node pid pc pv pl pr = gl := by simpa using hchild2
          rw [← hgl]
          simp [BT.ptr]
        | false =>
          have hgr : BT.node pid pc pv pl pr = gr := by simpa using hchild2
          have hglne : gl.ptr ≠ some pid := by
            intro hc
            exact hdglgr pid (BT.ptr_mem_ids hc) (by rw [← hgr]; simp [BT.ids_node])
          simpa using hglne
      rw [hlchp] at hres
      -- evaluate `is_lchild(x)` to the recorded side bit `b`
      have hlchx : rb_tree_is_lchild s (some xi) = b := by
        rw [rb_tree_is_lchild, getN_some hfx]
        rw [show (Node.mk (some pid) XL.ptr XR.ptr cx vx).parent = some pid from rfl,
          getN_some hfp]
        cases b with
        | true =>
          have hpl : BT.node xi cx vx XL XR = pl := by simpa using hchild
          rw [← hpl]
          simp [BT.ptr]
        | false =>
          have hpr : BT.node xi cx vx XL XR = pr := by simpa using hchild
          have hplne : pl.ptr ≠ some xi := by
            intro hc
            exact hdplpr xi (BT.ptr_mem_ids hc) (by rw [← hpr]; simp [BT.ids_node])
          simpa using hplne
      cases b2 with
      | true =>
        -- parent is a left child; uncle is the grandparent's right child
        have hgl : BT.node pid pc pv pl pr = gl := by simpa using hchild2
        simp only [if_true] at hres
        by_cases hu : (gr.ptr != none && rb_tree_is_red s gr.ptr) = true
        · -- case 3: recolor and climb to the grandparent
          rw [if_pos hu] at hres
          rw [Bool.and_eq_true, bne_iff_ne] at hu
          obtain ⟨hu1, hu2⟩ := hu
          cases gr with
          | leaf => exact absurd rfl hu1
          | node ui cu vu ul ur =>
          simp only [BT.ptr] at hres
          have humem : ui ∈ T.ids :=
            BT.sub_ids_subset hsubg ui (by simp [BT.ids_node])
          have hsubu : T.sub (qg ++ [false]) = some (BT.node ui cu vu ul ur) := by
            rw [BT.sub_snoc, hsubg]
            rfl
          set s3 : RBTree := rb_tree_set_red (rb_tree_set_black
            (rb_tree_set_black s (some pid)) (some ui)) (some gid) with hs3
          set T1 : BT := ((T.recolor pid rb_tree_black).recolor ui
            rb_tree_black).recolor gid rb_tree_red with hT1
          have hr1 : Realize s3.heap (some s.header) root T1 :=
            realize_recolor (realize_recolor
              (realize_recolor hr pid rb_tree_black) ui rb_tree_black) gid rb_tree_red
          have h3h : s3.header = s.header := by
            rw [hs3, rb_tree_set_red, updN_header_id, rb_tree_set_black, updN_header_id,
              rb_tree_set_black, updN_header_id]
          have h3n : s3.nextId = s.nextId := by
            rw [hs3, rb_tree_set_red, updN_nextId, rb_tree_set_black, updN_nextId,
              rb_tree_set_black, updN_nextId]
          have h3c : s3.node_count = s.node_count := by
            rw [hs3, rb_tree_set_red, updN_node_count, rb_tree_set_black, updN_node_count,
              rb_tree_set_black, updN_node_count]
          have h3k : s3.heap.map Prod.fst = s.heap.map Prod.fst := by
            rw [hs3, rb_tree_set_red, updN_keys, rb_tree_set_black, updN_keys,
              rb_tree_set_black, updN_keys]
          have hfr3 : ∀ j, j ∉ T.ids → hfind s3.heap j = hfind s.heap j := by
            intro j hj
            rw [hs3, rb_tree_set_red, hfind_updN_ne
                (fun hc => hj (by rw [← Option.some.inj hc]; exact hgmem)),
              rb_tree_set_black, hfind_updN_ne
                (fun hc => hj (by rw [← Option.some.inj hc]; exact humem)),
              rb_tree_set_black, hfind_updN_ne
                (fun hc => hj (by rw [← Option.some.inj hc]; exact hpmem))]
          have hids1 : T1.ids = T.ids := by
            rw [hT1, BT.recolor_ids, BT.recolor_ids, BT.recolor_ids]
          have hent1 : T1.entries = T.entries := by
            rw [hT1, BT.recolor_entries, BT.recolor_entries, BT.recolor_entries]
          have hroot1 : root = T1.ptr := by
            rw [hT1, BT.recolor_ptr, BT.recolor_ptr, BT.recolor_ptr]
            exact hroot
          have hnd1 : T1.ids.Nodup := by
            rw [hids1]
            exact hnd
          have hgid1 : gid ∈ T1.ids := by
            rw [hids1]
            exact hgmem
          have hinv1 : T1.rootIsBlack ∨ some gid = root := by
            by_cases hgr2 : some gid = root
            · exact Or.inr hgr2
            · left
              cases T with
              | leaf => simp [BT.ids, BT.entries] at hxi
              | node t0 ct vt tl tr =>
                have hgid_ne : (BT.node t0 ct vt tl tr).ptr ≠ some gid := by
                  intro hc
                  exact hgr2 (by rw [hroot, hc])
                have hpid_ne : pid ≠ t0 :=
                  BT.sub_ne_root hsubp (by rw [hqp]; simp) rfl rfl hnd
                have hui_ne : ui ≠ t0 :=
                  BT.sub_ne_root hsubu (by simp) rfl rfl hnd
                rw [hT1]
                refine (BT.rootIsBlack_recolor_of_ne ?_ rb_tree_red).mpr
                  ((BT.rootIsBlack_recolor_of_ne ?_ rb_tree_black).mpr
                    ((BT.rootIsBlack_recolor_of_ne ?_ rb_tree_black).mpr hrb))
                · rw [BT.recolor_ptr, BT.recolor_ptr]
                  exact hgid_ne
                · rw [BT.recolor_ptr]
                  intro hc
                  exact hui_ne (by simpa [BT.ptr] using hc.symm)
                · intro hc
                  exact hpid_ne (by simpa [BT.ptr] using hc.symm)
          have hr1h : Realize s3.heap (some s3.header) root T1 := by
            rw [h3h]
            exact hr1
          have hres2 : insert_rebalance_loop s3 (some gid) root fuel = some res := hres
          obtain ⟨T2, ha, hb', hc', hd, he, hf, hg2, hh2⟩ :=
            ih s3 root T1 gid res hr1h hroot1 hnd1 hgid1 hinv1 hres2
          refine ⟨T2, ?_, hb', ?_, ?_, ?_, ?_, ?_, ?_⟩
          · rw [h3h] at ha
            exact ha
          · rw [hc', hent1]
          · intro j hj
            rw [hd j (by rw [hids1]; exact hj)]
            exact hfr3 j hj
          · rw [he, h3h]
          · rw [hf, h3n]
          · rw [hg2, h3c]
          · rw [hh2, h3k]
        · -- cases 4/5: at most one rotation pair, then break
          rw [if_neg hu] at hres
          rw [hlchx] at hres
          cases b with
          | true =>
            -- x is already a left child: no first rotation
            simp only [Bool.not_true, Bool.false_eq_true, if_false] at hres
            simp only [getN_some hfx, getN_some hfp] at hres
            have hpl : BT.node xi cx vx XL XR = pl := by simpa using hchild
            rw [← hgl, ← hpl] at hsubg
            obtain ⟨hA, hB, hC, hD, hE, hF, hG2, hH⟩ :=
              rebalance_break_left s root T qg gid pid gc pc gv pv
                (BT.node xi cx vx XL XR) pr gr hr hroot hnd hsubg
            have hres3 := Option.some.inj hres
            subst hres3
            exact ⟨_, hA, hB, hC, hD, hE, hF, hG2, hH⟩
          | false =>
            -- x is a right child: rotate left at the parent first
            simp only [Bool.not_false, if_true] at hres
            have hpr : BT.node xi cx vx XL XR = pr := by simpa using hchild
            rw [← hpr] at hsubp
            obtain ⟨hr1, hptr1, hfr1, hh1, hn1, hc1, hk1⟩ :=
              rotate_left_spec s root T qp pid xi pc cx pv vx pl XL XR hr hroot hnd hsubp
            set T1 : BT := T.repl qp
              (BT.node xi cx vx (BT.node pid pc pv pl XL) XR) with hT1
            have hent1 : T1.entries = T.entries := by
              rw [hT1]
              exact entries_repl_eq hsubp (by simp [BT.entries_node])
            have hids1 : T1.ids = T.ids := by
              simp only [BT.ids, hent1]
            have hnd1 : T1.ids.Nodup := by
              rw [hids1]
              exact hnd
            have hsub1 : T1.sub qg = some (BT.node gid gc gv
                (BT.node xi cx vx (BT.node pid pc pv pl XL) XR) gr) := by
              rw [hT1, hqp]
              have := BT.sub_repl_append hsubg [true]
                (BT.node xi cx vx (BT.node pid pc pv pl XL) XR)
              simpa [BT.repl, BT.repl_nil] using this
            have hr1u : Realize (rb_tree_rotate_left s (some pid) root).1.heap
                (some s.header) (rb_tree_rotate_left s (some pid) root).2 T1 := by
              rw [hT1]
              exact hr1
            obtain ⟨ppg1, hrg1⟩ : ∃ pp2,
                Realize (rb_tree_rotate_left s (some pid) root).1.heap pp2 (some gid)
                  (BT.node gid gc gv
                    (BT.node xi cx vx (BT.node pid pc pv pl XL) XR) gr) := by
              rcases realize_sub_parent hr1u qg _ hsub1 with ⟨_, hrg⟩ |
                ⟨_, _, _, _, _, _, _, _, _, _, hrg⟩
              · exact ⟨_, hrg⟩
              · exact ⟨_, hrg⟩
            obtain ⟨hfg1, hru2, hrgr1⟩ := hrg1.node_lookup
            have hru2c : Realize (rb_tree_rotate_left s (some pid) root).1.heap
                (some gid) (some xi)
                (BT.node xi cx vx (BT.node pid pc pv pl XL) XR) := hru2
            obtain ⟨hfx1, hrp1, hrXR1⟩ := hru2c.node_lookup
            have hrp1c : Realize (rb_tree_rotate_left s (some pid) root).1.heap
                (some xi) (some pid) (BT.node pid pc pv pl XL) := hrp1
            obtain ⟨hfp1, _, _⟩ := hrp1c.node_lookup
            simp only [getN_some hfp1, getN_some hfx1] at hres
            have hr1hdr : Realize (rb_tree_rotate_left s (some pid) root).1.heap
                (some (rb_tree_rotate_left s (some pid) root).1.header)
                (rb_tree_rotate_left s (some pid) root).2 T1 := by
              rw [hh1]
              exact hr1u
            obtain ⟨hA, hB, hC, hD, hE, hF, hG2, hH⟩ :=
              rebalance_break_left (rb_tree_rotate_left s (some pid) root).1
                (rb_tree_rotate_left s (some pid) root).2 T1 qg gid xi gc cx gv vx
                (BT.node pid pc pv pl XL) XR gr hr1hdr hptr1 hnd1 hsub1
            have hres3 := Option.some.inj hres
            subst hres3
            refine ⟨_, ?_, hB, ?_, ?_, ?_, ?_, ?_, ?_⟩
            · rw [hh1] at hA
              exact hA
            · rw [hC, hent1]
            · intro j hj
              rw [hD j (by rw [hids1]; exact hj)]
              exact hfr1 j hj
            · rw [hE, hh1]
            · rw [hF, hn1]
            · rw [hG2, hc1]
            · rw [hH, hk1]
      | false =>
        have hgr : BT.node pid pc pv pl pr = gr := by simpa using hchild2
        simp only [Bool.false_eq_true, if_false] at hres
        by_cases hu : (gl.ptr != none && rb_tree_is_red s gl.ptr) = true
        · -- case 3 (mirror): recolor and climb to the grandparent
          rw [if_pos hu] at hres
          rw [Bool.and_eq_true, bne_iff_ne] at hu
          obtain ⟨hu1, hu2⟩ := hu
          cases gl with
          | leaf => exact absurd rfl hu1
          | node ui cu vu ul ur =>
          simp only [BT.ptr] at hres
          have humem : ui ∈ T.ids :=
            BT.sub_ids_subset hsubg ui (by simp [BT.ids_node])
          have hsubu : T.sub (qg ++ [true]) = some (BT.node ui cu vu ul ur) := by
            rw [BT.sub_snoc, hsubg]
            rfl
          set s3 : RBTree := rb_tree_set_red (rb_tree_set_black
            (rb_tree_set_black s (some pid)) (some ui)) (some gid) with hs3
          set T1 : BT := ((T.recolor pid rb_tree_black).recolor ui
            rb_tree_black).recolor gid rb_tree_red with hT1
          have hr1 : Realize s3.heap (some s.header) root T1 :=
            realize_recolor (realize_recolor
              (realize_recolor hr pid rb_tree_black) ui rb_tree_black) gid rb_tree_red
          have h3h : s3.header = s.header := by
            rw [hs3, rb_tree_set_red, updN_header_id, rb_tree_set_black, updN_header_id,
              rb_tree_set_black, updN_header_id]
          have h3n : s3.nextId = s.nextId := by
            rw [hs3, rb_tree_set_red, updN_nextId, rb_tree_set_black, updN_nextId,
              rb_tree_set_black, updN_nextId]
          have h3c : s3.node_count = s.node_count := by
            rw [hs3, rb_tree_set_red, updN_node_count, rb_tree_set_black, updN_node_count,
              rb_tree_set_black, updN_node_count]
          have h3k : s3.heap.map Prod.fst = s.heap.map Prod.fst := by
            rw [hs3, rb_tree_set_red, updN_keys, rb_tree_set_black, updN_keys,
              rb_tree_set_black, updN_keys]
          have hfr3 : ∀ j, j ∉ T.ids → hfind s3.heap j = hfind s.heap j := by
            intro j hj
            rw [hs3, rb_tree_set_red, hfind_updN_ne
                (fun hc => hj (by rw [← Option.some.inj hc]; exact hgmem)),
              rb_tree_set_black, hfind_updN_ne
                (fun hc => hj (by rw [← Option.some.inj hc]; exact humem)),
              rb_tree_set_black, hfind_updN_ne
                (fun hc => hj (by rw [← Option.some.inj hc]; exact hpmem))]
          have hids1 : T1.ids = T.ids := by
            rw [hT1, BT.recolor_ids, BT.recolor_ids, BT.recolor_ids]
          have hent1 : T1.entries = T.entries := by
            rw [hT1, BT.recolor_entries, BT.recolor_entries, BT.recolor_entries]
          have hroot1 : root = T1.ptr := by
            rw [hT1, BT.recolor_ptr, BT.recolor_ptr, BT.recolor_ptr]
            exact hroot
          have hnd1 : T1.ids.Nodup := by
            rw [hids1]
            exact hnd
          have hgid1 : gid ∈ T1.ids := by
            rw [hids1]
            exact hgmem
          have hinv1 : T1.rootIsBlack ∨ some gid = root := by
            by_cases hgr2 : some gid = root
            · exact Or.inr hgr2
            · left
              cases T with
              | leaf => simp [BT.ids, BT.entries] at hxi
              | node t0 ct vt tl tr =>
                have hgid_ne : (BT.node t0 ct vt tl tr).ptr ≠ some gid := by
                  intro hc
                  exact hgr2 (by rw [hroot, hc])
                have hpid_ne : pid ≠ t0 :=
                  BT.sub_ne_root hsubp (by rw [hqp]; simp) rfl rfl hnd
                have hui_ne : ui ≠ t0 :=
                  BT.sub_ne_root hsubu (by simp) rfl rfl hnd
                rw [hT1]
                refine (BT.rootIsBlack_recolor_of_ne ?_ rb_tree_red).mpr
                  ((BT.rootIsBlack_recolor_of_ne ?_ rb_tree_black).mpr
                    ((BT.rootIsBlack_recolor_of_ne ?_ rb_tree_black).mpr hrb))
                · rw [BT.recolor_ptr, BT.recolor_ptr]
                  exact hgid_ne
                · rw [BT.recolor_ptr]
                  intro hc
                  exact hui_ne (by simpa [BT.ptr] using hc.symm)
                · intro hc
                  exact hpid_ne (by simpa [BT.ptr] using hc.symm)
          have hr1h : Realize s3.heap (some s3.header) root T1 := by
            rw [h3h]
            exact hr1
          have hres2 : insert_rebalance_loop s3 (some gid) root fuel = some res := hres
          obtain ⟨T2, ha, hb', hc', hd, he, hf, hg2, hh2⟩ :=
            ih s3 root T1 gid res hr1h hroot1 hnd1 hgid1 hinv1 hres2
          refine ⟨T2, ?_, hb', ?_, ?_, ?_, ?_, ?_, ?_⟩
          · rw [h3h] at ha
            exact ha
          · rw [hc', hent1]
          · intro j hj
            rw [hd j (by rw [hids1]; exact hj)]
            exact hfr3 j hj
          · rw [he, h3h]
          · rw [hf, h3n]
          · rw [hg2, h3c]
          · rw [hh2, h3k]
        · -- cases 4/5 (mirror): at most one rotation pair, then break
          rw [if_neg hu] at hres
          rw [hlchx] at hres
          cases b with
          | true =>
            -- x is a left child: rotate right at the parent first
            simp only [if_true] at hres
            have hpl : BT.node xi cx vx XL XR = pl := by simpa using hchild
            rw [← hpl] at hsubp
            obtain ⟨hr1, hptr1, hfr1, hh1, hn1, hc1, hk1⟩ :=
              rotate_right_spec s root T qp pid xi pc cx pv vx XL XR pr hr hroot hnd hsubp
            set T1 : BT := T.repl qp
              (BT.node xi cx vx XL (BT.node pid pc pv XR pr)) with hT1
            have hent1 : T1.entries = T.entries := by
              rw [hT1]
              exact entries_repl_eq hsubp (by simp [BT.entries_node])
            have hids1 : T1.ids = T.ids := by
              simp only [BT.ids, hent1]
            have hnd1 : T1.ids.Nodup := by
              rw [hids1]
              exact hnd
            have hsub1 : T1.sub qg = some (BT.node gid gc gv gl
                (BT.node xi cx vx XL (BT.node pid pc pv XR pr))) := by
              rw [hT1, hqp]
              have := BT.sub_repl_append hsubg [false]
                (BT.node xi cx vx XL (BT.node pid pc pv XR pr))
              simpa [BT.repl, BT.repl_nil] using this
            have hr1u : Realize (rb_tree_rotate_right s (some pid) root).1.heap
                (some s.header) (rb_tree_rotate_right s (some pid) root).2 T1 := by
              rw [hT1]
              exact hr1
            obtain ⟨ppg1, hrg1⟩ : ∃ pp2,
                Realize (rb_tree_rotate_right s (some pid) root).1.heap pp2 (some gid)
                  (BT.node gid gc gv gl
                    (BT.node xi cx vx XL (BT.node pid pc pv XR pr))) := by
              rcases realize_sub_parent hr1u qg _ hsub1 with ⟨_, hrg⟩ |
                ⟨_, _, _, _, _, _, _, _, _, _, hrg⟩
              · exact ⟨_, hrg⟩
              · exact ⟨_, hrg⟩
            obtain ⟨hfg1, hrgl1, hru2⟩ := hrg1.node_lookup
            have hru2c : Realize (rb_tree_rotate_right s (some pid) root).1.heap
                (some gid) (some xi)
                (BT.node xi cx vx XL (BT.node pid pc pv XR pr)) := hru2
            obtain ⟨hfx1, hrXL1, hrp1⟩ := hru2c.node_lookup
            have hrp1c : Realize (rb_tree_rotate_right s (some pid) root).1.heap
                (some xi) (some pid) (BT.node pid pc pv XR pr) := hrp1
            obtain ⟨hfp1, _, _⟩ := hrp1c.node_lookup
            simp only [getN_some hfp1, getN_some hfx1] at hres
            have hr1hdr : Realize (rb_tree_rotate_right s (some pid) root).1.heap
                (some (rb_tree_rotate_right s (some pid) root).1.header)
                (rb_tree_rotate_right s (some pid) root).2 T1 := by
              rw [hh1]
              exact hr1u
            obtain ⟨hA, hB, hC, hD, hE, hF, hG2, hH⟩ :=
              rebalance_break_right (rb_tree_rotate_right s (some pid) root).1
                (rb_tree_rotate_right s (some pid) root).2 T1 qg gid xi gc cx gv vx
                gl XL (BT.node pid pc pv XR pr) hr1hdr hptr1 hnd1 hsub1
            have hres3 := Option.some.inj hres
            subst hres3
            refine ⟨_, ?_, hB, ?_, ?_, ?_, ?_, ?_, ?_⟩
            · rw [hh1] at hA
              exact hA
            · rw [hC, hent1]
            · intro j hj
              rw [hD j (by rw [hids1]; exact hj)]
              exact hfr1 j hj
            · rw [hE, hh1]
            · rw [hF, hn1]
            · rw [hG2, hc1]
            · rw [hH, hk1]
          | false =>
            -- x is already a right child: no first rotation
            simp only [Bool.false_eq_true, if_false] at hres
            simp only [getN_some hfx, getN_some hfp] at hres
            rw [← hgr] at hsubg
            obtain ⟨hA, hB, hC, hD, hE, hF, hG2, hH⟩ :=
              rebalance_break_right s root T qg gid pid gc pc gv pv
                gl pl pr hr hroot hnd hsubg
            have hres3 := Option.some.inj hres
            subst hres3
            exact ⟨_, hA, hB, hC, hD, hE, hF, hG2, hH⟩

/-- `rb_tree_insert_rebalance` preserves the entry list, the header, the
counters and the arena domain, leaves foreign ids untouched, and leaves
the root black. -/
theorem rb_tree_insert_rebalance_spec (s : RBTree) (root : Option Nat) (T : BT)
    (xi : Nat) (fuel : Nat) (out : RBTree × Option Nat)
    (hr : Realize s.heap (some s.header) root T)
    (hroot : root = T.ptr) (hnd : T.ids.Nodup) (hxi : xi ∈ T.ids)
    (hinv : T.rootIsBlack ∨ some xi = root)
    (hres : rb_tree_insert_rebalance s (some xi) root fuel = some out) :
    ∃ T2 : BT,
      Realize out.1.heap (some s.header) out.2 T2 ∧
      out.2 = T2.ptr ∧
      T2.entries = T.entries ∧
      T2.rootIsBlack ∧
      (∀ j, j ∉ T.ids → hfind out.1.heap j = hfind s.heap j) ∧
      out.1.header = s.header ∧ out.1.nextId = s.nextId ∧
      out.1.node_count = s.node_count ∧
      out.1.heap.map Prod.fst = s.heap.map Prod.fst := by
  set sr : RBTree := rb_tree_set_red s (some xi) with hsr
  have hrh : sr.header = s.header := by
    rw [hsr, rb_tree_set_red, updN_header_id]
  have hrn : sr.nextId = s.nextId := by
    rw [hsr, rb_tree_set_red, updN_nextId]
  have hrc : sr.node_count = s.node_count := by
    rw [hsr, rb_tree_set_red, updN_node_count]
  have hrk : sr.heap.map Prod.fst = s.heap.map Prod.fst := by
    rw [hsr, rb_tree_set_red, updN_keys]
  have hfrr : ∀ j, j ∉ T.ids → hfind sr.heap j = hfind s.heap j := by
    intro j hj
    rw [hsr, rb_tree_set_red, hfind_updN_ne
        (fun hc => hj (by rw [← Option.some.inj hc]; exact hxi))]
  have hrr : Realize sr.heap (some sr.header) root (T.recolor xi rb_tree_red) := by
    rw [hrh]
    exact realize_recolor hr xi rb_tree_red
  have hent0 : (T.recolor xi rb_tree_red).entries = T.entries :=
    BT.recolor_entries xi rb_tree_red T
  have hids0 : (T.recolor xi rb_tree_red).ids = T.ids := BT.recolor_ids xi rb_tree_red T
  have hinv0 : (T.recolor xi rb_tree_red).rootIsBlack ∨ some xi = root := by
    by_cases hpx : T.ptr = some xi
    · exact Or.inr (by rw [hroot, hpx])
    · rcases hinv with hb | hx
      · exact Or.inl ((BT.rootIsBlack_recolor_of_ne hpx rb_tree_red).mpr hb)
      · exact Or.inr hx
  rw [rb_tree_insert_rebalance] at hres
  cases hloop : insert_rebalance_loop sr (some xi) root fuel with
  | none =>
    rw [hloop] at hres
    simp at hres
  | some res =>
    rw [hloop] at hres
    obtain ⟨T2, ha, hb', hc', hd, he, hf, hg2, hh2⟩ :=
      insert_rebalance_loop_spec fuel sr root (T.recolor xi rb_tree_red) xi res hrr
        (by rw [BT.recolor_ptr]; exact hroot) (by rw [hids0]; exact hnd)
        (by rw [hids0]; exact hxi) hinv0 hloop
    have hids2 : T2.ids = T.ids := by
      simp only [BT.ids, hc', hent0]
    have hout : out = (rb_tree_set_black res.1 res.2.2, res.2.2) := by
      cases res with
      | mk s1 p1 =>
        cases p1 with
        | mk x1 root1 => exact (Option.some.inj hres).symm
    subst hout
    cases hT2p : res.2.2 with
    | none =>
      have hT2leaf : T2 = .leaf := by
        cases T2 with
        | leaf => rfl
        | node i c v l r =>
          rw [hT2p] at hb'
          exact absurd hb' (by simp [BT.ptr])
      refine ⟨T2, ?_, ?_, ?_, ?_, ?_, ?_, ?_, ?_, ?_⟩
      · show Realize (rb_tree_set_black res.1 none).heap (some s.header) none T2
        rw [hT2leaf]
        exact .leaf _
      · rw [hT2leaf]
        rfl
      · rw [hc', hent0]
      · rw [hT2leaf]
        trivial
      · intro j hj
        show hfind (rb_tree_set_black res.1 none).heap j = hfind s.heap j
        rw [show rb_tree_set_black res.1 none = res.1 from rfl,
          hd j (by rw [hids0]; exact hj)]
        exact hfrr j hj
      · show (rb_tree_set_black res.1 none).header = s.header
        rw [show rb_tree_set_black res.1 none = res.1 from rfl, he, hrh]
      · show (rb_tree_set_black res.1 none).nextId = s.nextId
        rw [show rb_tree_set_black res.1 none = res.1 from rfl, hf, hrn]
      · show (rb_tree_set_black res.1 none).node_count = s.node_count
        rw [show rb_tree_set_black res.1 none = res.1 from rfl, hg2, hrc]
      · show (rb_tree_set_black res.1 none).heap.map Prod.fst = s.heap.map Prod.fst
        rw [show rb_tree_set_black res.1 none = res.1 from rfl, hh2, hrk]
    | some r =>
      have hrmem : r ∈ T.ids := by
        rw [← hids2]
        exact BT.ptr_mem_ids (by rw [← hb', hT2p])
      have hrec : Realize (rb_tree_set_black res.1 (some r)).heap (some sr.header)
          res.2.2 (T2.recolor r rb_tree_black) :=
        realize_recolor ha r rb_tree_black
      refine ⟨T2.recolor r rb_tree_black, ?_, ?_, ?_, ?_, ?_, ?_, ?_, ?_, ?_⟩
      · rw [hT2p] at hrec
        rw [hrh] at hrec
        exact hrec
      · rw [BT.recolor_ptr, ← hb', hT2p]
      · rw [BT.recolor_entries, hc', hent0]
      · exact BT.rootIsBlack_recolor_self (by rw [← hb', hT2p])
      · intro j hj
        show hfind (rb_tree_set_black res.1 (some r)).heap j = hfind s.heap j
        rw [rb_tree_set_black, hfind_updN_ne
            (fun hc => hj (by rw [← Option.some.inj hc]; exact hrmem)),
          hd j (by rw [hids0]; exact hj)]
        exact hfrr j hj
      · show (rb_tree_set_black res.1 (some r)).header = s.header
        rw [rb_tree_set_black, updN_header_id, he, hrh]
      · show (rb_tree_set_black res.1 (some r)).nextId = s.nextId
        rw [rb_tree_set_black, updN_nextId, hf, hrn]
      · show (rb_tree_set_black res.1 (some r)).node_count = s.node_count
        rw [rb_tree_set_black, updN_node_count, hg2, hrc]
      · show (rb_tree_set_black res.1 (some r)).heap.map Prod.fst = s.heap.map Prod.fst
        rw [rb_tree_set_black, updN_keys, hh2, hrk]


/-- The descent of `get_insert_multi_pos`/`get_insert_unique_pos` finds a
nil slot whose entry position splits the (sorted) entry list at the
requested key, equal keys going right; the returned link parent is the
node owning the slot. -/
theorem insert_pos_loop_spec (fuel : Nat) :
    ∀ (s : RBTree) (key : Nat) (U : BT) (y0 : Option Nat) (al0 : Bool)
      (pp : Option Nat) (res : Option Nat × Bool),
      Realize s.heap pp U.ptr U →
      List.Sorted (· ≤ ·) U.keys →
      insert_pos_loop s key fuel U.ptr y0 al0 = some res →
      ∃ (q : List Bool) (A B : List (Nat × Val)),
        U.sub q = some .leaf ∧
        U.entries = A ++ B ∧
        (∀ u2 : BT, (U.repl q u2).entries = A ++ u2.entries ++ B) ∧
        (∀ e ∈ A, key_comp key (get_key e.2) = false) ∧
        (∀ e ∈ B, key_comp key (get_key e.2) = true) ∧
        ((U = .leaf ∧ res = (y0, al0) ∧ q = []) ∨
         (∃ q2 iy cy vy YL YR, q = q2 ++ [res.2] ∧
            U.sub q2 = some (.node iy cy vy YL YR) ∧ res.1 = some iy ∧
            (res.2 = true → ∃ B2, B = (iy, vy) :: B2) ∧
            (res.2 = false → ∃ A2, A = A2 ++ [(iy, vy)]))) := by
  induction fuel with
  | zero =>
    intro s key U y0 al0 pp res hr hsort hres
    simp [insert_pos_loop] at hres
  | succ fuel ih =>
    intro s key U y0 al0 pp res hr hsort hres
    cases U with
    | leaf =>
      simp only [insert_pos_loop] at hres
      simp only [BT.ptr] at hres
      have hres2 := Option.some.inj hres
      refine ⟨[], [], [], by rw [BT.sub_nil], rfl, ?_, by simp, by simp, ?_⟩
      · intro u2
        rw [BT.repl_nil]
        simp [BT.entries]
      · exact Or.inl ⟨rfl, hres2.symm, rfl⟩
    | node i c v l r =>
      have hru : Realize s.heap pp (some i) (BT.node i c v l r) := hr
      obtain ⟨hfi, hrl, hrr⟩ := hru.node_lookup
      simp only [insert_pos_loop] at hres
      simp only [BT.ptr, getN_some hfi] at hres
      obtain ⟨hsl, hsr, hlle, hrge⟩ := sorted_keys_node hsort
      cases hal : key_comp key (get_key v) with
      | true =>
        rw [hal] at hres
        simp only [if_true] at hres
        obtain ⟨q, A, B, hq1, hq2, hq3, hA, hB, hlast⟩ :=
          ih s key l (some i) true (some i) res hrl hsl hres
        refine ⟨true :: q, A, B ++ (i, v) :: r.entries, ?_, ?_, ?_, hA, ?_, ?_⟩
        · simpa [BT.sub] using hq1
        · rw [BT.entries_node, hq2]
          simp
        · intro u2
          simp only [BT.repl, if_true, BT.entries_node, hq3]
          simp
        · intro e he
          rcases List.mem_append.mp he with he1 | he2
          · exact hB e he1
          · rcases List.mem_cons.mp he2 with he3 | he4
            · rw [he3]
              exact hal
            · have hkey : get_key v ≤ get_key e.2 := by
                refine hrge _ ?_
                rw [BT.keys_eq_map]
                exact List.mem_map.mpr ⟨e, he4, rfl⟩
              simp only [key_comp, decide_eq_true_eq, decide_eq_false_iff_not] at hal ⊢
              omega
        · rcases hlast with ⟨hleaf, hres2, hqnil⟩ | ⟨q2, iy, cy, vy, YL, YR, hqe, hsub2, h1, h2, h3⟩
          · subst hleaf
            subst hqnil
            refine Or.inr ⟨[], i, c, v, BT.leaf, r, ?_, by rw [BT.sub_nil], ?_, ?_, ?_⟩
            · simp [hres2]
            · simp [hres2]
            · intro _
              have h0 := hq2
              simp only [BT.entries, List.nil_eq, List.append_eq_nil] at h0
              exact ⟨r.entries, by rw [h0.2]; simp⟩
            · intro hfalse
              rw [hres2] at hfalse
              simp at hfalse
          · refine Or.inr ⟨true :: q2, iy, cy, vy, YL, YR, by rw [hqe]; rfl, ?_, h1, ?_, h3⟩
            · simpa [BT.sub] using hsub2
            · intro ht
              obtain ⟨B2, hB2⟩ := h2 ht
              exact ⟨B2 ++ (i, v) :: r.entries, by rw [hB2]; simp⟩
      | false =>
        rw [hal] at hres
        simp only [Bool.false_eq_true, if_false] at hres
        obtain ⟨q, A, B, hq1, hq2, hq3, hA, hB, hlast⟩ :=
          ih s key r (some i) false (some i) res hrr hsr hres
        refine ⟨false :: q, l.entries ++ (i, v) :: A, B, ?_, ?_, ?_, ?_, hB, ?_⟩
        · simpa [BT.sub] using hq1
        · rw [BT.entries_node, hq2]
          simp
        · intro u2
          simp only [BT.repl, Bool.false_eq_true, if_false, BT.entries_node, hq3]
          simp
        · intro e he
          rcases List.mem_append.mp he with he1 | he2
          · have hkey : get_key e.2 ≤ get_key v := by
              refine hlle _ ?_
              rw [BT.keys_eq_map]
              exact List.mem_map.mpr ⟨e, he1, rfl⟩
            simp only [key_comp, decide_eq_true_eq, decide_eq_false_iff_not] at hal ⊢
            omega
          · rcases List.mem_cons.mp he2 with he3 | he4
            · rw [he3]
              exact hal
            · exact hA e he4
        · rcases hlast with ⟨hleaf, hres2, hqnil⟩ | ⟨q2, iy, cy, vy, YL, YR, hqe, hsub2, h1, h2, h3⟩
          · subst hleaf
            subst hqnil
            refine Or.inr ⟨[], i, c, v, l, BT.leaf, ?_, by rw [BT.sub_nil], ?_, ?_, ?_⟩
            · simp [hres2]
            · simp [hres2]
            · intro ht
              rw [hres2] at ht
              simp at ht
            · intro _
              have h0 := hq2
              simp only [BT.entries, List.nil_eq, List.append_eq_nil] at h0
              exact ⟨l.entries, by rw [h0.1]⟩
          · refine Or.inr ⟨false :: q2, iy, cy, vy, YL, YR, by rw [hqe]; rfl, ?_, h1, h2, ?_⟩
            · simpa [BT.sub] using hsub2
            · intro hf
              obtain ⟨A2, hA2⟩ := h3 hf
              exact ⟨l.entries ++ (i, v) :: A2, by rw [hA2]; simp⟩

theorem BT.rootIsBlack_repl {t u : BT} {q : List Bool} (hq : q ≠ [])
    (h : t.rootIsBlack) : (t.repl q u).rootIsBlack := by
  cases q with
  | nil => exact absurd rfl hq
  | cons b q2 =>
    cases t with
    | leaf => exact h
    | node i c v l r =>
      cases b with
      | true => simpa [BT.repl, BT.rootIsBlack] using h
      | false => simpa [BT.repl, BT.rootIsBlack] using h

/-- Inserting an element between a lower and an upper part keeps the key
sequence sorted. -/
theorem sorted_insert_middle {A B : List (Nat × Val)} {e0 : Nat × Val}
    (hs : List.Sorted (· ≤ ·) ((A ++ B).map (fun e => get_key e.2)))
    (hA : ∀ e ∈ A, get_key e.2 ≤ get_key e0.2)
    (hB : ∀ e ∈ B, get_key e0.2 ≤ get_key e.2) :
    List.Sorted (· ≤ ·) ((A ++ e0 :: B).map (fun e => get_key e.2)) := by
  rw [List.map_append] at hs ⊢
  rw [List.Sorted, List.pairwise_append] at hs
  obtain ⟨hsA, hsB, hAB⟩ := hs
  rw [List.Sorted, List.pairwise_append]
  refine ⟨hsA, ?_, ?_⟩
  · rw [List.map_cons, List.pairwise_cons]
    refine ⟨?_, hsB⟩
    intro b hb
    obtain ⟨e, he, hee⟩ := List.mem_map.mp hb
    rw [← hee]
    exact hB e he
  · intro a ha b hb
    obtain ⟨ea, hea, heakey⟩ := List.mem_map.mp ha
    rw [List.map_cons] at hb
    rcases List.mem_cons.mp hb with hb1 | hb2
    · rw [← heakey, hb1]
      exact hA ea hea
    · obtain ⟨eb, heb, hebkey⟩ := List.mem_map.mp hb2
      rw [← heakey, ← hebkey]
      exact le_trans (hA ea hea) (hB eb heb)

theorem hfind_cons_ne {h : Heap} {i j : Nat} {n : Node} (hij : i ≠ j) :
    hfind ((i, n) :: h) j = hfind h j := by
  simp [hfind, hij]

theorem hfind_cons_self (h : Heap) (i : Nat) (n : Node) :
    hfind ((i, n) :: h) i = some n := by
  simp [hfind]

/-- Ids of a realized view are allocated in the arena. -/
theorem realize_ids_alloc {h : Heap} {pp p : Option Nat} {t : BT}
    (hr : Realize h pp p t) : ∀ j ∈ t.ids, (hfind h j).isSome := by
  induction hr with
  | leaf pp => simp [BT.ids, BT.entries]
  | node hl hp hlt hrt ihl ihr =>
    rename_i pp i n l r
    intro j hj
    rw [BT.ids_node] at hj
    rcases List.mem_append.mp hj with hj1 | hj2
    · exact ihl j hj1
    · rcases List.mem_cons.mp hj2 with hj3 | hj4
      · rw [hj3, hl]
        rfl
      · exact ihr j hj4

/-- The tail of `insert_node_at` after the linking step: rebalance,
write the root back through the header, bump the count.  Restores full
well-formedness from an exact description of the pre-rebalance state. -/
theorem insert_finish_spec (s2 : RBTree) (sh : Nat) (T1 : BT) (nd : Nat) (fuel : Nat)
    (reb : RBTree × Option Nat)
    (hh2 : s2.header = sh)
    (hreal : Realize s2.heap (some sh) T1.ptr T1)
    (hroot : rootP s2 = T1.ptr)
    (hnd1 : T1.ids.Nodup)
    (hmem : nd ∈ T1.ids)
    (hrb : T1.rootIsBlack ∨ some nd = rootP s2)
    (hdrrec : ∃ hrec, hfind s2.heap sh = some hrec ∧ hrec.color = rb_tree_red ∧
      hrec.left = lmPtr T1 sh ∧ hrec.right = rmPtr T1 sh)
    (hhdr_notin : sh ∉ T1.ids)
    (hsorted : List.Sorted (· ≤ ·) T1.keys)
    (hcount : s2.node_count + 1 = T1.size)
    (hfresh : ∀ i ∈ s2.heap.map Prod.fst, i < s2.nextId)
    (hhnodup : (s2.heap.map Prod.fst).Nodup)
    (hreb : rb_tree_insert_rebalance s2 (some nd) (rootP s2) fuel = some reb) :
    ∃ T2 : BT,
      WF { updN reb.1 (some reb.1.header) (fun n => { n with parent := reb.2 }) with
            node_count := (updN reb.1 (some reb.1.header)
              (fun n => { n with parent := reb.2 })).node_count + 1 } T2 ∧
      T2.entries = T1.entries ∧
      (updN reb.1 (some reb.1.header) (fun n => { n with parent := reb.2 })).nextId
        = s2.nextId ∧
      (updN reb.1 (some reb.1.header) (fun n => { n with parent := reb.2 })).heap.map
        Prod.fst = s2.heap.map Prod.fst ∧
      (updN reb.1 (some reb.1.header)
        (fun n => { n with parent := reb.2 })).node_count + 1 = s2.node_count + 1 ∧
      (updN reb.1 (some reb.1.header) (fun n => { n with parent := reb.2 })).header
        = sh := by
  obtain ⟨hrec, hrec1, hrec2, hrec3, hrec4⟩ := hdrrec
  have hrealh : Realize s2.heap (some s2.header) (rootP s2) T1 := by
    rw [hroot, hh2]
    exact hreal
  obtain ⟨T2, ha, hb', hc', hblack, hd, he, hf, hg', hk'⟩ :=
    rb_tree_insert_rebalance_spec s2 (rootP s2) T1 nd fuel reb hrealh hroot hnd1
      hmem hrb hreb
  have hids2 : T2.ids = T1.ids := by
    simp only [BT.ids, hc']
  have hh3 : reb.1.header = sh := by rw [he, hh2]
  -- the header record survives the rebalance untouched
  have hfh3 : hfind reb.1.heap sh = some hrec := by
    rw [hd sh hhdr_notin, hrec1]
  set s4 : RBTree := updN reb.1 (some reb.1.header)
    (fun n => { n with parent := reb.2 }) with hs4
  have hfh4 : hfind s4.heap sh = some { hrec with parent := reb.2 } := by
    rw [hs4, hh3]
    exact hfind_updN_self hfh3
  have hfr4 : ∀ j, j ≠ sh → hfind s4.heap j = hfind reb.1.heap j := by
    intro j hj
    rw [hs4, hh3]
    exact hfind_updN_ne (by simpa using fun hc => hj hc.symm)
  have hhd4 : s4.header = sh := by rw [hs4, updN_header_id, hh3]
  refine ⟨T2, ?_, hc', by rw [hs4, updN_nextId, hf], by rw [hs4, updN_keys, hk'],
    by rw [hs4, updN_node_count, hg'], hhd4⟩
  refine ⟨?_, ?_, ?_, ?_, ?_, ?_, ?_, ?_, ?_, ?_, ?_, ?_, ?_⟩
  · show (hfind s4.heap s4.header).isSome
    rw [hhd4, hfh4]
    rfl
  · show (getN { s4 with node_count := s4.node_count + 1 } (some s4.header)).color
      = rb_tree_red
    show (getN s4 (some s4.header)).color = rb_tree_red
    rw [hhd4, getN_some hfh4]
    exact hrec2
  · show rootP { s4 with node_count := s4.node_count + 1 } = T2.ptr
    show (getN s4 (some s4.header)).parent = T2.ptr
    rw [hhd4, getN_some hfh4]
    exact hb'
  · show Realize s4.heap (some s4.header) T2.ptr T2
    rw [hh2] at ha
    rw [hhd4, ← hb']
    refine ha.frame (fun j hj => ?_)
    refine hfr4 j (fun hc => hhdr_notin ?_)
    rw [← hc, ← hids2]
    exact hj
  · show T2.ids.Nodup
    rw [hids2]
    exact hnd1
  · show s4.header ∉ T2.ids
    rw [hhd4, hids2]
    exact hhdr_notin
  · show leftmostP { s4 with node_count := s4.node_count + 1 }
      = lmPtr T2 s4.header
    show (getN s4 (some s4.header)).left = lmPtr T2 s4.header
    rw [hhd4, getN_some hfh4]
    show hrec.left = lmPtr T2 sh
    rw [hrec3, lmPtr, lmPtr, hc']
  · show rightmostP { s4 with node_count := s4.node_count + 1 }
      = rmPtr T2 s4.header
    show (getN s4 (some s4.header)).right = rmPtr T2 s4.header
    rw [hhd4, getN_some hfh4]
    show hrec.right = rmPtr T2 sh
    rw [hrec4, rmPtr, rmPtr, hc']
  · show s4.node_count + 1 = T2.size
    rw [hs4, updN_node_count, hg', hcount, BT.size, BT.size, hc']
  · show List.Sorted (· ≤ ·) T2.keys
    rw [BT.keys_eq_map, hc', ← BT.keys_eq_map]
    exact hsorted
  · exact hblack
  · intro i hi
    show i < s4.nextId
    rw [hs4, updN_nextId, hf]
    refine hfresh i ?_
    have : s4.heap.map Prod.fst = s2.heap.map Prod.fst := by
      rw [hs4, updN_keys, hk']
    rw [← this]
    exact hi
  · show (s4.heap.map Prod.fst).Nodup
    rw [hs4, updN_keys, hk']
    exact hhnodup

theorem getLast?_append_right {α : Type} (l1 l2 : List α) (h : l2 ≠ []) :
    (l1 ++ l2).getLast? = l2.getLast? := by
  induction l1 with
  | nil => rfl
  | cons a l1 ih =>
    cases hl : l1 ++ l2 with
    | nil => exact absurd (List.append_eq_nil.mp hl).2 h
    | cons b t =>
      rw [List.cons_append, hl, List.getLast?_cons_cons, ← hl, ih]

/-- Common tail of `insert_node_at` when linking under a real node
`iy`: rebalance, write the root back, bump the count. -/
theorem insert_link_tail (s s2 : RBTree) (T : BT) (v : Val) (q2 : List Bool)
    (al : Bool) (iy : Nat) (cy : Bool) (vy : Val) (YL YR : BT)
    (A B : List (Nat × Val)) (fuel : Nat) (out : RBTree × Option Nat)
    (reb : RBTree × Option Nat)
    (hwf : WF s T)
    (hsubp : T.sub q2 = some (.node iy cy vy YL YR))
    (hchild : (if al then YL else YR) = .leaf)
    (hent : T.entries = A ++ B)
    (hrepl : ∀ u2 : BT, (T.repl (q2 ++ [al]) u2).entries = A ++ u2.entries ++ B)
    (hkA : ∀ e ∈ A, get_key e.2 ≤ get_key v)
    (hkB : ∀ e ∈ B, get_key v ≤ get_key e.2)
    (hfr2 : ∀ j, j ≠ iy → j ≠ s.header → j ≠ s.nextId →
      hfind s2.heap j = hfind s.heap j)
    (hf2nd : hfind s2.heap s.nextId =
      some ⟨some iy, none, none, rb_tree_red, v⟩)
    (hpn : ∃ pn, hfind s.heap iy = some pn ∧ hfind s2.heap iy =
      some (if al then { pn with left := some s.nextId }
            else { pn with right := some s.nextId }))
    (hdrrec2 : ∃ hrec2, hfind s2.heap s.header = some hrec2 ∧
      hrec2.color = rb_tree_red ∧ hrec2.parent = rootP s ∧
      hrec2.left = lmPtr (T.repl (q2 ++ [al])
        (.node s.nextId rb_tree_red v .leaf .leaf)) s.header ∧
      hrec2.right = rmPtr (T.repl (q2 ++ [al])
        (.node s.nextId rb_tree_red v .leaf .leaf)) s.header)
    (hsc2 : s2.header = s.header ∧ s2.nextId = s.nextId + 1 ∧
      s2.node_count = s.node_count ∧
      s2.heap.map Prod.fst = s.nextId :: s.heap.map Prod.fst)
    (hreb : rb_tree_insert_rebalance s2 (some s.nextId) (rootP s2) fuel = some reb)
    (hout : ({ updN reb.1 (some reb.1.header) (fun n => { n with parent := reb.2 }) with
        node_count := (updN reb.1 (some reb.1.header)
          (fun n => { n with parent := reb.2 })).node_count + 1 },
        some s.nextId) = out) :
    ∃ T2 : BT, WF out.1 T2 ∧
      T2.entries = A ++ (s.nextId, v) :: B ∧
      out.2 = some s.nextId ∧
      out.1.nextId = s.nextId + 1 ∧
      out.1.node_count = s.node_count + 1 ∧
      out.1.heap.map Prod.fst = s.nextId :: s.heap.map Prod.fst ∧
      out.1.header = s.header := by
  obtain ⟨h2h, h2n, h2c, h2k⟩ := hsc2
  have hhne : s.header ≠ s.nextId := by
    have h1 : s.header ∈ s.heap.map Prod.fst :=
      mem_keys_of_hfind_isSome hwf.hdr_mem
    have := hwf.fresh s.header h1
    omega
  have hTne : ∀ j ∈ T.ids, j ≠ s.nextId := by
    intro j hj
    have h1 : (hfind s.heap j).isSome := realize_ids_alloc hwf.real j hj
    have h2 : j ∈ s.heap.map Prod.fst := mem_keys_of_hfind_isSome h1
    have := hwf.fresh j h2
    omega
  set T1 : BT := T.repl (q2 ++ [al])
    (.node s.nextId rb_tree_red v .leaf .leaf) with hT1
  have hT1ent : T1.entries = A ++ (s.nextId, v) :: B := by
    rw [hT1, hrepl]
    simp [BT.entries]
  have hqne : q2 ++ [al] ≠ ([] : List Bool) := by simp
  have hT1ptr : T1.ptr = T.ptr := by
    rw [hT1]
    exact BT.repl_ptr hqne
  have hreal2 : Realize s2.heap (some s.header) T1.ptr T1 := by
    rw [hT1, hT1ptr]
    refine realize_graft_child hwf.real hsubp hwf.nodup ?_ hpn ?_
    · intro j hj hju hjiy
      exact hfr2 j hjiy (fun hc => hwf.hdr_notin (hc ▸ hj)) (hTne j hj)
    · exact Realize.node (n := ⟨some iy, none, none, rb_tree_red, v⟩)
        hf2nd rfl (.leaf _) (.leaf _)
  obtain ⟨hrec2, hfh2, hc2r, hp2r, hl2r, hr2r⟩ := hdrrec2
  have hroot2 : rootP s2 = T1.ptr := by
    rw [rootP, h2h, getN_some hfh2, hp2r, hwf.root_eq, hT1ptr]
  have hidsAB : T.ids = A.map Prod.fst ++ B.map Prod.fst := by
    simp [BT.ids, hent]
  have hids1 : T1.ids = A.map Prod.fst ++ s.nextId :: B.map Prod.fst := by
    simp [BT.ids, hT1ent]
  have hndmem : s.nextId ∉ T.ids := fun hc => (hTne _ hc) rfl
  have hnd1 : T1.ids.Nodup := by
    rw [hids1, List.nodup_middle, List.nodup_cons]
    refine ⟨by rw [← hidsAB]; exact hndmem, by rw [← hidsAB]; exact hwf.nodup⟩
  have hmem1 : s.nextId ∈ T1.ids := by
    rw [hids1]
    simp
  have hcnt1 : s2.node_count + 1 = T1.size := by
    rw [h2c, hwf.count, BT.size, BT.size, hT1ent, hent]
    simp
    omega
  have hsort1 : List.Sorted (· ≤ ·) T1.keys := by
    rw [BT.keys_eq_map, hT1ent]
    have hs0 := hwf.sorted
    rw [BT.keys_eq_map, hent] at hs0
    exact sorted_insert_middle hs0 hkA hkB
  obtain ⟨T2, hwf2, hent2, hnext2, hkeys2, hcnt2, hhdr2⟩ :=
    insert_finish_spec s2 s.header T1 s.nextId fuel reb h2h hreal2 hroot2 hnd1 hmem1
      (Or.inl (by rw [hT1]; exact BT.rootIsBlack_repl hqne hwf.root_black))
      ⟨hrec2, hfh2, hc2r, by rw [hl2r, hT1], by rw [hr2r, hT1]⟩
      (by
        rw [hids1]
        intro hc
        rcases List.mem_append.mp hc with h1 | h2
        · exact hwf.hdr_notin (by rw [hidsAB]; exact List.mem_append.mpr (Or.inl h1))
        · rcases List.mem_cons.mp h2 with h3 | h4
          · exact hhne h3
          · exact hwf.hdr_notin (by rw [hidsAB]; exact List.mem_append.mpr (Or.inr h4)))
      hsort1 hcnt1
      (by
        intro i hi
        rw [h2k] at hi
        rw [h2n]
        rcases List.mem_cons.mp hi with h1 | h2
        · omega
        · have := hwf.fresh i h2
          omega)
      (by
        rw [h2k]
        refine List.nodup_cons.mpr ⟨?_, hwf.heap_nodup⟩
        intro hc
        have := hwf.fresh _ hc
        omega)
      hreb
  refine ⟨T2, ?_, ?_, ?_, ?_, ?_, ?_, ?_⟩
  · rw [← hout]
    exact hwf2
  · rw [hent2, hT1ent]
  · rw [← hout]
  · rw [← hout]
    show (updN reb.1 (some reb.1.header)
      (fun n => { n with parent := reb.2 })).nextId = s.nextId + 1
    rw [hnext2, h2n]
  · rw [← hout]
    show (updN reb.1 (some reb.1.header)
      (fun n => { n with parent := reb.2 })).node_count + 1 = s.node_count + 1
    rw [hcnt2, h2c]
  · rw [← hout]
    show (updN reb.1 (some reb.1.header)
      (fun n => { n with parent := reb.2 })).heap.map Prod.fst
      = s.nextId :: s.heap.map Prod.fst
    rw [hkeys2, h2k]
  · rw [← hout]
    show (updN reb.1 (some reb.1.header)
      (fun n => { n with parent := reb.2 })).header = s.header
    rw [hhdr2]


/-- `insert_value_at` at a descent-found position: well-formedness is
restored and the new element appears exactly at the split point. -/
theorem insert_value_at_spec (s : RBTree) (T : BT) (v : Val) (y : Option Nat)
    (al : Bool) (q : List Bool) (A B : List (Nat × Val)) (fuel : Nat)
    (out : RBTree × Option Nat)
    (hwf : WF s T)
    (hsub : T.sub q = some .leaf)
    (hent : T.entries = A ++ B)
    (hrepl : ∀ u2 : BT, (T.repl q u2).entries = A ++ u2.entries ++ B)
    (hkA : ∀ e ∈ A, get_key e.2 ≤ get_key v)
    (hkB : ∀ e ∈ B, get_key v ≤ get_key e.2)
    (hy : (T = .leaf ∧ y = some s.header ∧ q = []) ∨
          (∃ q2 iy cy vy YL YR, q = q2 ++ [al] ∧
            T.sub q2 = some (.node iy cy vy YL YR) ∧ y = some iy ∧
            (al = true → ∃ B2, B = (iy, vy) :: B2) ∧
            (al = false → ∃ A2, A = A2 ++ [(iy, vy)])))
    (hres : insert_value_at s y v al fuel = some out) :
    ∃ T2 : BT, WF out.1 T2 ∧
      T2.entries = A ++ (s.nextId, v) :: B ∧
      out.2 = some s.nextId ∧
      out.1.nextId = s.nextId + 1 ∧
      out.1.node_count = s.node_count + 1 ∧
      out.1.heap.map Prod.fst = s.nextId :: s.heap.map Prod.fst ∧
      out.1.header = s.header := by
  have hhne : s.header ≠ s.nextId := by
    have h1 : s.header ∈ s.heap.map Prod.fst :=
      mem_keys_of_hfind_isSome hwf.hdr_mem
    have := hwf.fresh s.header h1
    omega
  have hTne : ∀ j ∈ T.ids, j ≠ s.nextId := by
    intro j hj
    have h1 : (hfind s.heap j).isSome := realize_ids_alloc hwf.real j hj
    have h2 : j ∈ s.heap.map Prod.fst := mem_keys_of_hfind_isSome h1
    have := hwf.fresh j h2
    omega
  obtain ⟨hn, hhn⟩ : ∃ hn, hfind s.heap s.header = some hn := by
    cases hh : hfind s.heap s.header with
    | none =>
      have h2 := hwf.hdr_mem
      rw [hh] at h2
      exact absurd h2 (by simp)
    | some n => exact ⟨n, rfl⟩
  rw [insert_value_at, create_node] at hres
  rcases hy with ⟨hTleaf, hyh, hqnil⟩ | ⟨q2, iy, cy, vy, YL, YR, hq, hsubp, hyiy, hBt, hAf⟩
  · -- CASE I: empty tree, linking under the header
    subst hyh
    subst hqnil
    rw [insert_node_at] at hres
    set sc : RBTree := { s with
      heap := (s.nextId, ⟨none, none, none, rb_tree_red, v⟩) :: s.heap,
      nextId := s.nextId + 1 } with hsc
    set s1 : RBTree := updN sc (some s.nextId)
      (fun n => { n with parent := some s.header }) with hs1
    have hf1nd : hfind s1.heap s.nextId =
        some ⟨some s.header, none, none, rb_tree_red, v⟩ := by
      rw [hs1]
      have hcons : hfind sc.heap s.nextId =
          some ⟨none, none, none, rb_tree_red, v⟩ :=
        hfind_cons_self s.heap s.nextId ⟨none, none, none, rb_tree_red, v⟩
      exact hfind_updN_self hcons
    have hf1 : ∀ j : Nat, j ≠ s.nextId → hfind s1.heap j = hfind s.heap j := by
      intro j hj
      rw [hs1, hfind_updN_ne (by simpa using fun hc => hj hc.symm)]
      exact hfind_cons_ne (fun hc => hj hc.symm)
    have hs1h : s1.header = s.header := by rw [hs1, updN_header_id]
    have hcond : (some s.header == some s1.header) = true := by
      rw [hs1h]
      simp
    rw [hcond] at hres
    simp only [if_true] at hres
    set s2 : RBTree := updN s1 (some s1.header)
      (fun n => { n with parent := some s.nextId, left := some s.nextId, right := some s.nextId }) with hs2
    have hf2h : hfind s2.heap s.header =
        some { hn with parent := some s.nextId, left := some s.nextId, right := some s.nextId } := by
      rw [hs2, hs1h]
      exact hfind_updN_self (by rw [hf1 s.header hhne]; exact hhn)
    have hf2nd : hfind s2.heap s.nextId =
        some ⟨some s.header, none, none, rb_tree_red, v⟩ := by
      rw [hs2, hfind_updN_ne (by rw [hs1h]; simpa using fun hc => hhne hc), hf1nd]
    have h2h : s2.header = s.header := by rw [hs2, updN_header_id, hs1h]
    have h2n : s2.nextId = s.nextId + 1 := by
      rw [hs2, updN_nextId, hs1, updN_nextId]
    have h2c : s2.node_count = s.node_count := by
      rw [hs2, updN_node_count, hs1, updN_node_count]
    have h2k : s2.heap.map Prod.fst = s.nextId :: s.heap.map Prod.fst := by
      rw [hs2, updN_keys, hs1, updN_keys]
      rfl
    set T1 : BT := BT.node s.nextId rb_tree_red v .leaf .leaf with hT1
    have hreal : Realize s2.heap (some s.header) T1.ptr T1 := by
      rw [hT1]
      exact Realize.node (n := ⟨some s.header, none, none, rb_tree_red, v⟩)
        hf2nd rfl (.leaf _) (.leaf _)
    have hroot2 : rootP s2 = T1.ptr := by
      rw [rootP, h2h, getN_some hf2h]
      rfl
    have hAnil : A = [] := by
      have h0 : ([] : List (Nat × Val)) = A ++ B := by rw [← hent, hTleaf]; rfl
      exact (List.append_eq_nil.mp h0.symm).1
    have hBnil : B = [] := by
      have h0 : ([] : List (Nat × Val)) = A ++ B := by rw [← hent, hTleaf]; rfl
      exact (List.append_eq_nil.mp h0.symm).2
    cases hreb : rb_tree_insert_rebalance s2 (some s.nextId) (rootP s2) fuel with
    | none =>
      rw [hreb] at hres
      simp at hres
    | some reb =>
      rw [hreb] at hres
      simp only [] at hres
      have hres2 := Option.some.inj hres
      obtain ⟨T2, hwf2, hent2, hnext2, hkeys2, hcnt2, hhdr2⟩ :=
        insert_finish_spec s2 s.header T1 s.nextId fuel reb h2h hreal hroot2
          (by rw [hT1]; simp [BT.ids, BT.entries])
          (by rw [hT1]; simp [BT.ids, BT.entries])
          (Or.inr hroot2.symm)
          ⟨_, hf2h, (by
            have h0 := hwf.hdr_red
            rwa [getN_some hhn] at h0), rfl, rfl⟩
          (by rw [hT1]; simpa [BT.ids, BT.entries] using hhne)
          (by rw [hT1, BT.keys_node]; simp [BT.keys, BT.inorder, BT.entries])
          (by rw [h2c, hwf.count, hTleaf, hT1]; rfl)
          (by
            intro i hi
            rw [h2k] at hi
            rw [h2n]
            rcases List.mem_cons.mp hi with h1 | h2
            · omega
            · have := hwf.fresh i h2
              omega)
          (by
            rw [h2k]
            refine List.nodup_cons.mpr ⟨?_, hwf.heap_nodup⟩
            intro hc
            have := hwf.fresh _ hc
            omega)
          hreb
      refine ⟨T2, ?_, ?_, ?_, ?_, ?_, ?_, ?_⟩
      · rw [← hres2]
        exact hwf2
      · rw [hent2, hT1, hAnil, hBnil]
        rfl
      · rw [← hres2]
      · rw [← hres2]
        show (updN reb.1 (some reb.1.header)
          (fun n => { n with parent := reb.2 })).nextId = s.nextId + 1
        rw [hnext2, h2n]
      · rw [← hres2]
        show (updN reb.1 (some reb.1.header)
          (fun n => { n with parent := reb.2 })).node_count + 1 = s.node_count + 1
        rw [hcnt2, h2c]
      · rw [← hres2]
        show (updN reb.1 (some reb.1.header)
          (fun n => { n with parent := reb.2 })).heap.map Prod.fst
          = s.nextId :: s.heap.map Prod.fst
        rw [hkeys2, h2k]
      · rw [← hres2]
        show (updN reb.1 (some reb.1.header)
          (fun n => { n with parent := reb.2 })).header = s.header
        rw [hhdr2]
  · -- CASE II: linking under a real node `iy`
    subst hyiy
    rw [hq] at hrepl
    rw [insert_node_at] at hres
    set sc : RBTree := { s with
      heap := (s.nextId, ⟨none, none, none, rb_tree_red, v⟩) :: s.heap,
      nextId := s.nextId + 1 } with hsc
    set s1 : RBTree := updN sc (some s.nextId)
      (fun n => { n with parent := some iy }) with hs1
    have hiymem : iy ∈ T.ids := BT.sub_ids_subset hsubp iy (by simp [BT.ids_node])
    have hiynd : iy ≠ s.nextId := hTne iy hiymem
    have hiyhdr : iy ≠ s.header := fun hc => hwf.hdr_notin (hc ▸ hiymem)
    have hcons : hfind sc.heap s.nextId =
        some ⟨none, none, none, rb_tree_red, v⟩ :=
      hfind_cons_self s.heap s.nextId _
    have hf1nd : hfind s1.heap s.nextId =
        some ⟨some iy, none, none, rb_tree_red, v⟩ := by
      rw [hs1]
      exact hfind_updN_self hcons
    have hf1 : ∀ j : Nat, j ≠ s.nextId → hfind s1.heap j = hfind s.heap j := by
      intro j hj
      rw [hs1, hfind_updN_ne (by simpa using fun hc => hj hc.symm)]
      exact hfind_cons_ne (fun hc => hj hc.symm)
    have hs1h : s1.header = s.header := by rw [hs1, updN_header_id]
    have hs1n : s1.nextId = s.nextId + 1 := by rw [hs1, updN_nextId]
    have hs1c : s1.node_count = s.node_count := by rw [hs1, updN_node_count]
    have hs1k : s1.heap.map Prod.fst = s.nextId :: s.heap.map Prod.fst := by
      rw [hs1, updN_keys]
      rfl
    have hcond : (some iy == some s1.header) = false := by
      rw [hs1h]
      simp [hiyhdr]
    rw [hcond] at hres
    simp only [Bool.false_eq_true, if_false] at hres
    obtain ⟨ppy, hryp⟩ : ∃ pp2, Realize s.heap pp2 (some iy)
        (BT.node iy cy vy YL YR) := by
      rcases realize_sub_parent hwf.real q2 _ hsubp with ⟨_, hrg⟩ |
        ⟨_, _, _, _, _, _, _, _, _, _, hrg⟩
      · exact ⟨_, hrg⟩
      · exact ⟨_, hrg⟩
    obtain ⟨hfiy, hrYL, hrYR⟩ := hryp.node_lookup
    have hlmT : hn.left = lmPtr T s.header := by
      have h0 := hwf.lm_eq
      rwa [leftmostP, getN_some hhn] at h0
    have hrmT : hn.right = rmPtr T s.header := by
      have h0 := hwf.rm_eq
      rwa [rightmostP, getN_some hhn] at h0
    have hrootT : hn.parent = rootP s := by
      rw [rootP, getN_some hhn]
    have hhdrcol : hn.color = rb_tree_red := by
      have h0 := hwf.hdr_red
      rwa [getN_some hhn] at h0
    have hdisjAB : ∀ j ∈ A.map Prod.fst, j ∉ B.map Prod.fst := by
      have h0 := hwf.nodup
      rw [BT.ids, hent, List.map_append, List.nodup_append] at h0
      exact h0.2.2
    cases al with
    | true =>
      have hYL : YL = .leaf := by
        have h0 : T.sub (q2 ++ [true]) = some YL := by
          rw [BT.sub_snoc, hsubp]
          rfl
        rw [hq] at hsub
        exact Option.some.inj (h0.symm.trans hsub)
      obtain ⟨B2, hB2⟩ := hBt rfl
      subst hYL
      simp only [if_true] at hres
      set s2a : RBTree := updN s1 (some iy)
        (fun n => { n with left := some s.nextId }) with hs2a
      have hfiy2 : hfind s.heap iy = some ⟨ppy, none, YR.ptr, cy, vy⟩ := hfiy
      have h1iy : hfind s1.heap iy = some ⟨ppy, none, YR.ptr, cy, vy⟩ := by
        rw [hf1 iy hiynd]
        exact hfiy2
      have hf2aiy : hfind s2a.heap iy =
          some ⟨ppy, some s.nextId, YR.ptr, cy, vy⟩ := by
        rw [hs2a]
        exact hfind_updN_self h1iy
      have hf2a : ∀ j : Nat, j ≠ iy → hfind s2a.heap j = hfind s1.heap j := by
        intro j hj
        rw [hs2a]
        exact hfind_updN_ne (by simpa using fun hc => hj hc.symm)
      have hf2ah : hfind s2a.heap s.header = some hn := by
        rw [hf2a _ (Ne.symm hiyhdr), hf1 s.header hhne]
        exact hhn
      have hs2ah : s2a.header = s.header := by rw [hs2a, updN_header_id, hs1h]
      have hs2an : s2a.nextId = s.nextId + 1 := by rw [hs2a, updN_nextId, hs1n]
      have hs2ac : s2a.node_count = s.node_count := by
        rw [hs2a, updN_node_count, hs1c]
      have hs2ak : s2a.heap.map Prod.fst = s.nextId :: s.heap.map Prod.fst := by
        rw [hs2a, updN_keys, hs1k]
      have hlm2a : leftmostP s2a = lmPtr T s.header := by
        rw [leftmostP, hs2ah, getN_some hf2ah]
        exact hlmT
      have hT1e : (T.repl (q2 ++ [true])
          (BT.node s.nextId rb_tree_red v .leaf .leaf)).entries =
          A ++ (s.nextId, v) :: B := by
        rw [hrepl]
        simp [BT.entries]
      have hrmT1 : rmPtr (T.repl (q2 ++ [true])
          (BT.node s.nextId rb_tree_red v .leaf .leaf)) s.header =
          rmPtr T s.header := by
        simp only [rmPtr, hT1e, hent]
        rw [show A ++ (s.nextId, v) :: B = (A ++ [(s.nextId, v)]) ++ B by simp]
        rw [getLast?_append_right _ _ (by rw [hB2]; simp),
          getLast?_append_right _ _ (by rw [hB2]; simp)]
      by_cases hcl : lmPtr T s.header = some iy
      · -- the new node becomes the leftmost element
        have hcondlm : (leftmostP s2a == some iy) = true := by
          rw [hlm2a, hcl]
          simp
        rw [hcondlm] at hres
        simp only [if_true] at hres
        set s2 : RBTree := updN s2a (some s2a.header)
          (fun n => { n with left := some s.nextId }) with hs2
        have hfh2 : hfind s2.heap s.header =
            some { hn with left := some s.nextId } := by
          rw [hs2, hs2ah]
          exact hfind_updN_self hf2ah
        have hf2 : ∀ j : Nat, j ≠ s.header → hfind s2.heap j = hfind s2a.heap j := by
          intro j hj
          rw [hs2, hs2ah]
          exact hfind_updN_ne (by simpa using fun hc => hj hc.symm)
        have hAnil : A = [] := by
          cases hA0 : A with
          | nil => rfl
          | cons e A2 =>
            exfalso
            have hlmA : lmPtr T s.header = some e.1 := by
              simp only [lmPtr, hent, hA0]
              rfl
            rw [hlmA] at hcl
            have he1 : e.1 = iy := Option.some.inj hcl
            refine hdisjAB e.1 (by rw [hA0]; simp) ?_
            rw [he1, hB2]
            simp
        cases hreb : rb_tree_insert_rebalance s2 (some s.nextId) (rootP s2) fuel with
        | none =>
          rw [hreb] at hres
          simp at hres
        | some reb =>
          rw [hreb] at hres
          simp only [] at hres
          refine insert_link_tail s s2 T v q2 true iy cy vy .leaf YR A B fuel out reb
            hwf hsubp (by simp) hent hrepl hkA hkB ?_ ?_ ?_ ?_ ?_ hreb
            (Option.some.inj hres)
          · intro j hjiy hjh hjn
            rw [hf2 j hjh, hf2a j hjiy, hf1 j hjn]
          · rw [hf2 _ (fun hc => hhne hc.symm), hf2a _ (Ne.symm hiynd), hf1nd]
          · refine ⟨⟨ppy, none, YR.ptr, cy, vy⟩, hfiy2, ?_⟩
            simp only [if_true]
            rw [hf2 _ hiyhdr]
            exact hf2aiy
          · refine ⟨{ hn with left := some s.nextId }, hfh2, hhdrcol, hrootT, ?_, ?_⟩
            · show some s.nextId = _
              simp only [lmPtr, hT1e, hAnil]
              rfl
            · show hn.right = _
              rw [hrmT1, hrmT]
          · exact ⟨by rw [hs2, updN_header_id, hs2ah],
              by rw [hs2, updN_nextId, hs2an],
              by rw [hs2, updN_node_count, hs2ac],
              by rw [hs2, updN_keys, hs2ak]⟩
      · -- the leftmost cache is untouched
        have hcondlm : (leftmostP s2a == some iy) = false := by
          rw [hlm2a]
          simpa using hcl
        rw [hcondlm] at hres
        simp only [Bool.false_eq_true, if_false] at hres
        have hAne : A ≠ [] := by
          intro hA0
          refine hcl ?_
          simp only [lmPtr, hent, hA0, hB2]
          rfl
        obtain ⟨e, A2, hA0⟩ : ∃ e A2, A = e :: A2 := by
          cases A with
          | nil => exact absurd rfl hAne
          | cons e A2 => exact ⟨e, A2, rfl⟩
        cases hreb : rb_tree_insert_rebalance s2a (some s.nextId) (rootP s2a) fuel with
        | none =>
          rw [hreb] at hres
          simp at hres
        | some reb =>
          rw [hreb] at hres
          simp only [] at hres
          refine insert_link_tail s s2a T v q2 true iy cy vy .leaf YR A B fuel out reb
            hwf hsubp (by simp) hent hrepl hkA hkB ?_ ?_ ?_ ?_ ?_ hreb
            (Option.some.inj hres)
          · intro j hjiy hjh hjn
            rw [hf2a j hjiy, hf1 j hjn]
          · rw [hf2a _ (Ne.symm hiynd), hf1nd]
          · refine ⟨⟨ppy, none, YR.ptr, cy, vy⟩, hfiy2, ?_⟩
            simp only [if_true]
            exact hf2aiy
          · refine ⟨hn, hf2ah, hhdrcol, hrootT, ?_, ?_⟩
            · show hn.left = _
              rw [hlmT]
              simp only [lmPtr, hT1e, hent, hA0]
              rfl
            · show hn.right = _
              rw [hrmT1, hrmT]
          · exact ⟨hs2ah, hs2an, hs2ac, hs2ak⟩
    | false =>
      have hYR : YR = .leaf := by
        have h0 : T.sub (q2 ++ [false]) = some YR := by
          rw [BT.sub_snoc, hsubp]
          rfl
        rw [hq] at hsub
        exact Option.some.inj (h0.symm.trans hsub)
      obtain ⟨A2, hA2⟩ := hAf rfl
      subst hYR
      simp only [Bool.false_eq_true, if_false] at hres
      set s2a : RBTree := updN s1 (some iy)
        (fun n => { n with right := some s.nextId }) with hs2a
      have hfiy2 : hfind s.heap iy = some ⟨ppy, YL.ptr, none, cy, vy⟩ := hfiy
      have h1iy : hfind s1.heap iy = some ⟨ppy, YL.ptr, none, cy, vy⟩ := by
        rw [hf1 iy hiynd]
        exact hfiy2
      have hf2aiy : hfind s2a.heap iy =
          some ⟨ppy, YL.ptr, some s.nextId, cy, vy⟩ := by
        rw [hs2a]
        exact hfind_updN_self h1iy
      have hf2a : ∀ j : Nat, j ≠ iy → hfind s2a.heap j = hfind s1.heap j := by
        intro j hj
        rw [hs2a]
        exact hfind_updN_ne (by simpa using fun hc => hj hc.symm)
      have hf2ah : hfind s2a.heap s.header = some hn := by
        rw [hf2a _ (Ne.symm hiyhdr), hf1 s.header hhne]
        exact hhn
      have hs2ah : s2a.header = s.header := by rw [hs2a, updN_header_id, hs1h]
      have hs2an : s2a.nextId = s.nextId + 1 := by rw [hs2a, updN_nextId, hs1n]
      have hs2ac : s2a.node_count = s.node_count := by
        rw [hs2a, updN_node_count, hs1c]
      have hs2ak : s2a.heap.map Prod.fst = s.nextId :: s.heap.map Prod.fst := by
        rw [hs2a, updN_keys, hs1k]
      have hrm2a : rightmostP s2a = rmPtr T s.header := by
        rw [rightmostP, hs2ah, getN_some hf2ah]
        exact hrmT
      have hT1e : (T.repl (q2 ++ [false])
          (BT.node s.nextId rb_tree_red v .leaf .leaf)).entries =
          A ++ (s.nextId, v) :: B := by
        rw [hrepl]
        simp [BT.entries]
      have hAne : A ≠ [] := by
        rw [hA2]
        simp
      obtain ⟨e, A3, hA0⟩ : ∃ e A3, A = e :: A3 := by
        cases A with
        | nil => exact absurd rfl hAne
        | cons e A3 => exact ⟨e, A3, rfl⟩
      have hlmT1 : lmPtr (T.repl (q2 ++ [false])
          (BT.node s.nextId rb_tree_red v .leaf .leaf)) s.header =
          lmPtr T s.header := by
        simp only [lmPtr, hT1e, hent, hA0]
        rfl
      by_cases hcr : rmPtr T s.header = some iy
      · -- the new node becomes the rightmost element
        have hcondrm : (rightmostP s2a == some iy) = true := by
          rw [hrm2a, hcr]
          simp
        rw [hcondrm] at hres
        simp only [if_true] at hres
        set s2 : RBTree := updN s2a (some s2a.header)
          (fun n => { n with right := some s.nextId }) with hs2
        have hfh2 : hfind s2.heap s.header =
            some { hn with right := some s.nextId } := by
          rw [hs2, hs2ah]
          exact hfind_updN_self hf2ah
        have hf2 : ∀ j : Nat, j ≠ s.header →
            hfind s2.heap j = hfind s2a.heap j := by
          intro j hj
          rw [hs2, hs2ah]
          exact hfind_updN_ne (by simpa using fun hc => hj hc.symm)
        have hBnil : B = [] := by
          cases hB0 : B with
          | nil => rfl
          | cons f B3 =>
            exfalso
            have h0 : rmPtr T s.header = ((f :: B3).getLast?).elim (some s.header)
                (fun g => some g.1) := by
              simp only [rmPtr, hent, hB0]
              rw [getLast?_append_right _ _ (by simp)]
              cases (f :: B3).getLast? <;> rfl
            cases hgl : (f :: B3).getLast? with
            | none => simp at hgl
            | some g =>
              rw [h0, hgl] at hcr
              have hg1 : g.1 = iy := Option.some.inj hcr
              have hgmem : g ∈ B := by
                rw [hB0]
                exact List.mem_of_mem_getLast? hgl
              refine hdisjAB iy (by rw [hA2]; simp) ?_
              rw [← hg1]
              exact List.mem_map.mpr ⟨g, hgmem, rfl⟩
        cases hreb : rb_tree_insert_rebalance s2 (some s.nextId) (rootP s2) fuel with
        | none =>
          rw [hreb] at hres
          simp at hres
        | some reb =>
          rw [hreb] at hres
          simp only [] at hres
          refine insert_link_tail s s2 T v q2 false iy cy vy YL .leaf A B fuel out reb
            hwf hsubp (by simp) hent hrepl hkA hkB ?_ ?_ ?_ ?_ ?_ hreb
            (Option.some.inj hres)
          · intro j hjiy hjh hjn
            rw [hf2 j hjh, hf2a j hjiy, hf1 j hjn]
          · rw [hf2 _ (fun hc => hhne hc.symm), hf2a _ (Ne.symm hiynd), hf1nd]
          · refine ⟨⟨ppy, YL.ptr, none, cy, vy⟩, hfiy2, ?_⟩
            simp only [Bool.false_eq_true, if_false]
            rw [hf2 _ hiyhdr]
            exact hf2aiy
          · refine ⟨{ hn with right := some s.nextId }, hfh2, hhdrcol, hrootT, ?_, ?_⟩
            · show hn.left = _
              rw [hlmT, hlmT1]
            · show some s.nextId = _
              simp only [rmPtr, hT1e, hBnil]
              rw [getLast?_append_right _ _ (by simp)]
              rfl
          · exact ⟨by rw [hs2, updN_header_id, hs2ah],
              by rw [hs2, updN_nextId, hs2an],
              by rw [hs2, updN_node_count, hs2ac],
              by rw [hs2, updN_keys, hs2ak]⟩
      · -- the rightmost cache is untouched
        have hcondrm : (rightmostP s2a == some iy) = false := by
          rw [hrm2a]
          simpa using hcr
        rw [hcondrm] at hres
        simp only [Bool.false_eq_true, if_false] at hres
        have hBne : B ≠ [] := by
          intro hB0
          refine hcr ?_
          simp only [rmPtr, hent, hB0, hA2]
          rw [List.append_nil, getLast?_append_right _ _
            (by simp : ((iy, vy) :: []) ≠ [])]
          rfl
        cases hreb : rb_tree_insert_rebalance s2a (some s.nextId) (rootP s2a) fuel with
        | none =>
          rw [hreb] at hres
          simp at hres
        | some reb =>
          rw [hreb] at hres
          simp only [] at hres
          refine insert_link_tail s s2a T v q2 false iy cy vy YL .leaf A B fuel out reb
            hwf hsubp (by simp) hent hrepl hkA hkB ?_ ?_ ?_ ?_ ?_ hreb
            (Option.some.inj hres)
          · intro j hjiy hjh hjn
            rw [hf2a j hjiy, hf1 j hjn]
          · rw [hf2a _ (Ne.symm hiynd), hf1nd]
          · refine ⟨⟨ppy, YL.ptr, none, cy, vy⟩, hfiy2, ?_⟩
            simp only [Bool.false_eq_true, if_false]
            exact hf2aiy
          · refine ⟨hn, hf2ah, hhdrcol, hrootT, ?_, ?_⟩
            · show hn.left = _
              rw [hlmT, hlmT1]
            · show hn.right = _
              rw [hrmT]
              simp only [rmPtr, hT1e, hent]
              rw [show A ++ (s.nextId, v) :: B = (A ++ [(s.nextId, v)]) ++ B by simp]
              rw [getLast?_append_right _ _ hBne, getLast?_append_right _ _ hBne]
          · exact ⟨hs2ah, hs2an, hs2ac, hs2ak⟩


/-- A decomposition around a fixed nonempty middle segment is unique
when the ids are distinct. -/
theorem append_middle_unique :
    ∀ (A A' B B' M : List (Nat × Val)), M ≠ [] →
      (((A ++ M ++ B).map Prod.fst).Nodup) →
      A ++ M ++ B = A' ++ M ++ B' → A = A' ∧ B = B' := by
  intro A
  induction A with
  | nil =>
    intro A' B B' M hM hnd heq
    cases A' with
    | nil =>
      refine ⟨rfl, ?_⟩
      simpa using heq
    | cons a A2 =>
      exfalso
      cases M with
      | nil => exact hM rfl
      | cons m M2 =>
        simp only [List.nil_append, List.cons_append, List.cons.injEq] at heq
        obtain ⟨hma, htl⟩ := heq
        simp only [List.nil_append, List.cons_append, List.map_cons,
          List.nodup_cons] at hnd
        refine hnd.1 ?_
        have hmm : m.1 ∈ (A2 ++ (m :: M2) ++ B').map Prod.fst := by simp
        rw [← htl] at hmm
        exact hmm
  | cons a A2 ih =>
    intro A' B B' M hM hnd heq
    cases A' with
    | nil =>
      exfalso
      cases M with
      | nil => exact hM rfl
      | cons m M2 =>
        simp only [List.nil_append, List.cons_append, List.cons.injEq] at heq
        obtain ⟨hma, htl⟩ := heq
        simp only [List.cons_append, List.map_cons, List.nodup_cons] at hnd
        refine hnd.1 ?_
        have hmm : a.1 ∈ (A2 ++ (m :: M2) ++ B).map Prod.fst := by
          rw [hma]
          simp
        simpa using hmm
    | cons a' A2' =>
      simp only [List.cons_append, List.cons.injEq] at heq
      obtain ⟨haa, htl⟩ := heq
      have hnd2 : ((A2 ++ M ++ B).map Prod.fst).Nodup := by
        simp only [List.cons_append, List.map_cons, List.nodup_cons] at hnd
        exact hnd.2
      obtain ⟨h1, h2⟩ := ih A2' B B' M hM hnd2 htl
      exact ⟨by rw [haa, h1], h2⟩

/-- If a node is a realized view's root through a null pointer, the view
is empty. -/
theorem realize_none_leaf {h : Heap} {pp : Option Nat} {t : BT}
    (hr : Realize h pp none t) : t = .leaf := by
  cases hr with
  | leaf => rfl

/-- The climb phase of iterator decrement, started at a node whose left
subtree is irrelevant, lands on the id of the last entry preceding that
node's subtree in the in-order list. -/
theorem iter_dec_climb_pred (fuel : Nat) :
    ∀ (s : RBTree) (T : BT) (pp root : Option Nat) (q2 : List Bool)
      (iy : Nat) (cy : Bool) (vy : Val) (YL YR : BT)
      (A B : List (Nat × Val)) (j : Option Nat),
      Realize s.heap pp root T → root = T.ptr →
      T.ids.Nodup →
      T.sub q2 = some (.node iy cy vy YL YR) →
      T.entries = A ++ (BT.node iy cy vy YL YR).entries ++ B →
      A ≠ [] →
      iter_dec_climb s fuel (some iy) (getN s (some iy)).parent = some j →
      ∃ a, A.getLast? = some a ∧ j = some a.1 := by
  induction fuel with
  | zero =>
    intro s T pp root q2 iy cy vy YL YR A B j hr hroot hnd hsub hent hAne hclimb
    simp [iter_dec_climb] at hclimb
  | succ fuel ih =>
    intro s T pp root q2 iy cy vy YL YR A B j hr hroot hnd hsub hent hAne hclimb
    rcases realize_sub_parent hr q2 _ hsub with ⟨hq0, hru⟩ |
      ⟨q3, b, pid, pc, pv, pl, pr, hq, hsubp, hchild, hru⟩
    · exfalso
      subst hq0
      rw [BT.sub_nil, Option.some.injEq] at hsub
      rw [← hsub] at hent
      have hlen := congrArg List.length hent
      simp only [List.length_append] at hlen
      have hA0 : A.length = 0 := by omega
      exact hAne (List.length_eq_zero.mp hA0)
    · have hru2 : Realize s.heap (some pid) (some iy) (BT.node iy cy vy YL YR) := hru
      obtain ⟨hfiy, hrYL2, hrYR2⟩ := hru2.node_lookup
      obtain ⟨ppp, hrp⟩ : ∃ pp2, Realize s.heap pp2 (some pid)
          (BT.node pid pc pv pl pr) := by
        rcases realize_sub_parent hr q3 _ hsubp with ⟨_, hrg⟩ |
          ⟨_, _, _, _, _, _, _, _, _, _, hrg⟩
        · exact ⟨_, hrg⟩
        · exact ⟨_, hrg⟩
      obtain ⟨hfpid, hrpl2, hrpr2⟩ := hrp.node_lookup
      obtain ⟨A3, B3, hAB3⟩ := BT.sub_entries_decomp hsubp
      obtain ⟨hndpl, hndpr, hpidpl, hpidpr, hdisj⟩ :=
        nodup_node_parts (BT.sub_nodup hsubp hnd)
      have hMne : (BT.node iy cy vy YL YR).entries ≠ [] := by
        simp [BT.entries_node]
      have hndent : ((A ++ (BT.node iy cy vy YL YR).entries ++ B).map
          Prod.fst).Nodup := by
        rw [← hent]
        exact hnd
      simp only [iter_dec_climb, getN_some hfiy] at hclimb
      cases b with
      | true =>
        have hpl : BT.node iy cy vy YL YR = pl := by simpa using hchild
        have hlp : (getN s (some pid)).left = some iy := by
          rw [getN_some hfpid, ← hpl]
          rfl
        rw [hlp] at hclimb
        simp only [beq_self_eq_true, if_true] at hclimb
        have hA3 : T.entries = A3 ++ (BT.node iy cy vy YL YR).entries ++
            ((pid, pv) :: pr.entries ++ B3) := by
          rw [hAB3, BT.entries_node, ← hpl]
          simp
        have huniq := append_middle_unique A A3 B
          ((pid, pv) :: pr.entries ++ B3) _ hMne hndent
          (by rw [← hent, ← hA3])
        have hA3ne : A3 ≠ [] := by
          rw [← huniq.1]
          exact hAne
        obtain ⟨a, ha1, ha2⟩ := ih s T pp root q3 pid pc pv pl pr A3 B3 j
          hr hroot hnd hsubp hAB3 hA3ne hclimb
        exact ⟨a, by rw [huniq.1, ha1], ha2⟩
      | false =>
        have hpr : BT.node iy cy vy YL YR = pr := by simpa using hchild
        have hlp : (getN s (some pid)).left = pl.ptr := by
          rw [getN_some hfpid]
        have hplne : (some iy == pl.ptr) = false := by
          have h0 : pl.ptr ≠ some iy := by
            intro hc
            refine hdisj iy (BT.ptr_mem_ids hc) ?_
            rw [← hpr]
            simp [BT.ids_node]
          cases hpl0 : pl.ptr with
          | none => rfl
          | some z =>
            have : z ≠ iy := fun hc => h0 (by rw [hpl0, hc])
            simp [this.symm]
        rw [hlp, hplne] at hclimb
        simp only [Bool.false_eq_true, if_false, Option.some.injEq] at hclimb
        have hA3 : T.entries = (A3 ++ pl.entries ++ [(pid, pv)]) ++
            (BT.node iy cy vy YL YR).entries ++ B3 := by
          rw [hAB3, BT.entries_node, ← hpr]
          simp
        have huniq := append_middle_unique A (A3 ++ pl.entries ++ [(pid, pv)]) B
          B3 _ hMne hndent (by rw [← hent, ← hA3])
        refine ⟨(pid, pv), ?_, by rw [← hclimb]⟩
        rw [huniq.1, getLast?_append_right _ _ (by simp)]
        rfl

/-- With distinct ids, an id determines its entry. -/
theorem entry_unique :
    ∀ {es : List (Nat × Val)} {i : Nat} {a b : Val},
      ((es.map Prod.fst).Nodup) → (i, a) ∈ es → (i, b) ∈ es → a = b := by
  intro es
  induction es with
  | nil =>
    intro i a b _ ha
    simp at ha
  | cons e es ih =>
    intro i a b hnd ha hb
    rw [List.map_cons, List.nodup_cons] at hnd
    rcases List.mem_cons.mp ha with ha1 | ha2
    · rcases List.mem_cons.mp hb with hb1 | hb2
      · rw [← ha1] at hb1
        exact (Prod.mk.injEq _ _ _ _).mp hb1.symm |>.2
      · exfalso
        refine hnd.1 ?_
        rw [← ha1]
        exact List.mem_map.mpr ⟨(i, b), hb2, rfl⟩
    · rcases List.mem_cons.mp hb with hb1 | hb2
      · exfalso
        refine hnd.1 ?_
        rw [← hb1]
        exact List.mem_map.mpr ⟨(i, a), ha2, rfl⟩
      · exact ih hnd.2 ha2 hb2

/-- `rb_tree_max` on a realized nonempty subtree returns the id of its
last in-order entry. -/
theorem rb_tree_max_spec (fuel : Nat) :
    ∀ (s : RBTree) (pp : Option Nat) (i : Nat) (c : Bool) (v : Val) (l r : BT)
      (j : Option Nat),
      Realize s.heap pp (some i) (.node i c v l r) →
      rb_tree_max s fuel (some i) = some j →
      ∃ e, (BT.node i c v l r).entries.getLast? = some e ∧ j = some e.1 := by
  induction fuel with
  | zero =>
    intro s pp i c v l r j hr hmax
    simp [rb_tree_max] at hmax
  | succ fuel ih =>
    intro s pp i c v l r j hr hmax
    obtain ⟨hfi, hrl, hrr⟩ := hr.node_lookup
    rw [rb_tree_max] at hmax
    simp only [getN_some hfi] at hmax
    cases r with
    | leaf =>
      simp only [BT.ptr, Option.some.injEq] at hmax
      refine ⟨(i, v), ?_, by rw [← hmax]⟩
      rw [BT.entries_node]
      rw [show l.entries ++ (i, v) :: BT.leaf.entries = l.entries ++ [(i, v)] by rfl]
      rw [getLast?_append_right _ _ (by simp)]
      rfl
    | node i2 c2 v2 l2 r2 =>
      have hrr2 : Realize s.heap (some i) (some i2) (BT.node i2 c2 v2 l2 r2) := hrr
      obtain ⟨e, he1, he2⟩ := ih s (some i) i2 c2 v2 l2 r2 j hrr2 hmax
      refine ⟨e, ?_, he2⟩
      rw [BT.entries_node,
        show l.entries ++ (i, v) :: (BT.node i2 c2 v2 l2 r2).entries =
          (l.entries ++ [(i, v)]) ++ (BT.node i2 c2 v2 l2 r2).entries by simp,
        getLast?_append_right _ _ (by simp [BT.entries_node])]
      exact he1

/-- Iterator decrement at a non-first element moves to the id of the
previous in-order entry. -/
theorem iter_dec_pred (s : RBTree) (T : BT) (fuel : Nat) (iy : Nat) (vy : Val)
    (A B : List (Nat × Val)) (j : Option Nat)
    (hwf : WF s T)
    (hent : T.entries = A ++ (iy, vy) :: B)
    (hAne : A ≠ [])
    (hdec : iter_dec s fuel (some iy) = some j) :
    ∃ a, A.getLast? = some a ∧ j = some a.1 := by
  have hmem : iy ∈ T.ids := by
    rw [BT.ids, hent]
    simp
  obtain ⟨q2, cy, vy2, YL, YR, hsub⟩ := BT.mem_ids_sub hmem
  obtain ⟨A2, B2, hAB2⟩ := BT.sub_entries_decomp hsub
  have hvy : vy2 = vy := by
    have h1 : (iy, vy2) ∈ T.entries := by
      rw [hAB2, BT.entries_node]
      simp
    have h2 : (iy, vy) ∈ T.entries := by
      rw [hent]
      simp
    exact entry_unique hwf.nodup h1 h2
  rw [hvy] at hAB2 hsub
  have hA2e : T.entries = (A2 ++ YL.entries) ++ (iy, vy) :: (YR.entries ++ B2) := by
    rw [hAB2, BT.entries_node]
    simp
  have hndent : (((A ++ [(iy, vy)] ++ B).map Prod.fst)).Nodup := by
    rw [show A ++ [(iy, vy)] ++ B = T.entries by rw [hent]; simp]
    exact hwf.nodup
  have huniq := append_middle_unique A (A2 ++ YL.entries) B (YR.entries ++ B2)
    [(iy, vy)] (by simp) hndent
    (by rw [show A ++ [(iy, vy)] ++ B = T.entries by rw [hent]; simp, hA2e]; simp)
  rcases realize_sub_parent hwf.real q2 _ hsub with ⟨hq0, hru⟩ |
    ⟨q3, b, pid, pc, pv, pl, pr, hq, hsubp, hchild, hru⟩
  · -- `iy` is the root: the header quirk test fails on the root's color
    subst hq0
    rw [BT.sub_nil, Option.some.injEq] at hsub
    have hru2 : Realize s.heap (some s.header) (some iy)
        (BT.node iy cy vy YL YR) := by
      have h0 := hwf.real
      rw [hsub] at h0
      exact h0
    obtain ⟨hfiy, hrYL, hrYR⟩ := hru2.node_lookup
    have hcy : cy = rb_tree_black := by
      have h0 := hwf.root_black
      rw [hsub] at h0
      exact h0
    have hA2nil : A2 = [] := by
      have h0 := hAB2
      rw [← hsub] at h0
      have hlen := congrArg List.length h0
      simp only [List.length_append] at hlen
      exact List.length_eq_zero.mp (by omega)
    rw [iter_dec] at hdec
    simp only [getN_some hfiy] at hdec
    rw [hcy] at hdec
    simp only [show (rb_tree_black == rb_tree_red) = false from rfl,
      Bool.and_false, Bool.false_eq_true, if_false] at hdec
    cases hYL : YL with
    | leaf =>
      exfalso
      refine hAne ?_
      rw [huniq.1, hA2nil, hYL]
      rfl
    | node i2 c2 v2 l2 r2 =>
      rw [hYL] at hdec
      simp only [BT.ptr] at hdec
      rw [if_pos (by simp)] at hdec
      have hrYL2 : Realize s.heap (some iy) (some i2)
          (BT.node i2 c2 v2 l2 r2) := by
        rw [hYL] at hrYL
        exact hrYL
      obtain ⟨e, he1, he2⟩ := rb_tree_max_spec fuel s (some iy) i2 c2 v2 l2 r2 j
        hrYL2 hdec
      refine ⟨e, ?_, he2⟩
      rw [huniq.1, hA2nil, hYL]
      simpa using he1
  · -- `iy` has a real parent `pid`
    have hru2 : Realize s.heap (some pid) (some iy)
        (BT.node iy cy vy YL YR) := hru
    obtain ⟨hfiy, hrYL, hrYR⟩ := hru2.node_lookup
    obtain ⟨ppp, hrp⟩ : ∃ pp2, Realize s.heap pp2 (some pid)
        (BT.node pid pc pv pl pr) := by
      rcases realize_sub_parent hwf.real q3 _ hsubp with ⟨_, hrg⟩ |
        ⟨_, _, _, _, _, _, _, _, _, _, hrg⟩
      · exact ⟨_, hrg⟩
      · exact ⟨_, hrg⟩
    obtain ⟨hfpid, hrpl, hrpr⟩ := hrp.node_lookup
    -- the grandparent pointer is never `iy` itself
    have hiymemP : iy ∈ (BT.node pid pc pv pl pr).ids := by
      rw [BT.ids_node]
      cases b with
      | true =>
        have hpl : BT.node iy cy vy YL YR = pl := by simpa using hchild
        refine List.mem_append.mpr (Or.inl ?_)
        rw [← hpl]
        simp [BT.ids_node]
      | false =>
        have hpr : BT.node iy cy vy YL YR = pr := by simpa using hchild
        refine List.mem_append.mpr (Or.inr (List.mem_cons.mpr (Or.inr ?_)))
        rw [← hpr]
        simp [BT.ids_node]
    have hquirk : (ppp == some iy) = false := by
      rcases realize_sub_parent hwf.real q3 _ hsubp with ⟨hq30, hrg⟩ |
        ⟨q4, b2, gid, gc, gv, g1, g2, hq3, hsubg, hchild2, hrg⟩
      · have hpp : ppp = some s.header := by
          have h1 := hrg.ptr_eq
          have h2 : Realize s.heap (some s.header) (some pid)
              (BT.node pid pc pv pl pr) := by
            rw [show (BT.node pid pc pv pl pr).ptr = some pid from h1.symm ▸ rfl] at hrg
            exact hrg
          obtain ⟨hf2, _, _⟩ := h2.node_lookup
          rw [hfpid] at hf2
          exact ((Node.mk.injEq _ _ _ _ _ _ _ _ _ _).mp
            (Option.some.inj hf2)).1
        rw [hpp]
        have : s.header ≠ iy := fun hc => hwf.hdr_notin (hc ▸ hmem)
        simp [this]
      · have hrg2 : Realize s.heap (some gid) (some pid)
            (BT.node pid pc pv pl pr) := hrg
        obtain ⟨hf2, _, _⟩ := hrg2.node_lookup
        have hpp : ppp = some gid := by
          rw [hfpid] at hf2
          exact ((Node.mk.injEq _ _ _ _ _ _ _ _ _ _).mp
            (Option.some.inj hf2)).1
        have hgne : gid ≠ iy := by
          obtain ⟨hnd1, hnd2, hgg1, hgg2, hdisj2⟩ :=
            nodup_node_parts (BT.sub_nodup hsubg hwf.nodup)
          intro hc
          subst hc
          cases b2 with
          | true =>
            have hg1 : BT.node pid pc pv pl pr = g1 := by simpa using hchild2
            exact hgg1 (by rw [← hg1]; exact hiymemP)
          | false =>
            have hg2e : BT.node pid pc pv pl pr = g2 := by simpa using hchild2
            exact hgg2 (by rw [← hg2e]; exact hiymemP)
        rw [hpp]
        simp [hgne]
    rw [iter_dec] at hdec
    simp only [getN_some hfiy] at hdec
    rw [show (getN s (some pid)).parent = ppp from by rw [getN_some hfpid]] at hdec
    rw [hquirk] at hdec
    simp only [Bool.false_and, Bool.false_eq_true, if_false] at hdec
    cases hYL : YL with
    | leaf =>
      have hAeq : A = A2 := by
        rw [huniq.1, hYL]
        simp [BT.entries]
      have hA2ne : A2 ≠ [] := by
        rw [← hAeq]
        exact hAne
      rw [hYL] at hdec
      simp only [BT.ptr, bne_self_eq_false, Bool.false_eq_true, if_false] at hdec
      have hAB2c : T.entries = A2 ++ (BT.node iy cy vy BT.leaf YR).entries ++ B2 := by
        rw [hAB2, hYL]
      obtain ⟨a, ha1, ha2⟩ := iter_dec_climb_pred fuel s T (some s.header) T.ptr q2
        iy cy vy BT.leaf YR A2 B2 j hwf.real rfl hwf.nodup (by rw [← hYL]; exact hsub)
        hAB2c hA2ne (by rw [show (getN s (some iy)).parent = some pid from by
          rw [getN_some hfiy]]; exact hdec)
      exact ⟨a, by rw [hAeq]; exact ha1, ha2⟩
    | node i2 c2 v2 l2 r2 =>
      rw [hYL] at hdec
      simp only [BT.ptr] at hdec
      rw [if_pos (by simp)] at hdec
      have hrYL2 : Realize s.heap (some iy) (some i2)
          (BT.node i2 c2 v2 l2 r2) := by
        rw [hYL] at hrYL
        exact hrYL
      obtain ⟨e, he1, he2⟩ := rb_tree_max_spec fuel s (some iy) i2 c2 v2 l2 r2 j
        hrYL2 hdec
      refine ⟨e, ?_, he2⟩
      rw [huniq.1, hYL, getLast?_append_right _ _ (by simp [BT.entries_node])]
      exact he1

theorem sorted_le_getLast :
    ∀ {l : List Nat}, List.Sorted (· ≤ ·) l → ∀ {a : Nat}, a ∈ l →
      ∀ {m : Nat}, l.getLast? = some m → a ≤ m := by
  intro l
  induction l with
  | nil =>
    intro _ a ha
    simp at ha
  | cons x t ih =>
    intro hs a ha m hm
    rw [List.sorted_cons] at hs
    cases t with
    | nil =>
      have hax : a = x := by simpa using ha
      have hxm : x = m := by simpa [List.getLast?] using hm
      omega
    | cons y t2 =>
      rw [List.getLast?_cons_cons] at hm
      rcases List.mem_cons.mp ha with ha1 | ha2
      · have hmm : m ∈ y :: t2 := List.mem_of_mem_getLast? hm
        have := hs.1 m hmm
        omega
      · exact ih hs.2 ha2 hm

/-- `get_insert_multi_pos`: the returned link point splits the entry
list at the key, equal keys before the split. -/
theorem get_insert_multi_pos_spec (s : RBTree) (T : BT) (key : Nat) (fuel : Nat)
    (res : Option Nat × Bool)
    (hwf : WF s T)
    (hres : get_insert_multi_pos s key fuel = some res) :
    ∃ q A B, T.sub q = some .leaf ∧ T.entries = A ++ B ∧
      (∀ u2 : BT, (T.repl q u2).entries = A ++ u2.entries ++ B) ∧
      (∀ e ∈ A, key_comp key (get_key e.2) = false) ∧
      (∀ e ∈ B, key_comp key (get_key e.2) = true) ∧
      ((T = .leaf ∧ res.1 = some s.header ∧ q = []) ∨
       (∃ q2 iy cy vy YL YR, q = q2 ++ [res.2] ∧
          T.sub q2 = some (.node iy cy vy YL YR) ∧ res.1 = some iy ∧
          (res.2 = true → ∃ B2, B = (iy, vy) :: B2) ∧
          (res.2 = false → ∃ A2, A = A2 ++ [(iy, vy)]))) := by
  rw [get_insert_multi_pos, hwf.root_eq] at hres
  obtain ⟨q, A, B, h1, h2, h3, h4, h5, h6⟩ :=
    insert_pos_loop_spec fuel s key T (some s.header) true (some s.header) res
      hwf.real hwf.sorted hres
  refine ⟨q, A, B, h1, h2, h3, h4, h5, ?_⟩
  rcases h6 with ⟨ha, hb, hc⟩ | h6
  · exact Or.inl ⟨ha, by rw [hb], hc⟩
  · exact Or.inr h6

/-- `get_insert_unique_pos`: the duplicate check is exact — the success
flag is down exactly when the key is already stored; on success the
returned link point splits the entry list at the key. -/
theorem get_insert_unique_pos_spec (s : RBTree) (T : BT) (key : Nat) (fuel : Nat)
    (res : (Option Nat × Bool) × Bool)
    (hwf : WF s T)
    (hres : get_insert_unique_pos s key fuel = some res) :
    (res.2 = false → key ∈ T.keys) ∧
    (res.2 = true → key ∉ T.keys ∧
      ∃ q A B, T.sub q = some .leaf ∧ T.entries = A ++ B ∧
        (∀ u2 : BT, (T.repl q u2).entries = A ++ u2.entries ++ B) ∧
        (∀ e ∈ A, key_comp key (get_key e.2) = false) ∧
        (∀ e ∈ B, key_comp key (get_key e.2) = true) ∧
        ((T = .leaf ∧ res.1.1 = some s.header ∧ q = []) ∨
         (∃ q2 iy cy vy YL YR, q = q2 ++ [res.1.2] ∧
            T.sub q2 = some (.node iy cy vy YL YR) ∧ res.1.1 = some iy ∧
            (res.1.2 = true → ∃ B2, B = (iy, vy) :: B2) ∧
            (res.1.2 = false → ∃ A2, A = A2 ++ [(iy, vy)])))) := by
  rw [get_insert_unique_pos, hwf.root_eq] at hres
  cases hloop : insert_pos_loop s key fuel T.ptr (some s.header) true with
  | none =>
    rw [hloop] at hres
    simp at hres
  | some ya =>
    rw [hloop] at hres
    obtain ⟨q, A, B, h1, h2, h3, h4, h5, h6⟩ :=
      insert_pos_loop_spec fuel s key T (some s.header) true (some s.header) ya
        hwf.real hwf.sorted hloop
    obtain ⟨y, al⟩ := ya
    -- key sequence facts
    have hkeysAB : T.keys = A.map (fun e => get_key e.2) ++
        B.map (fun e => get_key e.2) := by
      rw [BT.keys_eq_map, h2, List.map_append]
    have hsortedA : List.Sorted (· ≤ ·) (A.map (fun e => get_key e.2)) := by
      have h0 := hwf.sorted
      rw [hkeysAB, List.Sorted, List.pairwise_append] at h0
      exact h0.1
    have habsent : ∀ a, A.getLast? = some a →
        key_comp (get_key a.2) key = true → key ∉ T.keys := by
      intro a hAL hlt hkmem
      rw [hkeysAB] at hkmem
      rcases List.mem_append.mp hkmem with hk1 | hk2
      · obtain ⟨e, he, heq⟩ := List.mem_map.mp hk1
        have h9 : (A.map (fun e => get_key e.2)).getLast? =
            some (get_key a.2) := by
          rw [List.getLast?_map, hAL]
          rfl
        have h8 : get_key e.2 ≤ get_key a.2 :=
          sorted_le_getLast hsortedA (List.mem_map.mpr ⟨e, he, rfl⟩) h9
        simp only [key_comp, decide_eq_true_eq] at hlt
        omega
      · obtain ⟨e, he, heq⟩ := List.mem_map.mp hk2
        have h7 := h5 e he
        simp only [key_comp, decide_eq_true_eq] at h7
        omega
    have hpresent : ∀ a ∈ A, key_comp (get_key a.2) key = false →
        key ∈ T.keys := by
      intro a ha hge
      have h7 := h4 a ha
      simp only [key_comp, decide_eq_true_eq, decide_eq_false_iff_not] at h7 hge
      have hkeq : get_key a.2 = key := by omega
      rw [hkeysAB]
      exact List.mem_append.mpr (Or.inl (List.mem_map.mpr ⟨a, ha, hkeq⟩))
    cases al with
    | false =>
      simp only [Bool.false_eq_true, if_false] at hres
      rcases h6 with ⟨hTleaf, hya, _⟩ | ⟨q2, iy, cy, vy, YL, YR, hq, hsubp, hyiy,
        hBt, hAf⟩
      · exfalso
        have := ((Prod.mk.injEq _ _ _ _).mp hya).2
        simp at this
      · simp only at hyiy hq hBt hAf
        obtain ⟨A2, hA2⟩ := hAf trivial
        subst hyiy
        obtain ⟨ppy, hryp⟩ : ∃ pp2, Realize s.heap pp2 (some iy)
            (BT.node iy cy vy YL YR) := by
          rcases realize_sub_parent hwf.real q2 _ hsubp with ⟨_, hrg⟩ |
            ⟨_, _, _, _, _, _, _, _, _, _, hrg⟩
          · exact ⟨_, hrg⟩
          · exact ⟨_, hrg⟩
        obtain ⟨hfiy, _, _⟩ := hryp.node_lookup
        rw [getN_some hfiy] at hres
        have hALa : A.getLast? = some (iy, vy) := by
          rw [hA2, getLast?_append_right _ _ (by simp)]
          rfl
        cases hchk : key_comp (get_key vy) key with
        | true =>
          rw [hchk] at hres
          simp only [if_true, Option.some.injEq] at hres
          subst hres
          refine ⟨by simp, fun _ => ⟨habsent (iy, vy) hALa hchk, q, A, B,
            h1, h2, h3, h4, h5, Or.inr ⟨q2, iy, cy, vy, YL, YR, hq, hsubp, rfl,
              ?_, ?_⟩⟩⟩
          · intro hc
            simp at hc
          · intro _
            exact ⟨A2, hA2⟩
        | false =>
          rw [hchk] at hres
          simp only [Bool.false_eq_true, if_false, Option.some.injEq] at hres
          subst hres
          refine ⟨fun _ => hpresent (iy, vy) (by rw [hA2]; simp) hchk, ?_⟩
          intro hc
          simp at hc
    | true =>
      simp only [if_true] at hres
      by_cases hbeg : (y == some s.header || y == leftmostP s) = true
      · rw [if_pos hbeg] at hres
        simp only [Option.some.injEq] at hres
        subst hres
        refine ⟨by intro hc; simp at hc, fun _ => ?_⟩
        rcases h6 with ⟨hTleaf, hya, hqnil⟩ | ⟨q2, iy, cy, vy, YL, YR, hq, hsubp,
          hyiy, hBt, hAf⟩
        · have hy0 : y = some s.header := ((Prod.mk.injEq _ _ _ _).mp hya).1
          refine ⟨?_, q, A, B, h1, h2, h3, h4, h5, Or.inl ⟨hTleaf, by rw [hy0],
            hqnil⟩⟩
          rw [BT.keys_eq_map, hTleaf]
          simp [BT.entries]
        · simp only at hyiy hq hBt hAf
          obtain ⟨B2, hB2⟩ := hBt trivial
          subst hyiy
          have hiymem : iy ∈ T.ids :=
            BT.sub_ids_subset hsubp iy (by simp [BT.ids_node])
          have hynh : (some iy == some s.header) = false := by
            have : iy ≠ s.header := fun hc => hwf.hdr_notin (hc ▸ hiymem)
            simp [this]
          rw [hynh, Bool.false_or] at hbeg
          have hlm : leftmostP s = lmPtr T s.header := hwf.lm_eq
          have hAnil : A = [] := by
            cases hA0 : A with
            | nil => rfl
            | cons e A3 =>
              exfalso
              have hlmA : lmPtr T s.header = some e.1 := by
                simp only [lmPtr, h2, hA0]
                rfl
              have hbeq : iy = e.1 := by
                rw [hlm, hlmA] at hbeg
                simpa using hbeg
              have h0 := hwf.nodup
              rw [BT.ids, h2, List.map_append, List.nodup_append] at h0
              have hm1 : e.1 ∈ A.map Prod.fst := by
                rw [hA0]
                simp
              have hm2 : e.1 ∈ B.map Prod.fst := by
                rw [← hbeq, hB2]
                simp
              exact h0.2.2 hm1 hm2
          refine ⟨?_, q, A, B, h1, h2, h3, h4, h5, Or.inr ⟨q2, iy, cy, vy, YL, YR,
            hq, hsubp, rfl, fun _ => ⟨B2, hB2⟩, ?_⟩⟩
          · intro hkmem
            rw [hkeysAB, hAnil] at hkmem
            simp only [List.map_nil, List.nil_append] at hkmem
            obtain ⟨e, he, heq⟩ := List.mem_map.mp hkmem
            have h7 := h5 e he
            simp only [key_comp, decide_eq_true_eq] at h7
            omega
          · intro hc
            simp at hc
      · rw [Bool.not_eq_true] at hbeg
        rw [hbeg] at hres
        simp only [Bool.false_eq_true, if_false] at hres
        rw [Bool.or_eq_false_iff] at hbeg
        rcases h6 with ⟨hTleaf, hya, hqnil⟩ | ⟨q2, iy, cy, vy, YL, YR, hq, hsubp,
          hyiy, hBt, hAf⟩
        · exfalso
          have hy0 : y = some s.header := ((Prod.mk.injEq _ _ _ _).mp hya).1
          rw [hy0] at hbeg
          simp at hbeg
        · simp only at hyiy hq hBt hAf
          obtain ⟨B2, hB2⟩ := hBt trivial
          subst hyiy
          have hAne : A ≠ [] := by
            intro hA0
            have hlmA : lmPtr T s.header = some iy := by
              simp only [lmPtr, h2, hA0, hB2]
              rfl
            have := hbeg.2
            rw [hwf.lm_eq, hlmA] at this
            simp at this
          have hentP : T.entries = A ++ (iy, vy) :: B2 := by
            rw [h2, hB2]
          cases hdec : iter_dec s fuel (some iy) with
          | none =>
            rw [hdec] at hres
            simp at hres
          | some jj =>
            rw [hdec] at hres
            obtain ⟨a, hALa, hjj⟩ := iter_dec_pred s T fuel iy vy A B2 jj hwf
              hentP hAne hdec
            have haA : a ∈ A := by
              cases hA0 : A with
              | nil =>
                rw [hA0] at hALa
                simp at hALa
              | cons e A3 =>
                rw [← hA0]
                exact List.mem_of_mem_getLast? hALa
            have haent : a ∈ T.entries := by
              rw [h2]
              exact List.mem_append.mpr (Or.inl haA)
            obtain ⟨na, hna1, hna2⟩ := realize_entry_lookup hwf.real a haent
            subst hjj
            simp only [] at hres
            rw [show getN s (some a.1) = na from getN_some hna1, hna2] at hres
            cases hchk : key_comp (get_key a.2) key with
            | true =>
              rw [hchk] at hres
              simp only [if_true, Option.some.injEq] at hres
              subst hres
              refine ⟨by intro hc; simp at hc, fun _ =>
                ⟨habsent a hALa hchk, q, A, B, h1, h2, h3, h4, h5,
                  Or.inr ⟨q2, iy, cy, vy, YL, YR, hq, hsubp, rfl,
                    fun _ => ⟨B2, hB2⟩, by intro hc; simp at hc⟩⟩⟩
            | false =>
              rw [hchk] at hres
              simp only [Bool.false_eq_true, if_false, Option.some.injEq] at hres
              subst hres
              refine ⟨fun _ => hpresent a haA hchk, ?_⟩
              intro hc
              simp at hc

/-- `insert_multi` places the new element after every existing element
with a key not greater than its own and before every strictly greater
key, and re-establishes well-formedness. -/
theorem insert_multi_spec (s : RBTree) (T : BT) (v : Val) (fuel : Nat)
    (s2 : RBTree) (it : Option Nat)
    (hwf : WF s T)
    (hres : insert_multi s v fuel = .ok (s2, it)) :
    ∃ T2 A B, WF s2 T2 ∧
      T.entries = A ++ B ∧
      T2.entries = A ++ (s.nextId, v) :: B ∧
      (∀ e ∈ A, get_key e.2 ≤ get_key v) ∧
      (∀ e ∈ B, get_key v < get_key e.2) ∧
      it = some s.nextId ∧
      s2.node_count = s.node_count + 1 := by
  rw [insert_multi] at hres
  by_cases hcap : s.node_count > rb_max_size - 1
  · rw [if_pos hcap] at hres
    simp at hres
  · rw [if_neg hcap] at hres
    cases hpos : get_insert_multi_pos s (get_key v) fuel with
    | none =>
      rw [hpos] at hres
      simp at hres
    | some ya =>
      rw [hpos] at hres
      obtain ⟨y, al⟩ := ya
      simp only [] at hres
      obtain ⟨q, A, B, h1, h2, h3, h4, h5, h6⟩ :=
        get_insert_multi_pos_spec s T (get_key v) fuel (y, al) hwf hpos
      cases hiva : insert_value_at s y v al fuel with
      | none =>
        rw [hiva] at hres
        simp at hres
      | some out =>
        rw [hiva] at hres
        simp only [Res.ok.injEq, Prod.mk.injEq] at hres
        obtain ⟨hout1, hout2⟩ := hres
        obtain ⟨T2, hwf2, hent2, hit2, _, hcnt2, _, _⟩ :=
          insert_value_at_spec s T v y al q A B fuel out hwf h1 h2 h3
            (by
              intro e he
              have h7 := h4 e he
              simp only [key_comp, decide_eq_false_iff_not] at h7
              omega)
            (by
              intro e he
              have h7 := h5 e he
              simp only [key_comp, decide_eq_true_eq] at h7
              omega)
            h6 hiva
        refine ⟨T2, A, B, by rw [← hout1]; exact hwf2, h2, hent2, ?_, ?_,
          by rw [← hout2, hit2], by rw [← hout1, hcnt2]⟩
        · intro e he
          have h7 := h4 e he
          simp only [key_comp, decide_eq_false_iff_not] at h7
          omega
        · intro e he
          have h7 := h5 e he
          simp only [key_comp, decide_eq_true_eq] at h7
          omega

/-- `insert_unique` inserts exactly when the key is absent, leaving the
state untouched (and reporting `false`) when it is present. -/
theorem insert_unique_spec (s : RBTree) (T : BT) (v : Val) (fuel : Nat)
    (s2 : RBTree) (it : Option Nat) (ins : Bool)
    (hwf : WF s T)
    (hres : insert_unique s v fuel = .ok (s2, it, ins)) :
    (ins = false → get_key v ∈ T.keys ∧ s2 = s) ∧
    (ins = true → get_key v ∉ T.keys ∧
      ∃ T2 A B, WF s2 T2 ∧
        T.entries = A ++ B ∧
        T2.entries = A ++ (s.nextId, v) :: B ∧
        (∀ e ∈ A, get_key e.2 ≤ get_key v) ∧
        (∀ e ∈ B, get_key v < get_key e.2) ∧
        it = some s.nextId ∧
        s2.node_count = s.node_count + 1) := by
  rw [insert_unique] at hres
  by_cases hcap : s.node_count > rb_max_size - 1
  · rw [if_pos hcap] at hres
    simp at hres
  · rw [if_neg hcap] at hres
    cases hpos : get_insert_unique_pos s (get_key v) fuel with
    | none =>
      rw [hpos] at hres
      simp at hres
    | some yas =>
      rw [hpos] at hres
      obtain ⟨⟨y, al⟩, success⟩ := yas
      simp only [] at hres
      obtain ⟨hfail, hsucc⟩ :=
        get_insert_unique_pos_spec s T (get_key v) fuel ((y, al), success) hwf hpos
      cases success with
      | false =>
        simp only [Bool.false_eq_true, if_false, Res.ok.injEq, Prod.mk.injEq] at hres
        obtain ⟨hout1, hout2, hout3⟩ := hres
        refine ⟨fun _ => ⟨hfail rfl, hout1.symm⟩, fun hc => ?_⟩
        rw [← hout3] at hc
        simp at hc
      | true =>
        simp only [if_true] at hres
        obtain ⟨habs, q, A, B, h1, h2, h3, h4, h5, h6⟩ := hsucc rfl
        cases hiva : insert_value_at s y v al fuel with
        | none =>
          rw [hiva] at hres
          simp at hres
        | some out =>
          rw [hiva] at hres
          simp only [Res.ok.injEq, Prod.mk.injEq] at hres
          obtain ⟨hout1, hout2, hout3⟩ := hres
          refine ⟨fun hc => ?_, fun _ => ⟨habs, ?_⟩⟩
          · rw [← hout3] at hc
            simp at hc
          · obtain ⟨T2, hwf2, hent2, hit2, _, hcnt2, _, _⟩ :=
              insert_value_at_spec s T v y al q A B fuel out hwf h1 h2 h3
                (by
                  intro e he
                  have h7 := h4 e he
                  simp only [key_comp, decide_eq_false_iff_not] at h7
                  omega)
                (by
                  intro e he
                  have h7 := h5 e he
                  simp only [key_comp, decide_eq_true_eq] at h7
                  omega)
                h6 hiva
            refine ⟨T2, A, B, by rw [← hout1]; exact hwf2, h2, hent2, ?_, ?_,
              by rw [← hout2, hit2], by rw [← hout1, hcnt2]⟩
            · intro e he
              have h7 := h4 e he
              simp only [key_comp, decide_eq_false_iff_not] at h7
              omega
            · intro e he
              have h7 := h5 e he
              simp only [key_comp, decide_eq_true_eq] at h7
              omega


/-! ## Claim theorems: insertion -/

/-- A concrete multi-tree holding two elements with key `5` and one
with key `3`, built by `insert_multi`. -/
def sampleD : RBTree := (
  [(5, 1), (3, 0), (5, 2)].foldlM (fun s v =>
    match insert_multi s v 100 with
    | .ok (s1, _) => some s1
    | _ => none) rb_tree_init).getD rb_tree_init

/-- Its inductive view. -/
def sampleD_view : BT := (readTree sampleD 100 (rootP sampleD)).getD .leaf

/-- C6: plain `insert_multi` never rejects a value (the only throw is
the capacity guard); the new element is placed after every element with
a key not greater than its own and before every strictly greater key,
so a duplicate lands immediately after the last existing equal key and
duplicates keep their insertion order. -/
theorem claim_C6 (s : RBTree) (T : BT) (v : Val) (fuel : Nat)
    (hwf : WF s T) (hcap : s.node_count ≤ rb_max_size - 1) :
    (∀ s3, insert_multi s v fuel ≠ .thrown s3) ∧
    (∀ s2 it, insert_multi s v fuel = .ok (s2, it) →
      ∃ T2 A B, WF s2 T2 ∧
        T.entries = A ++ B ∧
        T2.entries = A ++ (s.nextId, v) :: B ∧
        (∀ e ∈ A, get_key e.2 ≤ get_key v) ∧
        (∀ e ∈ B, get_key v < get_key e.2) ∧
        it = some s.nextId ∧
        s2.node_count = s.node_count + 1) := by
  constructor
  · intro s3 hc
    rw [insert_multi, if_neg (by omega)] at hc
    cases h1 : get_insert_multi_pos s (get_key v) fuel with
    | none =>
      rw [h1] at hc
      simp at hc
    | some ya =>
      obtain ⟨y, al⟩ := ya
      rw [h1] at hc
      simp only [] at hc
      cases h2 : insert_value_at s y v al fuel with
      | none =>
        rw [h2] at hc
        simp at hc
      | some out =>
        rw [h2] at hc
        simp at hc
  · intro s2 it hres
    exact insert_multi_spec s T v fuel s2 it hwf hres

/-- C6 witness: inserting a third element with key `5` into the
concrete multi-tree `{(5,1),(3,0),(5,2)}` succeeds. -/
theorem claim_C6_witness :
    ((∀ s3, insert_multi sampleD (5, 9) 100 ≠ .thrown s3) ∧
      (∀ s2 it, insert_multi sampleD (5, 9) 100 = .ok (s2, it) →
        ∃ T2 A B, WF s2 T2 ∧
          sampleD_view.entries = A ++ B ∧
          T2.entries = A ++ (sampleD.nextId, (5, 9)) :: B ∧
          (∀ e ∈ A, get_key e.2 ≤ get_key (5, 9)) ∧
          (∀ e ∈ B, get_key (5, 9) < get_key e.2) ∧
          it = some sampleD.nextId ∧
          s2.node_count = sampleD.node_count + 1)) ∧
    ∃ s2 it, insert_multi sampleD (5, 9) 100 = .ok (s2, it) := by
  constructor
  · exact claim_C6 sampleD sampleD_view (5, 9) 100 (WF_of_wfB (by decide))
      (by decide)
  · exact ⟨_, _, rfl⟩

/-- A concrete unique-tree `{1,3,5}` whose root carries key `3`. -/
def cex_tree : RBTree := (build_unique [1, 3, 5] 100).getD rb_tree_init

/-- Its inductive view. -/
def cex_view : BT := (readTree cex_tree 100 (rootP cex_tree)).getD .leaf

/-- C5 (amended): `insert_unique` reports `inserted = false` exactly
when the key is already stored; in that case the state is completely
unchanged, and otherwise a new node is linked at the sorted position
and the size grows by one.  (The returned position in the duplicate
case is the descent's link parent, not necessarily the stored equal
element — see the counterexample.) -/
theorem claim_C5 (s : RBTree) (T : BT) (v : Val) (fuel : Nat)
    (hwf : WF s T) :
    ∀ s2 it ins, insert_unique s v fuel = .ok (s2, it, ins) →
      ((ins = false ↔ get_key v ∈ T.keys) ∧
       (ins = false → s2 = s) ∧
       (ins = true →
        ∃ T2 A B, WF s2 T2 ∧
          T.entries = A ++ B ∧
          T2.entries = A ++ (s.nextId, v) :: B ∧
          (∀ e ∈ A, get_key e.2 ≤ get_key v) ∧
          (∀ e ∈ B, get_key v < get_key e.2) ∧
          it = some s.nextId ∧
          s2.node_count = s.node_count + 1)) := by
  intro s2 it ins hres
  obtain ⟨h1, h2⟩ := insert_unique_spec s T v fuel s2 it ins hwf hres
  refine ⟨⟨fun hc => (h1 hc).1, fun hc => ?_⟩, fun hc => (h1 hc).2,
    fun hc => (h2 hc).2⟩
  rcases Bool.eq_false_or_eq_true ins with hin | hin
  · exact absurd hc (h2 hin).1
  · exact hin

/-- C5 witness: on the concrete tree `{1,3,5}`, inserting key `4`
succeeds and inserting key `3` again is refused without a change. -/
theorem claim_C5_witness :
    (∀ s2 it ins, insert_unique cex_tree (3, 9) 100 = .ok (s2, it, ins) →
      ((ins = false ↔ get_key (3, 9) ∈ cex_view.keys) ∧
       (ins = false → s2 = cex_tree) ∧
       (ins = true →
        ∃ T2 A B, WF s2 T2 ∧
          cex_view.entries = A ++ B ∧
          T2.entries = A ++ (cex_tree.nextId, (3, 9)) :: B ∧
          (∀ e ∈ A, get_key e.2 ≤ get_key (3, 9)) ∧
          (∀ e ∈ B, get_key (3, 9) < get_key e.2) ∧
          it = some cex_tree.nextId ∧
          s2.node_count = cex_tree.node_count + 1))) ∧
    ∃ it, insert_unique cex_tree (3, 9) 100 = .ok (cex_tree, it, false) := by
  constructor
  · exact claim_C5 cex_tree cex_view (3, 9) 100 (WF_of_wfB (by decide))
  · exact ⟨_, rfl⟩

/-- C5 counterexample to the original wording: on the reachable tree
`{1,3,5}` (root `3`, built by `insert_unique` calls), inserting key `3`
again is refused, but the returned position is the node holding key `5`
(the descent's link parent), not the stored element with key `3`. -/
theorem claim_C5_counterexample :
    (∃ ops : List Op, run_ops 100 rb_tree_init ops = some cex_tree) ∧
    WF cex_tree cex_view ∧
    insert_unique cex_tree (3, 9) 100 = .ok (cex_tree, some 3, false) ∧
    get_key (getN cex_tree (some 3)).value = 5 ∧
    (2, (3, 0)) ∈ cex_view.entries ∧
    get_key ((3 : Nat), (0 : Nat)) = 3 ∧ (5 : Nat) ≠ 3 := by
  refine ⟨⟨[.insU (1, 0), .insU (3, 0), .insU (5, 0)], by decide⟩,
    WF_of_wfB (by decide), by decide, by decide, by decide, rfl, by decide⟩


/-! ## Claim theorems: failure atomicity -/

theorem WF_transfer {s s2 : RBTree} {T : BT} (hwf : WF s T)
    (hh : s2.heap = s.heap) (hhd : s2.header = s.header)
    (hc : s2.node_count = s.node_count) (hn : s.nextId ≤ s2.nextId) : WF s2 T := by
  have hget : ∀ p, getN s2 p = getN s p := by
    intro p
    cases p <;> simp [getN, hh]
  refine ⟨?_, ?_, ?_, ?_, hwf.nodup, ?_, ?_, ?_, ?_, hwf.sorted, hwf.root_black, ?_, ?_⟩
  · rw [hh, hhd]
    exact hwf.hdr_mem
  · rw [hget, hhd]
    exact hwf.hdr_red
  · rw [rootP, hget, hhd]
    exact hwf.root_eq
  · rw [hh, hhd]
    exact hwf.real
  · rw [hhd]
    exact hwf.hdr_notin
  · rw [leftmostP, hget, hhd]
    exact hwf.lm_eq
  · rw [rightmostP, hget, hhd]
    exact hwf.rm_eq
  · rw [hc]
    exact hwf.count
  · intro i hi
    rw [hh] at hi
    exact lt_of_lt_of_le (hwf.fresh i hi) hn
  · rw [hh]
    exact hwf.heap_nodup

/-- C9: a failed single-element insertion leaves the tree unmodified.
Any `thrown` outcome of `insert_multi`/`insert_unique` returns the state
itself, and any `thrown` outcome of the emplace forms (capacity guard,
or payload construction throwing, modelled by `vc = none`) preserves the
arena, size and header — the transiently allocated raw node is freed
again, so nothing leaks and the same view `T` is still realized.
Conversely, a full tree or a throwing constructor does signal the error
to the caller. -/
theorem claim_C9 (s : RBTree) (T : BT) (v : Val) (vc : Option Val) (fuel : Nat)
    (hwf : WF s T) :
    (∀ s3, insert_multi s v fuel = .thrown s3 → s3 = s) ∧
    (∀ s3, insert_unique s v fuel = .thrown s3 → s3 = s) ∧
    (∀ s3, emplace_multi s vc fuel = .thrown s3 →
      s3.heap = s.heap ∧ s3.node_count = s.node_count ∧ s3.header = s.header ∧
      WF s3 T) ∧
    (∀ s3, emplace_unique s vc fuel = .thrown s3 →
      s3.heap = s.heap ∧ s3.node_count = s.node_count ∧ s3.header = s.header ∧
      WF s3 T) ∧
    (s.node_count > rb_max_size - 1 →
      insert_multi s v fuel = .thrown s ∧ insert_unique s v fuel = .thrown s ∧
      emplace_multi s vc fuel = .thrown s ∧ emplace_unique s vc fuel = .thrown s) ∧
    (vc = none → s.node_count ≤ rb_max_size - 1 →
      (∃ s3, emplace_multi s vc fuel = .thrown s3) ∧
      (∃ s3, emplace_unique s vc fuel = .thrown s3)) := by
  refine ⟨?_, ?_, ?_, ?_, ?_, ?_⟩
  · intro s3 hc
    rw [insert_multi] at hc
    by_cases hcap : s.node_count > rb_max_size - 1
    · rw [if_pos hcap] at hc
      simp at hc
      exact hc.symm
    · rw [if_neg hcap] at hc
      cases h1 : get_insert_multi_pos s (get_key v) fuel with
      | none =>
        rw [h1] at hc
        simp at hc
      | some ya =>
        obtain ⟨y, al⟩ := ya
        rw [h1] at hc
        simp only [] at hc
        cases h2 : insert_value_at s y v al fuel with
        | none =>
          rw [h2] at hc
          simp at hc
        | some out =>
          rw [h2] at hc
          simp at hc
  · intro s3 hc
    rw [insert_unique] at hc
    by_cases hcap : s.node_count > rb_max_size - 1
    · rw [if_pos hcap] at hc
      simp at hc
      exact hc.symm
    · rw [if_neg hcap] at hc
      cases h1 : get_insert_unique_pos s (get_key v) fuel with
      | none =>
        rw [h1] at hc
        simp at hc
      | some yas =>
        obtain ⟨⟨y, al⟩, suc⟩ := yas
        rw [h1] at hc
        simp only [] at hc
        cases suc with
        | false =>
          simp at hc
        | true =>
          rw [if_pos rfl] at hc
          cases h2 : insert_value_at s y v al fuel with
          | none =>
            rw [h2] at hc
            simp at hc
          | some out =>
            rw [h2] at hc
            simp at hc
  · intro s3 hc
    rw [emplace_multi] at hc
    by_cases hcap : s.node_count > rb_max_size - 1
    · rw [if_pos hcap] at hc
      simp at hc
      subst hc
      exact ⟨rfl, rfl, rfl, hwf⟩
    · rw [if_neg hcap] at hc
      cases hct : create_node_try s vc with
      | error e =>
        rw [hct] at hc
        simp only [Res.thrown.injEq] at hc
        subst hc
        cases vc with
        | some v0 =>
          simp [create_node_try] at hct
        | none =>
          simp only [create_node_try, Except.error.injEq] at hct
          subst hct
          refine ⟨by simp [hremove], rfl, rfl, ?_⟩
          exact WF_transfer hwf (by simp [hremove]) rfl rfl (Nat.le_succ _)
      | ok p =>
        obtain ⟨s1, np⟩ := p
        rw [hct] at hc
        simp only [] at hc
        cases h1 : get_insert_multi_pos s1 (get_key (getN s1 (some np)).value) fuel with
        | none =>
          rw [h1] at hc
          simp at hc
        | some ya =>
          obtain ⟨y, al⟩ := ya
          rw [h1] at hc
          simp only [] at hc
          cases h2 : insert_node_at s1 y np al fuel with
          | none =>
            rw [h2] at hc
            simp at hc
          | some out =>
            rw [h2] at hc
            simp at hc
  · intro s3 hc
    rw [emplace_unique] at hc
    by_cases hcap : s.node_count > rb_max_size - 1
    · rw [if_pos hcap] at hc
      simp at hc
      subst hc
      exact ⟨rfl, rfl, rfl, hwf⟩
    · rw [if_neg hcap] at hc
      cases hct : create_node_try s vc with
      | error e =>
        rw [hct] at hc
        simp only [Res.thrown.injEq] at hc
        subst hc
        cases vc with
        | some v0 =>
          simp [create_node_try] at hct
        | none =>
          simp only [create_node_try, Except.error.injEq] at hct
          subst hct
          refine ⟨by simp [hremove], rfl, rfl, ?_⟩
          exact WF_transfer hwf (by simp [hremove]) rfl rfl (Nat.le_succ _)
      | ok p =>
        obtain ⟨s1, np⟩ := p
        rw [hct] at hc
        simp only [] at hc
        cases h1 : get_insert_unique_pos s1 (get_key (getN s1 (some np)).value) fuel with
        | none =>
          rw [h1] at hc
          simp at hc
        | some yas =>
          obtain ⟨⟨y, al⟩, suc⟩ := yas
          rw [h1] at hc
          simp only [] at hc
          cases suc with
          | false =>
            simp at hc
          | true =>
            rw [if_pos rfl] at hc
            cases h2 : insert_node_at s1 y np al fuel with
            | none =>
              rw [h2] at hc
              simp at hc
            | some out =>
              rw [h2] at hc
              simp at hc
  · intro hcap
    refine ⟨?_, ?_, ?_, ?_⟩
    · rw [insert_multi, if_pos hcap]
    · rw [insert_unique, if_pos hcap]
    · rw [emplace_multi, if_pos hcap]
    · rw [emplace_unique, if_pos hcap]
  · intro hvc hcap
    subst hvc
    constructor
    · rw [emplace_multi, if_neg (by omega)]
      exact ⟨_, rfl⟩
    · rw [emplace_unique, if_neg (by omega)]
      exact ⟨_, rfl⟩

/-- C9 witness: on the concrete tree `{1,3,5,7,9}`, an emplace whose
payload constructor throws signals the error and leaves the arena,
size and header unchanged, still realizing the same view. -/
theorem claim_C9_witness :
    ∃ s3, emplace_multi sample_tree none 100 = .thrown s3 ∧
      s3.heap = sample_tree.heap ∧ s3.node_count = sample_tree.node_count ∧
      s3.header = sample_tree.header ∧ WF s3 sample_view := by
  obtain ⟨h1, h2, h3, h4, h5, h6⟩ :=
    claim_C9 sample_tree sample_view (4, 0) none 100 (WF_of_wfB (by decide))
  exact ⟨_, rfl, h3 _ rfl⟩



/-! ## Iterator increment, walks, and container equality -/


theorem head?_append_left {α : Type} (l1 l2 : List α) (h : l1 ≠ []) :
    (l1 ++ l2).head? = l1.head? := by
  cases l1 with
  | nil => exact absurd rfl h
  | cons a t => rfl

/-- `rb_tree_min` on a realized nonempty subtree returns the id of its
first in-order entry. -/
theorem rb_tree_min_spec (fuel : Nat) :
    ∀ (s : RBTree) (pp : Option Nat) (i : Nat) (c : Bool) (v : Val) (l r : BT)
      (j : Option Nat),
      Realize s.heap pp (some i) (.node i c v l r) →
      rb_tree_min s fuel (some i) = some j →
      ∃ e, (BT.node i c v l r).entries.head? = some e ∧ j = some e.1 := by
  induction fuel with
  | zero =>
    intro s pp i c v l r j hr hmin
    simp [rb_tree_min] at hmin
  | succ fuel ih =>
    intro s pp i c v l r j hr hmin
    obtain ⟨hfi, hrl, hrr⟩ := hr.node_lookup
    rw [rb_tree_min] at hmin
    simp only [getN_some hfi] at hmin
    cases l with
    | leaf =>
      simp only [BT.ptr, Option.some.injEq] at hmin
      refine ⟨(i, v), ?_, by rw [← hmin]⟩
      rfl
    | node i2 c2 v2 l2 r2 =>
      have hrl2 : Realize s.heap (some i) (some i2) (BT.node i2 c2 v2 l2 r2) := hrl
      obtain ⟨e, he1, he2⟩ := ih s (some i) i2 c2 v2 l2 r2 j hrl2 hmin
      refine ⟨e, ?_, he2⟩
      rw [BT.entries_node, head?_append_left _ _ (by simp [BT.entries_node])]
      exact he1

/-- The climb phase of iterator increment, started at a node with an
irrelevant right subtree, lands on the id of the first entry following
that node's subtree in the in-order list (the header when the subtree
is the in-order tail). -/
theorem iter_inc_climb_succ (fuel : Nat) :
    ∀ (s : RBTree) (T : BT) (q2 : List Bool)
      (iy : Nat) (cy : Bool) (vy : Val) (YL YR : BT)
      (A B : List (Nat × Val)) (j : Option Nat),
      Realize s.heap (some s.header) T.ptr T →
      T.ids.Nodup → s.header ∉ T.ids →
      rightmostP s = rmPtr T s.header →
      rootP s = T.ptr →
      T.sub q2 = some (.node iy cy vy YL YR) →
      T.entries = A ++ (BT.node iy cy vy YL YR).entries ++ B →
      iter_inc_climb s fuel (some iy) (getN s (some iy)).parent = some j →
      (B = [] → j = some s.header) ∧ (∀ e B2, B = e :: B2 → j = some e.1) := by
  induction fuel with
  | zero =>
    intro s T q2 iy cy vy YL YR A B j hr hnd hhdr hrm hroot hsub hent hclimb
    simp [iter_inc_climb] at hclimb
  | succ fuel ih =>
    intro s T q2 iy cy vy YL YR A B j hr hnd hhdr hrm hroot hsub hent hclimb
    rcases realize_sub_parent hr q2 _ hsub with ⟨hq0, hru⟩ |
      ⟨q3, b, pid, pc, pv, pl, pr, hq, hsubp, hchild, hru⟩
    · -- `iy` is the root: the climb lands on the header
      subst hq0
      rw [BT.sub_nil, Option.some.injEq] at hsub
      have hABnil : B = [] ∧ A = [] := by
        rw [← hsub] at hent
        have hlen := congrArg List.length hent
        simp only [List.length_append] at hlen
        exact ⟨List.length_eq_zero.mp (by omega), List.length_eq_zero.mp (by omega)⟩
      have hru2 : Realize s.heap (some s.header) (some iy)
          (BT.node iy cy vy YL YR) := hru
      obtain ⟨hfiy, hrYL, hrYR⟩ := hru2.node_lookup
      refine ⟨fun _ => ?_, fun e B2 hB => absurd (hABnil.1 ▸ hB) (by simp)⟩
      have hrm2 : (getN s (some s.header)).right = rmPtr T s.header := hrm
      have hrt2 : (getN s (some s.header)).parent = some iy := by
        have h0 : rootP s = some iy := by rw [hroot, hsub]; rfl
        exact h0
      have hiynd : (BT.node iy cy vy YL YR).ids.Nodup := by rw [hsub] at hnd; exact hnd
      obtain ⟨hndYL, hndYR, hiyYL, hiyYR, hdisjY⟩ := nodup_node_parts hiynd
      simp only [iter_inc_climb, getN_some hfiy] at hclimb
      rw [hrm2] at hclimb
      cases hYR : YR with
      | leaf =>
        -- the root is the rightmost node: one overshoot step through the header
        have hrmv : rmPtr T s.header = some iy := by
          rw [hsub, hYR]
          simp only [rmPtr, BT.entries_node]
          rw [show YL.entries ++ (iy, vy) :: BT.leaf.entries =
            YL.entries ++ [(iy, vy)] by rfl]
          rw [getLast?_append_right _ _ (by simp)]
          rfl
        rw [hrmv] at hclimb
        simp only [beq_self_eq_true, if_true] at hclimb
        cases fuel with
        | zero => simp [iter_inc_climb] at hclimb
        | succ fuel2 =>
          simp only [iter_inc_climb, hrt2, getN_some hfiy, hYR, BT.ptr] at hclimb
          rw [hrm2, hrmv] at hclimb
          simp only [show ((some s.header : Option Nat) == none) = false from rfl,
            Bool.false_eq_true, if_false, bne_self_eq_false, Option.some.injEq] at hclimb
          exact hclimb.symm
      | node i2 c2 v2 l2 r2 =>
        -- the rightmost node lies inside the right subtree
        have hlast : ∃ e2, T.entries.getLast? = some e2 ∧
            e2 ∈ (BT.node i2 c2 v2 l2 r2).entries := by
          refine ⟨(BT.node i2 c2 v2 l2 r2).entries.getLast
            (by simp [BT.entries_node]), ?_, List.getLast_mem _⟩
          rw [hsub, hYR, BT.entries_node,
            show YL.entries ++ (iy, vy) :: (BT.node i2 c2 v2 l2 r2).entries =
              (YL.entries ++ [(iy, vy)]) ++ (BT.node i2 c2 v2 l2 r2).entries by simp,
            getLast?_append_right _ _ (by simp [BT.entries_node]),
            List.getLast?_eq_getLast _ (by simp [BT.entries_node])]
        obtain ⟨e2, he2a, he2b⟩ := hlast
        have hrmv : rmPtr T s.header = some e2.1 := by
          simp [rmPtr, he2a]
        have he2ne : (some iy == some e2.1) = false := by
          have h0 : e2.1 ∈ YR.ids := by
            rw [hYR, BT.ids]
            exact List.mem_map.mpr ⟨e2, he2b, rfl⟩
          have h1 : iy ≠ e2.1 := fun hc => hiyYR (hc ▸ h0)
          simp [h1]
        rw [hrmv, he2ne] at hclimb
        simp only [Bool.false_eq_true, if_false] at hclimb
        have hYRptr : (some i2 != some s.header) = true := by
          have h0 : i2 ∈ T.ids := by
            rw [hsub, hYR]
            simp [BT.ids_node]
          have h1 : i2 ≠ s.header := fun hc => hhdr (hc ▸ h0)
          simp [h1]
        rw [show YR.ptr = some i2 from by rw [hYR]; rfl, hYRptr] at hclimb
        simp only [if_true, Option.some.injEq] at hclimb
        exact hclimb.symm
    · -- `iy` has a real parent `pid`
      have hru2 : Realize s.heap (some pid) (some iy)
          (BT.node iy cy vy YL YR) := hru
      obtain ⟨hfiy, hrYL, hrYR⟩ := hru2.node_lookup
      obtain ⟨ppp, hrp⟩ : ∃ pp2, Realize s.heap pp2 (some pid)
          (BT.node pid pc pv pl pr) := by
        rcases realize_sub_parent hr q3 _ hsubp with ⟨_, hrg⟩ |
          ⟨_, _, _, _, _, _, _, _, _, _, hrg⟩
        · exact ⟨_, hrg⟩
        · exact ⟨_, hrg⟩
      obtain ⟨hfpid, hrpl, hrpr⟩ := hrp.node_lookup
      obtain ⟨A3, B3, hAB3⟩ := BT.sub_entries_decomp hsubp
      obtain ⟨hndpl, hndpr, hpidpl, hpidpr, hdisj⟩ :=
        nodup_node_parts (BT.sub_nodup hsubp hnd)
      have hMne : (BT.node iy cy vy YL YR).entries ≠ [] := by
        simp [BT.entries_node]
      have hndent : ((A ++ (BT.node iy cy vy YL YR).entries ++ B).map
          Prod.fst).Nodup := by
        rw [← hent]
        exact hnd
      simp only [iter_inc_climb, getN_some hfiy] at hclimb
      cases b with
      | false =>
        have hpr : BT.node iy cy vy YL YR = pr := by simpa using hchild
        have hrp2 : (getN s (some pid)).right = some iy := by
          rw [getN_some hfpid, ← hpr]
          rfl
        rw [hrp2] at hclimb
        simp only [beq_self_eq_true, if_true] at hclimb
        have hA3 : T.entries = (A3 ++ pl.entries ++ [(pid, pv)]) ++
            (BT.node iy cy vy YL YR).entries ++ B3 := by
          rw [hAB3, BT.entries_node, ← hpr]
          simp
        have huniq := append_middle_unique A (A3 ++ pl.entries ++ [(pid, pv)]) B
          B3 _ hMne hndent (by rw [← hent, ← hA3])
        obtain ⟨h1, h2⟩ := ih s T q3 pid pc pv pl pr A3 B3 j
          hr hnd hhdr hrm hroot hsubp hAB3 hclimb
        rw [huniq.2]
        exact ⟨h1, h2⟩
      | true =>
        have hpl : BT.node iy cy vy YL YR = pl := by simpa using hchild
        have hrp2 : (getN s (some pid)).right = pr.ptr := by
          rw [getN_some hfpid]
        have hprne : (some iy == pr.ptr) = false := by
          have h0 : pr.ptr ≠ some iy := by
            intro hc
            refine hdisj iy ?_ (BT.ptr_mem_ids hc)
            rw [← hpl]
            simp [BT.ids_node]
          cases hpr0 : pr.ptr with
          | none => rfl
          | some z =>
            have : z ≠ iy := fun hc => h0 (by rw [hpr0, hc])
            simp [this.symm]
        rw [hrp2, hprne] at hclimb
        simp only [Bool.false_eq_true, if_false] at hclimb
        have hYRne : (YR.ptr != some pid) = true := by
          cases hYR0 : YR.ptr with
          | none => rfl
          | some z =>
            have h0 : z ∈ pl.ids := by
              rw [← hpl]
              rw [BT.ids_node]
              refine List.mem_append.mpr (Or.inr (List.mem_cons.mpr (Or.inr ?_)))
              exact BT.ptr_mem_ids hYR0
            have h1 : z ≠ pid := fun hc => hpidpl (hc ▸ h0)
            simp [h1]
        rw [hYRne] at hclimb
        simp only [if_true, Option.some.injEq] at hclimb
        have hA3 : T.entries = A3 ++ (BT.node iy cy vy YL YR).entries ++
            ((pid, pv) :: pr.entries ++ B3) := by
          rw [hAB3, BT.entries_node, ← hpl]
          simp
        have huniq := append_middle_unique A A3 B ((pid, pv) :: pr.entries ++ B3)
          _ hMne hndent (by rw [← hent, ← hA3])
        rw [huniq.2]
        refine ⟨fun hc => absurd hc (by simp), fun e B2 hB => ?_⟩
        have he : e = (pid, pv) := (List.cons.injEq _ _ _ _).mp hB.symm |>.1
        rw [he]
        exact hclimb.symm

/-- Iterator increment moves to the id of the next in-order entry (to
the header past the last element). -/
theorem iter_inc_succ (s : RBTree) (T : BT) (fuel : Nat) (iy : Nat) (vy : Val)
    (A B : List (Nat × Val)) (j : Option Nat)
    (hwf : WF s T)
    (hent : T.entries = A ++ (iy, vy) :: B)
    (hinc : iter_inc s fuel (some iy) = some j) :
    (B = [] → j = some s.header) ∧ (∀ e B2, B = e :: B2 → j = some e.1) := by
  have hmem : iy ∈ T.ids := by
    rw [BT.ids, hent]
    simp
  obtain ⟨q2, cy, vy2, YL, YR, hsub⟩ := BT.mem_ids_sub hmem
  obtain ⟨A2, B2, hAB2⟩ := BT.sub_entries_decomp hsub
  have hvy : vy2 = vy := by
    have h1 : (iy, vy2) ∈ T.entries := by
      rw [hAB2, BT.entries_node]
      simp
    have h2 : (iy, vy) ∈ T.entries := by
      rw [hent]
      simp
    exact entry_unique hwf.nodup h1 h2
  rw [hvy] at hAB2 hsub
  have hA2e : T.entries = (A2 ++ YL.entries) ++ (iy, vy) :: (YR.entries ++ B2) := by
    rw [hAB2, BT.entries_node]
    simp
  have hndent : (((A ++ [(iy, vy)] ++ B).map Prod.fst)).Nodup := by
    rw [show A ++ [(iy, vy)] ++ B = T.entries by rw [hent]; simp]
    exact hwf.nodup
  have huniq := append_middle_unique A (A2 ++ YL.entries) B (YR.entries ++ B2)
    [(iy, vy)] (by simp) hndent
    (by rw [show A ++ [(iy, vy)] ++ B = T.entries by rw [hent]; simp, hA2e]; simp)
  obtain ⟨pp2, hru⟩ : ∃ pp2, Realize s.heap pp2 (some iy)
      (BT.node iy cy vy YL YR) := by
    rcases realize_sub_parent hwf.real q2 _ hsub with ⟨_, hrg⟩ |
      ⟨_, _, _, _, _, _, _, _, _, _, hrg⟩
    · exact ⟨_, hrg⟩
    · exact ⟨_, hrg⟩
  obtain ⟨hfiy, hrYL, hrYR⟩ := hru.node_lookup
  rw [iter_inc] at hinc
  simp only [getN_some hfiy] at hinc
  cases hYR : YR with
  | node i2 c2 v2 l2 r2 =>
    -- nonempty right subtree: `rb_tree_min` of it
    rw [hYR] at hinc
    simp only [BT.ptr] at hinc
    rw [if_pos (by simp)] at hinc
    have hrYR2 : Realize s.heap (some iy) (some i2) (BT.node i2 c2 v2 l2 r2) := by
      rw [hYR] at hrYR
      exact hrYR
    obtain ⟨e, he1, he2⟩ := rb_tree_min_spec fuel s (some iy) i2 c2 v2 l2 r2 j
      hrYR2 hinc
    have hB : B = (BT.node i2 c2 v2 l2 r2).entries ++ B2 := by
      rw [huniq.2, hYR]
    refine ⟨fun hc => absurd (hB ▸ hc) (by simp [BT.entries_node]),
      fun e0 B0 hB0 => ?_⟩
    rw [hB] at hB0
    cases hE : (BT.node i2 c2 v2 l2 r2).entries with
    | nil => exact absurd hE (by simp [BT.entries_node])
    | cons x t =>
      rw [hE] at hB0 he1
      simp only [List.cons_append, List.cons.injEq] at hB0
      simp only [List.head?_cons, Option.some.injEq] at he1
      have hee : e = e0 := by
        rw [← he1]
        exact hB0.1
      rw [he2, hee]
  | leaf =>
    -- empty right subtree: climb
    rw [hYR] at hinc
    simp only [BT.ptr, bne_self_eq_false, Bool.false_eq_true, if_false] at hinc
    have hAB2c : T.entries = A2 ++ (BT.node iy cy vy YL BT.leaf).entries ++ B2 := by
      rw [hAB2, hYR]
    have hclimb : iter_inc_climb s fuel (some iy)
        (getN s (some iy)).parent = some j := by
      rw [getN_some hfiy]
      exact hinc
    obtain ⟨h1, h2⟩ := iter_inc_climb_succ fuel s T q2 iy cy vy YL BT.leaf A2 B2 j
      hwf.real hwf.nodup hwf.hdr_notin hwf.rm_eq hwf.root_eq
      (by rw [← hYR]; exact hsub) hAB2c hclimb
    have hBB2 : B = B2 := by
      rw [huniq.2, hYR]
      rfl
    rw [hBB2]
    exact ⟨h1, h2⟩

/-- `std::equal` over the two iterator ranges compares exactly the
remaining payload suffixes. -/
theorem std_equal_spec (fuel : Nat) :
    ∀ (s1 s2 : RBTree) (T1 T2 : BT) (A1 B1 A2 B2 : List (Nat × Val))
      (f1 f2 : Option Nat) (b : Bool),
      WF s1 T1 → WF s2 T2 →
      T1.entries = A1 ++ B1 → T2.entries = A2 ++ B2 →
      B1.length = B2.length →
      (B1 = [] → f1 = some s1.header) → (∀ e B0, B1 = e :: B0 → f1 = some e.1) →
      (B2 = [] → f2 = some s2.header) → (∀ e B0, B2 = e :: B0 → f2 = some e.1) →
      std_equal s1 s2 fuel f1 (some s1.header) f2 = some b →
      (b = true ↔ B1.map Prod.snd = B2.map Prod.snd) := by
  induction fuel with
  | zero =>
    intro s1 s2 T1 T2 A1 B1 A2 B2 f1 f2 b hwf1 hwf2 hent1 hent2 hlen hB10 hB1c
      hB20 hB2c hres
    simp [std_equal] at hres
  | succ fuel ih =>
    intro s1 s2 T1 T2 A1 B1 A2 B2 f1 f2 b hwf1 hwf2 hent1 hent2 hlen hB10 hB1c
      hB20 hB2c hres
    rw [std_equal] at hres
    cases B1 with
    | nil =>
      have hB2nil : B2 = [] := List.length_eq_zero.mp (by simpa using hlen.symm)
      rw [hB10 rfl] at hres
      simp only [beq_self_eq_true, if_true, Option.some.injEq] at hres
      rw [← hres, hB2nil]
      simp
    | cons e1 B1t =>
      obtain ⟨i1, v1⟩ := e1
      cases B2 with
      | nil => simp at hlen
      | cons e2 B2t =>
        obtain ⟨i2, v2⟩ := e2
        have hf1 := hB1c (i1, v1) B1t rfl
        have hf2 := hB2c (i2, v2) B2t rfl
        have hne1 : i1 ≠ s1.header := by
          intro hc
          refine hwf1.hdr_notin ?_
          rw [← hc, BT.ids, hent1]
          simp
        rw [hf1, hf2] at hres
        rw [show ((some i1 : Option Nat) == some s1.header) = false from by
          simp [hne1]] at hres
        simp only [Bool.false_eq_true, if_false] at hres
        have hval1 : (getN s1 (some i1)).value = v1 := by
          obtain ⟨n, hn1, hn2⟩ := realize_entry_lookup hwf1.real (i1, v1)
            (by rw [hent1]; simp)
          rw [getN_some hn1]
          exact hn2
        have hval2 : (getN s2 (some i2)).value = v2 := by
          obtain ⟨n, hn1, hn2⟩ := realize_entry_lookup hwf2.real (i2, v2)
            (by rw [hent2]; simp)
          rw [getN_some hn1]
          exact hn2
        rw [hval1, hval2] at hres
        by_cases hv : v1 = v2
        · rw [show (v1 == v2) = true from by simp [hv]] at hres
          simp only [if_true] at hres
          cases hi1 : iter_inc s1 (fuel + 1) (some i1) with
          | none =>
            rw [hi1] at hres
            simp at hres
          | some n1 =>
            cases hi2 : iter_inc s2 (fuel + 1) (some i2) with
            | none =>
              rw [hi1, hi2] at hres
              simp at hres
            | some n2 =>
              rw [hi1, hi2] at hres
              simp only [] at hres
              have hs1 := iter_inc_succ s1 T1 (fuel + 1) i1 v1 A1 B1t n1 hwf1
                (by rw [hent1]) hi1
              have hs2 := iter_inc_succ s2 T2 (fuel + 1) i2 v2 A2 B2t n2 hwf2
                (by rw [hent2]) hi2
              have hiff := ih s1 s2 T1 T2 (A1 ++ [(i1, v1)]) B1t
                (A2 ++ [(i2, v2)]) B2t n1 n2 b hwf1 hwf2
                (by rw [hent1]; simp) (by rw [hent2]; simp)
                (by simpa using hlen) hs1.1 hs1.2 hs2.1 hs2.2 hres
              rw [hiff]
              simp [hv]
        · rw [show (v1 == v2) = false from by simp [hv]] at hres
          simp only [Bool.false_eq_true, if_false, Option.some.injEq] at hres
          constructor
          · intro hc
            rw [hc] at hres
            cases hres
          · intro hc
            simp only [List.map_cons, List.cons.injEq] at hc
            exact absurd hc.1 hv

def obx : RBTree := (build_unique [1, 2, 3, 4, 5] 100).getD rb_tree_init

def obx_view : BT := (readTree obx 100 (rootP obx)).getD .leaf

def oby : RBTree := (build_unique [5, 4, 3, 2, 1] 100).getD rb_tree_init

def oby_view : BT := (readTree oby 100 (rootP oby)).getD .leaf

/-- C10: `operator==` compares two trees as containers — the result is
`true` exactly when the sizes agree and the in-order payload sequences
are elementwise equal, independent of tree shape, node colors or
insertion order. -/
theorem claim_C10 (s1 s2 : RBTree) (T1 T2 : BT) (fuel : Nat) (b : Bool)
    (hwf1 : WF s1 T1) (hwf2 : WF s2 T2)
    (hres : rb_tree_beq s1 s2 fuel = some b) :
    b = true ↔ (s1.node_count = s2.node_count ∧ T1.inorder = T2.inorder) := by
  rw [rb_tree_beq] at hres
  by_cases hc : s1.node_count = s2.node_count
  · rw [if_pos (by simp [hc])] at hres
    have hlen : T1.entries.length = T2.entries.length := by
      have h1 := hwf1.count
      have h2 := hwf2.count
      simp only [BT.size] at h1 h2
      omega
    have hiff := std_equal_spec fuel s1 s2 T1 T2 [] T1.entries [] T2.entries
      (leftmostP s1) (leftmostP s2) b hwf1 hwf2 rfl rfl hlen
      (fun h0 => by rw [hwf1.lm_eq]; simp [lmPtr, h0])
      (fun e B2 hB => by rw [hwf1.lm_eq]; simp [lmPtr, hB])
      (fun h0 => by rw [hwf2.lm_eq]; simp [lmPtr, h0])
      (fun e B2 hB => by rw [hwf2.lm_eq]; simp [lmPtr, hB])
      hres
    rw [hiff]
    exact ⟨fun hm => ⟨hc, hm⟩, fun hm => hm.2⟩
  · rw [if_neg (by simp [hc])] at hres
    simp only [Option.some.injEq] at hres
    rw [← hres]
    simp only [Bool.false_eq_true, false_iff]
    intro hcon
    exact hc hcon.1

/-- C10 witness: the trees built by inserting `1..5` in ascending and
in descending order have different node graphs but compare equal. -/
theorem claim_C10_witness :
    (true = true ↔ (obx.node_count = oby.node_count ∧
      obx_view.inorder = oby_view.inorder)) ∧
    obx_view ≠ oby_view := by
  constructor
  · exact claim_C10 obx oby obx_view oby_view 100 true
      (WF_of_wfB (by decide)) (WF_of_wfB (by decide)) (by decide)
  · decide



/-- C7 witness: on `{1,3,5,7,9}`, `lower_bound(7)` is the position of
the first entry with key not below `7`. -/
theorem claim_C7_witness :
    (some 4 : Option Nat) =
      (firstGE 7 sample_view.entries).elim (some sample_tree.header)
        (fun e => some e.1) :=
  (claim_C7.1 sample_tree sample_view 7 100 (some 4) (WF_of_wfB (by decide))).1
    (by decide)


/-! ## Hinted insertion -/


/-- A throwing payload aside, `create_node_try` is `create_node`. -/
theorem create_node_try_ok (s : RBTree) (v : Val) :
    create_node_try s (some v) = .ok ((create_node s v).1, s.nextId) := by
  simp [create_node_try, create_node, hset]

/-- The freshly allocated, still unlinked node does not disturb
well-formedness: the old view is still realized. -/
theorem WF_create (s : RBTree) (T : BT) (v : Val) (hwf : WF s T) :
    WF (create_node s v).1 T := by
  have hhne : s.header ≠ s.nextId := by
    have h1 : s.header ∈ s.heap.map Prod.fst :=
      mem_keys_of_hfind_isSome hwf.hdr_mem
    have := hwf.fresh s.header h1
    omega
  have hf : ∀ j : Nat, j ≠ s.nextId →
      hfind (create_node s v).1.heap j = hfind s.heap j := by
    intro j hj
    exact hfind_cons_ne (fun hc => hj hc.symm)
  have hgh : getN (create_node s v).1 (some s.header) = getN s (some s.header) := by
    simp [getN, hf s.header hhne]
  refine ⟨?_, ?_, ?_, ?_, hwf.nodup, hwf.hdr_notin, ?_, ?_, ?_, hwf.sorted,
    hwf.root_black, ?_, ?_⟩
  · rw [show (create_node s v).1.header = s.header from rfl, hf s.header hhne]
    exact hwf.hdr_mem
  · rw [show (create_node s v).1.header = s.header from rfl, hgh]
    exact hwf.hdr_red
  · rw [rootP, show (create_node s v).1.header = s.header from rfl, hgh]
    exact hwf.root_eq
  · refine Realize.frame hwf.real ?_
    intro i hi
    refine hf i ?_
    have h1 : (hfind s.heap i).isSome := realize_ids_alloc hwf.real i hi
    have h2 : i ∈ s.heap.map Prod.fst := mem_keys_of_hfind_isSome h1
    have := hwf.fresh i h2
    omega
  · rw [leftmostP, show (create_node s v).1.header = s.header from rfl, hgh]
    exact hwf.lm_eq
  · rw [rightmostP, show (create_node s v).1.header = s.header from rfl, hgh]
    exact hwf.rm_eq
  · exact hwf.count
  · intro i hi
    rcases (by simpa [create_node] using hi :
        i = s.nextId ∨ i ∈ s.heap.map Prod.fst) with h | h
    · simp [create_node, h]
    · have := hwf.fresh i h
      simp only [create_node]
      omega
  · simp only [create_node, List.map_cons, List.nodup_cons]
    refine ⟨fun hc => ?_, hwf.heap_nodup⟩
    have := hwf.fresh s.nextId hc
    omega

/-- Replacing one step past a node replaces the matching child. -/
theorem BT.repl_snoc :
    ∀ (t : BT) (q : List Bool) (i : Nat) (c : Bool) (v : Val) (l r : BT)
      (b : Bool) (u : BT),
      t.sub q = some (.node i c v l r) →
      t.repl (q ++ [b]) u =
        t.repl q (if b then .node i c v u r else .node i c v l u) := by
  intro t q
  induction q generalizing t with
  | nil =>
    intro i c v l r b u hsub
    rw [BT.sub_nil, Option.some.injEq] at hsub
    subst hsub
    cases b with
    | true => simp [BT.repl, BT.repl_nil]
    | false => simp [BT.repl, BT.repl_nil]
  | cons b0 q ih =>
    intro i c v l r b u hsub
    cases t with
    | leaf => simp [BT.sub] at hsub
    | node i0 c0 v0 l0 r0 =>
      simp only [BT.sub] at hsub
      cases b0 with
      | true =>
        simp only [if_true] at hsub
        simp only [List.cons_append, BT.repl, if_true, List.append_eq]
        rw [ih l0 i c v l r b u hsub]
      | false =>
        simp only [Bool.false_eq_true, if_false] at hsub
        simp only [List.cons_append, BT.repl, Bool.false_eq_true, if_false, List.append_eq]
        rw [ih r0 i c v l r b u hsub]

/-- The empty right-child slot of a node: path, split, and replacement. -/
theorem slot_right {T : BT} {q2 : List Bool} {i : Nat} {c : Bool} {v : Val}
    {L : BT} (hsub : T.sub q2 = some (.node i c v L .leaf)) :
    T.sub (q2 ++ [false]) = some .leaf ∧
    ∃ A0 B0, T.entries = (A0 ++ L.entries ++ [(i, v)]) ++ B0 ∧
      ∀ u2 : BT, (T.repl (q2 ++ [false]) u2).entries =
        (A0 ++ L.entries ++ [(i, v)]) ++ u2.entries ++ B0 := by
  obtain ⟨A0, B0, h1, h2⟩ := BT.entries_repl_decomp hsub
  refine ⟨?_, A0, B0, ?_, ?_⟩
  · rw [BT.sub_snoc, hsub]
    rfl
  · rw [h1, BT.entries_node]
    simp [BT.entries]
  · intro u2
    rw [BT.repl_snoc T q2 i c v L .leaf false u2 hsub]
    simp only [Bool.false_eq_true, if_false]
    rw [h2, BT.entries_node]
    simp [BT.entries]

/-- The empty left-child slot of a node: path, split, and replacement. -/
theorem slot_left {T : BT} {q2 : List Bool} {i : Nat} {c : Bool} {v : Val}
    {R : BT} (hsub : T.sub q2 = some (.node i c v .leaf R)) :
    T.sub (q2 ++ [true]) = some .leaf ∧
    ∃ A0 B0, T.entries = A0 ++ ((i, v) :: R.entries ++ B0) ∧
      ∀ u2 : BT, (T.repl (q2 ++ [true]) u2).entries =
        A0 ++ u2.entries ++ ((i, v) :: R.entries ++ B0) := by
  obtain ⟨A0, B0, h1, h2⟩ := BT.entries_repl_decomp hsub
  refine ⟨?_, A0, B0, ?_, ?_⟩
  · rw [BT.sub_snoc, hsub]
    rfl
  · rw [h1, BT.entries_node]
    simp [BT.entries]
  · intro u2
    rw [BT.repl_snoc T q2 i c v .leaf R true u2 hsub]
    simp only [if_true]
    rw [h2, BT.entries_node]
    simp [BT.entries]

/-- The first in-order node has an empty left child. -/
theorem leftmost_node :
    ∀ (T : BT) (i1 : Nat) (v1 : Val) (rest : List (Nat × Val)),
      T.entries = (i1, v1) :: rest →
      ∃ q2 c1 R1, T.sub q2 = some (.node i1 c1 v1 .leaf R1) := by
  intro T
  induction T with
  | leaf =>
    intro i1 v1 rest h
    simp [BT.entries] at h
  | node i c v l r ihl ihr =>
    intro i1 v1 rest h
    rw [BT.entries_node] at h
    cases hl : l with
    | leaf =>
      rw [hl] at h
      simp only [BT.entries, List.nil_append, List.cons.injEq] at h
      obtain ⟨h1, -⟩ := h
      exact ⟨[], c, r, by
        rw [BT.sub_nil, ((Prod.mk.injEq _ _ _ _).mp h1).1,
          ((Prod.mk.injEq _ _ _ _).mp h1).2]⟩
    | node il cl vl ll rl =>
      have hle : ∃ restl, l.entries = (i1, v1) :: restl := by
        cases hE : l.entries with
        | nil =>
          rw [hl] at hE
          exact absurd hE (by simp [BT.entries_node])
        | cons x t =>
          rw [hE] at h
          simp only [List.cons_append, List.cons.injEq] at h
          exact ⟨t, by rw [h.1]⟩
      obtain ⟨restl, hle⟩ := hle
      obtain ⟨q2, c1, R1, hq⟩ := ihl i1 v1 restl hle
      rw [hl] at hq
      exact ⟨true :: q2, c1, R1, by simpa [BT.sub] using hq⟩

/-- The last in-order node has an empty right child. -/
theorem rightmost_node :
    ∀ (T : BT) (i2 : Nat) (v2 : Val) (rest : List (Nat × Val)),
      T.entries = rest ++ [(i2, v2)] →
      ∃ q2 c2 L2, T.sub q2 = some (.node i2 c2 v2 L2 .leaf) := by
  intro T
  induction T with
  | leaf =>
    intro i2 v2 rest h
    have := congrArg List.length h
    simp [BT.entries] at this
  | node i c v l r ihl ihr =>
    intro i2 v2 rest h
    rw [BT.entries_node] at h
    cases hr : r with
    | leaf =>
      rw [hr] at h
      have h2 : l.entries ++ [(i, v)] = rest ++ [(i2, v2)] := by
        simpa [BT.entries] using h
      have h3 : (i, v) = (i2, v2) := by
        have := congrArg List.getLast? h2
        rw [getLast?_append_right _ _ (by simp),
          getLast?_append_right _ _ (by simp)] at this
        simpa using this
      exact ⟨[], c, l, by
        rw [BT.sub_nil, ((Prod.mk.injEq _ _ _ _).mp h3).1,
          ((Prod.mk.injEq _ _ _ _).mp h3).2]⟩
    | node ir cr vr lr rr =>
      have hre : ∃ restr, r.entries = restr ++ [(i2, v2)] := by
        cases hE : r.entries.reverse with
        | nil =>
          have h0 : r.entries = [] := by
            simpa using congrArg List.reverse hE
          rw [hr] at h0
          exact absurd h0 (by simp [BT.entries_node])
        | cons x t =>
          have hE2 : r.entries = t.reverse ++ [x] := by
            have := congrArg List.reverse hE
            simpa using this
          have hx : x = (i2, v2) := by
            rw [hE2] at h
            have := congrArg List.getLast? h
            rw [show l.entries ++ (i, v) :: (t.reverse ++ [x]) =
              (l.entries ++ (i, v) :: t.reverse) ++ [x] by simp,
              getLast?_append_right _ _ (by simp),
              getLast?_append_right _ _ (by simp)] at this
            simpa using this
          exact ⟨t.reverse, by rw [hE2, hx]⟩
      obtain ⟨restr, hre⟩ := hre
      obtain ⟨q2, c2, L2, hq⟩ := ihr i2 v2 restr hre
      rw [hr] at hq
      exact ⟨false :: q2, c2, L2, by simpa [BT.sub] using hq⟩

/-- Two prefixes of an id-distinct entry list that end at the same id
coincide. -/
theorem prefix_unique_by_last {L X Y X2 Y2 : List (Nat × Val)} {e e2 : Nat × Val}
    (hnd : (L.map Prod.fst).Nodup)
    (h1 : L = X ++ Y) (h2 : L = X2 ++ Y2)
    (hx : X.getLast? = some e) (hx2 : X2.getLast? = some e2)
    (hee : e.1 = e2.1) :
    X = X2 ∧ Y = Y2 := by
  obtain ⟨X0, hX0⟩ : ∃ X0, X = X0 ++ [e] := by
    cases hX : X with
    | nil =>
      rw [hX] at hx
      cases hx
    | cons a t =>
      rw [← hX]
      exact ⟨X.dropLast, (List.dropLast_append_getLast? e hx).symm⟩
  obtain ⟨X02, hX02⟩ : ∃ X02, X2 = X02 ++ [e2] := by
    cases hX : X2 with
    | nil =>
      rw [hX] at hx2
      cases hx2
    | cons a t =>
      rw [← hX]
      exact ⟨X2.dropLast, (List.dropLast_append_getLast? e2 hx2).symm⟩
  have hme : e ∈ L := by
    rw [h1, hX0]
    simp
  have hme2 : e2 ∈ L := by
    rw [h2, hX02]
    simp
  have heq : e = e2 := by
    obtain ⟨ia, va⟩ := e
    obtain ⟨ib, vb⟩ := e2
    simp only at hee
    subst hee
    rw [entry_unique hnd hme hme2]
  subst heq
  have hL1 : L = X0 ++ [e] ++ Y := by
    rw [h1, hX0]
  have hL2 : L = X02 ++ [e] ++ Y2 := by
    rw [h2, hX02]
  have hnd2 : ((X0 ++ [e] ++ Y).map Prod.fst).Nodup := by
    rw [← hL1]
    exact hnd
  obtain ⟨ha, hb⟩ := append_middle_unique X0 X02 Y Y2 [e] (by simp) hnd2
    (by rw [← hL1, ← hL2])
  exact ⟨by rw [hX0, hX02, ha], hb⟩

/-- The key sequence of a split entry list. -/
theorem keys_split {T : BT} {Ah Bh : List (Nat × Val)} {ih0 : Nat} {vh : Val}
    (hent : T.entries = Ah ++ (ih0, vh) :: Bh) :
    T.keys = Ah.map (fun e => get_key e.2) ++
      get_key vh :: Bh.map (fun e => get_key e.2) := by
  simp only [BT.keys, BT.inorder, hent, List.map_append, List.map_cons,
    List.map_map]
  rfl

/-- Key bounds across a split of a sorted entry list. -/
theorem sorted_split_bounds {T : BT} {Ah Bh : List (Nat × Val)} {ih0 : Nat}
    {vh : Val} (hsort : List.Sorted (· ≤ ·) T.keys)
    (hent : T.entries = Ah ++ (ih0, vh) :: Bh) :
    (∀ e ∈ Ah, get_key e.2 ≤ get_key vh) ∧
    (∀ e ∈ Bh, get_key vh ≤ get_key e.2) ∧
    (∀ e ∈ Ah, ∀ a ∈ Ah.getLast?, get_key e.2 ≤ get_key a.2) := by
  rw [keys_split hent, List.Sorted, List.pairwise_append] at hsort
  obtain ⟨hA, hB, hAB⟩ := hsort
  rw [List.pairwise_cons] at hB
  refine ⟨?_, ?_, ?_⟩
  · intro e he
    exact hAB (get_key e.2) (List.mem_map.mpr ⟨e, he, rfl⟩) (get_key vh) (by simp)
  · intro e he
    exact hB.1 (get_key e.2) (List.mem_map.mpr ⟨e, he, rfl⟩)
  · intro e he a ha
    simp only [Option.mem_def] at ha
    refine sorted_le_getLast hA (List.mem_map.mpr ⟨e, he, rfl⟩) ?_
    rw [List.getLast?_map, ha]
    rfl

/-- Fallback of the hinted inserts: the full multi descent on the state
holding the fresh node, then the link. -/
theorem hint_descend_link_multi (s : RBTree) (T : BT) (v : Val) (fuel : Nat)
    (y : Option Nat) (al : Bool) (out : RBTree × Option Nat)
    (hwf : WF s T)
    (hpos : get_insert_multi_pos (create_node s v).1 (get_key v) fuel = some (y, al))
    (hlink : insert_node_at (create_node s v).1 y s.nextId al fuel = some out) :
    ∃ T2 A B, WF out.1 T2 ∧ T.entries = A ++ B ∧
      T2.entries = A ++ (s.nextId, v) :: B ∧
      (∀ e ∈ A, get_key e.2 ≤ get_key v) ∧
      (∀ e ∈ B, get_key v ≤ get_key e.2) ∧
      out.1.node_count = s.node_count + 1 := by
  obtain ⟨q, A, B, h1, h2, h3, h4, h5, h6⟩ :=
    get_insert_multi_pos_spec (create_node s v).1 T (get_key v) fuel (y, al)
      (WF_create s T v hwf) hpos
  have hres2 : insert_value_at s y v al fuel = some out := hlink
  obtain ⟨T2, hwf2, hent2, hit2, _, hcnt2, _, _⟩ :=
    insert_value_at_spec s T v y al q A B fuel out hwf h1 h2 h3
      (by
        intro e he
        have h7 := h4 e he
        simp only [key_comp, decide_eq_false_iff_not] at h7
        omega)
      (by
        intro e he
        have h7 := h5 e he
        simp only [key_comp, decide_eq_true_eq] at h7
        omega)
      h6 hres2
  refine ⟨T2, A, B, hwf2, h2, hent2, ?_, ?_, hcnt2⟩
  · intro e he
    have h7 := h4 e he
    simp only [key_comp, decide_eq_false_iff_not] at h7
    omega
  · intro e he
    have h7 := h5 e he
    simp only [key_comp, decide_eq_true_eq] at h7
    omega

/-- The internal hinted multi-insert called with a real hint node that
is not the first element: every path links the new element at a
position compatible with the sorted order. -/
theorem insert_multi_use_hint_spec (s : RBTree) (T : BT) (v : Val) (fuel : Nat)
    (ih0 : Nat) (vh : Val) (Ah Bh : List (Nat × Val)) (out : RBTree × Option Nat)
    (hwf : WF s T)
    (hent : T.entries = Ah ++ (ih0, vh) :: Bh)
    (hAne : Ah ≠ [])
    (hres : insert_multi_use_hint (create_node s v).1 (some ih0) (get_key v)
      s.nextId fuel = some out) :
    ∃ T2 A B, WF out.1 T2 ∧ T.entries = A ++ B ∧
      T2.entries = A ++ (s.nextId, v) :: B ∧
      (∀ e ∈ A, get_key e.2 ≤ get_key v) ∧
      (∀ e ∈ B, get_key v ≤ get_key e.2) ∧
      out.1.node_count = s.node_count + 1 := by
  have hwf1 : WF (create_node s v).1 T := WF_create s T v hwf
  rw [insert_multi_use_hint] at hres
  cases hdec : iter_dec (create_node s v).1 fuel (some ih0) with
  | none =>
    rw [hdec] at hres
    simp at hres
  | some bnp =>
    rw [hdec] at hres
    simp only [] at hres
    obtain ⟨⟨ia, va⟩, hal1, hal2⟩ :=
      iter_dec_pred (create_node s v).1 T fuel ih0 vh Ah Bh bnp hwf1 hent hAne hdec
    subst hal2
    have hmemA : (ia, va) ∈ Ah := List.mem_of_mem_getLast? hal1
    have hmemT : (ia, va) ∈ T.entries := by
      rw [hent]
      exact List.mem_append.mpr (Or.inl hmemA)
    have hvb : (getN (create_node s v).1 (some ia)).value = va := by
      obtain ⟨n, hn1, hn2⟩ := realize_entry_lookup hwf1.real (ia, va) hmemT
      rw [getN_some hn1]
      exact hn2
    have hmemH : (ih0, vh) ∈ T.entries := by
      rw [hent]
      simp
    have hvh : (getN (create_node s v).1 (some ih0)).value = vh := by
      obtain ⟨n, hn1, hn2⟩ := realize_entry_lookup hwf1.real (ih0, vh) hmemH
      rw [getN_some hn1]
      exact hn2
    have hndE : (T.entries.map Prod.fst).Nodup := hwf.nodup
    obtain ⟨hb01, hb02, hb03⟩ := sorted_split_bounds hwf.sorted hent
    rw [hvb, hvh] at hres
    rcases Bool.eq_false_or_eq_true (!(key_comp (get_key v) (get_key va)) &&
        !(key_comp (get_key vh) (get_key v))) with hcond | hcond
    · -- before <= v <= hint
      rw [hcond] at hres
      simp only [if_true] at hres
      have hcond2 : ¬(get_key v < get_key va) ∧ ¬(get_key vh < get_key v) := by
        simpa [key_comp] using hcond
      obtain ⟨hc1, hc2⟩ := hcond2
      have hble : get_key va ≤ get_key v := by omega
      have hhge : get_key v ≤ get_key vh := by omega
      have hkA : ∀ e ∈ Ah, get_key e.2 ≤ get_key v := by
        intro e he
        have h0 := hb03 e he (ia, va) (by rw [hal1]; rfl)
        simp only at h0
        omega
      have hkB : ∀ e ∈ (ih0, vh) :: Bh, get_key v ≤ get_key e.2 := by
        intro e he
        rcases List.mem_cons.mp he with he1 | he2
        · rw [he1]
          exact hhge
        · have h0 := hb02 e he2
          omega
      rcases Bool.eq_false_or_eq_true
          ((getN (create_node s v).1 (some ia)).right == none) with hrt | hrt
      · -- link as the right child of the predecessor
        rw [hrt] at hres
        simp only [if_true] at hres
        have hmemBid : ia ∈ T.ids :=
          List.mem_map.mpr ⟨(ia, va), hmemT, rfl⟩
        obtain ⟨q2, cb, va2, YLb, YRb, hsubB⟩ := BT.mem_ids_sub hmemBid
        have hva2 : va2 = va := by
          obtain ⟨A9, B9, h9⟩ := BT.sub_entries_decomp hsubB
          refine entry_unique hndE ?_ hmemT
          rw [h9, BT.entries_node]
          simp
        rw [hva2] at hsubB
        obtain ⟨ppb, hruB⟩ : ∃ ppb, Realize (create_node s v).1.heap ppb
            (some ia) (BT.node ia cb va YLb YRb) := by
          rcases realize_sub_parent hwf1.real q2 _ hsubB with ⟨_, hrg⟩ |
            ⟨_, _, _, _, _, _, _, _, _, _, hrg⟩
          · exact ⟨_, hrg⟩
          · exact ⟨_, hrg⟩
        obtain ⟨hfib, hrYLb, hrYRb⟩ := hruB.node_lookup
        have hYRp : YRb.ptr = none := by
          have h0 : (getN (create_node s v).1 (some ia)).right = YRb.ptr := by
            rw [getN_some hfib]
          rw [h0] at hrt
          simpa using hrt
        have hYRleaf : YRb = .leaf := realize_none_leaf (hYRp ▸ hrYRb)
        subst hYRleaf
        obtain ⟨hslot, A0, B0, hsplit, hreplp⟩ := slot_right hsubB
        obtain ⟨hAeq, hBeq⟩ := prefix_unique_by_last hndE hsplit hent
          (by
            rw [getLast?_append_right _ _ (by simp)]
            rfl)
          hal1 rfl
        have hres2 : insert_value_at s (some ia) v false fuel = some out := hres
        obtain ⟨T2, hwf2, hent2, hit2, _, hcnt2, _, _⟩ :=
          insert_value_at_spec s T v (some ia) false (q2 ++ [false]) Ah
            ((ih0, vh) :: Bh) fuel out hwf hslot (by rw [hent])
            (fun u2 => by rw [hreplp u2, hAeq, hBeq])
            hkA hkB
            (Or.inr ⟨q2, ia, cb, va, YLb, .leaf, rfl, hsubB, rfl,
              fun hcon => absurd hcon (by simp),
              fun _ => ⟨A0 ++ YLb.entries, hAeq.symm⟩⟩)
            hres2
        exact ⟨T2, Ah, (ih0, vh) :: Bh, hwf2, hent, hent2, hkA, hkB, hcnt2⟩
      · -- before has a right child: try the hint's left slot
        rw [hrt] at hres
        simp only [Bool.false_eq_true, if_false] at hres
        rcases Bool.eq_false_or_eq_true
            ((getN (create_node s v).1 (some ih0)).left == none) with hlt | hlt
        · -- link as the left child of the hint node
          rw [hlt] at hres
          simp only [if_true] at hres
          have hmemHid : ih0 ∈ T.ids :=
            List.mem_map.mpr ⟨(ih0, vh), hmemH, rfl⟩
          obtain ⟨q2, ch, vh2, YLh, YRh, hsubH⟩ := BT.mem_ids_sub hmemHid
          have hvh2 : vh2 = vh := by
            obtain ⟨A9, B9, h9⟩ := BT.sub_entries_decomp hsubH
            refine entry_unique hndE ?_ hmemH
            rw [h9, BT.entries_node]
            simp
          rw [hvh2] at hsubH
          obtain ⟨pph, hruH⟩ : ∃ pph, Realize (create_node s v).1.heap pph
              (some ih0) (BT.node ih0 ch vh YLh YRh) := by
            rcases realize_sub_parent hwf1.real q2 _ hsubH with ⟨_, hrg⟩ |
              ⟨_, _, _, _, _, _, _, _, _, _, hrg⟩
            · exact ⟨_, hrg⟩
            · exact ⟨_, hrg⟩
          obtain ⟨hfih, hrYLh, hrYRh⟩ := hruH.node_lookup
          have hYLp : YLh.ptr = none := by
            have h0 : (getN (create_node s v).1 (some ih0)).left = YLh.ptr := by
              rw [getN_some hfih]
            rw [h0] at hlt
            simpa using hlt
          have hYLleaf : YLh = .leaf := realize_none_leaf (hYLp ▸ hrYLh)
          subst hYLleaf
          obtain ⟨hslot, A0, B0, hsplit, hreplp⟩ := slot_left hsubH
          obtain ⟨hAeq, hBeq⟩ := append_middle_unique A0 Ah
            (YRh.entries ++ B0) Bh [(ih0, vh)] (by simp)
            (by rw [show A0 ++ [(ih0, vh)] ++ (YRh.entries ++ B0) = T.entries
                from by rw [hsplit]; simp]; exact hndE)
            (by
              rw [show A0 ++ [(ih0, vh)] ++ (YRh.entries ++ B0) = T.entries
                from by rw [hsplit]; simp, hent]
              simp)
          have hres2 : insert_value_at s (some ih0) v true fuel = some out := hres
          obtain ⟨T2, hwf2, hent2, hit2, _, hcnt2, _, _⟩ :=
            insert_value_at_spec s T v (some ih0) true (q2 ++ [true]) Ah
              ((ih0, vh) :: Bh) fuel out hwf hslot (by rw [hent])
              (fun u2 => by rw [hreplp u2, hAeq, ← hBeq]; simp)
              hkA hkB
              (Or.inr ⟨q2, ih0, ch, vh, .leaf, YRh, rfl, hsubH, rfl,
                fun _ => ⟨Bh, rfl⟩,
                fun hcon => absurd hcon (by simp)⟩)
              hres2
          exact ⟨T2, Ah, (ih0, vh) :: Bh, hwf2, hent, hent2, hkA, hkB, hcnt2⟩
        · -- neither slot free: full descent
          rw [hlt] at hres
          simp only [Bool.false_eq_true, if_false] at hres
          cases hpos : get_insert_multi_pos (create_node s v).1 (get_key v) fuel with
          | none =>
            rw [hpos] at hres
            simp at hres
          | some ya =>
            obtain ⟨y, al⟩ := ya
            rw [hpos] at hres
            simp only [] at hres
            exact hint_descend_link_multi s T v fuel y al out hwf hpos hres
    · -- inaccurate hint: full descent
      rw [hcond] at hres
      simp only [Bool.false_eq_true, if_false] at hres
      cases hpos : get_insert_multi_pos (create_node s v).1 (get_key v) fuel with
      | none =>
        rw [hpos] at hres
        simp at hres
      | some ya =>
        obtain ⟨y, al⟩ := ya
        rw [hpos] at hres
        simp only [] at hres
        exact hint_descend_link_multi s T v fuel y al out hwf hpos hres

/-- Fallback of the hinted unique insert, non-duplicate case: the full
unique descent on the state holding the fresh node, then the link. -/
theorem hint_descend_link_unique (s : RBTree) (T : BT) (v : Val) (fuel : Nat)
    (y : Option Nat) (al : Bool) (out : RBTree × Option Nat)
    (hwf : WF s T)
    (hpos : get_insert_unique_pos (create_node s v).1 (get_key v) fuel =
      some ((y, al), true))
    (hlink : insert_node_at (create_node s v).1 y s.nextId al fuel = some out) :
    get_key v ∉ T.keys ∧
    ∃ T2 A B, WF out.1 T2 ∧ T.entries = A ++ B ∧
      T2.entries = A ++ (s.nextId, v) :: B ∧
      (∀ e ∈ A, get_key e.2 ≤ get_key v) ∧
      (∀ e ∈ B, get_key v ≤ get_key e.2) ∧
      out.1.node_count = s.node_count + 1 := by
  obtain ⟨hnotin, q, A, B, h1, h2, h3, h4, h5, h6⟩ :=
    (get_insert_unique_pos_spec (create_node s v).1 T (get_key v) fuel
      ((y, al), true) (WF_create s T v hwf) hpos).2 rfl
  have hres2 : insert_value_at s y v al fuel = some out := hlink
  obtain ⟨T2, hwf2, hent2, hit2, _, hcnt2, _, _⟩ :=
    insert_value_at_spec s T v y al q A B fuel out hwf h1 h2 h3
      (by
        intro e he
        have h7 := h4 e he
        simp only [key_comp, decide_eq_false_iff_not] at h7
        omega)
      (by
        intro e he
        have h7 := h5 e he
        simp only [key_comp, decide_eq_true_eq] at h7
        omega)
      h6 hres2
  refine ⟨hnotin, T2, A, B, hwf2, h2, hent2, ?_, ?_, hcnt2⟩
  · intro e he
    have h7 := h4 e he
    simp only [key_comp, decide_eq_false_iff_not] at h7
    omega
  · intro e he
    have h7 := h5 e he
    simp only [key_comp, decide_eq_true_eq] at h7
    omega

/-- Duplicate outcome of the hinted unique insert: the candidate node
is destroyed again, restoring the original arena. -/
theorem hint_dup_unique (s : RBTree) (T : BT) (v : Val) (fuel : Nat)
    (y : Option Nat) (al : Bool)
    (hwf : WF s T)
    (hpos : get_insert_unique_pos (create_node s v).1 (get_key v) fuel =
      some ((y, al), false)) :
    get_key v ∈ T.keys ∧
    WF (destroy_node (create_node s v).1 s.nextId) T ∧
    (destroy_node (create_node s v).1 s.nextId).node_count = s.node_count := by
  have hkin : get_key v ∈ T.keys :=
    (get_insert_unique_pos_spec (create_node s v).1 T (get_key v) fuel
      ((y, al), false) (WF_create s T v hwf) hpos).1 rfl
  have hheap : (destroy_node (create_node s v).1 s.nextId).heap = s.heap := by
    simp [destroy_node, create_node, hremove]
  exact ⟨hkin, WF_transfer hwf hheap rfl rfl (Nat.le_succ _), rfl⟩

/-- The internal hinted unique insert called with a real hint node that
is not the first element: a duplicate leaves the element sequence and
size unchanged, otherwise the new element is linked at a sorted slot. -/
theorem insert_unique_use_hint_spec (s : RBTree) (T : BT) (v : Val) (fuel : Nat)
    (ih0 : Nat) (vh : Val) (Ah Bh : List (Nat × Val)) (out : RBTree × Option Nat)
    (hwf : WF s T)
    (hent : T.entries = Ah ++ (ih0, vh) :: Bh)
    (hAne : Ah ≠ [])
    (hres : insert_unique_use_hint (create_node s v).1 (some ih0) (get_key v)
      s.nextId fuel = some out) :
    (get_key v ∈ T.keys ∧ ∃ T2, WF out.1 T2 ∧ T2.entries = T.entries ∧
      out.1.node_count = s.node_count) ∨
    (get_key v ∉ T.keys ∧ ∃ T2 A B, WF out.1 T2 ∧ T.entries = A ++ B ∧
      T2.entries = A ++ (s.nextId, v) :: B ∧
      (∀ e ∈ A, get_key e.2 ≤ get_key v) ∧
      (∀ e ∈ B, get_key v ≤ get_key e.2) ∧
      out.1.node_count = s.node_count + 1) := by
  have hwf1 : WF (create_node s v).1 T := WF_create s T v hwf
  rw [insert_unique_use_hint] at hres
  cases hdec : iter_dec (create_node s v).1 fuel (some ih0) with
  | none =>
    rw [hdec] at hres
    simp at hres
  | some bnp =>
    rw [hdec] at hres
    simp only [] at hres
    obtain ⟨⟨ia, va⟩, hal1, hal2⟩ :=
      iter_dec_pred (create_node s v).1 T fuel ih0 vh Ah Bh bnp hwf1 hent hAne hdec
    subst hal2
    have hmemA : (ia, va) ∈ Ah := List.mem_of_mem_getLast? hal1
    have hmemT : (ia, va) ∈ T.entries := by
      rw [hent]
      exact List.mem_append.mpr (Or.inl hmemA)
    have hvb : (getN (create_node s v).1 (some ia)).value = va := by
      obtain ⟨n, hn1, hn2⟩ := realize_entry_lookup hwf1.real (ia, va) hmemT
      rw [getN_some hn1]
      exact hn2
    have hmemH : (ih0, vh) ∈ T.entries := by
      rw [hent]
      simp
    have hvh : (getN (create_node s v).1 (some ih0)).value = vh := by
      obtain ⟨n, hn1, hn2⟩ := realize_entry_lookup hwf1.real (ih0, vh) hmemH
      rw [getN_some hn1]
      exact hn2
    have hndE : (T.entries.map Prod.fst).Nodup := hwf.nodup
    obtain ⟨hb01, hb02, hb03⟩ := sorted_split_bounds hwf.sorted hent
    rw [hvb, hvh] at hres
    rcases Bool.eq_false_or_eq_true (key_comp (get_key va) (get_key v) &&
        key_comp (get_key v) (get_key vh)) with hcond | hcond
    · -- before < v < hint: the key is certainly absent
      rw [hcond] at hres
      simp only [if_true] at hres
      have hcond2 : get_key va < get_key v ∧ get_key v < get_key vh := by
        simpa [key_comp] using hcond
      obtain ⟨hc1, hc2⟩ := hcond2
      have hkA : ∀ e ∈ Ah, get_key e.2 ≤ get_key v := by
        intro e he
        have h0 := hb03 e he (ia, va) (by rw [hal1]; rfl)
        simp only at h0
        omega
      have hkB : ∀ e ∈ (ih0, vh) :: Bh, get_key v ≤ get_key e.2 := by
        intro e he
        rcases List.mem_cons.mp he with he1 | he2
        · rw [he1]
          exact le_of_lt hc2
        · have h0 := hb02 e he2
          omega
      have hnotin : get_key v ∉ T.keys := by
        rw [keys_split hent]
        intro hc
        rcases List.mem_append.mp hc with hc1m | hc2m
        · obtain ⟨e, he, hek⟩ := List.mem_map.mp hc1m
          have h0 := hb03 e he (ia, va) (by rw [hal1]; rfl)
          simp only at h0
          omega
        · rcases List.mem_cons.mp hc2m with hq1 | hq2
          · omega
          · obtain ⟨e, he, hek⟩ := List.mem_map.mp hq2
            have h0 := hb02 e he
            omega
      refine Or.inr ⟨hnotin, ?_⟩
      rcases Bool.eq_false_or_eq_true
          ((getN (create_node s v).1 (some ia)).right == none) with hrt | hrt
      · -- link as the right child of the predecessor
        rw [hrt] at hres
        simp only [if_true] at hres
        have hmemBid : ia ∈ T.ids :=
          List.mem_map.mpr ⟨(ia, va), hmemT, rfl⟩
        obtain ⟨q2, cb, va2, YLb, YRb, hsubB⟩ := BT.mem_ids_sub hmemBid
        have hva2 : va2 = va := by
          obtain ⟨A9, B9, h9⟩ := BT.sub_entries_decomp hsubB
          refine entry_unique hndE ?_ hmemT
          rw [h9, BT.entries_node]
          simp
        rw [hva2] at hsubB
        obtain ⟨ppb, hruB⟩ : ∃ ppb, Realize (create_node s v).1.heap ppb
            (some ia) (BT.node ia cb va YLb YRb) := by
          rcases realize_sub_parent hwf1.real q2 _ hsubB with ⟨_, hrg⟩ |
            ⟨_, _, _, _, _, _, _, _, _, _, hrg⟩
          · exact ⟨_, hrg⟩
          · exact ⟨_, hrg⟩
        obtain ⟨hfib, hrYLb, hrYRb⟩ := hruB.node_lookup
        have hYRp : YRb.ptr = none := by
          have h0 : (getN (create_node s v).1 (some ia)).right = YRb.ptr := by
            rw [getN_some hfib]
          rw [h0] at hrt
          simpa using hrt
        have hYRleaf : YRb = .leaf := realize_none_leaf (hYRp ▸ hrYRb)
        subst hYRleaf
        obtain ⟨hslot, A0, B0, hsplit, hreplp⟩ := slot_right hsubB
        obtain ⟨hAeq, hBeq⟩ := prefix_unique_by_last hndE hsplit hent
          (by
            rw [getLast?_append_right _ _ (by simp)]
            rfl)
          hal1 rfl
        have hres2 : insert_value_at s (some ia) v false fuel = some out := hres
        obtain ⟨T2, hwf2, hent2, hit2, _, hcnt2, _, _⟩ :=
          insert_value_at_spec s T v (some ia) false (q2 ++ [false]) Ah
            ((ih0, vh) :: Bh) fuel out hwf hslot (by rw [hent])
            (fun u2 => by rw [hreplp u2, hAeq, hBeq])
            hkA hkB
            (Or.inr ⟨q2, ia, cb, va, YLb, .leaf, rfl, hsubB, rfl,
              fun hcon => absurd hcon (by simp),
              fun _ => ⟨A0 ++ YLb.entries, hAeq.symm⟩⟩)
            hres2
        exact ⟨T2, Ah, (ih0, vh) :: Bh, hwf2, hent, hent2, hkA, hkB, hcnt2⟩
      · -- before has a right child: try the hint's left slot
        rw [hrt] at hres
        simp only [Bool.false_eq_true, if_false] at hres
        rcases Bool.eq_false_or_eq_true
            ((getN (create_node s v).1 (some ih0)).left == none) with hlt | hlt
        · -- link as the left child of the hint node
          rw [hlt] at hres
          simp only [if_true] at hres
          have hmemHid : ih0 ∈ T.ids :=
            List.mem_map.mpr ⟨(ih0, vh), hmemH, rfl⟩
          obtain ⟨q2, ch, vh2, YLh, YRh, hsubH⟩ := BT.mem_ids_sub hmemHid
          have hvh2 : vh2 = vh := by
            obtain ⟨A9, B9, h9⟩ := BT.sub_entries_decomp hsubH
            refine entry_unique hndE ?_ hmemH
            rw [h9, BT.entries_node]
            simp
          rw [hvh2] at hsubH
          obtain ⟨pph, hruH⟩ : ∃ pph, Realize (create_node s v).1.heap pph
              (some ih0) (BT.node ih0 ch vh YLh YRh) := by
            rcases realize_sub_parent hwf1.real q2 _ hsubH with ⟨_, hrg⟩ |
              ⟨_, _, _, _, _, _, _, _, _, _, hrg⟩
            · exact ⟨_, hrg⟩
            · exact ⟨_, hrg⟩
          obtain ⟨hfih, hrYLh, hrYRh⟩ := hruH.node_lookup
          have hYLp : YLh.ptr = none := by
            have h0 : (getN (create_node s v).1 (some ih0)).left = YLh.ptr := by
              rw [getN_some hfih]
            rw [h0] at hlt
            simpa using hlt
          have hYLleaf : YLh = .leaf := realize_none_leaf (hYLp ▸ hrYLh)
          subst hYLleaf
          obtain ⟨hslot, A0, B0, hsplit, hreplp⟩ := slot_left hsubH
          obtain ⟨hAeq, hBeq⟩ := append_middle_unique A0 Ah
            (YRh.entries ++ B0) Bh [(ih0, vh)] (by simp)
            (by rw [show A0 ++ [(ih0, vh)] ++ (YRh.entries ++ B0) = T.entries
                from by rw [hsplit]; simp]; exact hndE)
            (by
              rw [show A0 ++ [(ih0, vh)] ++ (YRh.entries ++ B0) = T.entries
                from by rw [hsplit]; simp, hent]
              simp)
          have hres2 : insert_value_at s (some ih0) v true fuel = some out := hres
          obtain ⟨T2, hwf2, hent2, hit2, _, hcnt2, _, _⟩ :=
            insert_value_at_spec s T v (some ih0) true (q2 ++ [true]) Ah
              ((ih0, vh) :: Bh) fuel out hwf hslot (by rw [hent])
              (fun u2 => by rw [hreplp u2, hAeq, ← hBeq]; simp)
              hkA hkB
              (Or.inr ⟨q2, ih0, ch, vh, .leaf, YRh, rfl, hsubH, rfl,
                fun _ => ⟨Bh, rfl⟩,
                fun hcon => absurd hcon (by simp)⟩)
              hres2
          exact ⟨T2, Ah, (ih0, vh) :: Bh, hwf2, hent, hent2, hkA, hkB, hcnt2⟩
        · -- neither slot free: full descent
          rw [hlt] at hres
          simp only [Bool.false_eq_true, if_false] at hres
          cases hpos : get_insert_unique_pos (create_node s v).1 (get_key v) fuel with
          | none =>
            rw [hpos] at hres
            simp at hres
          | some yas =>
            obtain ⟨⟨y, al⟩, success⟩ := yas
            rw [hpos] at hres
            simp only [] at hres
            cases success with
            | false =>
              exact absurd ((get_insert_unique_pos_spec (create_node s v).1 T
                (get_key v) fuel ((y, al), false) hwf1 hpos).1 rfl) hnotin
            | true =>
              simp only [Bool.not_true, Bool.false_eq_true, if_false] at hres
              exact (hint_descend_link_unique s T v fuel y al out hwf hpos hres).2
    · -- inaccurate hint: full descent, possibly finding a duplicate
      rw [hcond] at hres
      simp only [Bool.false_eq_true, if_false] at hres
      cases hpos : get_insert_unique_pos (create_node s v).1 (get_key v) fuel with
      | none =>
        rw [hpos] at hres
        simp at hres
      | some yas =>
        obtain ⟨⟨y, al⟩, success⟩ := yas
        rw [hpos] at hres
        simp only [] at hres
        cases success with
        | false =>
          simp only [Bool.not_false, if_true, Option.some.injEq] at hres
          obtain ⟨hkin, hwfD, hcntD⟩ := hint_dup_unique s T v fuel y al hwf hpos
          refine Or.inl ⟨hkin, T, ?_, rfl, ?_⟩
          · rw [← hres]
            exact hwfD
          · rw [← hres]
            exact hcntD
        | true =>
          simp only [Bool.not_true, Bool.false_eq_true, if_false] at hres
          obtain ⟨hnotin, pkg⟩ :=
            hint_descend_link_unique s T v fuel y al out hwf hpos hres
          exact Or.inr ⟨hnotin, pkg⟩

/-- A view with no entries is the empty view. -/
theorem entries_nil_leaf {T : BT} (h : T.entries = []) : T = .leaf := by
  cases T with
  | leaf => rfl
  | node i c v l r => exact absurd h (by simp [BT.entries_node])

/-- A nonempty entry list splits off its last element. -/
theorem exists_last_split {l : List (Nat × Val)} (h : l ≠ []) :
    ∃ rest e, l = rest ++ [e] := by
  cases hE : l.reverse with
  | nil => exact absurd (by simpa using congrArg List.reverse hE) h
  | cons x t =>
    refine ⟨t.reverse, x, ?_⟩
    have := congrArg List.reverse hE
    simpa using this

/-- The hinted multi-emplace: on any valid hint (a stored node or
`end()`), the observable effect is a sorted insertion of the value. -/
theorem emplace_multi_use_hint_spec (s : RBTree) (T : BT) (hint : Option Nat)
    (v : Val) (fuel : Nat) (s2 : RBTree) (it : Option Nat)
    (hwf : WF s T)
    (hhint : hint = some s.header ∨ ∃ ihv, hint = some ihv.1 ∧ ihv ∈ T.entries)
    (hres : emplace_multi_use_hint s hint (some v) fuel = .ok (s2, it)) :
    ∃ T2 A B, WF s2 T2 ∧ T.entries = A ++ B ∧
      T2.entries = A ++ (s.nextId, v) :: B ∧
      (∀ e ∈ A, get_key e.2 ≤ get_key v) ∧
      (∀ e ∈ B, get_key v ≤ get_key e.2) ∧
      s2.node_count = s.node_count + 1 := by
  have hwf1 : WF (create_node s v).1 T := WF_create s T v hwf
  have hfnp : hfind (create_node s v).1.heap s.nextId =
      some ⟨none, none, none, rb_tree_red, v⟩ :=
    hfind_cons_self s.heap s.nextId _
  have hkv : get_key (getN (create_node s v).1 (some s.nextId)).value =
      get_key v := by
    rw [getN_some hfnp]
  rw [emplace_multi_use_hint] at hres
  by_cases hcap : s.node_count > rb_max_size - 1
  · rw [if_pos hcap] at hres
    simp at hres
  · rw [if_neg hcap, create_node_try_ok] at hres
    simp only [] at hres
    rw [hkv] at hres
    by_cases hcnt0 : s.node_count = 0
    · -- empty tree
      have hTleaf : T = .leaf := by
        refine entries_nil_leaf (List.length_eq_zero.mp ?_)
        have h0 := hwf.count
        simp only [BT.size] at h0
        omega
      rw [show (((create_node s v).1.node_count == 0) = true) from by
        simp [create_node, hcnt0]] at hres
      simp only [if_true] at hres
      cases hlink : insert_node_at (create_node s v).1
          (some (create_node s v).1.header) s.nextId true fuel with
      | none =>
        rw [hlink] at hres
        simp at hres
      | some out =>
        rw [hlink] at hres
        simp only [Res.ok.injEq, Prod.mk.injEq] at hres
        have hres2 : insert_value_at s (some s.header) v true fuel = some out :=
          hlink
        obtain ⟨T2, hwf2, hent2, hit2, _, hcnt2, _, _⟩ :=
          insert_value_at_spec s T v (some s.header) true [] [] [] fuel out hwf
            (by rw [hTleaf]; rfl) (by rw [hTleaf]; rfl)
            (fun u2 => by rw [hTleaf]; simp [BT.repl_nil])
            (by simp) (by simp)
            (Or.inl ⟨hTleaf, rfl, rfl⟩) hres2
        rw [← hres.1]
        exact ⟨T2, [], [], hwf2, by rw [hTleaf]; rfl, hent2, by simp, by simp,
          hcnt2⟩
    · -- nonempty tree
      rw [show (((create_node s v).1.node_count == 0) = false) from by
        simp [create_node, hcnt0]] at hres
      simp only [Bool.false_eq_true, if_false] at hres
      have hTne : T.entries ≠ [] := by
        intro hc
        refine hcnt0 ?_
        have h0 := hwf.count
        simp only [BT.size, hc] at h0
        simpa using h0
      obtain ⟨⟨i1, v1⟩, rest, hfirst⟩ : ∃ e rest, T.entries = e :: rest := by
        cases hE : T.entries with
        | nil => exact absurd hE hTne
        | cons e rest => exact ⟨e, rest, rfl⟩
      have hlm1 : leftmostP (create_node s v).1 = some i1 := by
        rw [hwf1.lm_eq]
        simp [lmPtr, hfirst]
      by_cases hbeg : hint = some i1
      · -- hint == begin()
        rw [show ((hint == leftmostP (create_node s v).1) = true) from by
          rw [hlm1, hbeg]; simp] at hres
        simp only [if_true] at hres
        subst hbeg
        have hv1 : (getN (create_node s v).1 (some i1)).value = v1 := by
          obtain ⟨n, hn1, hn2⟩ := realize_entry_lookup hwf1.real (i1, v1)
            (by rw [hfirst]; simp)
          rw [getN_some hn1]
          exact hn2
        rw [hv1] at hres
        rcases Bool.eq_false_or_eq_true (key_comp (get_key v) (get_key v1))
          with hlt | hlt
        · -- v sorts before the first element: link left of the leftmost node
          rw [hlt] at hres
          simp only [if_true] at hres
          have hlt2 : get_key v < get_key v1 := by
            simpa [key_comp] using hlt
          obtain ⟨q2, c1, R1, hsub1⟩ := leftmost_node T i1 v1 rest hfirst
          obtain ⟨hslot, A0, B0, hsplit, hreplp⟩ := slot_left hsub1
          obtain ⟨hA0, hB0⟩ := append_middle_unique A0 [] (R1.entries ++ B0)
            rest [(i1, v1)] (by simp)
            (by rw [show A0 ++ [(i1, v1)] ++ (R1.entries ++ B0) = T.entries
                from by rw [hsplit]; simp]; exact hwf.nodup)
            (by rw [show A0 ++ [(i1, v1)] ++ (R1.entries ++ B0) = T.entries
                from by rw [hsplit]; simp, hfirst]; simp)
          have hkB : ∀ e ∈ (i1, v1) :: rest, get_key v ≤ get_key e.2 := by
            intro e he
            have hsort := hwf.sorted
            rw [show T.keys = get_key v1 :: rest.map (fun e => get_key e.2)
              from by
                have := @keys_split T [] rest i1 v1 hfirst
                simpa using this] at hsort
            rcases List.mem_cons.mp he with he1 | he2
            · rw [he1]
              exact le_of_lt hlt2
            · have h0 := (List.sorted_cons.mp hsort).1 (get_key e.2)
                (List.mem_map.mpr ⟨e, he2, rfl⟩)
              omega
          cases hlink : insert_node_at (create_node s v).1 (some i1)
              s.nextId true fuel with
          | none =>
            rw [hlink] at hres
            simp at hres
          | some out =>
            rw [hlink] at hres
            simp only [Res.ok.injEq, Prod.mk.injEq] at hres
            have hres2 : insert_value_at s (some i1) v true fuel = some out :=
              hlink
            obtain ⟨T2, hwf2, hent2, hit2, _, hcnt2, _, _⟩ :=
              insert_value_at_spec s T v (some i1) true (q2 ++ [true]) []
                ((i1, v1) :: rest) fuel out hwf hslot (by rw [hfirst]; rfl)
                (fun u2 => by
                  rw [hreplp u2, hA0, ← hB0]
                  simp)
                (by simp) hkB
                (Or.inr ⟨q2, i1, c1, v1, .leaf, R1, rfl, hsub1, rfl,
                  fun _ => ⟨rest, rfl⟩,
                  fun hcon => absurd hcon (by simp)⟩)
                hres2
            rw [← hres.1]
            exact ⟨T2, [], (i1, v1) :: rest, hwf2, by rw [hfirst]; rfl, hent2,
              by simp, hkB, hcnt2⟩
        · -- hint inaccurate: full descent
          rw [hlt] at hres
          simp only [Bool.false_eq_true, if_false] at hres
          cases hpos : get_insert_multi_pos (create_node s v).1 (get_key v)
              fuel with
          | none =>
            rw [hpos] at hres
            simp at hres
          | some ya =>
            obtain ⟨y, al⟩ := ya
            rw [hpos] at hres
            simp only [] at hres
            cases hlink : insert_node_at (create_node s v).1 y s.nextId al
                fuel with
            | none =>
              rw [hlink] at hres
              simp at hres
            | some out =>
              rw [hlink] at hres
              simp only [Res.ok.injEq, Prod.mk.injEq] at hres
              obtain ⟨T2, A, B, pkg⟩ :=
                hint_descend_link_multi s T v fuel y al out hwf hpos hlink
              rw [← hres.1]
              exact ⟨T2, A, B, pkg⟩
      · -- hint is not begin()
        rw [show ((hint == leftmostP (create_node s v).1) = false) from by
          rw [hlm1]
          cases hint with
          | none => rfl
          | some hj =>
            have : hj ≠ i1 := fun hc => hbeg (by rw [hc])
            simp [this]] at hres
        simp only [Bool.false_eq_true, if_false] at hres
        by_cases hend : hint = some s.header
        · -- hint == end(): compare against the rightmost element
          rw [show ((hint == some (create_node s v).1.header) = true) from by
            rw [hend]; exact beq_self_eq_true _] at hres
          simp only [if_true] at hres
          obtain ⟨rest2, ⟨il, vl⟩, hlast⟩ := exists_last_split hTne
          have hgl2 : T.entries.getLast? = some (il, vl) := by
            rw [hlast, getLast?_append_right _ _ (by simp)]
            rfl
          have hrm1 : rightmostP (create_node s v).1 = some il := by
            rw [hwf1.rm_eq]
            simp [rmPtr, hgl2]
          rw [hrm1] at hres
          have hvl : (getN (create_node s v).1 (some il)).value = vl := by
            obtain ⟨n, hn1, hn2⟩ := realize_entry_lookup hwf1.real (il, vl)
              (by rw [hlast]; simp)
            rw [getN_some hn1]
            exact hn2
          rw [hvl] at hres
          rcases Bool.eq_false_or_eq_true (!(key_comp (get_key v) (get_key vl)))
            with hge | hge
          · -- rightmost.key <= v: link right of the rightmost node
            rw [hge] at hres
            simp only [if_true] at hres
            have hge2 : get_key vl ≤ get_key v := by
              have h0 : ¬(get_key v < get_key vl) := by
                simpa [key_comp] using hge
              omega
            obtain ⟨q2, c2, L2, hsub2⟩ := rightmost_node T il vl rest2 hlast
            obtain ⟨hslot, A0, B0, hsplit, hreplp⟩ := slot_right hsub2
            obtain ⟨hAeq, hBeq⟩ := prefix_unique_by_last
              (show (T.entries.map Prod.fst).Nodup from hwf.nodup) hsplit
              (show T.entries = T.entries ++ [] from by simp)
              (by rw [getLast?_append_right _ _ (by simp)]; rfl)
              (by rw [hlast, getLast?_append_right _ _ (by simp)]; rfl)
              rfl
            have hkA : ∀ e ∈ T.entries, get_key e.2 ≤ get_key v := by
              intro e he
              have hmemk : get_key e.2 ∈ T.keys :=
                List.mem_map.mpr ⟨e.2, List.mem_map.mpr ⟨e, he, rfl⟩, rfl⟩
              have hglk : T.keys.getLast? = some (get_key vl) := by
                rw [show T.keys = (T.entries.map Prod.snd).map get_key from rfl,
                  hlast]
                rw [List.map_append, List.map_append,
                  getLast?_append_right _ _ (by simp)]
                rfl
              have h0 : get_key e.2 ≤ get_key vl :=
                sorted_le_getLast hwf.sorted hmemk hglk
              omega
            cases hlink : insert_node_at (create_node s v).1 (some il)
                s.nextId false fuel with
            | none =>
              rw [hlink] at hres
              simp at hres
            | some out =>
              rw [hlink] at hres
              simp only [Res.ok.injEq, Prod.mk.injEq] at hres
              have hres2 : insert_value_at s (some il) v false fuel = some out :=
                hlink
              obtain ⟨T2, hwf2, hent2, hit2, _, hcnt2, _, _⟩ :=
                insert_value_at_spec s T v (some il) false (q2 ++ [false])
                  T.entries [] fuel out hwf hslot (by simp)
                  (fun u2 => by rw [hreplp u2, hAeq, hBeq])
                  hkA (by simp)
                  (Or.inr ⟨q2, il, c2, vl, L2, .leaf, rfl, hsub2, rfl,
                    fun hcon => absurd hcon (by simp),
                    fun _ => ⟨A0 ++ L2.entries, hAeq.symm⟩⟩)
                  hres2
              rw [← hres.1]
              exact ⟨T2, T.entries, [], hwf2, by simp, hent2, hkA, by simp,
                hcnt2⟩
          · -- hint inaccurate: full descent
            rw [hge] at hres
            simp only [Bool.false_eq_true, if_false] at hres
            cases hpos : get_insert_multi_pos (create_node s v).1 (get_key v)
                fuel with
            | none =>
              rw [hpos] at hres
              simp at hres
            | some ya =>
              obtain ⟨y, al⟩ := ya
              rw [hpos] at hres
              simp only [] at hres
              cases hlink : insert_node_at (create_node s v).1 y s.nextId al
                  fuel with
              | none =>
                rw [hlink] at hres
                simp at hres
              | some out =>
                rw [hlink] at hres
                simp only [Res.ok.injEq, Prod.mk.injEq] at hres
                obtain ⟨T2, A, B, pkg⟩ :=
                  hint_descend_link_multi s T v fuel y al out hwf hpos hlink
                rw [← hres.1]
                exact ⟨T2, A, B, pkg⟩
        · -- a middle hint: a real stored node that is not the first one
          rw [show ((hint == some (create_node s v).1.header) = false) from by
            cases hint with
            | none => rfl
            | some hj =>
              have : hj ≠ s.header := fun hc => hend (by rw [hc])
              simp only [show (create_node s v).1.header = s.header from rfl]
              simp [this]] at hres
          simp only [Bool.false_eq_true, if_false] at hres
          obtain ⟨⟨ih0, vh⟩, hhj, hhmem⟩ : ∃ ihv, hint = some ihv.1 ∧
              ihv ∈ T.entries := by
            rcases hhint with h | h
            · exact absurd h hend
            · exact h
          obtain ⟨Ah, Bh, hsplitH⟩ := List.append_of_mem hhmem
          have hAne : Ah ≠ [] := by
            intro hc
            refine hbeg ?_
            rw [hc] at hsplitH
            rw [hfirst] at hsplitH
            simp only [List.nil_append, List.cons.injEq] at hsplitH
            rw [hhj, ((Prod.mk.injEq _ _ _ _).mp hsplitH.1.symm).1]
          rw [hhj] at hres
          cases hmid : insert_multi_use_hint (create_node s v).1 (some ih0)
              (get_key v) s.nextId fuel with
          | none =>
            rw [hmid] at hres
            simp at hres
          | some out =>
            rw [hmid] at hres
            simp only [Res.ok.injEq, Prod.mk.injEq] at hres
            obtain ⟨T2, A, B, pkg⟩ := insert_multi_use_hint_spec s T v fuel
              ih0 vh Ah Bh out hwf hsplitH hAne hmid
            rw [← hres.1]
            exact ⟨T2, A, B, pkg⟩

/-- The hinted unique emplace: on any valid hint, a duplicate key
leaves the element sequence and size unchanged, otherwise the value is
inserted at its sorted position. -/
theorem emplace_unique_use_hint_spec (s : RBTree) (T : BT) (hint : Option Nat)
    (v : Val) (fuel : Nat) (s2 : RBTree) (it : Option Nat)
    (hwf : WF s T)
    (hhint : hint = some s.header ∨ ∃ ihv, hint = some ihv.1 ∧ ihv ∈ T.entries)
    (hres : emplace_unique_use_hint s hint (some v) fuel = .ok (s2, it)) :
    (get_key v ∈ T.keys ∧ ∃ T2, WF s2 T2 ∧ T2.entries = T.entries ∧
      s2.node_count = s.node_count) ∨
    (get_key v ∉ T.keys ∧ ∃ T2 A B, WF s2 T2 ∧ T.entries = A ++ B ∧
      T2.entries = A ++ (s.nextId, v) :: B ∧
      (∀ e ∈ A, get_key e.2 ≤ get_key v) ∧
      (∀ e ∈ B, get_key v ≤ get_key e.2) ∧
      s2.node_count = s.node_count + 1) := by
  have hwf1 : WF (create_node s v).1 T := WF_create s T v hwf
  have hfnp : hfind (create_node s v).1.heap s.nextId =
      some ⟨none, none, none, rb_tree_red, v⟩ :=
    hfind_cons_self s.heap s.nextId _
  have hkv : get_key (getN (create_node s v).1 (some s.nextId)).value =
      get_key v := by
    rw [getN_some hfnp]
  rw [emplace_unique_use_hint] at hres
  by_cases hcap : s.node_count > rb_max_size - 1
  · rw [if_pos hcap] at hres
    simp at hres
  · rw [if_neg hcap, create_node_try_ok] at hres
    simp only [] at hres
    rw [hkv] at hres
    by_cases hcnt0 : s.node_count = 0
    · -- empty tree
      have hTleaf : T = .leaf := by
        refine entries_nil_leaf (List.length_eq_zero.mp ?_)
        have h0 := hwf.count
        simp only [BT.size] at h0
        omega
      have hnotin : get_key v ∉ T.keys := by
        rw [hTleaf]
        simp [BT.keys, BT.inorder, BT.entries]
      rw [show (((create_node s v).1.node_count == 0) = true) from by
        simp [create_node, hcnt0]] at hres
      simp only [if_true] at hres
      cases hlink : insert_node_at (create_node s v).1
          (some (create_node s v).1.header) s.nextId true fuel with
      | none =>
        rw [hlink] at hres
        simp at hres
      | some out =>
        rw [hlink] at hres
        simp only [Res.ok.injEq, Prod.mk.injEq] at hres
        have hres2 : insert_value_at s (some s.header) v true fuel = some out :=
          hlink
        obtain ⟨T2, hwf2, hent2, hit2, _, hcnt2, _, _⟩ :=
          insert_value_at_spec s T v (some s.header) true [] [] [] fuel out hwf
            (by rw [hTleaf]; rfl) (by rw [hTleaf]; rfl)
            (fun u2 => by rw [hTleaf]; simp [BT.repl_nil])
            (by simp) (by simp)
            (Or.inl ⟨hTleaf, rfl, rfl⟩) hres2
        rw [← hres.1]
        exact Or.inr ⟨hnotin, T2, [], [], hwf2, by rw [hTleaf]; rfl, hent2,
          by simp, by simp, hcnt2⟩
    · -- nonempty tree
      rw [show (((create_node s v).1.node_count == 0) = false) from by
        simp [create_node, hcnt0]] at hres
      simp only [Bool.false_eq_true, if_false] at hres
      have hTne : T.entries ≠ [] := by
        intro hc
        refine hcnt0 ?_
        have h0 := hwf.count
        simp only [BT.size, hc] at h0
        simpa using h0
      obtain ⟨⟨i1, v1⟩, rest, hfirst⟩ : ∃ e rest, T.entries = e :: rest := by
        cases hE : T.entries with
        | nil => exact absurd hE hTne
        | cons e rest => exact ⟨e, rest, rfl⟩
      have hlm1 : leftmostP (create_node s v).1 = some i1 := by
        rw [hwf1.lm_eq]
        simp [lmPtr, hfirst]
      have hkeysfirst : T.keys = get_key v1 :: rest.map (fun e => get_key e.2) := by
        have := @keys_split T [] rest i1 v1 hfirst
        simpa using this
      by_cases hbeg : hint = some i1
      · -- hint == begin()
        rw [show ((hint == leftmostP (create_node s v).1) = true) from by
          rw [hlm1, hbeg]; simp] at hres
        simp only [if_true] at hres
        subst hbeg
        have hv1 : (getN (create_node s v).1 (some i1)).value = v1 := by
          obtain ⟨n, hn1, hn2⟩ := realize_entry_lookup hwf1.real (i1, v1)
            (by rw [hfirst]; simp)
          rw [getN_some hn1]
          exact hn2
        rw [hv1] at hres
        rcases Bool.eq_false_or_eq_true (key_comp (get_key v) (get_key v1))
          with hlt | hlt
        · -- v sorts strictly before the first element
          rw [hlt] at hres
          simp only [if_true] at hres
          have hlt2 : get_key v < get_key v1 := by
            simpa [key_comp] using hlt
          have hnotin : get_key v ∉ T.keys := by
            rw [hkeysfirst]
            intro hc
            rcases List.mem_cons.mp hc with hq1 | hq2
            · omega
            · obtain ⟨e, he, hek⟩ := List.mem_map.mp hq2
              have hsort := hwf.sorted
              rw [hkeysfirst] at hsort
              have h0 := (List.sorted_cons.mp hsort).1 (get_key e.2)
                (List.mem_map.mpr ⟨e, he, rfl⟩)
              omega
          obtain ⟨q2, c1, R1, hsub1⟩ := leftmost_node T i1 v1 rest hfirst
          obtain ⟨hslot, A0, B0, hsplit, hreplp⟩ := slot_left hsub1
          obtain ⟨hA0, hB0⟩ := append_middle_unique A0 [] (R1.entries ++ B0)
            rest [(i1, v1)] (by simp)
            (by rw [show A0 ++ [(i1, v1)] ++ (R1.entries ++ B0) = T.entries
                from by rw [hsplit]; simp]; exact hwf.nodup)
            (by rw [show A0 ++ [(i1, v1)] ++ (R1.entries ++ B0) = T.entries
                from by rw [hsplit]; simp, hfirst]; simp)
          have hkB : ∀ e ∈ (i1, v1) :: rest, get_key v ≤ get_key e.2 := by
            intro e he
            have hsort := hwf.sorted
            rw [hkeysfirst] at hsort
            rcases List.mem_cons.mp he with he1 | he2
            · rw [he1]
              exact le_of_lt hlt2
            · have h0 := (List.sorted_cons.mp hsort).1 (get_key e.2)
                (List.mem_map.mpr ⟨e, he2, rfl⟩)
              omega
          cases hlink : insert_node_at (create_node s v).1 (some i1)
              s.nextId true fuel with
          | none =>
            rw [hlink] at hres
            simp at hres
          | some out =>
            rw [hlink] at hres
            simp only [Res.ok.injEq, Prod.mk.injEq] at hres
            have hres2 : insert_value_at s (some i1) v true fuel = some out :=
              hlink
            obtain ⟨T2, hwf2, hent2, hit2, _, hcnt2, _, _⟩ :=
              insert_value_at_spec s T v (some i1) true (q2 ++ [true]) []
                ((i1, v1) :: rest) fuel out hwf hslot (by rw [hfirst]; rfl)
                (fun u2 => by
                  rw [hreplp u2, hA0, ← hB0]
                  simp)
                (by simp) hkB
                (Or.inr ⟨q2, i1, c1, v1, .leaf, R1, rfl, hsub1, rfl,
                  fun _ => ⟨rest, rfl⟩,
                  fun hcon => absurd hcon (by simp)⟩)
                hres2
            rw [← hres.1]
            exact Or.inr ⟨hnotin, T2, [], (i1, v1) :: rest, hwf2,
              by rw [hfirst]; rfl, hent2, by simp, hkB, hcnt2⟩
        · -- hint inaccurate: full unique descent
          rw [hlt] at hres
          simp only [Bool.false_eq_true, if_false] at hres
          cases hpos : get_insert_unique_pos (create_node s v).1 (get_key v)
              fuel with
          | none =>
            rw [hpos] at hres
            simp at hres
          | some yas =>
            obtain ⟨⟨y, al⟩, success⟩ := yas
            rw [hpos] at hres
            simp only [] at hres
            cases success with
            | false =>
              simp only [Bool.not_false, if_true, Res.ok.injEq,
                Prod.mk.injEq] at hres
              obtain ⟨hkin, hwfD, hcntD⟩ :=
                hint_dup_unique s T v fuel y al hwf hpos
              refine Or.inl ⟨hkin, T, ?_, rfl, ?_⟩
              · rw [← hres.1]
                exact hwfD
              · rw [← hres.1]
                exact hcntD
            | true =>
              simp only [Bool.not_true, Bool.false_eq_true, if_false] at hres
              cases hlink : insert_node_at (create_node s v).1 y s.nextId al
                  fuel with
              | none =>
                rw [hlink] at hres
                simp at hres
              | some out =>
                rw [hlink] at hres
                simp only [Res.ok.injEq, Prod.mk.injEq] at hres
                obtain ⟨hnotin, pkg⟩ :=
                  hint_descend_link_unique s T v fuel y al out hwf hpos hlink
                rw [← hres.1]
                exact Or.inr ⟨hnotin, pkg⟩
      · -- hint is not begin()
        rw [show ((hint == leftmostP (create_node s v).1) = false) from by
          rw [hlm1]
          cases hint with
          | none => rfl
          | some hj =>
            have : hj ≠ i1 := fun hc => hbeg (by rw [hc])
            simp [this]] at hres
        simp only [Bool.false_eq_true, if_false] at hres
        by_cases hend : hint = some s.header
        · -- hint == end(): compare against the rightmost element
          rw [show ((hint == some (create_node s v).1.header) = true) from by
            rw [hend]; exact beq_self_eq_true _] at hres
          simp only [if_true] at hres
          obtain ⟨rest2, ⟨il, vl⟩, hlast⟩ := exists_last_split hTne
          have hgl2 : T.entries.getLast? = some (il, vl) := by
            rw [hlast, getLast?_append_right _ _ (by simp)]
            rfl
          have hrm1 : rightmostP (create_node s v).1 = some il := by
            rw [hwf1.rm_eq]
            simp [rmPtr, hgl2]
          rw [hrm1] at hres
          have hvl : (getN (create_node s v).1 (some il)).value = vl := by
            obtain ⟨n, hn1, hn2⟩ := realize_entry_lookup hwf1.real (il, vl)
              (by rw [hlast]; simp)
            rw [getN_some hn1]
            exact hn2
          rw [hvl] at hres
          have hglk : T.keys.getLast? = some (get_key vl) := by
            rw [show T.keys = (T.entries.map Prod.snd).map get_key from rfl,
              hlast]
            rw [List.map_append, List.map_append,
              getLast?_append_right _ _ (by simp)]
            rfl
          rcases Bool.eq_false_or_eq_true (key_comp (get_key vl) (get_key v))
            with hge | hge
          · -- rightmost.key < v: link right of the rightmost node
            rw [hge] at hres
            simp only [if_true] at hres
            have hge2 : get_key vl < get_key v := by
              simpa [key_comp] using hge
            have hkA : ∀ e ∈ T.entries, get_key e.2 ≤ get_key v := by
              intro e he
              have hmemk : get_key e.2 ∈ T.keys :=
                List.mem_map.mpr ⟨e.2, List.mem_map.mpr ⟨e, he, rfl⟩, rfl⟩
              have h0 : get_key e.2 ≤ get_key vl :=
                sorted_le_getLast hwf.sorted hmemk hglk
              omega
            have hnotin : get_key v ∉ T.keys := by
              intro hc
              have h0 : get_key v ≤ get_key vl :=
                sorted_le_getLast hwf.sorted hc hglk
              omega
            obtain ⟨q2, c2, L2, hsub2⟩ := rightmost_node T il vl rest2 hlast
            obtain ⟨hslot, A0, B0, hsplit, hreplp⟩ := slot_right hsub2
            obtain ⟨hAeq, hBeq⟩ := prefix_unique_by_last
              (show (T.entries.map Prod.fst).Nodup from hwf.nodup) hsplit
              (show T.entries = T.entries ++ [] from by simp)
              (by rw [getLast?_append_right _ _ (by simp)]; rfl)
              (by rw [hlast, getLast?_append_right _ _ (by simp)]; rfl)
              rfl
            cases hlink : insert_node_at (create_node s v).1 (some il)
                s.nextId false fuel with
            | none =>
              rw [hlink] at hres
              simp at hres
            | some out =>
              rw [hlink] at hres
              simp only [Res.ok.injEq, Prod.mk.injEq] at hres
              have hres2 : insert_value_at s (some il) v false fuel = some out :=
                hlink
              obtain ⟨T2, hwf2, hent2, hit2, _, hcnt2, _, _⟩ :=
                insert_value_at_spec s T v (some il) false (q2 ++ [false])
                  T.entries [] fuel out hwf hslot (by simp)
                  (fun u2 => by rw [hreplp u2, hAeq, hBeq])
                  hkA (by simp)
                  (Or.inr ⟨q2, il, c2, vl, L2, .leaf, rfl, hsub2, rfl,
                    fun hcon => absurd hcon (by simp),
                    fun _ => ⟨A0 ++ L2.entries, hAeq.symm⟩⟩)
                  hres2
              rw [← hres.1]
              exact Or.inr ⟨hnotin, T2, T.entries, [], hwf2, by simp, hent2,
                hkA, by simp, hcnt2⟩
          · -- hint inaccurate: full unique descent
            rw [hge] at hres
            simp only [Bool.false_eq_true, if_false] at hres
            cases hpos : get_insert_unique_pos (create_node s v).1 (get_key v)
                fuel with
            | none =>
              rw [hpos] at hres
              simp at hres
            | some yas =>
              obtain ⟨⟨y, al⟩, success⟩ := yas
              rw [hpos] at hres
              simp only [] at hres
              cases success with
              | false =>
                simp only [Bool.not_false, if_true, Res.ok.injEq,
                  Prod.mk.injEq] at hres
                obtain ⟨hkin, hwfD, hcntD⟩ :=
                  hint_dup_unique s T v fuel y al hwf hpos
                refine Or.inl ⟨hkin, T, ?_, rfl, ?_⟩
                · rw [← hres.1]
                  exact hwfD
                · rw [← hres.1]
                  exact hcntD
              | true =>
                simp only [Bool.not_true, Bool.false_eq_true, if_false] at hres
                cases hlink : insert_node_at (create_node s v).1 y s.nextId al
                    fuel with
                | none =>
                  rw [hlink] at hres
                  simp at hres
                | some out =>
                  rw [hlink] at hres
                  simp only [Res.ok.injEq, Prod.mk.injEq] at hres
                  obtain ⟨hnotin, pkg⟩ :=
                    hint_descend_link_unique s T v fuel y al out hwf hpos hlink
                  rw [← hres.1]
                  exact Or.inr ⟨hnotin, pkg⟩
        · -- a middle hint: a real stored node that is not the first one
          rw [show ((hint == some (create_node s v).1.header) = false) from by
            cases hint with
            | none => rfl
            | some hj =>
              have : hj ≠ s.header := fun hc => hend (by rw [hc])
              simp only [show (create_node s v).1.header = s.header from rfl]
              simp [this]] at hres
          simp only [Bool.false_eq_true, if_false] at hres
          obtain ⟨⟨ih0, vh⟩, hhj, hhmem⟩ : ∃ ihv, hint = some ihv.1 ∧
              ihv ∈ T.entries := by
            rcases hhint with h | h
            · exact absurd h hend
            · exact h
          obtain ⟨Ah, Bh, hsplitH⟩ := List.append_of_mem hhmem
          have hAne : Ah ≠ [] := by
            intro hc
            refine hbeg ?_
            rw [hc] at hsplitH
            rw [hfirst] at hsplitH
            simp only [List.nil_append, List.cons.injEq] at hsplitH
            rw [hhj, ((Prod.mk.injEq _ _ _ _).mp hsplitH.1.symm).1]
          rw [hhj] at hres
          cases hmid : insert_unique_use_hint (create_node s v).1 (some ih0)
              (get_key v) s.nextId fuel with
          | none =>
            rw [hmid] at hres
            simp at hres
          | some out =>
            rw [hmid] at hres
            simp only [Res.ok.injEq] at hres
            have hout : out = (s2, it) := hres
            have hs2 : s2 = out.1 := by rw [hout]
            obtain pkg := insert_unique_use_hint_spec s T v fuel
              ih0 vh Ah Bh out hwf hsplitH hAne hmid
            rw [hs2]
            exact pkg

/-- C8: for every well-formed tree, every value and every valid hint
position (a stored node or `end()`), the hinted insertions produce a
tree whose multiset of stored elements and whose (sorted) in-order key
sequence are identical to those produced by the corresponding
non-hinted insert on the same tree: an inaccurate hint falls back to
the full descent and never corrupts the ordering. -/
theorem claim_C8 (s : RBTree) (T : BT) (hint : Option Nat) (v : Val) (fuel : Nat)
    (hwf : WF s T)
    (hhint : hint = some s.header ∨ ∃ ihv, hint = some ihv.1 ∧ ihv ∈ T.entries) :
    (∀ s2 it s3 it3,
      insert_multi s v fuel = .ok (s2, it) →
      emplace_multi_use_hint s hint (some v) fuel = .ok (s3, it3) →
      ∃ T2 T3, WF s2 T2 ∧ WF s3 T3 ∧
        (T2.inorder : Multiset Val) = (T3.inorder : Multiset Val) ∧
        T2.keys = T3.keys ∧ s2.node_count = s3.node_count) ∧
    (∀ s2 it ins s3 it3,
      insert_unique s v fuel = .ok (s2, it, ins) →
      emplace_unique_use_hint s hint (some v) fuel = .ok (s3, it3) →
      ∃ T2 T3, WF s2 T2 ∧ WF s3 T3 ∧
        (T2.inorder : Multiset Val) = (T3.inorder : Multiset Val) ∧
        T2.keys = T3.keys ∧ s2.node_count = s3.node_count) := by
  have hperm : ∀ (U : BT) (A B : List (Nat × Val)) (i : Nat),
      U.entries = A ++ (i, v) :: B → T.entries = A ++ B →
      U.inorder.Perm (v :: T.inorder) := by
    intro U A B i hU hT
    have h0 : U.inorder = A.map Prod.snd ++ v :: B.map Prod.snd := by
      rw [BT.inorder, hU]
      simp
    have h1 : T.inorder = A.map Prod.snd ++ B.map Prod.snd := by
      rw [BT.inorder, hT]
      simp
    rw [h0, h1]
    exact List.perm_middle
  constructor
  · intro s2 it s3 it3 h1 h2
    obtain ⟨T2, A, B, hwf2, hAB, hent2, _, _, _, hcnt2⟩ :=
      insert_multi_spec s T v fuel s2 it hwf h1
    obtain ⟨T3, A3, B3, hwf3, hAB3, hent3, _, _, hcnt3⟩ :=
      emplace_multi_use_hint_spec s T hint v fuel s3 it3 hwf hhint h2
    have hp : T2.inorder.Perm T3.inorder :=
      (hperm T2 A B s.nextId hent2 hAB).trans
        (hperm T3 A3 B3 s.nextId hent3 hAB3).symm
    refine ⟨T2, T3, hwf2, hwf3, Multiset.coe_eq_coe.mpr hp, ?_, by omega⟩
    exact List.eq_of_perm_of_sorted (hp.map get_key) hwf2.sorted hwf3.sorted
  · intro s2 it ins s3 it3 h1 h2
    obtain ⟨hu1, hu2⟩ := insert_unique_spec s T v fuel s2 it ins hwf h1
    rcases emplace_unique_use_hint_spec s T hint v fuel s3 it3 hwf hhint h2 with
      ⟨hkin, T3, hwf3, hent3, hcnt3⟩ | ⟨hknot, T3, A3, B3, hwf3, hAB3, hent3, _, _, hcnt3⟩
    · -- duplicate on both sides
      cases hins : ins with
      | true => exact absurd hkin (hu2 hins).1
      | false =>
        obtain ⟨-, hseq⟩ := hu1 hins
        subst hseq
        refine ⟨T, T3, hwf, hwf3, ?_, ?_, by omega⟩
        · rw [show T3.inorder = T.inorder from by rw [BT.inorder, BT.inorder, hent3]]
        · rw [show T3.keys = T.keys from by
            rw [BT.keys, BT.keys, BT.inorder, BT.inorder, hent3]]
    · -- fresh key on both sides
      cases hins : ins with
      | false => exact absurd (hu1 hins).1 hknot
      | true =>
        obtain ⟨-, T2, A, B, hwf2, hAB, hent2, _, _, _, hcnt2⟩ := hu2 hins
        have hp : T2.inorder.Perm T3.inorder :=
          (hperm T2 A B s.nextId hent2 hAB).trans
            (hperm T3 A3 B3 s.nextId hent3 hAB3).symm
        refine ⟨T2, T3, hwf2, hwf3, Multiset.coe_eq_coe.mpr hp, ?_, by omega⟩
        exact List.eq_of_perm_of_sorted (hp.map get_key) hwf2.sorted hwf3.sorted

/-- C8 witness: inserting key `6` into `{1,3,5,7,9}` with the stored
node holding key `7` as the hint. -/
theorem claim_C8_witness :
    ((∀ s2 it s3 it3,
      insert_multi sample_tree (6, 0) 100 = .ok (s2, it) →
      emplace_multi_use_hint sample_tree (some 4) (some (6, 0)) 100 =
        .ok (s3, it3) →
      ∃ T2 T3, WF s2 T2 ∧ WF s3 T3 ∧
        (T2.inorder : Multiset Val) = (T3.inorder : Multiset Val) ∧
        T2.keys = T3.keys ∧ s2.node_count = s3.node_count) ∧
    (∀ s2 it ins s3 it3,
      insert_unique sample_tree (6, 0) 100 = .ok (s2, it, ins) →
      emplace_unique_use_hint sample_tree (some 4) (some (6, 0)) 100 =
        .ok (s3, it3) →
      ∃ T2 T3, WF s2 T2 ∧ WF s3 T3 ∧
        (T2.inorder : Multiset Val) = (T3.inorder : Multiset Val) ∧
        T2.keys = T3.keys ∧ s2.node_count = s3.node_count)) ∧
    (∃ s2 it, insert_multi sample_tree (6, 0) 100 = .ok (s2, it)) ∧
    (∃ s3 it3, emplace_multi_use_hint sample_tree (some 4) (some (6, 0)) 100 =
      .ok (s3, it3)) ∧
    (∃ s3 it3, emplace_unique_use_hint sample_tree (some 4) (some (6, 0)) 100 =
      .ok (s3, it3)) := by
  refine ⟨claim_C8 sample_tree sample_view (some 4) (6, 0) 100
    (WF_of_wfB (by decide)) (Or.inr ⟨(4, (7, 0)), rfl, by decide⟩),
    ⟨_, _, rfl⟩, ⟨_, _, rfl⟩, ⟨_, _, rfl⟩⟩


end mystl
